import Mathlib

/-!
VSFS journal tool (`VSFS Project/VSFS_Project/journal.c`): a shallow embedding
of the journaling tool and the verification of its specification.

Modelling conventions.

* The image file is a list of 4096-byte blocks (`Disk`).  Reading a block past
  the end of the file is a short read, on which the C code calls `die`; writing
  a block past the end of the file extends the file, the gap being zero-filled
  (POSIX semantics of `lseek` + `write`).
* A byte is a `Fin 256`; a memory buffer (a C array or pointer) is a function
  from byte offsets to bytes.
* Multi-byte struct fields are decoded little-endian (the byte order of the
  hosts the tool is built for); `size_t` and `off_t` are 64 bits wide, `int`
  and `uint32_t` 32 bits.
* Every operation returns the disk it leaves behind together with its result,
  also when it fails, since a failing command exits without undoing its writes.
* An access outside a C array has no defined behaviour; the model stops there
  with `Err.out_of_bounds`.
* The copy loops of `journal_append` and `journal_read` terminate and are
  defined by well-founded recursion.  The replay loop of `cmd_install` need not
  terminate (a record of declared size 0 stops its progress); it takes a bound
  on its iterations and returns `none` when the bound is reached.
-/

namespace VSFS

/-! ## Constants (journal.c, lines 10-30) -/

abbrev FS_MAGIC : Nat := 0x56534653
abbrev JOURNAL_MAGIC : Nat := 0x4A524E4C
abbrev BLOCK_SIZE : Nat := 4096
abbrev INODE_SIZE : Nat := 128
abbrev JOURNAL_BLOCK_IDX : Nat := 1
abbrev JOURNAL_BLOCKS : Nat := 16
abbrev INODE_BLOCKS : Nat := 2
abbrev DATA_BLOCKS : Nat := 64
abbrev INODE_BMAP_IDX : Nat := JOURNAL_BLOCK_IDX + JOURNAL_BLOCKS
abbrev DATA_BMAP_IDX : Nat := INODE_BMAP_IDX + 1
abbrev INODE_START_IDX : Nat := DATA_BMAP_IDX + 1
abbrev DATA_START_IDX : Nat := INODE_START_IDX + INODE_BLOCKS
abbrev TOTAL_BLOCKS : Nat := DATA_START_IDX + DATA_BLOCKS
abbrev NAME_LEN : Nat := 28
abbrev REC_DATA : Nat := 1
abbrev REC_COMMIT : Nat := 2

/-- The value of `sizeof(struct dirent)`. -/
abbrev DIRENT_SIZE : Nat := 4 + NAME_LEN
/-- The value of `sizeof(struct journal_header)`. -/
abbrev JH_SIZE : Nat := 8
/-- The value of `sizeof(struct rec_header)`. -/
abbrev REC_HDR_SIZE : Nat := 4
/-- The value of `sizeof(struct data_record)`. -/
abbrev DATA_REC_SIZE : Nat := 4 + 4 + BLOCK_SIZE
/-- The value of `sizeof(struct commit_record)`. -/
abbrev COMMIT_REC_SIZE : Nat := 4
/-- The modulus of `uint32_t` arithmetic. -/
abbrev U32 : Nat := 4294967296

/-! ## Bytes, buffers, blocks, the image -/

abbrev Byte := Fin 256
/-- A memory buffer: a C array or a pointer into one. -/
abbrev Buf := Nat → Byte
/-- One block of the image. -/
abbrev Block := Fin BLOCK_SIZE → Byte
/-- The image file, block by block. -/
abbrev Disk := List Block

/-- Conversion to `uint8_t`. -/
def byteOf (n : Nat) : Byte := ⟨n % 256, Nat.mod_lt _ (by decide)⟩

def zeroBuf : Buf := fun _ => 0

def zeroBlock : Block := fun _ => 0

/-- Byte `i` of a block, as a buffer holding the block. -/
def Block.get (b : Block) (i : Nat) : Byte := if h : i < BLOCK_SIZE then b ⟨i, h⟩ else 0

/-- The block made of the `BLOCK_SIZE` bytes of `buf` starting at `off`. -/
def Block.ofBuf (buf : Buf) (off : Nat) : Block := fun i => buf (off + i.val)

/-- The C call `memcpy(dst + doff, src + soff, n)`. -/
def memcpy (dst : Buf) (doff : Nat) (src : Buf) (soff n : Nat) : Buf :=
  fun i => if doff ≤ i ∧ i < doff + n then src (soff + (i - doff)) else dst i

/-- Read of a `uint16_t` field at byte offset `o`. -/
def get_u16 (b : Buf) (o : Nat) : Nat := (b o).val + 256 * (b (o + 1)).val

/-- Read of a `uint32_t` field at byte offset `o`. -/
def get_u32 (b : Buf) (o : Nat) : Nat :=
  (b o).val + 256 * (b (o + 1)).val + 65536 * (b (o + 2)).val + 16777216 * (b (o + 3)).val

/-- Store of a `uint16_t` field at byte offset `o`. -/
def put_u16 (b : Buf) (o v : Nat) : Buf :=
  fun i => if i = o then byteOf v else if i = o + 1 then byteOf (v / 256) else b i

/-- Store of a `uint32_t` field at byte offset `o`. -/
def put_u32 (b : Buf) (o v : Nat) : Buf :=
  fun i => if i = o then byteOf v else if i = o + 1 then byteOf (v / 256)
    else if i = o + 2 then byteOf (v / 65536) else if i = o + 3 then byteOf (v / 16777216)
    else b i

/-- Length of the C string whose bytes are `s` (it ends at the first NUL). -/
def c_strlen (s : List Byte) : Nat := (s.takeWhile (fun c => c ≠ 0)).length

/-- The C call `strncpy(dst + off, s, n)`: the characters of `s` up to its end
or `n` of them, then NUL bytes up to `n`. -/
def strncpy (dst : Buf) (off : Nat) (s : List Byte) (n : Nat) : Buf :=
  fun i => if off ≤ i ∧ i < off + n then
      (if i - off < c_strlen s then s.getD (i - off) 0 else 0)
    else dst i

/-- Outcomes other than success. -/
inductive Err where
  | die            -- short read: `die`
  | bad_magic      -- "Invalid filesystem magic"
  | no_journal     -- "Journal does not exist"
  | no_inodes      -- "No free inodes"
  | root_not_dir   -- "Root is not a directory"
  | no_dirents     -- "No free directory entries in root"
  | journal_full   -- "Journal is full, run install first"
  | append_failed  -- "Failed to append to journal"
  | out_of_bounds  -- access outside a C array (undefined in C)
  deriving DecidableEq

/-! ## Block I/O (journal.c, lines 94-118) -/

/-- The function `pread_block`: the block, or `none` on a short read. -/
def pread_block (d : Disk) (block_index : Nat) : Option Buf :=
  (d[block_index]?).map Block.get

/-- The function `pwrite_block`: the first `BLOCK_SIZE` bytes of `buf` go to
block `block_index`; past the end of the file the file grows. -/
def pwrite_block (d : Disk) (block_index : Nat) (buf : Buf) : Disk :=
  if block_index < d.length then d.set block_index (Block.ofBuf buf 0)
  else d ++ List.replicate (block_index - d.length) zeroBlock ++ [Block.ofBuf buf 0]

/-! ## Bitmap helpers (journal.c, lines 121-127) -/

def bitmap_set (bitmap : Buf) (index : Nat) : Buf :=
  fun i => if i = index / 8 then byteOf ((bitmap i).val ||| (1 <<< (index % 8))) else bitmap i

def bitmap_test (bitmap : Buf) (index : Nat) : Nat :=
  ((bitmap (index / 8)).val >>> (index % 8)) &&& 1

/-! ## Free-slot searches (journal.c, lines 130-153) -/

/-- The loop of `find_free_inode`, with `k` iterations left and counter `i`.
The bitmap is a block-sized array. -/
def find_free_inode_loop (bitmap : Buf) : Nat → Nat → Except Err Int
  | 0, _ => .ok (-1)
  | k + 1, i =>
    if BLOCK_SIZE ≤ i / 8 then .error .out_of_bounds
    else if bitmap_test bitmap i = 0 then .ok (Int.ofNat i)
    else find_free_inode_loop bitmap k (i + 1)

def find_free_inode (bitmap : Buf) (inode_count : Nat) : Except Err Int :=
  find_free_inode_loop bitmap (inode_count - 1) 1

/-- The first loop of `find_free_dirent`, with `k` iterations left and counter
`i`; `none` when it finds no entry.  The entries are a block-sized array. -/
def find_free_dirent_loop (dirents : Buf) : Nat → Nat → Except Err (Option Nat)
  | 0, _ => .ok none
  | k + 1, i =>
    if BLOCK_SIZE / DIRENT_SIZE ≤ i then .error .out_of_bounds
    else if get_u32 dirents (i * DIRENT_SIZE) = 0 then .ok (some i)
    else find_free_dirent_loop dirents k (i + 1)

def find_free_dirent (dirents : Buf) (current_entries : Nat) : Except Err Int :=
  match find_free_dirent_loop dirents (current_entries - 2) 2 with
  | .error e => .error e
  | .ok (some i) => .ok (Int.ofNat i)
  | .ok none =>
    let max_entries := BLOCK_SIZE / DIRENT_SIZE
    if current_entries < max_entries then .ok (Int.ofNat current_entries) else .ok (-1)

/-! ## Journal header (journal.c, lines 156-180) -/

structure journal_header where
  magic : Nat
  nbytes_used : Nat
  deriving DecidableEq

/-- The bytes of a `struct journal_header` at the start of `b`. -/
def put_journal_header (b : Buf) (jh : journal_header) : Buf :=
  put_u32 (put_u32 b 0 jh.magic) 4 jh.nbytes_used

def init_journal (d : Disk) : Disk :=
  pwrite_block d JOURNAL_BLOCK_IDX
    (put_journal_header zeroBuf { magic := JOURNAL_MAGIC, nbytes_used := JH_SIZE })

def read_journal_header (d : Disk) : Option journal_header :=
  match pread_block d JOURNAL_BLOCK_IDX with
  | none => none
  | some block => some { magic := get_u32 block 0, nbytes_used := get_u32 block 4 }

def write_journal_header (d : Disk) (jh : journal_header) : Option Disk :=
  match pread_block d JOURNAL_BLOCK_IDX with
  | none => none
  | some block => some (pwrite_block d JOURNAL_BLOCK_IDX (put_journal_header block jh))

/-! ## Journal append and read (journal.c, lines 183-252) -/

/-- The copy loop of `journal_append`: `src + pos` is the source pointer. -/
def journal_append_loop (src : Buf) (d : Disk) (block_idx offset_in_block : Nat)
    (hoff : offset_in_block < BLOCK_SIZE) (pos remaining : Nat) : Except Err Unit × Disk :=
  if hr : remaining = 0 then (.ok (), d)
  else
    match pread_block d block_idx with
    | none => (.error .die, d)
    | some block =>
      let to_write :=
        if BLOCK_SIZE - offset_in_block > remaining then remaining
        else BLOCK_SIZE - offset_in_block
      let block1 := memcpy block offset_in_block src pos to_write
      journal_append_loop src (pwrite_block d block_idx block1) ((block_idx + 1) % U32) 0
        (by decide) (pos + to_write) (remaining - to_write)
termination_by remaining
decreasing_by
  have hlt := hoff
  simp only [BLOCK_SIZE] at hlt ⊢
  split <;> omega

/-- The function `journal_append`: the offset of the record, or `-1` when the
journal has no room for it. -/
def journal_append (d : Disk) (data : Buf) (size : Nat) : Except Err Int × Disk :=
  match read_journal_header d with
  | none => (.error .die, d)
  | some jh =>
    if (JOURNAL_BLOCKS * BLOCK_SIZE + U32 - jh.nbytes_used) % U32 < size then (.ok (-1), d)
    else
      let offset_in_bytes := jh.nbytes_used
      let block_idx := (JOURNAL_BLOCK_IDX + offset_in_bytes / BLOCK_SIZE) % U32
      match journal_append_loop data d block_idx (offset_in_bytes % BLOCK_SIZE)
          (Nat.mod_lt _ (by decide)) 0 size with
      | (.error e, d1) => (.error e, d1)
      | (.ok _, d1) =>
        match write_journal_header d1
            { magic := jh.magic, nbytes_used := (jh.nbytes_used + size) % U32 } with
        | none => (.error .die, d1)
        | some d2 => (.ok (Int.ofNat offset_in_bytes), d2)

/-- The block writes of the copy loop of `journal_append` (its calls of
`pwrite_block`, line 213), in the order in which the loop performs them: the
block index and the buffer of each. -/
def journal_append_loop_writes (src : Buf) (d : Disk) (block_idx offset_in_block : Nat)
    (hoff : offset_in_block < BLOCK_SIZE) (pos remaining : Nat) : List (Nat × Buf) :=
  if hr : remaining = 0 then []
  else
    match pread_block d block_idx with
    | none => []
    | some block =>
      let to_write :=
        if BLOCK_SIZE - offset_in_block > remaining then remaining
        else BLOCK_SIZE - offset_in_block
      let block1 := memcpy block offset_in_block src pos to_write
      (block_idx, block1) ::
        journal_append_loop_writes src (pwrite_block d block_idx block1) ((block_idx + 1) % U32) 0
          (by decide) (pos + to_write) (remaining - to_write)
termination_by remaining
decreasing_by
  have hlt := hoff
  simp only [BLOCK_SIZE] at hlt ⊢
  split <;> omega

/-- The block writes of `journal_append`, in the order in which it performs
them: those of the copy loop, then the one of `write_journal_header` (line
223).  It writes nothing when it returns `-1`, and stops at a failed read. -/
def journal_append_writes (d : Disk) (data : Buf) (size : Nat) : List (Nat × Buf) :=
  match read_journal_header d with
  | none => []
  | some jh =>
    if (JOURNAL_BLOCKS * BLOCK_SIZE + U32 - jh.nbytes_used) % U32 < size then []
    else
      let offset_in_bytes := jh.nbytes_used
      let block_idx := (JOURNAL_BLOCK_IDX + offset_in_bytes / BLOCK_SIZE) % U32
      let ws := journal_append_loop_writes data d block_idx (offset_in_bytes % BLOCK_SIZE)
        (Nat.mod_lt _ (by decide)) 0 size
      match journal_append_loop data d block_idx (offset_in_bytes % BLOCK_SIZE)
          (Nat.mod_lt _ (by decide)) 0 size with
      | (.error _, _) => ws
      | (.ok _, d1) =>
        match pread_block d1 JOURNAL_BLOCK_IDX with
        | none => ws
        | some block =>
          ws ++ [(JOURNAL_BLOCK_IDX, put_journal_header block
            { magic := jh.magic, nbytes_used := (jh.nbytes_used + size) % U32 })]

/-- The copy loop of `journal_read`: `dst + pos` is the destination pointer. -/
def journal_read_loop (d : Disk) (block_idx offset_in_block : Nat)
    (hoff : offset_in_block < BLOCK_SIZE) (dst : Buf) (pos remaining : Nat) : Option Buf :=
  if hr : remaining = 0 then some dst
  else
    match pread_block d block_idx with
    | none => none
    | some block =>
      let to_read :=
        if BLOCK_SIZE - offset_in_block > remaining then remaining
        else BLOCK_SIZE - offset_in_block
      journal_read_loop d ((block_idx + 1) % U32) 0 (by decide)
        (memcpy dst pos block offset_in_block to_read) (pos + to_read) (remaining - to_read)
termination_by remaining
decreasing_by
  have hlt := hoff
  simp only [BLOCK_SIZE] at hlt ⊢
  split <;> omega

/-- The function `journal_read`: the buffer after the read, or `none` when a
block read fails. -/
def journal_read (d : Disk) (offset : Nat) (buf : Buf) (size : Nat) : Option Buf :=
  journal_read_loop d ((JOURNAL_BLOCK_IDX + offset / BLOCK_SIZE) % U32) (offset % BLOCK_SIZE)
    (Nat.mod_lt _ (by decide)) buf 0 size

/-! ## Clearing the journal (journal.c, lines 255-269) -/

/-- The loop of `clear_journal`, with `k` iterations left and counter `i`. -/
def clear_journal_loop : Nat → Nat → Disk → Disk
  | 0, _, d => d
  | k + 1, i, d => clear_journal_loop k (i + 1) (pwrite_block d (JOURNAL_BLOCK_IDX + i) zeroBuf)

def clear_journal (d : Disk) : Disk :=
  clear_journal_loop (JOURNAL_BLOCKS - 1) 1
    (pwrite_block d JOURNAL_BLOCK_IDX
      (put_journal_header zeroBuf { magic := JOURNAL_MAGIC, nbytes_used := JH_SIZE }))

/-! ## The create command (journal.c, lines 272-461) -/

/-- Store of one byte at offset `o`. -/
def put_u8 (b : Buf) (o : Nat) (v : Byte) : Buf := fun i => if i = o then v else b i

/-- What `cmd_create` has computed in memory when it starts appending. -/
structure Staged where
  /-- The local `new_inum`. -/
  new_inum : Nat
  /-- The local `dirent_slot`. -/
  dirent_slot : Nat
  /-- The field `jh.nbytes_used` that the capacity check has read. -/
  nbytes_used : Nat
  /-- The field `root_inode.size` as read from the image. -/
  root_size : Nat
  /-- The field `root_inode.direct[0]`. -/
  root_direct0 : Nat
  /-- The array `new_inode_bitmap`. -/
  new_inode_bitmap : Buf
  /-- The array `inode_table` (two blocks) after the inode updates. -/
  inode_table : Buf
  /-- The local `inode_block_idx`. -/
  inode_block_idx : Nat
  /-- The array `inode_block_to_log`. -/
  inode_block_to_log : Buf
  /-- The array `new_root_data`. -/
  new_root_data : Buf

/-- The updates of `inode_table` (lines 374-385): the new inode, then the size
and the mtime of inode 0. -/
def update_inode_table (inode_table : Buf) (new_inum dirent_slot now : Nat) : Buf :=
  let base := new_inum * INODE_SIZE
  let t := put_u16 inode_table base 1
  let t := put_u16 t (base + 2) 1
  let t := put_u32 t (base + 4) 0
  let t := memcpy t (base + 8) zeroBuf 0 32
  let t := put_u32 t (base + 40) now
  let t := put_u32 t (base + 44) now
  let t := put_u32 t 4 ((dirent_slot + 1) * DIRENT_SIZE)
  put_u32 t 44 now

/-- The updated root directory block (lines 393-398). -/
def update_root_data (root_data : Buf) (dirent_slot new_inum : Nat) (filename : List Byte) : Buf :=
  let base := dirent_slot * DIRENT_SIZE
  let r := put_u32 root_data base new_inum
  let r := strncpy r (base + 4) filename (NAME_LEN - 1)
  put_u8 r (base + 4 + (NAME_LEN - 1)) 0

/-- The first part of `cmd_create` (lines 278-398): the checks and the updated
metadata computed in memory.  `now` is the value of `time(NULL)`. -/
def create_stage (filename : List Byte) (now : Nat) (d : Disk) : Except Err Staged × Disk :=
  match pread_block d 0 with
  | none => (.error .die, d)
  | some sb =>
  if get_u32 sb 0 ≠ FS_MAGIC then (.error .bad_magic, d) else
  let inode_count := get_u32 sb 12
  match read_journal_header d with
  | none => (.error .die, d)
  | some jh0 =>
  let d1 := if jh0.magic ≠ JOURNAL_MAGIC then init_journal d else d
  match (if jh0.magic ≠ JOURNAL_MAGIC then read_journal_header d1 else some jh0) with
  | none => (.error .die, d1)
  | some jh =>
  match pread_block d1 INODE_BMAP_IDX with
  | none => (.error .die, d1)
  | some inode_bitmap =>
  match pread_block d1 DATA_BMAP_IDX with
  | none => (.error .die, d1)
  | some _ =>
  match find_free_inode inode_bitmap inode_count with
  | .error e => (.error e, d1)
  | .ok new_inum_int =>
  if new_inum_int < 0 then (.error .no_inodes, d1) else
  let new_inum := new_inum_int.toNat
  match pread_block d1 INODE_START_IDX with
  | none => (.error .die, d1)
  | some root_inode =>
  if get_u16 root_inode 0 ≠ 2 then (.error .root_not_dir, d1) else
  let root_size := get_u32 root_inode 4
  let root_direct0 := get_u32 root_inode 8
  match pread_block d1 root_direct0 with
  | none => (.error .die, d1)
  | some root_data =>
  let num_dirents := root_size / DIRENT_SIZE
  match find_free_dirent root_data num_dirents with
  | .error e => (.error e, d1)
  | .ok dirent_slot_int =>
  if dirent_slot_int < 0 then (.error .no_dirents, d1) else
  let dirent_slot := dirent_slot_int.toNat
  let txn_size := DATA_REC_SIZE + DATA_REC_SIZE + DATA_REC_SIZE + COMMIT_REC_SIZE
  if (JOURNAL_BLOCKS * BLOCK_SIZE + U32 - jh.nbytes_used) % U32 < txn_size then
    (.error .journal_full, d1)
  else
  let new_inode_bitmap := bitmap_set inode_bitmap new_inum
  match pread_block d1 INODE_START_IDX with
  | none => (.error .die, d1)
  | some it0 =>
  match pread_block d1 (INODE_START_IDX + 1) with
  | none => (.error .die, d1)
  | some it1 =>
  let inode_table := memcpy it0 BLOCK_SIZE it1 0 BLOCK_SIZE
  if INODE_BLOCKS * BLOCK_SIZE / INODE_SIZE ≤ new_inum then (.error .out_of_bounds, d1) else
  let inode_table := update_inode_table inode_table new_inum dirent_slot now
  let inode_block_idx := (new_inum * INODE_SIZE) % U32 / BLOCK_SIZE
  let inode_block_to_log := memcpy zeroBuf 0 inode_table (inode_block_idx * BLOCK_SIZE) BLOCK_SIZE
  let new_root_data := update_root_data root_data dirent_slot new_inum filename
  (.ok { new_inum := new_inum, dirent_slot := dirent_slot, nbytes_used := jh.nbytes_used,
         root_size := root_size, root_direct0 := root_direct0,
         new_inode_bitmap := new_inode_bitmap, inode_table := inode_table,
         inode_block_idx := inode_block_idx, inode_block_to_log := inode_block_to_log,
         new_root_data := new_root_data }, d1)

/-- A `struct data_record` as built in `cmd_create`. -/
def mk_data_record (block_no : Nat) (data : Buf) : Buf :=
  let r := put_u16 zeroBuf 0 REC_DATA
  let r := put_u16 r 2 DATA_REC_SIZE
  let r := put_u32 r 4 block_no
  memcpy r 8 data 0 BLOCK_SIZE

/-- A `struct commit_record` as built in `cmd_create`. -/
def mk_commit_record : Buf :=
  put_u16 (put_u16 zeroBuf 0 REC_COMMIT) 2 COMMIT_REC_SIZE

/-- One `journal_append` of `cmd_create` with its error check. -/
def append_or_fail (d : Disk) (rec : Buf) (size : Nat) : Except Err Unit × Disk :=
  match journal_append d rec size with
  | (.error e, d1) => (.error e, d1)
  | (.ok r, d1) => if r < 0 then (.error .append_failed, d1) else (.ok (), d1)

/-- The second part of `cmd_create` (lines 400-460): the four appends.  The
result is the inode number that the command prints. -/
def create_log (s : Staged) (d : Disk) : Except Err Nat × Disk :=
  match append_or_fail d (mk_data_record INODE_BMAP_IDX s.new_inode_bitmap) DATA_REC_SIZE with
  | (.error e, d1) => (.error e, d1)
  | (.ok _, d1) =>
  match append_or_fail d1
      (mk_data_record (INODE_START_IDX + s.inode_block_idx) s.inode_block_to_log)
      DATA_REC_SIZE with
  | (.error e, d2) => (.error e, d2)
  | (.ok _, d2) =>
  match append_or_fail d2 (mk_data_record s.root_direct0 s.new_root_data) DATA_REC_SIZE with
  | (.error e, d3) => (.error e, d3)
  | (.ok _, d3) =>
  match append_or_fail d3 mk_commit_record COMMIT_REC_SIZE with
  | (.error e, d4) => (.error e, d4)
  | (.ok _, d4) => (.ok s.new_inum, d4)

/-- The function `cmd_create`. -/
def cmd_create (filename : List Byte) (now : Nat) (d : Disk) : Except Err Nat × Disk :=
  match create_stage filename now d with
  | (.error e, d1) => (.error e, d1)
  | (.ok s, d1) => create_log s d1

/-! ## The install command (journal.c, lines 464-536) -/

/-- The replay loop of `cmd_install` (lines 498-529) with at most `fuel`
iterations: `none` when the loop has not ended by then. -/
def install_loop (nbytes_used : Nat) : Nat → Nat → Nat → Disk → Option (Except Err Nat × Disk)
  | fuel, offset, txn_count, d =>
    if ¬ (offset < nbytes_used) then some (.ok txn_count, d)
    else
      match fuel with
      | 0 => none
      | fuel + 1 =>
        match journal_read d offset zeroBuf REC_HDR_SIZE with
        | none => some (.error .die, d)
        | some rh =>
          let rh_type := get_u16 rh 0
          let rh_size := get_u16 rh 2
          if rh_type = REC_DATA then
            match journal_read d (offset + REC_HDR_SIZE) zeroBuf 4 with
            | none => some (.error .die, d)
            | some bn =>
              let block_no := get_u32 bn 0
              match journal_read d (offset + REC_HDR_SIZE + 4) zeroBuf BLOCK_SIZE with
              | none => some (.error .die, d)
              | some block_data =>
                let d1 := pwrite_block d block_no block_data
                let offset1 := offset + rh_size
                if offset1 > JOURNAL_BLOCKS * BLOCK_SIZE then some (.ok txn_count, d1)
                else install_loop nbytes_used fuel offset1 txn_count d1
          else if rh_type = REC_COMMIT then
            let txn_count1 := (txn_count + 1) % U32
            let offset1 := offset + rh_size
            if offset1 > JOURNAL_BLOCKS * BLOCK_SIZE then some (.ok txn_count1, d)
            else install_loop nbytes_used fuel offset1 txn_count1 d
          else some (.ok txn_count, d)

/-- The function `cmd_install`, its replay loop limited to `fuel` iterations.
The result is the transaction count that the command prints. -/
def cmd_install (fuel : Nat) (d : Disk) : Option (Except Err Nat × Disk) :=
  match pread_block d 0 with
  | none => some (.error .die, d)
  | some sb =>
  if get_u32 sb 0 ≠ FS_MAGIC then some (.error .bad_magic, d) else
  match read_journal_header d with
  | none => some (.error .die, d)
  | some jh =>
  if jh.magic ≠ JOURNAL_MAGIC then some (.error .no_journal, d) else
  match install_loop jh.nbytes_used fuel JH_SIZE 0 d with
  | none => none
  | some (.error e, d1) => some (.error e, d1)
  | some (.ok txn_count, d1) => some (.ok txn_count, clear_journal d1)

/-! # Views used by the statements -/

/-- Byte `x` of the image file (zero past its end). -/
def dbyte (d : Disk) (x : Nat) : Byte :=
  match d[x / BLOCK_SIZE]? with
  | some b => b.get (x % BLOCK_SIZE)
  | none => 0

/-- Block `j` of the image as a buffer. -/
def blockBuf (d : Disk) (j : Nat) : Buf :=
  fun i => if i < BLOCK_SIZE then dbyte d (j * BLOCK_SIZE + i) else 0

/-- Byte `a` of the journal region (offsets count from the start of block 1). -/
def jbyte (d : Disk) (a : Nat) : Byte := dbyte d (JOURNAL_BLOCK_IDX * BLOCK_SIZE + a)

/-- The header magic on disk. -/
def jmagic (d : Disk) : Nat := get_u32 (jbyte d) 0

/-- The header field `nbytes_used` on disk. -/
def jused (d : Disk) : Nat := get_u32 (jbyte d) 4

/-- The journal region is part of the image and its header is in state
Active: valid magic and `nbytes_used` between the header size and the journal
capacity. -/
def Active (d : Disk) : Prop :=
  JOURNAL_BLOCK_IDX + JOURNAL_BLOCKS ≤ d.length ∧ jmagic d = JOURNAL_MAGIC ∧
    JH_SIZE ≤ jused d ∧ jused d ≤ JOURNAL_BLOCKS * BLOCK_SIZE

instance (d : Disk) : Decidable (Active d) := by
  unfold Active
  exact inferInstance

/-- The image after the block writes `ws`, performed in order. -/
def apply_writes (d : Disk) (ws : List (Nat × Buf)) : Disk :=
  ws.foldl (fun e w => pwrite_block e w.1 w.2) d

/-- A record given by its bytes, as the source buffer of an append. -/
def recBuf (r : List Byte) : Buf := fun i => r.getD i 0

/-- Appending records in order with `journal_append`: the returned offsets and
the image afterwards (`none` as soon as an append does not return an offset). -/
def append_all : Disk → List (List Byte) → Option (List Nat × Disk)
  | d, [] => some ([], d)
  | d, r :: rs =>
    match journal_append d (recBuf r) r.length with
    | (.ok off, d1) =>
      if off < 0 then none
      else
        match append_all d1 rs with
        | some (offs, d2) => some (off.toNat :: offs, d2)
        | none => none
    | (.error _, _) => none

/-- A journal record as the installer reads it: a data record with its
destination block and payload, or a commit record. -/
inductive Rec where
  | data (block_no : Nat) (payload : Block)
  | commit

/-- The declared size of a record. -/
def Rec.size : Rec → Nat
  | .data _ _ => DATA_REC_SIZE
  | .commit => COMMIT_REC_SIZE

/-- The bytes of a record in the journal. -/
def Rec.bytes : Rec → Buf
  | .data block_no payload => mk_data_record block_no payload.get
  | .commit => mk_commit_record

/-- The journal bytes from offset `off` on are the records `rs`, back to back. -/
def Holds (d : Disk) : Nat → List Rec → Prop
  | _, [] => True
  | off, r :: rs => (∀ i, i < r.size → jbyte d (off + i) = r.bytes i) ∧ Holds d (off + r.size) rs

/-- Total size of a run of records. -/
def total_size (rs : List Rec) : Nat := (rs.map Rec.size).sum

/-- Number of commit records. -/
def commits : List Rec → Nat
  | [] => 0
  | .data _ _ :: rs => commits rs
  | .commit :: rs => commits rs + 1

/-- Every data record names a block outside the journal region (the block
number being a `uint32_t`). -/
def TargetsHome : List Rec → Prop
  | [] => True
  | .data block_no _ :: rs =>
    (block_no < JOURNAL_BLOCK_IDX ∨ JOURNAL_BLOCK_IDX + JOURNAL_BLOCKS ≤ block_no) ∧
      block_no < U32 ∧ TargetsHome rs
  | .commit :: rs => TargetsHome rs

/-- Writing the payload of each data record to its destination block, in
journal order. -/
def replay : Disk → List Rec → Disk
  | d, [] => d
  | d, .data block_no payload :: rs => replay (pwrite_block d block_no payload.get) rs
  | d, .commit :: rs => replay d rs

/-- The payload of the last data record naming block `j`, if any. -/
def last_payload : List Rec → Nat → Option Block
  | [], _ => none
  | .data block_no payload :: rs, j =>
    match last_payload rs j with
    | some q => some q
    | none => if block_no = j then some payload else none
  | .commit :: rs, j => last_payload rs j

/-- The records of one complete transaction: its data records, then a commit. -/
def txn_records (t : List (Nat × Block)) : List Rec :=
  t.map (fun w => Rec.data w.1 w.2) ++ [Rec.commit]

/-- The records of a sequence of complete transactions. -/
def log_records : List (List (Nat × Block)) → List Rec
  | [] => []
  | t :: ts => txn_records t ++ log_records ts

/-- The superblock magic on disk. -/
def sb_magic (d : Disk) : Nat := get_u32 (dbyte d) 0

/-- The image when `cmd_create` has looked at the journal header: the journal
is initialised if the header magic was not valid. -/
def create_opened (d : Disk) : Disk :=
  if jmagic d ≠ JOURNAL_MAGIC then init_journal d else d

/-- The values `cmd_create` computes in memory on the image `e` (the image
after the header check) once it has chosen inode `n` and directory slot `slot`. -/
def staged_of (filename : List Byte) (now : Nat) (e : Disk) (n slot : Nat) : Staged :=
  let root_inode := blockBuf e INODE_START_IDX
  let inode_table := update_inode_table
    (memcpy (blockBuf e INODE_START_IDX) BLOCK_SIZE (blockBuf e (INODE_START_IDX + 1)) 0 BLOCK_SIZE)
    n slot now
  let inode_block_idx := (n * INODE_SIZE) % U32 / BLOCK_SIZE
  { new_inum := n, dirent_slot := slot, nbytes_used := jused e,
    root_size := get_u32 root_inode 4, root_direct0 := get_u32 root_inode 8,
    new_inode_bitmap := bitmap_set (blockBuf e INODE_BMAP_IDX) n,
    inode_table := inode_table,
    inode_block_idx := inode_block_idx,
    inode_block_to_log := memcpy zeroBuf 0 inode_table (inode_block_idx * BLOCK_SIZE) BLOCK_SIZE,
    new_root_data := update_root_data (blockBuf e (get_u32 root_inode 8)) slot n filename }

/-- The conditions under which the first part of `cmd_create` goes through on
the image `d`, choosing inode `n` and directory slot `slot`. -/
structure StageOk (d : Disk) (n slot : Nat) : Prop where
  sb : sb_magic d = FS_MAGIC
  len : DATA_START_IDX ≤ d.length
  inum : find_free_inode (blockBuf (create_opened d) INODE_BMAP_IDX)
    (get_u32 (blockBuf d 0) 12) = .ok (Int.ofNat n)
  inum_lt : n < INODE_BLOCKS * BLOCK_SIZE / INODE_SIZE
  root_dir : get_u16 (blockBuf (create_opened d) INODE_START_IDX) 0 = 2
  root_blk : get_u32 (blockBuf (create_opened d) INODE_START_IDX) 8 < d.length
  slot : find_free_dirent
    (blockBuf (create_opened d) (get_u32 (blockBuf (create_opened d) INODE_START_IDX) 8))
    (get_u32 (blockBuf (create_opened d) INODE_START_IDX) 4 / DIRENT_SIZE) = .ok (Int.ofNat slot)
  room : ¬ ((JOURNAL_BLOCKS * BLOCK_SIZE + U32 - jused (create_opened d)) % U32 <
    DATA_REC_SIZE + DATA_REC_SIZE + DATA_REC_SIZE + COMMIT_REC_SIZE)

/-- The four records of the transaction that `cmd_create` appends. -/
def create_records (s : Staged) : List Rec :=
  [Rec.data INODE_BMAP_IDX (Block.ofBuf s.new_inode_bitmap 0),
   Rec.data (INODE_START_IDX + s.inode_block_idx) (Block.ofBuf s.inode_block_to_log 0),
   Rec.data s.root_direct0 (Block.ofBuf s.new_root_data 0),
   Rec.commit]

/-- Successive `cmd_create` calls with no install between them, each with its
file name and its clock value: the inode numbers printed and the image
afterwards (`none` as soon as a call fails). -/
def create_all : Disk → List (List Byte × Nat) → Option (List Nat × Disk)
  | d, [] => some ([], d)
  | d, c :: cs =>
    match cmd_create c.1 c.2 d with
    | (.ok n, d1) =>
      match create_all d1 cs with
      | some (ns, d2) => some (n :: ns, d2)
      | none => none
    | (.error _, _) => none

/-- An image given block by block: `n` blocks, block `j` holding the first
`BLOCK_SIZE` bytes of `f j`. -/
def mkDisk (n : Nat) (f : Nat → Buf) : Disk :=
  (List.range n).map (fun j => Block.ofBuf (f j) 0)

/-! # Sample images -/

/-- A superblock as the image builder writes it, for 64 inodes. -/
def sample_sb : Buf :=
  put_u32 (put_u32 (put_u32 (put_u32 (put_u32 (put_u32 (put_u32 (put_u32 (put_u32 zeroBuf
    0 FS_MAGIC) 4 BLOCK_SIZE) 8 TOTAL_BLOCKS) 12 64) 16 JOURNAL_BLOCK_IDX) 20 INODE_BMAP_IDX)
    24 DATA_BMAP_IDX) 28 INODE_START_IDX) 32 DATA_START_IDX

/-- An image of `TOTAL_BLOCKS` blocks with the fixed layout: the superblock,
the journal region holding the bytes `journal`, the inode bitmap `bitmap`, a
data bitmap, the inode table whose first block is `itable`, and the root
directory block `rootdir` at the start of the data region. -/
def sample_image (journal bitmap itable rootdir : Buf) : Disk :=
  mkDisk TOTAL_BLOCKS (fun j =>
    if j = 0 then sample_sb
    else if j < INODE_BMAP_IDX then (fun i => journal ((j - 1) * BLOCK_SIZE + i))
    else if j = INODE_BMAP_IDX then bitmap
    else if j = DATA_BMAP_IDX then put_u8 zeroBuf 0 1
    else if j = INODE_START_IDX then itable
    else if j = DATA_START_IDX then rootdir
    else zeroBuf)

/-- Journal bytes: a valid header with `nbytes_used = u`, zeros after it. -/
def sample_journal (u : Nat) : Buf :=
  put_journal_header zeroBuf { magic := JOURNAL_MAGIC, nbytes_used := u }

/-- An inode bitmap with only inode 0 (the root) allocated. -/
def sample_bitmap : Buf := put_u8 zeroBuf 0 1

/-- An inode-table block whose inode 0 is a directory of the given size with
its data in block `DATA_START_IDX`. -/
def sample_itable (root_size : Nat) : Buf :=
  put_u32 (put_u32 (put_u16 (put_u16 zeroBuf 0 2) 2 2) 4 root_size) 8 DATA_START_IDX

/-- A root directory block holding the entries `.` and `..`. -/
def sample_rootdir : Buf := put_u8 (put_u8 (put_u8 zeroBuf 4 46) 36 46) 37 46

/-- A freshly formatted image whose journal is Active with `nbytes_used = u`. -/
def fresh_image (u : Nat) : Disk :=
  sample_image (sample_journal u) sample_bitmap (sample_itable 64) sample_rootdir

/-- A formatted image whose root directory of three entries has a free entry
(inode number 0) at index 2. -/
def hole_image : Disk :=
  sample_image (sample_journal JH_SIZE) sample_bitmap (sample_itable 96) sample_rootdir

/-- A formatted image whose journal header has a valid magic and
`nbytes_used = 65544`, more than the journal capacity. -/
def overrun_image : Disk :=
  sample_image (sample_journal 65544) sample_bitmap (sample_itable 64) sample_rootdir

/-- A formatted image whose journal header has a valid magic and
`nbytes_used = 0`. -/
def zero_used_image : Disk :=
  sample_image (sample_journal 0) sample_bitmap (sample_itable 64) sample_rootdir

/-- The file name `foo.txt`. -/
def foo_txt : List Byte := [102, 111, 111, 46, 116, 120, 116]

/-- Byte `i` of the records `rs` laid out back to back. -/
def records_bytes : List Rec → Buf
  | [], _ => 0
  | r :: rs, i => if i < r.size then r.bytes i else records_bytes rs (i - r.size)

/-- Journal bytes: a valid header whose `nbytes_used` covers the records `rs`,
then these records. -/
def journal_of (rs : List Rec) : Buf :=
  fun a => if a < JH_SIZE then sample_journal (JH_SIZE + total_size rs) a
    else records_bytes rs (a - JH_SIZE)

/-- A formatted image whose journal holds the records `rs`. -/
def logged_image (rs : List Rec) : Disk :=
  sample_image (journal_of rs) sample_bitmap (sample_itable 64) sample_rootdir

/-- A block all of whose bytes are 7. -/
def sevens : Block := fun _ => 7

/-- Two data records without a commit: the first names block 2, a journal
block, the second names block 30. -/
def self_target_tail : List (Nat × Block) := [(2, zeroBlock), (30, sevens)]

/-- An inode bitmap with inodes 0 to 31 allocated. -/
def bitmap32 : Buf := memcpy zeroBuf 0 (fun _ => 255) 0 4

/-- A formatted image with an empty journal in which inodes 0 to 31 are
allocated, so that the next free inode, 32, lies in the second block of the
inode table. -/
def full32_image : Disk :=
  sample_image (sample_journal JH_SIZE) bitmap32 (sample_itable 64) sample_rootdir

/-- An inode bitmap block all of whose bits are set. -/
def ones_bitmap : Buf := fun _ => 255

/-- An image of `TOTAL_BLOCKS` zero blocks: it has no superblock magic. -/
def blank_image : Disk := mkDisk TOTAL_BLOCKS (fun _ => zeroBuf)

/-- A formatted image whose journal region is all zero: the journal header has
not been written yet. -/
def unjournaled_image : Disk :=
  sample_image zeroBuf sample_bitmap (sample_itable 64) sample_rootdir

/-- Journal bytes: a valid header with `nbytes_used = 12`, then one record
header of type `REC_COMMIT` whose declared size is 0. -/
def stuck_journal : Buf := put_u16 (put_u16 (sample_journal 12) 8 REC_COMMIT) 10 0

/-- A formatted image whose journal holds a commit record of declared size 0. -/
def stuck_image : Disk :=
  sample_image stuck_journal sample_bitmap (sample_itable 64) sample_rootdir

/-- A root directory block in which every entry has a non-zero inode number. -/
def full_rootdir : Buf := fun _ => 1

/-- A formatted image with an empty Active journal in which every inode is
allocated. -/
def inodes_full_image : Disk :=
  sample_image (sample_journal JH_SIZE) ones_bitmap (sample_itable 64) sample_rootdir

/-- A formatted image with an empty Active journal whose root directory holds
128 entries, none of them free. -/
def dir_full_image : Disk :=
  sample_image (sample_journal JH_SIZE) sample_bitmap (sample_itable BLOCK_SIZE) full_rootdir

/-- A formatted image in which every inode is allocated and whose journal
region is all zero: the journal header has not been written yet. -/
def unjournaled_full_image : Disk :=
  sample_image zeroBuf ones_bitmap (sample_itable 64) sample_rootdir

/-- A file name of 40 bytes, longer than the name field of a directory entry. -/
def long_name : List Byte := List.replicate 40 97

/-- Journal bytes: a valid header with `nbytes_used = used`, then the records
`rs`, then the bytes `tail`. -/
def journal_then (rs : List Rec) (tail : Buf) (used : Nat) : Buf :=
  fun a => if a < JH_SIZE then sample_journal used a
    else if a < JH_SIZE + total_size rs then records_bytes rs (a - JH_SIZE)
    else tail (a - (JH_SIZE + total_size rs))

/-- A record header of type 7, which is neither `REC_DATA` nor `REC_COMMIT`,
followed by a data record for block 31. -/
def halted_tail : Buf :=
  fun a => if a < REC_HDR_SIZE then put_u16 (put_u16 zeroBuf 0 7) 2 REC_HDR_SIZE a
    else records_bytes [Rec.data 31 sevens] (a - REC_HDR_SIZE)

/-- A formatted image whose journal holds a complete transaction (a data
record for block 30 and its commit), then a record header of unknown type,
then a data record for block 31. -/
def halted_image : Disk :=
  sample_image (journal_then [Rec.data 30 sevens, Rec.commit] halted_tail 8224)
    sample_bitmap (sample_itable 64) sample_rootdir

/-- The file name `bar.txt`. -/
def bar_txt : List Byte := [98, 97, 114, 46, 116, 120, 116]

/-! # Theorems -/

theorem Block.get_ofBuf (buf : Buf) (off i : Nat) (h : i < BLOCK_SIZE) :
    (Block.ofBuf buf off).get i = buf (off + i) := by
  simp [Block.get, Block.ofBuf, h]

theorem Block.get_of_ge (b : Block) (i : Nat) (h : BLOCK_SIZE ≤ i) : b.get i = 0 := by
  have : ¬ i < BLOCK_SIZE := by omega
  simp [Block.get, this]

theorem Block.ext_get {a b : Block} (h : ∀ i, i < BLOCK_SIZE → a.get i = b.get i) : a = b := by
  funext i
  have := h i.val i.isLt
  simpa [Block.get, i.isLt] using this

theorem Block.get_zeroBlock (i : Nat) : zeroBlock.get i = 0 := by
  unfold Block.get zeroBlock
  split <;> rfl

theorem length_pwrite_block (d : Disk) (j : Nat) (buf : Buf) :
    (pwrite_block d j buf).length = max d.length (j + 1) := by
  unfold pwrite_block
  split
  · simp; omega
  · simp; omega

theorem getElem?_pwrite_block (d : Disk) (j k : Nat) (buf : Buf) :
    (pwrite_block d j buf)[k]? =
      if k = j then some (Block.ofBuf buf 0)
      else if k < d.length then d[k]?
      else if k < j then some zeroBlock else none := by
  unfold pwrite_block
  by_cases hj : j < d.length
  · simp only [hj, if_true, List.getElem?_set]
    by_cases hk : k = j
    · subst hk; simp [hj]
    · have : ¬ j = k := fun h => hk h.symm
      simp only [this, hk, if_false]
      by_cases hlt : k < d.length
      · simp [hlt]
      · have h1 : ¬ k < j := by omega
        simp only [hlt, h1, if_false]
        exact List.getElem?_eq_none (by omega)
  · simp only [hj, if_false]
    have hlen : (d ++ List.replicate (j - d.length) zeroBlock).length = j := by
      simp; omega
    rw [List.getElem?_append, hlen]
    by_cases hk : k = j
    · subst hk; simp
    · simp only [hk, if_false]
      by_cases h1 : k < j
      · simp only [h1, if_true]
        rw [List.getElem?_append]
        by_cases hlt : k < d.length
        · simp [hlt]
        · simp only [hlt, if_false, List.getElem?_replicate]
          have : k - d.length < j - d.length := by omega
          simp [this]
      · simp only [h1, if_false]
        have hlt : ¬ k < d.length := by omega
        simp only [hlt, if_false]
        exact List.getElem?_eq_none (by simp; omega)

theorem dbyte_pwrite_block (d : Disk) (j : Nat) (buf : Buf) (x : Nat) :
    dbyte (pwrite_block d j buf) x =
      if x / BLOCK_SIZE = j then buf (x % BLOCK_SIZE) else dbyte d x := by
  unfold dbyte
  rw [getElem?_pwrite_block]
  have hx : x % BLOCK_SIZE < BLOCK_SIZE := Nat.mod_lt _ (by decide)
  by_cases h : x / BLOCK_SIZE = j
  · simp only [h, if_true]
    rw [Block.get_ofBuf _ _ _ hx]; simp
  · simp only [h, if_false]
    by_cases hlt : x / BLOCK_SIZE < d.length
    · simp [hlt]
    · simp only [hlt, if_false]
      have hn : d[x / BLOCK_SIZE]? = none := List.getElem?_eq_none (by omega)
      rw [hn]
      by_cases h2 : x / BLOCK_SIZE < j
      · simp only [h2, if_true]; exact Block.get_zeroBlock _
      · simp only [h2, if_false]

theorem dbyte_of_length_le (d : Disk) (x : Nat) (h : d.length * BLOCK_SIZE ≤ x) : dbyte d x = 0 := by
  unfold dbyte
  have hn : d[x / BLOCK_SIZE]? = none := by
    apply List.getElem?_eq_none
    simp only [BLOCK_SIZE] at *
    omega
  rw [hn]

theorem disk_ext {d e : Disk} (hlen : d.length = e.length) (h : ∀ x, dbyte d x = dbyte e x) :
    d = e := by
  apply List.ext_getElem? 
  intro j
  by_cases hj : j < d.length
  · have hj2 : j < e.length := by omega
    rw [List.getElem?_eq_getElem hj, List.getElem?_eq_getElem hj2]
    congr 1
    apply Block.ext_get
    intro i hi
    have := h (j * BLOCK_SIZE + i)
    unfold dbyte at this
    have h1 : (j * BLOCK_SIZE + i) / BLOCK_SIZE = j := by simp only [BLOCK_SIZE] at *; omega
    have h2 : (j * BLOCK_SIZE + i) % BLOCK_SIZE = i := by simp only [BLOCK_SIZE] at *; omega
    rw [h1, h2, List.getElem?_eq_getElem hj, List.getElem?_eq_getElem hj2] at this
    exact this
  · rw [List.getElem?_eq_none (by omega), List.getElem?_eq_none (by omega)]

theorem pread_block_of_lt (d : Disk) (j : Nat) (h : j < d.length) :
    pread_block d j = some (blockBuf d j) := by
  unfold pread_block
  rw [List.getElem?_eq_getElem h]
  simp only [Option.map_some']
  congr 1
  funext i
  unfold blockBuf dbyte
  by_cases hi : i < BLOCK_SIZE
  · have h1 : (j * BLOCK_SIZE + i) / BLOCK_SIZE = j := by simp only [BLOCK_SIZE] at *; omega
    have h2 : (j * BLOCK_SIZE + i) % BLOCK_SIZE = i := by simp only [BLOCK_SIZE] at *; omega
    simp only [hi, if_true, h1, h2, List.getElem?_eq_getElem h]
  · simp only [hi, if_false]
    exact Block.get_of_ge _ _ (by omega)

theorem pread_block_of_ge (d : Disk) (j : Nat) (h : d.length ≤ j) : pread_block d j = none := by
  unfold pread_block
  rw [List.getElem?_eq_none h]; rfl

theorem pread_block_eq_some_iff (d : Disk) (j : Nat) (b : Buf) :
    pread_block d j = some b ↔ j < d.length ∧ b = blockBuf d j := by
  by_cases h : j < d.length
  · rw [pread_block_of_lt d j h]
    constructor
    · intro e; exact ⟨h, (Option.some.inj e).symm⟩
    · rintro ⟨_, rfl⟩; rfl
  · rw [pread_block_of_ge d j (by omega)]
    constructor
    · intro e; cases e
    · rintro ⟨h1, _⟩; exact absurd h1 h

theorem blockBuf_of_lt (d : Disk) (j i : Nat) (h : i < BLOCK_SIZE) :
    blockBuf d j i = dbyte d (j * BLOCK_SIZE + i) := by
  simp [blockBuf, h]

theorem journal_read_loop_spec (d : Disk) :
    ∀ (n remaining : Nat), remaining ≤ n →
    ∀ (block_idx off : Nat) (hoff : off < BLOCK_SIZE) (dst : Buf) (pos : Nat),
      (remaining = 0 ∨ block_idx * BLOCK_SIZE + off + remaining ≤ d.length * BLOCK_SIZE) →
      block_idx * BLOCK_SIZE + off + remaining ≤ U32 * BLOCK_SIZE →
      journal_read_loop d block_idx off hoff dst pos remaining =
        some (fun i => if pos ≤ i ∧ i < pos + remaining
          then dbyte d (block_idx * BLOCK_SIZE + off + (i - pos)) else dst i) := by
  intro n
  induction n with
  | zero =>
    intro remaining hle block_idx off hoff dst pos _ _
    have h0 : remaining = 0 := by omega
    subst h0
    rw [journal_read_loop]
    simp only [dite_true]
    congr 1
    funext i
    have : ¬ (pos ≤ i ∧ i < pos + 0) := by omega
    simp only [this, if_false]
  | succ n ih =>
    intro remaining hle block_idx off hoff dst pos hex hwrap
    by_cases h0 : remaining = 0
    · subst h0
      rw [journal_read_loop]
      simp only [dite_true]
      congr 1
      funext i
      have : ¬ (pos ≤ i ∧ i < pos + 0) := by omega
      simp only [this, if_false]
    · have hex2 : block_idx * BLOCK_SIZE + off + remaining ≤ d.length * BLOCK_SIZE := by
        rcases hex with h | h
        · exact absurd h h0
        · exact h
      have hbi : block_idx < d.length := by
        simp only [BLOCK_SIZE] at *
        omega
      rw [journal_read_loop]
      simp only [h0, dite_false, pread_block_of_lt d block_idx hbi]
      by_cases hc : BLOCK_SIZE - off > remaining
      · simp only [hc, if_true, Nat.sub_self]
        rw [ih 0 (by omega) _ 0 (by decide) _ _ (Or.inl rfl) (by
          have : (block_idx + 1) % U32 < U32 := Nat.mod_lt _ (by decide)
          simp only [BLOCK_SIZE, U32] at *
          omega)]
        congr 1
        funext i
        have h1 : ¬ (pos + remaining ≤ i ∧ i < pos + remaining + 0) := by omega
        simp only [h1, if_false, memcpy]
        by_cases h2 : pos ≤ i ∧ i < pos + remaining
        · simp only [h2, and_self, if_true]
          rw [blockBuf_of_lt _ _ _ (by simp only [BLOCK_SIZE] at *; omega)]
          apply congrArg (dbyte d)
          omega
        · simp only [h2, if_false]
      · simp only [hc, if_false]
        have hnext : remaining - (BLOCK_SIZE - off) = 0 ∨ (block_idx + 1) % U32 = block_idx + 1 := by
          by_cases hz : remaining - (BLOCK_SIZE - off) = 0
          · exact Or.inl hz
          · right
            apply Nat.mod_eq_of_lt
            simp only [BLOCK_SIZE, U32] at *
            omega
        rw [ih (remaining - (BLOCK_SIZE - off)) (by simp only [BLOCK_SIZE] at *; omega) _ 0 (by decide) _ _
          (by
            rcases hnext with hz | hz
            · exact Or.inl hz
            · right; rw [hz]; simp only [BLOCK_SIZE] at *; omega)
          (by
            rcases hnext with hz | hz
            · rw [hz]
              have : (block_idx + 1) % U32 < U32 := Nat.mod_lt _ (by decide)
              simp only [BLOCK_SIZE, U32] at *
              omega
            · rw [hz]; simp only [BLOCK_SIZE] at *; omega)]
        congr 1
        funext i
        simp only [memcpy]
        by_cases h2 : pos + (BLOCK_SIZE - off) ≤ i ∧ i < pos + (BLOCK_SIZE - off) + (remaining - (BLOCK_SIZE - off))
        · have h3 : pos ≤ i ∧ i < pos + remaining := by simp only [BLOCK_SIZE] at *; omega
          simp only [h2, h3, and_self, if_true]
          rcases hnext with hz | hz
          · exfalso; simp only [BLOCK_SIZE] at *; omega
          · rw [hz]; apply congrArg (dbyte d); simp only [BLOCK_SIZE] at *; omega
        · simp only [h2, if_false]
          by_cases h3 : pos ≤ i ∧ i < pos + (BLOCK_SIZE - off)
          · have h4 : pos ≤ i ∧ i < pos + remaining := by simp only [BLOCK_SIZE] at *; omega
            simp only [h3, h4, and_self, if_true]
            rw [blockBuf_of_lt _ _ _ (by simp only [BLOCK_SIZE] at *; omega)]
            apply congrArg (dbyte d)
            omega
          · have h4 : ¬ (pos ≤ i ∧ i < pos + remaining) := by simp only [BLOCK_SIZE] at *; omega
            simp only [h3, h4, if_false]

theorem length_pwrite_block_of_lt (d : Disk) (j : Nat) (buf : Buf) (h : j < d.length) :
    (pwrite_block d j buf).length = d.length := by
  rw [length_pwrite_block]; omega

theorem journal_append_loop_spec (src : Buf) :
    ∀ (n remaining : Nat), remaining ≤ n →
    ∀ (d : Disk) (block_idx off : Nat) (hoff : off < BLOCK_SIZE) (pos : Nat),
      (remaining = 0 ∨ block_idx * BLOCK_SIZE + off + remaining ≤ d.length * BLOCK_SIZE) →
      block_idx * BLOCK_SIZE + off + remaining ≤ U32 * BLOCK_SIZE →
      ∃ d1, journal_append_loop src d block_idx off hoff pos remaining = (.ok (), d1) ∧
        d1.length = d.length ∧
        ∀ x, dbyte d1 x =
          if block_idx * BLOCK_SIZE + off ≤ x ∧ x < block_idx * BLOCK_SIZE + off + remaining
          then src (pos + (x - (block_idx * BLOCK_SIZE + off))) else dbyte d x := by
  intro n
  induction n with
  | zero =>
    intro remaining hle d block_idx off hoff pos _ _
    have h0 : remaining = 0 := by omega
    subst h0
    refine ⟨d, ?_, rfl, ?_⟩
    · rw [journal_append_loop]; simp only [dite_true]
    · intro x
      have : ¬ (block_idx * BLOCK_SIZE + off ≤ x ∧ x < block_idx * BLOCK_SIZE + off + 0) := by omega
      simp only [this, if_false]
  | succ n ih =>
    intro remaining hle d block_idx off hoff pos hex hwrap
    by_cases h0 : remaining = 0
    · subst h0
      refine ⟨d, ?_, rfl, ?_⟩
      · rw [journal_append_loop]; simp only [dite_true]
      · intro x
        have : ¬ (block_idx * BLOCK_SIZE + off ≤ x ∧ x < block_idx * BLOCK_SIZE + off + 0) := by
          omega
        simp only [this, if_false]
    · have hex2 : block_idx * BLOCK_SIZE + off + remaining ≤ d.length * BLOCK_SIZE := by
        rcases hex with h | h
        · exact absurd h h0
        · exact h
      have hbi : block_idx < d.length := by
        simp only [BLOCK_SIZE] at *
        omega
      rw [journal_append_loop]
      simp only [h0, dite_false, pread_block_of_lt d block_idx hbi]
      by_cases hc : BLOCK_SIZE - off > remaining
      · simp only [hc, if_true, Nat.sub_self]
        obtain ⟨d2, he, hl, hb⟩ := ih 0 (by omega)
          (pwrite_block d block_idx (memcpy (blockBuf d block_idx) off src pos remaining))
          ((block_idx + 1) % U32) 0 (by decide) (pos + remaining) (Or.inl rfl) (by
            have : (block_idx + 1) % U32 < U32 := Nat.mod_lt _ (by decide)
            simp only [BLOCK_SIZE, U32] at *
            omega)
        refine ⟨d2, he, ?_, ?_⟩
        · rw [hl, length_pwrite_block_of_lt _ _ _ hbi]
        · intro x
          rw [hb x, dbyte_pwrite_block]
          have h1 : ¬ ((block_idx + 1) % U32 * BLOCK_SIZE + 0 ≤ x ∧
              x < (block_idx + 1) % U32 * BLOCK_SIZE + 0 + 0) := by omega
          simp only [h1, if_false, memcpy]
          by_cases h2 : block_idx * BLOCK_SIZE + off ≤ x ∧ x < block_idx * BLOCK_SIZE + off + remaining
          · have h3 : x / BLOCK_SIZE = block_idx := by simp only [BLOCK_SIZE] at *; omega
            have h4 : off ≤ x % BLOCK_SIZE ∧ x % BLOCK_SIZE < off + remaining := by
              simp only [BLOCK_SIZE] at *; omega
            simp only [h2, h3, h4, and_self, if_true]
            apply congrArg src
            simp only [BLOCK_SIZE] at *; omega
          · simp only [h2, if_false]
            by_cases h3 : x / BLOCK_SIZE = block_idx
            · have h4 : ¬ (off ≤ x % BLOCK_SIZE ∧ x % BLOCK_SIZE < off + remaining) := by
                simp only [BLOCK_SIZE] at *; omega
              simp only [h3, h4, if_true, if_false]
              rw [blockBuf_of_lt _ _ _ (Nat.mod_lt _ (by decide))]
              apply congrArg (dbyte d)
              simp only [BLOCK_SIZE] at *; omega
            · simp only [h3, if_false]
      · simp only [hc, if_false]
        have hnext : remaining - (BLOCK_SIZE - off) = 0 ∨ (block_idx + 1) % U32 = block_idx + 1 := by
          by_cases hz : remaining - (BLOCK_SIZE - off) = 0
          · exact Or.inl hz
          · right
            apply Nat.mod_eq_of_lt
            simp only [BLOCK_SIZE, U32] at *
            omega
        have hl1 := length_pwrite_block_of_lt d block_idx
          (memcpy (blockBuf d block_idx) off src pos (BLOCK_SIZE - off)) hbi
        obtain ⟨d2, he, hl, hb⟩ := ih (remaining - (BLOCK_SIZE - off))
          (by simp only [BLOCK_SIZE] at *; omega)
          (pwrite_block d block_idx (memcpy (blockBuf d block_idx) off src pos (BLOCK_SIZE - off)))
          ((block_idx + 1) % U32) 0 (by decide) (pos + (BLOCK_SIZE - off))
          (by
            rcases hnext with hz | hz
            · exact Or.inl hz
            · right; rw [hz, hl1]; simp only [BLOCK_SIZE] at *; omega)
          (by
            rcases hnext with hz | hz
            · rw [hz]
              have : (block_idx + 1) % U32 < U32 := Nat.mod_lt _ (by decide)
              simp only [BLOCK_SIZE, U32] at *
              omega
            · rw [hz]; simp only [BLOCK_SIZE] at *; omega)
        refine ⟨d2, he, ?_, ?_⟩
        · rw [hl, hl1]
        · intro x
          rw [hb x, dbyte_pwrite_block]
          simp only [memcpy]
          by_cases h2 : (block_idx + 1) % U32 * BLOCK_SIZE + 0 ≤ x ∧
              x < (block_idx + 1) % U32 * BLOCK_SIZE + 0 + (remaining - (BLOCK_SIZE - off))
          · rcases hnext with hz | hz
            · exfalso; simp only [BLOCK_SIZE] at *; omega
            · have h3 : block_idx * BLOCK_SIZE + off ≤ x ∧ x < block_idx * BLOCK_SIZE + off + remaining := by
                rw [hz] at h2; simp only [BLOCK_SIZE] at *; omega
              simp only [h2, h3, and_self, if_true]
              apply congrArg src
              rw [hz]; simp only [BLOCK_SIZE] at *; omega
          · simp only [h2, if_false]
            by_cases h3 : x / BLOCK_SIZE = block_idx
            · simp only [h3, if_true]
              by_cases h4 : off ≤ x % BLOCK_SIZE ∧ x % BLOCK_SIZE < off + (BLOCK_SIZE - off)
              · have h5 : block_idx * BLOCK_SIZE + off ≤ x ∧ x < block_idx * BLOCK_SIZE + off + remaining := by
                  simp only [BLOCK_SIZE] at *; omega
                simp only [h4, h5, and_self, if_true]
                apply congrArg src
                simp only [BLOCK_SIZE] at *; omega
              · have h5 : ¬ (block_idx * BLOCK_SIZE + off ≤ x ∧ x < block_idx * BLOCK_SIZE + off + remaining) := by
                  simp only [BLOCK_SIZE] at *; omega
                simp only [h4, h5, if_false]
                rw [blockBuf_of_lt _ _ _ (Nat.mod_lt _ (by decide))]
                apply congrArg (dbyte d)
                simp only [BLOCK_SIZE] at *; omega
            · have h5 : ¬ (block_idx * BLOCK_SIZE + off ≤ x ∧ x < block_idx * BLOCK_SIZE + off + remaining) := by
                rcases hnext with hz | hz
                · simp only [BLOCK_SIZE] at *; omega
                · rw [hz] at h2; simp only [BLOCK_SIZE] at *; omega
              simp only [h3, h5, if_false]

theorem byteOf_val (n : Nat) : (byteOf n).val = n % 256 := rfl

theorem get_u32_lt (b : Buf) (o : Nat) : get_u32 b o < U32 := by
  unfold get_u32
  have h0 := (b o).isLt
  have h1 := (b (o + 1)).isLt
  have h2 := (b (o + 2)).isLt
  have h3 := (b (o + 3)).isLt
  simp only [U32]
  omega

theorem get_u16_lt (b : Buf) (o : Nat) : get_u16 b o < 65536 := by
  unfold get_u16
  have h0 := (b o).isLt
  have h1 := (b (o + 1)).isLt
  omega

theorem get_u32_congr (b c : Buf) (o p : Nat) (h : ∀ i, i < 4 → b (o + i) = c (p + i)) :
    get_u32 b o = get_u32 c p := by
  unfold get_u32
  have h0 := h 0 (by omega)
  have h1 := h 1 (by omega)
  have h2 := h 2 (by omega)
  have h3 := h 3 (by omega)
  simp only [Nat.add_zero] at h0
  rw [h0, h1, h2, h3]

theorem get_u16_congr (b c : Buf) (o p : Nat) (h : ∀ i, i < 2 → b (o + i) = c (p + i)) :
    get_u16 b o = get_u16 c p := by
  unfold get_u16
  have h0 := h 0 (by omega)
  have h1 := h 1 (by omega)
  simp only [Nat.add_zero] at h0
  rw [h0, h1]

theorem get_u32_put_u32 (b : Buf) (o v : Nat) : get_u32 (put_u32 b o v) o = v % U32 := by
  unfold get_u32 put_u32
  have e1 : o + 1 ≠ o := by omega
  have e2 : o + 2 ≠ o := by omega
  have e3 : o + 2 ≠ o + 1 := by omega
  have e4 : o + 3 ≠ o := by omega
  have e5 : o + 3 ≠ o + 1 := by omega
  have e6 : o + 3 ≠ o + 2 := by omega
  simp only [if_true, e1, e2, e3, e4, e5, e6, if_false, byteOf_val, U32]
  omega

theorem get_u16_put_u16 (b : Buf) (o v : Nat) : get_u16 (put_u16 b o v) o = v % 65536 := by
  unfold get_u16 put_u16
  have e1 : o + 1 ≠ o := by omega
  simp only [if_true, e1, if_false, byteOf_val]
  omega

theorem put_u32_of_ne (b : Buf) (o v i : Nat) (h : i < o ∨ o + 4 ≤ i) : put_u32 b o v i = b i := by
  unfold put_u32
  have e0 : i ≠ o := by omega
  have e1 : i ≠ o + 1 := by omega
  have e2 : i ≠ o + 2 := by omega
  have e3 : i ≠ o + 3 := by omega
  simp only [e0, e1, e2, e3, if_false]

theorem put_u16_of_ne (b : Buf) (o v i : Nat) (h : i < o ∨ o + 2 ≤ i) : put_u16 b o v i = b i := by
  unfold put_u16
  have e0 : i ≠ o := by omega
  have e1 : i ≠ o + 1 := by omega
  simp only [e0, e1, if_false]

theorem put_u32_base (b c : Buf) (o v i : Nat) (h : o ≤ i ∧ i < o + 4) :
    put_u32 b o v i = put_u32 c o v i := by
  unfold put_u32
  by_cases e0 : i = o
  · simp only [e0, if_true]
  · by_cases e1 : i = o + 1
    · simp only [e0, e1, if_true, if_false]
    · by_cases e2 : i = o + 2
      · simp only [e0, e1, e2, if_true, if_false]
      · have e3 : i = o + 3 := by omega
        simp only [e0, e1, e2, e3, if_true, if_false]

theorem put_journal_header_lt (b : Buf) (jh : journal_header) (i : Nat) (h : i < JH_SIZE) :
    put_journal_header b jh i = put_journal_header zeroBuf jh i := by
  unfold put_journal_header
  by_cases h4 : i < 4
  · rw [put_u32_of_ne _ _ _ _ (Or.inl h4), put_u32_of_ne _ _ _ _ (Or.inl h4)]
    exact put_u32_base _ _ _ _ _ ⟨by omega, by omega⟩
  · exact put_u32_base _ _ _ _ _ ⟨by omega, by simp only [JH_SIZE] at h; omega⟩

theorem put_journal_header_ge (b : Buf) (jh : journal_header) (i : Nat) (h : JH_SIZE ≤ i) :
    put_journal_header b jh i = b i := by
  unfold put_journal_header
  simp only [JH_SIZE] at h
  rw [put_u32_of_ne _ _ _ _ (Or.inr (by omega)), put_u32_of_ne _ _ _ _ (Or.inr (by omega))]

theorem get_magic_put_journal_header (b : Buf) (jh : journal_header) :
    get_u32 (put_journal_header b jh) 0 = jh.magic % U32 := by
  unfold put_journal_header
  rw [get_u32_congr _ (put_u32 b 0 jh.magic) 0 0 (fun i hi => by
    simp only [Nat.zero_add]; exact put_u32_of_ne _ _ _ _ (Or.inl hi))]
  exact get_u32_put_u32 _ _ _

theorem get_used_put_journal_header (b : Buf) (jh : journal_header) :
    get_u32 (put_journal_header b jh) 4 = jh.nbytes_used % U32 := by
  unfold put_journal_header
  exact get_u32_put_u32 _ _ _

theorem blockBuf_one (d : Disk) (i : Nat) (h : i < BLOCK_SIZE) :
    blockBuf d JOURNAL_BLOCK_IDX i = jbyte d i := by
  rw [blockBuf_of_lt _ _ _ h]; rfl

theorem read_journal_header_of_lt (d : Disk) (h : 1 < d.length) :
    read_journal_header d = some { magic := jmagic d, nbytes_used := jused d } := by
  unfold read_journal_header
  rw [pread_block_of_lt d JOURNAL_BLOCK_IDX h]
  simp only [jmagic, jused]
  rw [get_u32_congr (blockBuf d JOURNAL_BLOCK_IDX) (jbyte d) 0 0
      (fun i hi => blockBuf_one d _ (by simp only [BLOCK_SIZE]; omega)),
    get_u32_congr (blockBuf d JOURNAL_BLOCK_IDX) (jbyte d) 4 4
      (fun i hi => blockBuf_one d _ (by simp only [BLOCK_SIZE]; omega))]

theorem read_journal_header_of_ge (d : Disk) (h : d.length ≤ 1) : read_journal_header d = none := by
  unfold read_journal_header
  rw [pread_block_of_ge d JOURNAL_BLOCK_IDX h]

theorem jused_lt (d : Disk) : jused d < U32 := get_u32_lt _ _

theorem journal_read_spec (d : Disk) (offset size : Nat) (buf : Buf)
    (hex : size = 0 ∨ BLOCK_SIZE + offset + size ≤ d.length * BLOCK_SIZE)
    (hw : BLOCK_SIZE + offset + size < U32 * BLOCK_SIZE) :
    journal_read d offset buf size =
      some (fun i => if i < size then jbyte d (offset + i) else buf i) := by
  unfold journal_read
  have hb : (JOURNAL_BLOCK_IDX + offset / BLOCK_SIZE) % U32 = JOURNAL_BLOCK_IDX + offset / BLOCK_SIZE := by
    apply Nat.mod_eq_of_lt
    simp only [BLOCK_SIZE, U32, JOURNAL_BLOCK_IDX] at *
    omega
  have hA : (JOURNAL_BLOCK_IDX + offset / BLOCK_SIZE) * BLOCK_SIZE + offset % BLOCK_SIZE
      = BLOCK_SIZE + offset := by
    simp only [BLOCK_SIZE, JOURNAL_BLOCK_IDX]
    omega
  rw [journal_read_loop_spec d size size (Nat.le_refl _) _ _ _ buf 0
    (by rw [hb, hA]; exact hex) (by rw [hb, hA]; exact Nat.le_of_lt hw)]
  congr 1
  funext i
  rw [hb, hA]
  by_cases hi : i < size
  · have : 0 ≤ i ∧ i < 0 + size := by omega
    simp only [this, hi, and_self, if_true, jbyte]
    apply congrArg (dbyte d)
    simp only [BLOCK_SIZE, JOURNAL_BLOCK_IDX]
    omega
  · have : ¬ (0 ≤ i ∧ i < 0 + size) := by omega
    simp only [this, hi, if_false]

theorem write_journal_header_spec (d : Disk) (jh : journal_header) (h : 1 < d.length) :
    ∃ d1, write_journal_header d jh = some d1 ∧ d1.length = d.length ∧
      ∀ x, dbyte d1 x =
        if BLOCK_SIZE ≤ x ∧ x < BLOCK_SIZE + JH_SIZE
        then put_journal_header zeroBuf jh (x - BLOCK_SIZE) else dbyte d x := by
  unfold write_journal_header
  rw [pread_block_of_lt d JOURNAL_BLOCK_IDX h]
  refine ⟨_, rfl, length_pwrite_block_of_lt _ _ _ h, ?_⟩
  intro x
  rw [dbyte_pwrite_block]
  by_cases h1 : x / BLOCK_SIZE = JOURNAL_BLOCK_IDX
  · simp only [h1, if_true]
    by_cases h2 : BLOCK_SIZE ≤ x ∧ x < BLOCK_SIZE + JH_SIZE
    · simp only [h2, and_self, if_true]
      have e : x % BLOCK_SIZE = x - BLOCK_SIZE := by
        simp only [BLOCK_SIZE, JOURNAL_BLOCK_IDX, JH_SIZE] at *; omega
      rw [e]
      exact put_journal_header_lt _ _ _ (by simp only [BLOCK_SIZE, JH_SIZE] at *; omega)
    · simp only [h2, if_false]
      rw [put_journal_header_ge _ _ _ (by simp only [BLOCK_SIZE, JOURNAL_BLOCK_IDX, JH_SIZE] at *; omega),
        blockBuf_of_lt _ _ _ (Nat.mod_lt _ (by decide))]
      apply congrArg (dbyte d)
      simp only [BLOCK_SIZE, JOURNAL_BLOCK_IDX] at *; omega
  · have h2 : ¬ (BLOCK_SIZE ≤ x ∧ x < BLOCK_SIZE + JH_SIZE) := by
      simp only [BLOCK_SIZE, JOURNAL_BLOCK_IDX, JH_SIZE] at *; omega
    simp only [h1, h2, if_false]

/-- What a successful `journal_append` does: the record lands at the old
`nbytes_used`, then the header is rewritten. -/
theorem journal_append_spec (d : Disk) (data : Buf) (size : Nat) (h1 : 1 < d.length)
    (hcap : ¬ ((JOURNAL_BLOCKS * BLOCK_SIZE + U32 - jused d) % U32 < size))
    (hex : size = 0 ∨ BLOCK_SIZE + jused d + size ≤ d.length * BLOCK_SIZE) :
    ∃ d1, journal_append d data size = (.ok (Int.ofNat (jused d)), d1) ∧
      d1.length = d.length ∧
      ∀ x, dbyte d1 x =
        if BLOCK_SIZE ≤ x ∧ x < BLOCK_SIZE + JH_SIZE then
          put_journal_header zeroBuf
            { magic := jmagic d, nbytes_used := (jused d + size) % U32 } (x - BLOCK_SIZE)
        else if BLOCK_SIZE + jused d ≤ x ∧ x < BLOCK_SIZE + jused d + size then
          data (x - (BLOCK_SIZE + jused d))
        else dbyte d x := by
  unfold journal_append
  rw [read_journal_header_of_lt d h1]
  simp only [hcap, if_false]
  have hu := jused_lt d
  have hsz : size < U32 := by
    have : (JOURNAL_BLOCKS * BLOCK_SIZE + U32 - jused d) % U32 < U32 := Nat.mod_lt _ (by decide)
    omega
  have hb : (JOURNAL_BLOCK_IDX + jused d / BLOCK_SIZE) % U32 = JOURNAL_BLOCK_IDX + jused d / BLOCK_SIZE := by
    apply Nat.mod_eq_of_lt
    simp only [BLOCK_SIZE, U32, JOURNAL_BLOCK_IDX] at *
    omega
  have hA : (JOURNAL_BLOCK_IDX + jused d / BLOCK_SIZE) * BLOCK_SIZE + jused d % BLOCK_SIZE
      = BLOCK_SIZE + jused d := by
    simp only [BLOCK_SIZE, JOURNAL_BLOCK_IDX]
    omega
  obtain ⟨d1, he, hl, hbytes⟩ := journal_append_loop_spec data size size (Nat.le_refl _) d
    ((JOURNAL_BLOCK_IDX + jused d / BLOCK_SIZE) % U32) (jused d % BLOCK_SIZE)
    (Nat.mod_lt _ (by decide)) 0
    (by rw [hb, hA]; exact hex)
    (by rw [hb, hA]; simp only [BLOCK_SIZE, U32] at *; omega)
  rw [he]
  obtain ⟨d2, he2, hl2, hbytes2⟩ := write_journal_header_spec d1
    { magic := jmagic d, nbytes_used := (jused d + size) % U32 } (by omega)
  simp only [he2]
  refine ⟨d2, rfl, by omega, ?_⟩
  intro x
  rw [hbytes2 x, hbytes x, hb, hA]
  simp only [Nat.zero_add]

theorem length_mkDisk (n : Nat) (f : Nat → Buf) : (mkDisk n f).length = n := by
  simp [mkDisk]

theorem dbyte_mkDisk (n : Nat) (f : Nat → Buf) (x : Nat) :
    dbyte (mkDisk n f) x = if x / BLOCK_SIZE < n then f (x / BLOCK_SIZE) (x % BLOCK_SIZE) else 0 := by
  unfold dbyte mkDisk
  by_cases h : x / BLOCK_SIZE < n
  · simp only [h, if_true]
    rw [List.getElem?_eq_getElem (by simp [h])]
    simp only [List.getElem_map, List.getElem_range]
    rw [Block.get_ofBuf _ _ _ (Nat.mod_lt _ (by decide))]
    simp
  · simp only [h, if_false]
    rw [List.getElem?_eq_none (by simp; omega)]

theorem jbyte_mkDisk (n : Nat) (f : Nat → Buf) (a : Nat) (hn : 1 < n) (ha : a < BLOCK_SIZE) :
    jbyte (mkDisk n f) a = f 1 a := by
  unfold jbyte
  rw [dbyte_mkDisk]
  have h1 : (JOURNAL_BLOCK_IDX * BLOCK_SIZE + a) / BLOCK_SIZE = 1 := by
    simp only [BLOCK_SIZE, JOURNAL_BLOCK_IDX] at *; omega
  have h2 : (JOURNAL_BLOCK_IDX * BLOCK_SIZE + a) % BLOCK_SIZE = a := by
    simp only [BLOCK_SIZE, JOURNAL_BLOCK_IDX] at *; omega
  rw [h1, h2]
  simp [hn]

theorem jmagic_mkDisk (n : Nat) (f : Nat → Buf) (hn : 1 < n) :
    jmagic (mkDisk n f) = get_u32 (f 1) 0 :=
  get_u32_congr _ _ _ _ (fun i hi => jbyte_mkDisk n f _ hn (by simp only [BLOCK_SIZE]; omega))

theorem jused_mkDisk (n : Nat) (f : Nat → Buf) (hn : 1 < n) :
    jused (mkDisk n f) = get_u32 (f 1) 4 :=
  get_u32_congr _ _ _ _ (fun i hi => jbyte_mkDisk n f _ hn (by simp only [BLOCK_SIZE]; omega))

/-- One append on an Active journal with room for the record. -/
theorem journal_append_active (d : Disk) (data : Buf) (size : Nat) (hA : Active d)
    (hfit : size ≤ JOURNAL_BLOCKS * BLOCK_SIZE - jused d) :
    ∃ d1, journal_append d data size = (.ok (Int.ofNat (jused d)), d1) ∧
      Active d1 ∧ d1.length = d.length ∧ jused d1 = jused d + size ∧
      (∀ a, JH_SIZE ≤ a → jbyte d1 a =
        if jused d ≤ a ∧ a < jused d + size then data (a - jused d) else jbyte d a) ∧
      (∀ x, x < BLOCK_SIZE ∨ (JOURNAL_BLOCK_IDX + JOURNAL_BLOCKS) * BLOCK_SIZE ≤ x →
        dbyte d1 x = dbyte d x) := by
  obtain ⟨hlen, hm, hlo, hhi⟩ := hA
  have hcap : ¬ ((JOURNAL_BLOCKS * BLOCK_SIZE + U32 - jused d) % U32 < size) := by
    simp only [BLOCK_SIZE, JOURNAL_BLOCKS, U32] at *
    omega
  obtain ⟨d1, he, hl, hb⟩ := journal_append_spec d data size
    (by simp only [JOURNAL_BLOCK_IDX, JOURNAL_BLOCKS] at hlen; omega) hcap
    (by right; simp only [BLOCK_SIZE, JOURNAL_BLOCKS, JOURNAL_BLOCK_IDX] at *; omega)
  have hj : ∀ a, a < JH_SIZE → jbyte d1 a = put_journal_header zeroBuf
      { magic := jmagic d, nbytes_used := (jused d + size) % U32 } a := by
    intro a ha
    unfold jbyte
    rw [hb]
    have : BLOCK_SIZE ≤ JOURNAL_BLOCK_IDX * BLOCK_SIZE + a ∧
        JOURNAL_BLOCK_IDX * BLOCK_SIZE + a < BLOCK_SIZE + JH_SIZE := by
      simp only [BLOCK_SIZE, JOURNAL_BLOCK_IDX, JH_SIZE] at *; omega
    simp only [this, and_self, if_true]
    apply congrArg
    simp only [BLOCK_SIZE, JOURNAL_BLOCK_IDX]; omega
  have hused : jused d1 = jused d + size := by
    unfold jused
    rw [get_u32_congr (jbyte d1) (put_journal_header zeroBuf
      { magic := jmagic d, nbytes_used := (jused d + size) % U32 }) 4 4
      (fun i hi => hj _ (by simp only [JH_SIZE]; omega)), get_used_put_journal_header]
    show (get_u32 (jbyte d) 4 + size) % U32 % U32 = get_u32 (jbyte d) 4 + size
    have : get_u32 (jbyte d) 4 = jused d := rfl
    rw [this]
    simp only [BLOCK_SIZE, JOURNAL_BLOCKS, U32] at *
    omega
  have hmagic : jmagic d1 = JOURNAL_MAGIC := by
    unfold jmagic
    rw [get_u32_congr (jbyte d1) (put_journal_header zeroBuf
      { magic := jmagic d, nbytes_used := (jused d + size) % U32 }) 0 0
      (fun i hi => hj _ (by simp only [JH_SIZE]; omega)), get_magic_put_journal_header]
    show jmagic d % U32 = JOURNAL_MAGIC
    rw [hm]
    decide
  refine ⟨d1, he, ⟨by omega, hmagic, by omega, ?_⟩, hl, hused, ?_, ?_⟩
  · rw [hused]; simp only [BLOCK_SIZE, JOURNAL_BLOCKS] at *; omega
  · intro a ha
    unfold jbyte
    rw [hb]
    have h1 : ¬ (BLOCK_SIZE ≤ JOURNAL_BLOCK_IDX * BLOCK_SIZE + a ∧
        JOURNAL_BLOCK_IDX * BLOCK_SIZE + a < BLOCK_SIZE + JH_SIZE) := by
      simp only [BLOCK_SIZE, JOURNAL_BLOCK_IDX, JH_SIZE] at *; omega
    simp only [h1, if_false]
    by_cases h2 : jused d ≤ a ∧ a < jused d + size
    · have h3 : BLOCK_SIZE + jused d ≤ JOURNAL_BLOCK_IDX * BLOCK_SIZE + a ∧
          JOURNAL_BLOCK_IDX * BLOCK_SIZE + a < BLOCK_SIZE + jused d + size := by
        simp only [BLOCK_SIZE, JOURNAL_BLOCK_IDX] at *; omega
      simp only [h2, h3, and_self, if_true]
      apply congrArg
      simp only [BLOCK_SIZE, JOURNAL_BLOCK_IDX]; omega
    · have h3 : ¬ (BLOCK_SIZE + jused d ≤ JOURNAL_BLOCK_IDX * BLOCK_SIZE + a ∧
          JOURNAL_BLOCK_IDX * BLOCK_SIZE + a < BLOCK_SIZE + jused d + size) := by
        simp only [BLOCK_SIZE, JOURNAL_BLOCK_IDX] at *; omega
      simp only [h2, h3, if_false]
  · intro x hx
    rw [hb]
    have h1 : ¬ (BLOCK_SIZE ≤ x ∧ x < BLOCK_SIZE + JH_SIZE) := by
      simp only [BLOCK_SIZE, JOURNAL_BLOCK_IDX, JOURNAL_BLOCKS, JH_SIZE] at *; omega
    have h3 : ¬ (BLOCK_SIZE + jused d ≤ x ∧ x < BLOCK_SIZE + jused d + size) := by
      simp only [BLOCK_SIZE, JOURNAL_BLOCK_IDX, JOURNAL_BLOCKS] at *; omega
    simp only [h1, h3, if_false]

theorem append_all_spec (rs : List (List Byte)) :
    ∀ (d : Disk), Active d →
      (rs.map List.length).sum ≤ JOURNAL_BLOCKS * BLOCK_SIZE - jused d →
      ∃ offs d1, append_all d rs = some (offs, d1) ∧ Active d1 ∧ d1.length = d.length ∧
        jused d1 = jused d + (rs.map List.length).sum ∧
        (∀ a, JH_SIZE ≤ a → a < jused d → jbyte d1 a = jbyte d a) ∧
        offs.length = rs.length ∧
        ∀ i (h : i < rs.length),
          jused d ≤ offs.getD i 0 ∧
          offs.getD i 0 + rs[i].length ≤ jused d + (rs.map List.length).sum ∧
          ∀ j, j < rs[i].length → jbyte d1 (offs.getD i 0 + j) = rs[i].getD j 0 := by
  induction rs with
  | nil =>
    intro d hA _
    refine ⟨[], d, rfl, hA, rfl, by simp, fun _ _ _ => rfl, rfl, ?_⟩
    intro i h
    exact absurd h (by simp)
  | cons r rs ih =>
    intro d hA hfit
    simp only [List.map_cons, List.sum_cons] at hfit ⊢
    obtain ⟨d1, he, hA1, hl1, hu1, hj1, _⟩ := journal_append_active d (recBuf r) r.length hA
      (by omega)
    obtain ⟨offs, d2, he2, hA2, hl2, hu2, hj2, hlen2, hrec2⟩ := ih d1 hA1 (by rw [hu1]; omega)
    have hlo : JH_SIZE ≤ jused d := hA.2.2.1
    refine ⟨jused d :: offs, d2, ?_, hA2, by omega, by rw [hu2, hu1]; omega, ?_, by simp [hlen2], ?_⟩
    · simp only [append_all, he, he2]
      have : ¬ (Int.ofNat (jused d) < 0) := by simp
      simp only [this, if_false]
      rfl
    · intro a ha1 ha2
      rw [hj2 a ha1 (by omega), hj1 a ha1]
      have : ¬ (jused d ≤ a ∧ a < jused d + r.length) := by omega
      simp only [this, if_false]
    · intro i h
      cases i with
      | zero =>
        simp only [List.getD_cons_zero, List.getElem_cons_zero]
        refine ⟨Nat.le_refl _, by omega, ?_⟩
        intro j hjl
        rw [hj2 _ (by omega) (by omega), hj1 _ (by omega)]
        have : jused d ≤ jused d + j ∧ jused d + j < jused d + r.length := by omega
        simp only [this, and_self, if_true, recBuf]
        apply congrArg (fun k => r.getD k 0)
        omega
      | succ i =>
        simp only [List.getD_cons_succ, List.getElem_cons_succ]
        have hi : i < rs.length := by simpa using h
        obtain ⟨h1, h2, h3⟩ := hrec2 i hi
        exact ⟨by omega, by omega, h3⟩

/-- Claim C5 (capacity invariant of `journal_append`): on an Active journal
with `nbytes_used = u`, an append of a record larger than the remaining
capacity `65536 - u` returns `-1` and leaves the whole image, hence the header
and all sixteen journal blocks, as it was. -/
theorem journal_append_capacity (d : Disk) (data : Buf) (size : Nat) (hA : Active d)
    (hbig : size > JOURNAL_BLOCKS * BLOCK_SIZE - jused d) :
    journal_append d data size = (.ok (-1), d) := by
  obtain ⟨hlen, _, _, hhi⟩ := hA
  unfold journal_append
  rw [read_journal_header_of_lt d (by simp only [JOURNAL_BLOCK_IDX, JOURNAL_BLOCKS] at hlen; omega)]
  have hcap : (JOURNAL_BLOCKS * BLOCK_SIZE + U32 - jused d) % U32 < size := by
    simp only [BLOCK_SIZE, JOURNAL_BLOCKS, U32] at *
    omega
  simp only [hcap, if_true]

/-- Claim C1 (round trip of `journal_append` and `journal_read`): on an Active
journal, appending records whose total size fits in the remaining capacity
succeeds, and afterwards `journal_read` at each returned offset, with the
length of the record, returns exactly the bytes of that record, wherever the
record lies with respect to block boundaries. -/
theorem journal_round_trip (d : Disk) (rs : List (List Byte)) (hA : Active d)
    (hfit : (rs.map List.length).sum ≤ JOURNAL_BLOCKS * BLOCK_SIZE - jused d) :
    ∃ offs d1, append_all d rs = some (offs, d1) ∧ offs.length = rs.length ∧
      ∀ i (h : i < rs.length) (buf : Buf),
        ∃ out, journal_read d1 (offs.getD i 0) buf rs[i].length = some out ∧
          ∀ j (hj : j < rs[i].length), out j = rs[i][j] := by
  obtain ⟨offs, d1, he, hA1, hl1, hu1, _, hlen, hrec⟩ := append_all_spec rs d hA hfit
  refine ⟨offs, d1, he, hlen, ?_⟩
  intro i h buf
  obtain ⟨h1, h2, h3⟩ := hrec i h
  obtain ⟨hlenA, _, _, hhi⟩ := hA
  obtain ⟨hlenA1, _, _, hhi1⟩ := hA1
  refine ⟨_, journal_read_spec d1 (offs.getD i 0) rs[i].length buf ?_ ?_, ?_⟩
  · right
    simp only [BLOCK_SIZE, JOURNAL_BLOCKS, JOURNAL_BLOCK_IDX] at *
    omega
  · simp only [BLOCK_SIZE, JOURNAL_BLOCKS, JOURNAL_BLOCK_IDX, U32] at *
    omega
  · intro j hj
    simp only [hj, if_true]
    rw [h3 j hj]
    simp [List.getD_eq_getElem?_getD, List.getElem?_eq_getElem hj]

theorem Block.ofBuf_get (b : Block) : Block.ofBuf b.get 0 = b := by
  apply Block.ext_get
  intro i hi
  rw [Block.get_ofBuf _ _ _ hi, Nat.zero_add]

theorem Block.ofBuf_congr (b c : Buf) (h : ∀ i, i < BLOCK_SIZE → b i = c i) :
    Block.ofBuf b 0 = Block.ofBuf c 0 := by
  funext i
  simp only [Block.ofBuf, Nat.zero_add]
  exact h i.val i.isLt

theorem pwrite_block_congr (d : Disk) (j : Nat) (b c : Buf) (h : ∀ i, i < BLOCK_SIZE → b i = c i) :
    pwrite_block d j b = pwrite_block d j c := by
  unfold pwrite_block
  rw [Block.ofBuf_congr b c h]

theorem blockBuf_zero (d : Disk) (i : Nat) (h : i < BLOCK_SIZE) : blockBuf d 0 i = dbyte d i := by
  rw [blockBuf_of_lt _ _ _ h]; simp

theorem sb_magic_eq (d : Disk) : get_u32 (blockBuf d 0) 0 = sb_magic d :=
  get_u32_congr _ _ _ _ (fun i hi => blockBuf_zero d _ (by simp only [BLOCK_SIZE]; omega))

theorem total_size_cons (r : Rec) (rs : List Rec) : total_size (r :: rs) = r.size + total_size rs := by
  simp [total_size]

theorem total_size_append (rs ss : List Rec) :
    total_size (rs ++ ss) = total_size rs + total_size ss := by
  simp [total_size]

theorem Rec.size_pos (r : Rec) : 0 < r.size := by
  cases r <;> simp [Rec.size]

theorem Rec.size_le (r : Rec) : r.size ≤ DATA_REC_SIZE := by
  cases r
  · exact Nat.le_refl _
  · show COMMIT_REC_SIZE ≤ DATA_REC_SIZE
    decide

theorem Holds_congr (d e : Disk) (lim : Nat) (h : ∀ a, a < lim → jbyte e a = jbyte d a) :
    ∀ (rs : List Rec) (off : Nat), off + total_size rs ≤ lim → Holds d off rs → Holds e off rs := by
  intro rs
  induction rs with
  | nil => intro off _ _; trivial
  | cons r rs ih =>
    intro off hle hh
    rw [total_size_cons] at hle
    obtain ⟨h1, h2⟩ := hh
    refine ⟨?_, ih _ (by omega) h2⟩
    intro i hi
    rw [h _ (by omega)]
    exact h1 i hi

theorem Holds_append (d : Disk) :
    ∀ (rs ss : List Rec) (off : Nat),
      Holds d off (rs ++ ss) ↔ Holds d off rs ∧ Holds d (off + total_size rs) ss := by
  intro rs
  induction rs with
  | nil => intro ss off; simp [Holds, total_size]
  | cons r rs ih =>
    intro ss off
    show (_ ∧ Holds d (off + r.size) (rs ++ ss)) ↔ _
    rw [ih, total_size_cons, Nat.add_assoc]
    simp only [Holds, and_assoc]

/-- Bytes of the journal region are not affected by a write to a home block. -/
theorem jbyte_pwrite_home (d : Disk) (j : Nat) (buf : Buf) (a : Nat)
    (hj : j < JOURNAL_BLOCK_IDX ∨ JOURNAL_BLOCK_IDX + JOURNAL_BLOCKS ≤ j)
    (ha : a < JOURNAL_BLOCKS * BLOCK_SIZE) :
    jbyte (pwrite_block d j buf) a = jbyte d a := by
  unfold jbyte
  rw [dbyte_pwrite_block]
  have : ¬ ((JOURNAL_BLOCK_IDX * BLOCK_SIZE + a) / BLOCK_SIZE = j) := by
    simp only [BLOCK_SIZE, JOURNAL_BLOCK_IDX, JOURNAL_BLOCKS] at *
    omega
  simp only [this, if_false]

theorem mk_data_record_type (b : Nat) (p : Buf) : get_u16 (mk_data_record b p) 0 = REC_DATA := by
  unfold mk_data_record
  simp only []
  rw [get_u16_congr _ (put_u16 zeroBuf 0 REC_DATA) 0 0]
  · rw [get_u16_put_u16]; rfl
  · intro i hi
    simp only [memcpy, Nat.zero_add]
    have h1 : ¬ (8 ≤ i ∧ i < 8 + BLOCK_SIZE) := by omega
    simp only [h1, if_false]
    rw [put_u32_of_ne _ _ _ _ (Or.inl (by omega)), put_u16_of_ne _ _ _ _ (Or.inl (by omega))]

theorem mk_data_record_size (b : Nat) (p : Buf) :
    get_u16 (mk_data_record b p) 2 = DATA_REC_SIZE := by
  unfold mk_data_record
  simp only []
  rw [get_u16_congr _ (put_u16 (put_u16 zeroBuf 0 REC_DATA) 2 DATA_REC_SIZE) 2 2]
  · rw [get_u16_put_u16]; rfl
  · intro i hi
    simp only [memcpy]
    have h1 : ¬ (8 ≤ 2 + i ∧ 2 + i < 8 + BLOCK_SIZE) := by omega
    simp only [h1, if_false]
    rw [put_u32_of_ne _ _ _ _ (Or.inl (by omega))]

theorem mk_data_record_block_no (b : Nat) (p : Buf) :
    get_u32 (mk_data_record b p) 4 = b % U32 := by
  unfold mk_data_record
  simp only []
  rw [get_u32_congr _ (put_u32 (put_u16 (put_u16 zeroBuf 0 REC_DATA) 2 DATA_REC_SIZE) 4 b) 4 4]
  · rw [get_u32_put_u32]
  · intro i hi
    simp only [memcpy]
    have h1 : ¬ (8 ≤ 4 + i ∧ 4 + i < 8 + BLOCK_SIZE) := by omega
    simp only [h1, if_false]

theorem mk_data_record_data (b : Nat) (p : Buf) (i : Nat) (h : i < BLOCK_SIZE) :
    mk_data_record b p (8 + i) = p i := by
  unfold mk_data_record
  simp only [memcpy]
  have h1 : 8 ≤ 8 + i ∧ 8 + i < 8 + BLOCK_SIZE := by omega
  simp only [h1, and_self, if_true]
  apply congrArg p
  omega

theorem mk_commit_record_type : get_u16 mk_commit_record 0 = REC_COMMIT := by
  unfold mk_commit_record
  rw [get_u16_congr _ (put_u16 zeroBuf 0 REC_COMMIT) 0 0]
  · rw [get_u16_put_u16]; rfl
  · intro i hi
    rw [put_u16_of_ne _ _ _ _ (Or.inl (by omega))]

theorem mk_commit_record_size : get_u16 mk_commit_record 2 = COMMIT_REC_SIZE := by
  unfold mk_commit_record
  rw [get_u16_put_u16]; rfl

theorem install_loop_done (used fuel off txn : Nat) (d : Disk) (h : ¬ off < used) :
    install_loop used fuel off txn d = some (.ok txn, d) := by
  unfold install_loop
  simp only [h, not_false_eq_true, if_true]

theorem install_loop_step (used fuel off txn : Nat) (d : Disk) (h : off < used) :
    install_loop used (fuel + 1) off txn d =
      match journal_read d off zeroBuf REC_HDR_SIZE with
      | none => some (.error .die, d)
      | some rh =>
        if get_u16 rh 0 = REC_DATA then
          match journal_read d (off + REC_HDR_SIZE) zeroBuf 4 with
          | none => some (.error .die, d)
          | some bn =>
            match journal_read d (off + REC_HDR_SIZE + 4) zeroBuf BLOCK_SIZE with
            | none => some (.error .die, d)
            | some block_data =>
              if off + get_u16 rh 2 > JOURNAL_BLOCKS * BLOCK_SIZE then
                some (.ok txn, pwrite_block d (get_u32 bn 0) block_data)
              else install_loop used fuel (off + get_u16 rh 2) txn
                (pwrite_block d (get_u32 bn 0) block_data)
        else if get_u16 rh 0 = REC_COMMIT then
          if off + get_u16 rh 2 > JOURNAL_BLOCKS * BLOCK_SIZE then some (.ok ((txn + 1) % U32), d)
          else install_loop used fuel (off + get_u16 rh 2) ((txn + 1) % U32) d
        else some (.ok txn, d) := by
  rw [install_loop]
  simp only [h, not_true_eq_false, if_false]

theorem install_loop_data (used fuel off txn : Nat) (d : Disk) (b : Nat) (p : Block)
    (hlen : JOURNAL_BLOCK_IDX + JOURNAL_BLOCKS ≤ d.length)
    (hb : ∀ i, i < DATA_REC_SIZE → jbyte d (off + i) = mk_data_record b p.get i)
    (hlt : off < used) (hend : off + DATA_REC_SIZE ≤ JOURNAL_BLOCKS * BLOCK_SIZE)
    (hbu : b < U32) :
    install_loop used (fuel + 1) off txn d =
      install_loop used fuel (off + DATA_REC_SIZE) txn (pwrite_block d b p.get) := by
  rw [install_loop_step used fuel off txn d hlt]
  have hx : ∀ n, n ≤ DATA_REC_SIZE → BLOCK_SIZE + off + n ≤ d.length * BLOCK_SIZE := by
    intro n hn
    simp only [BLOCK_SIZE, JOURNAL_BLOCKS, JOURNAL_BLOCK_IDX, DATA_REC_SIZE] at *
    omega
  have hw : ∀ n, n ≤ DATA_REC_SIZE → BLOCK_SIZE + off + n < U32 * BLOCK_SIZE := by
    intro n hn
    simp only [BLOCK_SIZE, JOURNAL_BLOCKS, JOURNAL_BLOCK_IDX, DATA_REC_SIZE, U32] at *
    omega
  rw [journal_read_spec d off REC_HDR_SIZE zeroBuf (Or.inr (hx _ (by decide))) (hw _ (by decide))]
  simp only []
  have ht : get_u16 (fun i => if i < REC_HDR_SIZE then jbyte d (off + i) else zeroBuf i) 0
      = REC_DATA := by
    rw [get_u16_congr _ (mk_data_record b p.get) 0 0, mk_data_record_type]
    intro i hi
    have h1 : 0 + i < REC_HDR_SIZE := by simp only [REC_HDR_SIZE]; omega
    simp only [h1, if_true]
    exact hb _ (by simp only [DATA_REC_SIZE, BLOCK_SIZE]; omega)
  have hs : get_u16 (fun i => if i < REC_HDR_SIZE then jbyte d (off + i) else zeroBuf i) 2
      = DATA_REC_SIZE := by
    rw [get_u16_congr _ (mk_data_record b p.get) 2 2, mk_data_record_size]
    intro i hi
    have h1 : 2 + i < REC_HDR_SIZE := by simp only [REC_HDR_SIZE]; omega
    simp only [h1, if_true]
    exact hb _ (by simp only [DATA_REC_SIZE, BLOCK_SIZE]; omega)
  rw [ht, hs]
  simp only [if_true]
  rw [journal_read_spec d (off + REC_HDR_SIZE) 4 zeroBuf
      (Or.inr (by have := hx 8 (by decide); simp only [REC_HDR_SIZE] at *; omega))
      (by have := hw 8 (by decide); simp only [REC_HDR_SIZE] at *; omega)]
  simp only []
  rw [journal_read_spec d (off + REC_HDR_SIZE + 4) BLOCK_SIZE zeroBuf
      (Or.inr (by have := hx DATA_REC_SIZE (Nat.le_refl _)
                  simp only [REC_HDR_SIZE, DATA_REC_SIZE] at *; omega))
      (by have := hw DATA_REC_SIZE (Nat.le_refl _)
          simp only [REC_HDR_SIZE, DATA_REC_SIZE] at *; omega)]
  simp only []
  have hbn : get_u32 (fun i => if i < 4 then jbyte d (off + REC_HDR_SIZE + i) else zeroBuf i) 0
      = b := by
    rw [get_u32_congr _ (mk_data_record b p.get) 0 4, mk_data_record_block_no]
    · exact Nat.mod_eq_of_lt hbu
    · intro i hi
      have h1 : 0 + i < 4 := by omega
      simp only [h1, if_true]
      rw [← hb (4 + i) (by simp only [DATA_REC_SIZE, BLOCK_SIZE]; omega)]
      apply congrArg (jbyte d)
      simp only [REC_HDR_SIZE]; omega
  rw [hbn]
  have hgt : ¬ (off + DATA_REC_SIZE > JOURNAL_BLOCKS * BLOCK_SIZE) := by omega
  simp only [hgt, if_false]
  congr 1
  apply pwrite_block_congr
  intro i hi
  simp only [hi, if_true]
  rw [← mk_data_record_data b p.get i hi, ← hb (8 + i) (by simp only [DATA_REC_SIZE]; omega)]
  apply congrArg (jbyte d)
  simp only [REC_HDR_SIZE]; omega

theorem install_loop_commit (used fuel off txn : Nat) (d : Disk)
    (hlen : JOURNAL_BLOCK_IDX + JOURNAL_BLOCKS ≤ d.length)
    (hb : ∀ i, i < COMMIT_REC_SIZE → jbyte d (off + i) = mk_commit_record i)
    (hlt : off < used) (hend : off + COMMIT_REC_SIZE ≤ JOURNAL_BLOCKS * BLOCK_SIZE) :
    install_loop used (fuel + 1) off txn d =
      install_loop used fuel (off + COMMIT_REC_SIZE) ((txn + 1) % U32) d := by
  rw [install_loop_step used fuel off txn d hlt]
  rw [journal_read_spec d off REC_HDR_SIZE zeroBuf
    (Or.inr (by simp only [BLOCK_SIZE, JOURNAL_BLOCKS, JOURNAL_BLOCK_IDX, COMMIT_REC_SIZE,
                  REC_HDR_SIZE] at *; omega))
    (by simp only [BLOCK_SIZE, JOURNAL_BLOCKS, JOURNAL_BLOCK_IDX, COMMIT_REC_SIZE,
                  REC_HDR_SIZE, U32] at *; omega)]
  simp only []
  have ht : get_u16 (fun i => if i < REC_HDR_SIZE then jbyte d (off + i) else zeroBuf i) 0
      = REC_COMMIT := by
    rw [get_u16_congr _ mk_commit_record 0 0, mk_commit_record_type]
    intro i hi
    have h1 : 0 + i < REC_HDR_SIZE := by simp only [REC_HDR_SIZE]; omega
    simp only [h1, if_true]
    exact hb _ (by simp only [COMMIT_REC_SIZE]; omega)
  have hs : get_u16 (fun i => if i < REC_HDR_SIZE then jbyte d (off + i) else zeroBuf i) 2
      = COMMIT_REC_SIZE := by
    rw [get_u16_congr _ mk_commit_record 2 2, mk_commit_record_size]
    intro i hi
    have h1 : 2 + i < REC_HDR_SIZE := by simp only [REC_HDR_SIZE]; omega
    simp only [h1, if_true]
    exact hb _ (by simp only [COMMIT_REC_SIZE]; omega)
  rw [ht, hs]
  have h1 : ¬ (REC_COMMIT = REC_DATA) := by decide
  have hgt : ¬ (off + COMMIT_REC_SIZE > JOURNAL_BLOCKS * BLOCK_SIZE) := by omega
  simp only [h1, hgt, if_true, if_false]

theorem length_replay_ge (rs : List Rec) : ∀ (d : Disk), d.length ≤ (replay d rs).length := by
  induction rs with
  | nil => intro d; exact Nat.le_refl _
  | cons r rs ih =>
    intro d
    cases r with
    | data b p =>
      refine Nat.le_trans ?_ (ih _)
      rw [length_pwrite_block]; omega
    | commit => exact ih d

/-- The replay loop on a journal that holds the records `rs` up to
`nbytes_used`: every data record is written home, every commit is counted. -/
theorem install_loop_records (used : Nat) (hcap : used ≤ JOURNAL_BLOCKS * BLOCK_SIZE) :
    ∀ (rs : List Rec) (fuel off txn : Nat) (d : Disk),
      JOURNAL_BLOCK_IDX + JOURNAL_BLOCKS ≤ d.length →
      Holds d off rs → off + total_size rs = used → TargetsHome rs → rs.length ≤ fuel →
      txn + commits rs < U32 →
      install_loop used fuel off txn d = some (.ok (txn + commits rs), replay d rs) := by
  intro rs
  induction rs with
  | nil =>
    intro fuel off txn d _ _ hoff _ _ _
    simp only [total_size, List.map_nil, List.sum_nil, Nat.add_zero] at hoff
    rw [install_loop_done _ _ _ _ _ (by omega)]
    rfl
  | cons r rs ih =>
    intro fuel off txn d hlen hh hoff ht hfuel htxn
    rw [total_size_cons] at hoff
    obtain ⟨hb, hrest⟩ := hh
    cases fuel with
    | zero => simp at hfuel
    | succ fuel =>
      have hpos := Rec.size_pos r
      cases r with
      | data b p =>
        obtain ⟨hhome, hbu, ht2⟩ := ht
        simp only [Rec.size] at hoff hb hrest hpos
        rw [install_loop_data used fuel off txn d b p hlen hb (by omega) (by omega) hbu]
        have hlen1 : JOURNAL_BLOCK_IDX + JOURNAL_BLOCKS ≤ (pwrite_block d b p.get).length := by
          rw [length_pwrite_block]; omega
        rw [ih fuel (off + DATA_REC_SIZE) txn _ hlen1
          (Holds_congr d _ (JOURNAL_BLOCKS * BLOCK_SIZE)
            (fun a ha => jbyte_pwrite_home d b _ a hhome ha) rs _ (by omega) hrest)
          (by omega) ht2 (by simpa using hfuel) htxn]
        rfl
      | commit =>
        simp only [Rec.size] at hoff hb hrest hpos
        simp only [commits] at htxn
        rw [install_loop_commit used fuel off txn d hlen hb (by omega) (by omega)]
        rw [Nat.mod_eq_of_lt (by omega)]
        rw [ih fuel (off + COMMIT_REC_SIZE) (txn + 1) d hlen hrest (by omega) ht
          (by simpa using hfuel) (by omega)]
        simp only [commits, replay]
        congr 3
        omega

theorem ofBuf_zeroBuf : Block.ofBuf zeroBuf 0 = zeroBlock := rfl

theorem getElem?_clear_journal_loop :
    ∀ (k i : Nat) (d : Disk) (j : Nat), JOURNAL_BLOCK_IDX + i + k ≤ d.length →
      (clear_journal_loop k i d)[j]? =
        if JOURNAL_BLOCK_IDX + i ≤ j ∧ j < JOURNAL_BLOCK_IDX + i + k then some zeroBlock
        else d[j]? := by
  intro k
  induction k with
  | zero =>
    intro i d j _
    have : ¬ (JOURNAL_BLOCK_IDX + i ≤ j ∧ j < JOURNAL_BLOCK_IDX + i + 0) := by omega
    simp only [clear_journal_loop, this, if_false]
  | succ k ih =>
    intro i d j hlen
    simp only [clear_journal_loop]
    have hl : (pwrite_block d (JOURNAL_BLOCK_IDX + i) zeroBuf).length = d.length :=
      length_pwrite_block_of_lt _ _ _ (by omega)
    rw [ih (i + 1) _ j (by rw [hl]; omega), getElem?_pwrite_block, ofBuf_zeroBuf]
    by_cases h1 : JOURNAL_BLOCK_IDX + (i + 1) ≤ j ∧ j < JOURNAL_BLOCK_IDX + (i + 1) + k
    · have h2 : JOURNAL_BLOCK_IDX + i ≤ j ∧ j < JOURNAL_BLOCK_IDX + i + (k + 1) := by omega
      simp only [h1, h2, and_self, if_true]
    · simp only [h1, if_false]
      by_cases h3 : j = JOURNAL_BLOCK_IDX + i
      · have h2 : JOURNAL_BLOCK_IDX + i ≤ j ∧ j < JOURNAL_BLOCK_IDX + i + (k + 1) := by omega
        simp only [h3, h2, and_self, if_true]
        simp
      · have h2 : ¬ (JOURNAL_BLOCK_IDX + i ≤ j ∧ j < JOURNAL_BLOCK_IDX + i + (k + 1)) := by omega
        simp only [h3, h2, if_false]
        by_cases h4 : j < d.length
        · simp only [h4, if_true]
        · have h5 : ¬ j < JOURNAL_BLOCK_IDX + i := by omega
          simp only [h4, h5, if_false]
          exact (List.getElem?_eq_none (by omega)).symm

theorem length_clear_journal_loop :
    ∀ (k i : Nat) (d : Disk), JOURNAL_BLOCK_IDX + i + k ≤ d.length →
      (clear_journal_loop k i d).length = d.length := by
  intro k
  induction k with
  | zero => intro i d _; rfl
  | succ k ih =>
    intro i d hlen
    simp only [clear_journal_loop]
    have hl : (pwrite_block d (JOURNAL_BLOCK_IDX + i) zeroBuf).length = d.length :=
      length_pwrite_block_of_lt _ _ _ (by omega)
    rw [ih (i + 1) _ (by rw [hl]; omega), hl]

/-- The block that `clear_journal` and `init_journal` write to the first
journal block. -/
theorem getElem?_clear_journal (d : Disk) (j : Nat)
    (hlen : JOURNAL_BLOCK_IDX + JOURNAL_BLOCKS ≤ d.length) :
    (clear_journal d)[j]? =
      if j = JOURNAL_BLOCK_IDX then
        some (Block.ofBuf (put_journal_header zeroBuf
          { magic := JOURNAL_MAGIC, nbytes_used := JH_SIZE }) 0)
      else if JOURNAL_BLOCK_IDX < j ∧ j < JOURNAL_BLOCK_IDX + JOURNAL_BLOCKS then some zeroBlock
      else d[j]? := by
  unfold clear_journal
  have hl : (pwrite_block d JOURNAL_BLOCK_IDX (put_journal_header zeroBuf
      { magic := JOURNAL_MAGIC, nbytes_used := JH_SIZE })).length = d.length :=
    length_pwrite_block_of_lt _ _ _ (by simp only [JOURNAL_BLOCKS] at hlen; omega)
  rw [getElem?_clear_journal_loop _ _ _ _ (by rw [hl]; simp only [JOURNAL_BLOCKS] at *; omega),
    getElem?_pwrite_block]
  by_cases h1 : j = JOURNAL_BLOCK_IDX
  · have : ¬ (JOURNAL_BLOCK_IDX + 1 ≤ j ∧ j < JOURNAL_BLOCK_IDX + 1 + (JOURNAL_BLOCKS - 1)) := by
      omega
    simp only [h1, this, if_true, if_false]
    simp
  · simp only [h1, if_false]
    by_cases h2 : JOURNAL_BLOCK_IDX < j ∧ j < JOURNAL_BLOCK_IDX + JOURNAL_BLOCKS
    · have : JOURNAL_BLOCK_IDX + 1 ≤ j ∧ j < JOURNAL_BLOCK_IDX + 1 + (JOURNAL_BLOCKS - 1) := by
        simp only [JOURNAL_BLOCKS] at *; omega
      simp only [h2, this, and_self, if_true]
    · have : ¬ (JOURNAL_BLOCK_IDX + 1 ≤ j ∧ j < JOURNAL_BLOCK_IDX + 1 + (JOURNAL_BLOCKS - 1)) := by
        simp only [JOURNAL_BLOCKS] at *; omega
      simp only [h2, this, if_false]
      by_cases h4 : j < d.length
      · simp only [h4, if_true]
      · have h5 : ¬ j < JOURNAL_BLOCK_IDX := by omega
        simp only [h4, h5, if_false]
        exact (List.getElem?_eq_none (by omega)).symm

theorem length_clear_journal_ge (d : Disk) :
    JOURNAL_BLOCK_IDX + JOURNAL_BLOCKS ≤ (clear_journal d).length := by
  unfold clear_journal
  have h1 : ∀ (k i : Nat) (e : Disk), JOURNAL_BLOCK_IDX + i ≤ e.length →
      JOURNAL_BLOCK_IDX + i + k ≤ (clear_journal_loop k i e).length := by
    intro k
    induction k with
    | zero => intro i e h; simpa [clear_journal_loop] using h
    | succ k ih =>
      intro i e h
      simp only [clear_journal_loop]
      have := ih (i + 1) (pwrite_block e (JOURNAL_BLOCK_IDX + i) zeroBuf)
        (by rw [length_pwrite_block]; omega)
      omega
  have := h1 (JOURNAL_BLOCKS - 1) 1 (pwrite_block d JOURNAL_BLOCK_IDX (put_journal_header zeroBuf
      { magic := JOURNAL_MAGIC, nbytes_used := JH_SIZE })) (by rw [length_pwrite_block]; omega)
  simp only [JOURNAL_BLOCKS] at *
  omega

/-- Bytes of the journal region after `clear_journal`, whatever the image was. -/
theorem dbyte_clear_journal (d : Disk) (x : Nat) :
    dbyte (clear_journal d) x =
      if JOURNAL_BLOCK_IDX * BLOCK_SIZE ≤ x ∧ x < (JOURNAL_BLOCK_IDX + JOURNAL_BLOCKS) * BLOCK_SIZE
      then put_journal_header zeroBuf { magic := JOURNAL_MAGIC, nbytes_used := JH_SIZE }
        (x - JOURNAL_BLOCK_IDX * BLOCK_SIZE)
      else dbyte d x := by
  unfold clear_journal
  have h1 : ∀ (k i : Nat) (e : Disk) (y : Nat),
      dbyte (clear_journal_loop k i e) y =
        if JOURNAL_BLOCK_IDX + i ≤ y / BLOCK_SIZE ∧ y / BLOCK_SIZE < JOURNAL_BLOCK_IDX + i + k
        then 0 else dbyte e y := by
    intro k
    induction k with
    | zero =>
      intro i e y
      have : ¬ (JOURNAL_BLOCK_IDX + i ≤ y / BLOCK_SIZE ∧ y / BLOCK_SIZE < JOURNAL_BLOCK_IDX + i + 0) := by
        omega
      simp only [clear_journal_loop, this, if_false]
    | succ k ih =>
      intro i e y
      simp only [clear_journal_loop]
      rw [ih, dbyte_pwrite_block]
      by_cases h1 : JOURNAL_BLOCK_IDX + (i + 1) ≤ y / BLOCK_SIZE ∧
          y / BLOCK_SIZE < JOURNAL_BLOCK_IDX + (i + 1) + k
      · have h2 : JOURNAL_BLOCK_IDX + i ≤ y / BLOCK_SIZE ∧
            y / BLOCK_SIZE < JOURNAL_BLOCK_IDX + i + (k + 1) := by omega
        simp only [h1, h2, and_self, if_true]
      · simp only [h1, if_false]
        by_cases h3 : y / BLOCK_SIZE = JOURNAL_BLOCK_IDX + i
        · have h2 : JOURNAL_BLOCK_IDX + i ≤ y / BLOCK_SIZE ∧
              y / BLOCK_SIZE < JOURNAL_BLOCK_IDX + i + (k + 1) := by omega
          rw [if_pos h3, if_pos h2]
          rfl
        · have h2 : ¬ (JOURNAL_BLOCK_IDX + i ≤ y / BLOCK_SIZE ∧
              y / BLOCK_SIZE < JOURNAL_BLOCK_IDX + i + (k + 1)) := by omega
          simp only [h3, h2, if_false]
  rw [h1, dbyte_pwrite_block]
  by_cases h2 : JOURNAL_BLOCK_IDX + 1 ≤ x / BLOCK_SIZE ∧
      x / BLOCK_SIZE < JOURNAL_BLOCK_IDX + 1 + (JOURNAL_BLOCKS - 1)
  · have h3 : JOURNAL_BLOCK_IDX * BLOCK_SIZE ≤ x ∧
        x < (JOURNAL_BLOCK_IDX + JOURNAL_BLOCKS) * BLOCK_SIZE := by
      simp only [BLOCK_SIZE, JOURNAL_BLOCK_IDX, JOURNAL_BLOCKS] at *; omega
    simp only [h2, h3, and_self, if_true]
    rw [put_journal_header_ge _ _ _ (by
      simp only [BLOCK_SIZE, JOURNAL_BLOCK_IDX, JOURNAL_BLOCKS, JH_SIZE] at *; omega)]
    rfl
  · simp only [h2, if_false]
    by_cases h3 : x / BLOCK_SIZE = JOURNAL_BLOCK_IDX
    · have h4 : JOURNAL_BLOCK_IDX * BLOCK_SIZE ≤ x ∧
          x < (JOURNAL_BLOCK_IDX + JOURNAL_BLOCKS) * BLOCK_SIZE := by
        simp only [BLOCK_SIZE, JOURNAL_BLOCK_IDX, JOURNAL_BLOCKS] at *; omega
      simp only [h3, h4, and_self, if_true]
      apply congrArg
      simp only [BLOCK_SIZE, JOURNAL_BLOCK_IDX] at *; omega
    · have h4 : ¬ (JOURNAL_BLOCK_IDX * BLOCK_SIZE ≤ x ∧
          x < (JOURNAL_BLOCK_IDX + JOURNAL_BLOCKS) * BLOCK_SIZE) := by
        simp only [BLOCK_SIZE, JOURNAL_BLOCK_IDX, JOURNAL_BLOCKS] at *; omega
      simp only [h3, h4, if_false]

theorem cmd_install_of_loop (fuel : Nat) (d : Disk) (h0 : 1 < d.length)
    (hsb : sb_magic d = FS_MAGIC) (hjm : jmagic d = JOURNAL_MAGIC) :
    cmd_install fuel d =
      match install_loop (jused d) fuel JH_SIZE 0 d with
      | none => none
      | some (.error e, d1) => some (.error e, d1)
      | some (.ok txn_count, d1) => some (.ok txn_count, clear_journal d1) := by
  unfold cmd_install
  rw [pread_block_of_lt d 0 (by omega), read_journal_header_of_lt d h0]
  simp only [sb_magic_eq, hsb, hjm, ne_eq, not_true_eq_false, if_false]

theorem replay_append (rs : List Rec) :
    ∀ (ss : List Rec) (d : Disk), replay d (rs ++ ss) = replay (replay d rs) ss := by
  induction rs with
  | nil => intro ss d; rfl
  | cons r rs ih =>
    intro ss d
    cases r with
    | data b p => exact ih ss _
    | commit => exact ih ss d

theorem getElem?_replay (rs : List Rec) :
    ∀ (d : Disk) (j : Nat),
      (∀ p, last_payload rs j = some p → (replay d rs)[j]? = some p) ∧
      (last_payload rs j = none → j < d.length → (replay d rs)[j]? = d[j]?) := by
  induction rs with
  | nil =>
    intro d j
    exact ⟨fun p h => by simp [last_payload] at h, fun _ _ => rfl⟩
  | cons r rs ih =>
    intro d j
    cases r with
    | commit => exact ih d j
    | data b q =>
      have hih := ih (pwrite_block d b q.get) j
      constructor
      · intro p hp
        simp only [last_payload] at hp
        cases hl : last_payload rs j with
        | some p1 =>
          rw [hl] at hp
          simp only [Option.some.injEq] at hp
          subst hp
          exact hih.1 p1 hl
        | none =>
          rw [hl] at hp
          simp only [] at hp
          by_cases hbj : b = j
          · simp only [hbj, if_true, Option.some.injEq] at hp
            subst hp
            subst hbj
            show (replay (pwrite_block d b q.get) rs)[b]? = some q
            rw [hih.2 hl (by rw [length_pwrite_block]; omega), getElem?_pwrite_block]
            simp only [if_true, Block.ofBuf_get]
          · simp only [hbj, if_false] at hp
            cases hp
      · intro hn hj
        simp only [last_payload] at hn
        cases hl : last_payload rs j with
        | some p1 => rw [hl] at hn; cases hn
        | none =>
          rw [hl] at hn
          simp only [] at hn
          have hbj : ¬ b = j := by
            intro e; simp only [e, if_true] at hn; cases hn
          show (replay (pwrite_block d b q.get) rs)[j]? = d[j]?
          rw [hih.2 hl (by rw [length_pwrite_block]; omega), getElem?_pwrite_block]
          have : ¬ j = b := fun e => hbj e.symm
          simp only [this, hj, if_true, if_false]

theorem last_payload_append_some (rs ss : List Rec) (j : Nat) (p : Block)
    (h : last_payload ss j = some p) : last_payload (rs ++ ss) j = some p := by
  induction rs with
  | nil => exact h
  | cons r rs ih =>
    cases r with
    | commit => exact ih
    | data b q =>
      show (match last_payload (rs ++ ss) j with
        | some q1 => some q1
        | none => if b = j then some q else none) = some p
      rw [ih]

theorem commits_append (rs ss : List Rec) : commits (rs ++ ss) = commits rs + commits ss := by
  induction rs with
  | nil => simp [commits]
  | cons r rs ih =>
    cases r with
    | commit =>
      show commits (rs ++ ss) + 1 = commits rs + 1 + commits ss
      rw [ih]; omega
    | data b q => exact ih

theorem commits_map_data (t : List (Nat × Block)) :
    commits (t.map (fun w => Rec.data w.1 w.2)) = 0 := by
  induction t with
  | nil => rfl
  | cons w t ih => simpa [commits] using ih

theorem commits_log_records (txns : List (List (Nat × Block))) :
    commits (log_records txns) = txns.length := by
  induction txns with
  | nil => rfl
  | cons t ts ih =>
    simp only [log_records, txn_records, commits_append, commits_map_data, ih, commits,
      List.length_cons]
    omega

theorem commits_le_total_size (rs : List Rec) : commits rs * COMMIT_REC_SIZE ≤ total_size rs := by
  induction rs with
  | nil => simp [commits, total_size]
  | cons r rs ih =>
    rw [total_size_cons]
    cases r with
    | commit => simp only [commits, Rec.size, COMMIT_REC_SIZE] at *; omega
    | data b q => simp only [commits, Rec.size, COMMIT_REC_SIZE, DATA_REC_SIZE] at *; omega

/-- Installing a journal that holds the records `rs` and nothing else. -/
theorem cmd_install_records (d : Disk) (rs : List Rec) (fuel : Nat)
    (hsb : sb_magic d = FS_MAGIC) (hjm : jmagic d = JOURNAL_MAGIC)
    (hlen : JOURNAL_BLOCK_IDX + JOURNAL_BLOCKS ≤ d.length)
    (hcap : jused d ≤ JOURNAL_BLOCKS * BLOCK_SIZE)
    (hused : jused d = JH_SIZE + total_size rs)
    (hholds : Holds d JH_SIZE rs) (htargets : TargetsHome rs) (hfuel : rs.length ≤ fuel) :
    cmd_install fuel d = some (.ok (commits rs), clear_journal (replay d rs)) := by
  rw [cmd_install_of_loop fuel d (by simp only [JOURNAL_BLOCKS] at hlen; omega) hsb hjm]
  have hc := commits_le_total_size rs
  rw [install_loop_records (jused d) hcap rs fuel JH_SIZE 0 d hlen hholds hused.symm htargets hfuel
    (by simp only [BLOCK_SIZE, JOURNAL_BLOCKS, COMMIT_REC_SIZE, U32, JH_SIZE] at *; omega)]
  simp only [Nat.zero_add]

/-- Home blocks after an install of the records `rs`. -/
theorem getElem?_installed (d : Disk) (rs : List Rec) (j : Nat)
    (hlen : JOURNAL_BLOCK_IDX + JOURNAL_BLOCKS ≤ d.length)
    (hj : j < JOURNAL_BLOCK_IDX ∨ JOURNAL_BLOCK_IDX + JOURNAL_BLOCKS ≤ j) :
    (∀ p, last_payload rs j = some p → (clear_journal (replay d rs))[j]? = some p) ∧
    (last_payload rs j = none → j < d.length → (clear_journal (replay d rs))[j]? = d[j]?) := by
  have hl := length_replay_ge rs d
  have hcl : (clear_journal (replay d rs))[j]? = (replay d rs)[j]? := by
    rw [getElem?_clear_journal _ _ (by omega)]
    have h1 : ¬ j = JOURNAL_BLOCK_IDX := by
      simp only [JOURNAL_BLOCK_IDX, JOURNAL_BLOCKS] at *; omega
    have h2 : ¬ (JOURNAL_BLOCK_IDX < j ∧ j < JOURNAL_BLOCK_IDX + JOURNAL_BLOCKS) := by omega
    simp only [h1, h2, if_false]
  rw [hcl]
  exact getElem?_replay rs d j

theorem jbyte_clear_journal (d : Disk) (a : Nat) (ha : a < JOURNAL_BLOCKS * BLOCK_SIZE) :
    jbyte (clear_journal d) a =
      put_journal_header zeroBuf { magic := JOURNAL_MAGIC, nbytes_used := JH_SIZE } a := by
  unfold jbyte
  rw [dbyte_clear_journal]
  have h : JOURNAL_BLOCK_IDX * BLOCK_SIZE ≤ JOURNAL_BLOCK_IDX * BLOCK_SIZE + a ∧
      JOURNAL_BLOCK_IDX * BLOCK_SIZE + a < (JOURNAL_BLOCK_IDX + JOURNAL_BLOCKS) * BLOCK_SIZE := by
    simp only [BLOCK_SIZE, JOURNAL_BLOCK_IDX, JOURNAL_BLOCKS] at *; omega
  simp only [h, and_self, if_true]
  apply congrArg
  omega

theorem cmd_install_ok_clear (d d1 : Disk) (fuel n : Nat)
    (hret : cmd_install fuel d = some (.ok n, d1)) : ∃ e, d1 = clear_journal e := by
  unfold cmd_install at hret
  cases h0 : pread_block d 0 with
  | none => rw [h0] at hret; cases hret
  | some sb =>
    rw [h0] at hret
    simp only [] at hret
    by_cases hm : get_u32 sb 0 ≠ FS_MAGIC
    · rw [if_pos hm] at hret; cases hret
    · rw [if_neg hm] at hret
      cases h1 : read_journal_header d with
      | none => rw [h1] at hret; cases hret
      | some jh =>
        rw [h1] at hret
        simp only [] at hret
        by_cases hj : jh.magic ≠ JOURNAL_MAGIC
        · rw [if_pos hj] at hret; cases hret
        · rw [if_neg hj] at hret
          cases h2 : install_loop jh.nbytes_used fuel JH_SIZE 0 d with
          | none => rw [h2] at hret; cases hret
          | some r =>
            rw [h2] at hret
            obtain ⟨res, e⟩ := r
            cases res with
            | error err => cases hret
            | ok t =>
              simp only [Option.some.injEq, Prod.mk.injEq, Except.ok.injEq] at hret
              exact ⟨e, hret.2.symm⟩

theorem jmagic_clear_journal (e : Disk) : jmagic (clear_journal e) = JOURNAL_MAGIC := by
  unfold jmagic
  rw [get_u32_congr (jbyte (clear_journal e)) (put_journal_header zeroBuf
      { magic := JOURNAL_MAGIC, nbytes_used := JH_SIZE }) 0 0
      (fun i hi => by
        simp only [Nat.zero_add]
        exact jbyte_clear_journal e i (by simp only [BLOCK_SIZE, JOURNAL_BLOCKS]; omega)),
      get_magic_put_journal_header]
  show JOURNAL_MAGIC % U32 = JOURNAL_MAGIC
  decide

theorem jused_clear_journal (e : Disk) : jused (clear_journal e) = JH_SIZE := by
  unfold jused
  rw [get_u32_congr (jbyte (clear_journal e)) (put_journal_header zeroBuf
      { magic := JOURNAL_MAGIC, nbytes_used := JH_SIZE }) 4 4
      (fun i hi => jbyte_clear_journal e _ (by simp only [BLOCK_SIZE, JOURNAL_BLOCKS]; omega)),
      get_used_put_journal_header]
  show JH_SIZE % U32 = JH_SIZE
  decide

/-- Claim C6 (install on well-formed logs): when the journal bytes in
`[8, nbytes_used)` are the records of a sequence of complete transactions (each
a run of data records of declared size 4104, then a commit record of declared
size 4) whose data records name blocks outside the journal region, install
returns the number of transactions, which is the number of commit records, and
leaves the image obtained by writing each payload to its destination block in
journal order and then clearing the journal: every home block named by a data
record holds the payload of the last record naming it, and every other home
block of the image is unchanged. -/
theorem install_complete_transactions (d : Disk) (txns : List (List (Nat × Block)))
    (fuel : Nat)
    (hsb : sb_magic d = FS_MAGIC) (hjm : jmagic d = JOURNAL_MAGIC)
    (hlen : JOURNAL_BLOCK_IDX + JOURNAL_BLOCKS ≤ d.length)
    (hcap : jused d ≤ JOURNAL_BLOCKS * BLOCK_SIZE)
    (hused : jused d = JH_SIZE + total_size (log_records txns))
    (hholds : Holds d JH_SIZE (log_records txns))
    (htargets : TargetsHome (log_records txns))
    (hfuel : (log_records txns).length ≤ fuel) :
    cmd_install fuel d =
        some (.ok txns.length, clear_journal (replay d (log_records txns))) ∧
      commits (log_records txns) = txns.length ∧
      ∀ j, (j < JOURNAL_BLOCK_IDX ∨ JOURNAL_BLOCK_IDX + JOURNAL_BLOCKS ≤ j) →
        (∀ p, last_payload (log_records txns) j = some p →
          (clear_journal (replay d (log_records txns)))[j]? = some p) ∧
        (last_payload (log_records txns) j = none → j < d.length →
          (clear_journal (replay d (log_records txns)))[j]? = d[j]?) := by
  refine ⟨?_, commits_log_records txns, fun j hj => getElem?_installed d _ j hlen hj⟩
  rw [cmd_install_records d _ fuel hsb hjm hlen hcap hused hholds htargets hfuel,
    commits_log_records]

/-- Claim C9 (install clears the journal): whenever install returns its
count, which it does on images with valid superblock and journal magics only,
whatever the journal held and however the scan ended, the sixteen journal
blocks are in the image afterwards, the header is `(JOURNAL_MAGIC, 8)` and
every other byte of the journal region is zero. -/
theorem install_clears_journal (d d1 : Disk) (fuel n : Nat)
    (hret : cmd_install fuel d = some (.ok n, d1)) :
    JOURNAL_BLOCK_IDX + JOURNAL_BLOCKS ≤ d1.length ∧
      jmagic d1 = JOURNAL_MAGIC ∧ jused d1 = JH_SIZE ∧
      ∀ a, JH_SIZE ≤ a → a < JOURNAL_BLOCKS * BLOCK_SIZE → jbyte d1 a = 0 := by
  obtain ⟨e, he⟩ := cmd_install_ok_clear d d1 fuel n hret
  rw [he]
  refine ⟨length_clear_journal_ge e, jmagic_clear_journal e, jused_clear_journal e, ?_⟩
  intro a h1 h2
  rw [jbyte_clear_journal e a h2, put_journal_header_ge _ _ _ h1]
  rfl

/-- Claim C10, as amended (uncommitted data records are installed): when the
journal bytes in `[8, nbytes_used)` are the records of complete transactions
followed by one or more data records without a commit, all data records naming
blocks outside the journal region, install writes the payloads of these
trailing records to their destination blocks as well, on top of the committed
ones, and returns the number of complete transactions only. -/
theorem install_uncommitted_tail (d : Disk) (txns : List (List (Nat × Block)))
    (tail : List (Nat × Block)) (fuel : Nat)
    (_htail : tail ≠ [])
    (hsb : sb_magic d = FS_MAGIC) (hjm : jmagic d = JOURNAL_MAGIC)
    (hlen : JOURNAL_BLOCK_IDX + JOURNAL_BLOCKS ≤ d.length)
    (hcap : jused d ≤ JOURNAL_BLOCKS * BLOCK_SIZE)
    (hused : jused d =
      JH_SIZE + total_size (log_records txns ++ tail.map (fun w => Rec.data w.1 w.2)))
    (hholds : Holds d JH_SIZE (log_records txns ++ tail.map (fun w => Rec.data w.1 w.2)))
    (htargets : TargetsHome (log_records txns ++ tail.map (fun w => Rec.data w.1 w.2)))
    (hfuel : (log_records txns ++ tail.map (fun w => Rec.data w.1 w.2)).length ≤ fuel) :
    cmd_install fuel d =
        some (.ok txns.length,
          clear_journal (replay (replay d (log_records txns))
            (tail.map (fun w => Rec.data w.1 w.2)))) ∧
      ∀ j p, (j < JOURNAL_BLOCK_IDX ∨ JOURNAL_BLOCK_IDX + JOURNAL_BLOCKS ≤ j) →
        last_payload (tail.map (fun w => Rec.data w.1 w.2)) j = some p →
        (clear_journal (replay (replay d (log_records txns))
          (tail.map (fun w => Rec.data w.1 w.2))))[j]? = some p := by
  constructor
  · rw [cmd_install_records d _ fuel hsb hjm hlen hcap hused hholds htargets hfuel,
      commits_append, commits_log_records, commits_map_data, replay_append]
    rfl
  · intro j p hj hp
    rw [← replay_append]
    exact (getElem?_installed d _ j hlen hj).1 p (last_payload_append_some _ _ j p hp)

theorem length_init_journal (d : Disk) (h : 1 < d.length) : (init_journal d).length = d.length :=
  length_pwrite_block_of_lt _ _ _ h

theorem length_create_opened (d : Disk) (h : 1 < d.length) : (create_opened d).length = d.length := by
  unfold create_opened
  split
  · exact length_init_journal d h
  · rfl

theorem read_journal_header_create_opened (d : Disk) (h : 1 < d.length) :
    (if jmagic d ≠ JOURNAL_MAGIC then read_journal_header (create_opened d)
      else some { magic := jmagic d, nbytes_used := jused d }) =
    some { magic := jmagic (create_opened d), nbytes_used := jused (create_opened d) } := by
  by_cases hm : jmagic d ≠ JOURNAL_MAGIC
  · rw [if_pos hm, read_journal_header_of_lt _ (by rw [length_create_opened d h]; exact h)]
  · rw [if_neg hm]
    unfold create_opened
    rw [if_neg hm]

theorem int_of_not_neg (v : Int) (h : ¬ v < 0) : v = Int.ofNat v.toNat := by
  have : 0 ≤ v := by omega
  exact (Int.toNat_of_nonneg this).symm

/-- The first part of `cmd_create` succeeds exactly under `StageOk`, and then
computes `staged_of`. -/
theorem create_stage_inv (filename : List Byte) (now : Nat) (d d1 : Disk) (s : Staged)
    (h : create_stage filename now d = (.ok s, d1)) :
    ∃ n slot, StageOk d n slot ∧ s = staged_of filename now (create_opened d) n slot ∧
      d1 = create_opened d := by
  unfold create_stage at h
  cases h0 : pread_block d 0 with
  | none => rw [h0] at h; cases h
  | some sb =>
  rw [h0] at h
  simp only [] at h
  obtain ⟨hl0, hsb⟩ := (pread_block_eq_some_iff d 0 sb).1 h0
  by_cases hm : get_u32 sb 0 ≠ FS_MAGIC
  · rw [if_pos hm] at h; cases h
  rw [if_neg hm] at h
  by_cases hl1 : 1 < d.length
  swap
  · rw [read_journal_header_of_ge d (by omega)] at h; cases h
  rw [read_journal_header_of_lt d hl1] at h
  simp only [] at h
  have hop : (if jmagic d ≠ JOURNAL_MAGIC then init_journal d else d) = create_opened d := rfl
  rw [hop, read_journal_header_create_opened d hl1] at h
  simp only [] at h
  have hle := length_create_opened d hl1
  generalize he : create_opened d = e at h hle
  cases h17 : pread_block e INODE_BMAP_IDX with
  | none => rw [h17] at h; cases h
  | some inode_bitmap =>
  rw [h17] at h
  simp only [] at h
  obtain ⟨hl17, hbm⟩ := (pread_block_eq_some_iff _ _ _).1 h17
  cases h18 : pread_block e DATA_BMAP_IDX with
  | none => rw [h18] at h; cases h
  | some data_bitmap =>
  rw [h18] at h
  simp only [] at h
  obtain ⟨hl18, _⟩ := (pread_block_eq_some_iff _ _ _).1 h18
  cases hfi : find_free_inode inode_bitmap (get_u32 sb 12) with
  | error err => rw [hfi] at h; cases h
  | ok v =>
  rw [hfi] at h
  simp only [] at h
  by_cases hv : v < 0
  · rw [if_pos hv] at h; cases h
  rw [if_neg hv] at h
  cases h19 : pread_block e INODE_START_IDX with
  | none => rw [h19] at h; cases h
  | some root_inode =>
  rw [h19] at h
  simp only [] at h
  obtain ⟨hl19, hri⟩ := (pread_block_eq_some_iff _ _ _).1 h19
  by_cases hty : get_u16 root_inode 0 ≠ 2
  · rw [if_pos hty] at h; cases h
  rw [if_neg hty] at h
  cases hrd : pread_block e (get_u32 root_inode 8) with
  | none => rw [hrd] at h; cases h
  | some root_data =>
  rw [hrd] at h
  simp only [] at h
  obtain ⟨hlrd, hrdd⟩ := (pread_block_eq_some_iff _ _ _).1 hrd
  cases hfd : find_free_dirent root_data (get_u32 root_inode 4 / DIRENT_SIZE) with
  | error err => rw [hfd] at h; cases h
  | ok w =>
  rw [hfd] at h
  simp only [] at h
  by_cases hw : w < 0
  · rw [if_pos hw] at h; cases h
  rw [if_neg hw] at h
  by_cases hroom : (JOURNAL_BLOCKS * BLOCK_SIZE + U32 - jused e) % U32 <
      DATA_REC_SIZE + DATA_REC_SIZE + DATA_REC_SIZE + COMMIT_REC_SIZE
  · rw [if_pos hroom] at h; cases h
  rw [if_neg hroom] at h
  cases h20 : pread_block e (INODE_START_IDX + 1) with
  | none => rw [h20] at h; cases h
  | some it1 =>
  rw [h20] at h
  simp only [] at h
  obtain ⟨hl20, hit1⟩ := (pread_block_eq_some_iff _ _ _).1 h20
  by_cases hob : INODE_BLOCKS * BLOCK_SIZE / INODE_SIZE ≤ v.toNat
  · rw [if_pos hob] at h; cases h
  rw [if_neg hob] at h
  simp only [Prod.mk.injEq, Except.ok.injEq] at h
  obtain ⟨hs, hd1⟩ := h
  have hv2 := int_of_not_neg v hv
  have hw2 := int_of_not_neg w hw
  simp only [not_not] at hty hm
  refine ⟨v.toNat, w.toNat, ?_, ?_, hd1.symm⟩
  · subst hbm hri hrdd hsb he
    exact { sb := by rw [← sb_magic_eq]; exact hm
            len := by simp only [DATA_START_IDX, INODE_START_IDX, DATA_BMAP_IDX, INODE_BMAP_IDX,
                          JOURNAL_BLOCK_IDX, JOURNAL_BLOCKS, INODE_BLOCKS] at *; omega
            inum := by rw [hfi, ← hv2]
            inum_lt := by omega
            root_dir := hty
            root_blk := by omega
            slot := by rw [hfd, ← hw2]
            room := hroom }
  · subst hbm hri hrdd hit1 he
    rw [← hs]
    rfl

theorem jmagic_lt (d : Disk) : jmagic d < U32 := get_u32_lt _ _

/-- One append when the capacity check passes, the blocks under the record are
in the image and `nbytes_used + size` does not wrap: the journal bytes past the
header. -/
theorem journal_append_at (d : Disk) (data : Buf) (size : Nat) (h1 : 1 < d.length)
    (hcap : ¬ ((JOURNAL_BLOCKS * BLOCK_SIZE + U32 - jused d) % U32 < size))
    (hex : BLOCK_SIZE + jused d + size ≤ d.length * BLOCK_SIZE)
    (hw : jused d + size < U32) :
    ∃ d1, journal_append d data size = (.ok (Int.ofNat (jused d)), d1) ∧
      d1.length = d.length ∧ jmagic d1 = jmagic d ∧ jused d1 = jused d + size ∧
      (∀ a, JH_SIZE ≤ a → jbyte d1 a =
        if jused d ≤ a ∧ a < jused d + size then data (a - jused d) else jbyte d a) ∧
      (∀ x, x < BLOCK_SIZE → dbyte d1 x = dbyte d x) := by
  obtain ⟨d1, he, hl, hb⟩ := journal_append_spec d data size h1 hcap (Or.inr hex)
  have hj : ∀ a, a < JH_SIZE → jbyte d1 a = put_journal_header zeroBuf
      { magic := jmagic d, nbytes_used := (jused d + size) % U32 } a := by
    intro a ha
    unfold jbyte
    rw [hb]
    have : BLOCK_SIZE ≤ JOURNAL_BLOCK_IDX * BLOCK_SIZE + a ∧
        JOURNAL_BLOCK_IDX * BLOCK_SIZE + a < BLOCK_SIZE + JH_SIZE := by
      simp only [BLOCK_SIZE, JOURNAL_BLOCK_IDX, JH_SIZE] at *; omega
    simp only [this, and_self, if_true]
    apply congrArg
    simp only [BLOCK_SIZE, JOURNAL_BLOCK_IDX]; omega
  have hused : jused d1 = jused d + size := by
    unfold jused
    rw [get_u32_congr (jbyte d1) (put_journal_header zeroBuf
      { magic := jmagic d, nbytes_used := (jused d + size) % U32 }) 4 4
      (fun i hi => hj _ (by simp only [JH_SIZE]; omega)), get_used_put_journal_header]
    show (get_u32 (jbyte d) 4 + size) % U32 % U32 = get_u32 (jbyte d) 4 + size
    have : get_u32 (jbyte d) 4 = jused d := rfl
    rw [this, Nat.mod_mod, Nat.mod_eq_of_lt hw]
  have hmagic : jmagic d1 = jmagic d := by
    have hm := jmagic_lt d
    unfold jmagic at hm ⊢
    rw [get_u32_congr (jbyte d1) (put_journal_header zeroBuf
      { magic := get_u32 (jbyte d) 0, nbytes_used := (jused d + size) % U32 }) 0 0
      (fun i hi => hj _ (by simp only [JH_SIZE]; omega)), get_magic_put_journal_header]
    exact Nat.mod_eq_of_lt hm
  refine ⟨d1, he, hl, hmagic, hused, ?_, ?_⟩
  · intro a ha
    unfold jbyte
    rw [hb]
    have h1 : ¬ (BLOCK_SIZE ≤ JOURNAL_BLOCK_IDX * BLOCK_SIZE + a ∧
        JOURNAL_BLOCK_IDX * BLOCK_SIZE + a < BLOCK_SIZE + JH_SIZE) := by
      simp only [BLOCK_SIZE, JOURNAL_BLOCK_IDX, JH_SIZE] at *; omega
    simp only [h1, if_false]
    by_cases h2 : jused d ≤ a ∧ a < jused d + size
    · have h3 : BLOCK_SIZE + jused d ≤ JOURNAL_BLOCK_IDX * BLOCK_SIZE + a ∧
          JOURNAL_BLOCK_IDX * BLOCK_SIZE + a < BLOCK_SIZE + jused d + size := by
        simp only [BLOCK_SIZE, JOURNAL_BLOCK_IDX] at *; omega
      simp only [h2, h3, and_self, if_true]
      apply congrArg
      simp only [BLOCK_SIZE, JOURNAL_BLOCK_IDX]; omega
    · have h3 : ¬ (BLOCK_SIZE + jused d ≤ JOURNAL_BLOCK_IDX * BLOCK_SIZE + a ∧
          JOURNAL_BLOCK_IDX * BLOCK_SIZE + a < BLOCK_SIZE + jused d + size) := by
        simp only [BLOCK_SIZE, JOURNAL_BLOCK_IDX] at *; omega
      simp only [h2, h3, if_false]
  · intro x hx
    rw [hb]
    have h1 : ¬ (BLOCK_SIZE ≤ x ∧ x < BLOCK_SIZE + JH_SIZE) := by omega
    have h3 : ¬ (BLOCK_SIZE + jused d ≤ x ∧ x < BLOCK_SIZE + jused d + size) := by omega
    simp only [h1, h3, if_false]

theorem append_or_fail_at (d : Disk) (data : Buf) (size : Nat) (h1 : 1 < d.length)
    (hcap : ¬ ((JOURNAL_BLOCKS * BLOCK_SIZE + U32 - jused d) % U32 < size))
    (hex : BLOCK_SIZE + jused d + size ≤ d.length * BLOCK_SIZE)
    (hw : jused d + size < U32) :
    ∃ d1, append_or_fail d data size = (.ok (), d1) ∧
      d1.length = d.length ∧ jmagic d1 = jmagic d ∧ jused d1 = jused d + size ∧
      (∀ a, JH_SIZE ≤ a → jbyte d1 a =
        if jused d ≤ a ∧ a < jused d + size then data (a - jused d) else jbyte d a) ∧
      (∀ x, x < BLOCK_SIZE → dbyte d1 x = dbyte d x) := by
  obtain ⟨d1, he, hrest⟩ := journal_append_at d data size h1 hcap hex hw
  refine ⟨d1, ?_, hrest⟩
  unfold append_or_fail
  rw [he]
  have : ¬ (Int.ofNat (jused d) < 0) := by simp
  simp only [this, if_false]

theorem mk_data_record_ofBuf (b : Nat) (p : Buf) (i : Nat) :
    mk_data_record b (Block.ofBuf p 0).get i = mk_data_record b p i := by
  unfold mk_data_record
  simp only [memcpy]
  by_cases h : 8 ≤ i ∧ i < 8 + BLOCK_SIZE
  · simp only [h, and_self, if_true]
    rw [Block.get_ofBuf _ _ _ (by omega)]
    simp only [Nat.zero_add]
  · simp only [h, if_false]

/-- The four appends of `cmd_create` at `nbytes_used = u ≥ 8`, when there is
room for the transaction and the blocks under it are in the image. -/
theorem create_log_at (s : Staged) (e : Disk) (h1 : 1 < e.length)
    (hlo : JH_SIZE ≤ jused e)
    (hroom : ¬ ((JOURNAL_BLOCKS * BLOCK_SIZE + U32 - jused e) % U32 <
      DATA_REC_SIZE + DATA_REC_SIZE + DATA_REC_SIZE + COMMIT_REC_SIZE))
    (hex : BLOCK_SIZE + jused e + total_size (create_records s) ≤ e.length * BLOCK_SIZE)
    (hw : jused e + total_size (create_records s) < U32) :
    ∃ d1, create_log s e = (.ok s.new_inum, d1) ∧
      d1.length = e.length ∧ jmagic d1 = jmagic e ∧
      jused d1 = jused e + total_size (create_records s) ∧
      Holds d1 (jused e) (create_records s) ∧
      (∀ a, JH_SIZE ≤ a → (a < jused e ∨ jused e + total_size (create_records s) ≤ a) →
        jbyte d1 a = jbyte e a) ∧
      (∀ x, x < BLOCK_SIZE → dbyte d1 x = dbyte e x) := by
  have hts : total_size (create_records s) = 12316 := by
    simp only [total_size, create_records, List.map, List.sum_cons, List.sum_nil, Rec.size]
    decide
  rw [hts] at hex hw ⊢
  simp only [BLOCK_SIZE, JOURNAL_BLOCKS, U32, DATA_REC_SIZE, COMMIT_REC_SIZE, JH_SIZE] at hroom hex hw hlo
  obtain ⟨d1, e1, l1, m1, u1, b1, f1⟩ := append_or_fail_at e
    (mk_data_record INODE_BMAP_IDX s.new_inode_bitmap) DATA_REC_SIZE h1
    (by simp only [BLOCK_SIZE, JOURNAL_BLOCKS, U32, DATA_REC_SIZE]; omega)
    (by simp only [BLOCK_SIZE, DATA_REC_SIZE]; omega)
    (by simp only [BLOCK_SIZE, DATA_REC_SIZE, U32]; omega)
  simp only [DATA_REC_SIZE, BLOCK_SIZE] at u1
  obtain ⟨d2, e2, l2, m2, u2, b2, f2⟩ := append_or_fail_at d1
    (mk_data_record (INODE_START_IDX + s.inode_block_idx) s.inode_block_to_log) DATA_REC_SIZE
    (by omega)
    (by simp only [BLOCK_SIZE, JOURNAL_BLOCKS, U32, DATA_REC_SIZE]; omega)
    (by simp only [BLOCK_SIZE, DATA_REC_SIZE]; omega)
    (by simp only [BLOCK_SIZE, DATA_REC_SIZE, U32]; omega)
  simp only [DATA_REC_SIZE, BLOCK_SIZE] at u2
  obtain ⟨d3, e3, l3, m3, u3, b3, f3⟩ := append_or_fail_at d2
    (mk_data_record s.root_direct0 s.new_root_data) DATA_REC_SIZE
    (by omega)
    (by simp only [BLOCK_SIZE, JOURNAL_BLOCKS, U32, DATA_REC_SIZE]; omega)
    (by simp only [BLOCK_SIZE, DATA_REC_SIZE]; omega)
    (by simp only [BLOCK_SIZE, DATA_REC_SIZE, U32]; omega)
  simp only [DATA_REC_SIZE, BLOCK_SIZE] at u3
  obtain ⟨d4, e4, l4, m4, u4, b4, f4⟩ := append_or_fail_at d3
    mk_commit_record COMMIT_REC_SIZE
    (by omega)
    (by simp only [BLOCK_SIZE, JOURNAL_BLOCKS, U32, COMMIT_REC_SIZE]; omega)
    (by simp only [BLOCK_SIZE, COMMIT_REC_SIZE]; omega)
    (by simp only [COMMIT_REC_SIZE, U32]; omega)
  simp only [COMMIT_REC_SIZE] at u4
  simp only [DATA_REC_SIZE, COMMIT_REC_SIZE, BLOCK_SIZE, JH_SIZE] at b1 b2 b3 b4
  have hj : ∀ a, 8 ≤ a → jbyte d4 a =
      if jused e ≤ a ∧ a < jused e + 4104 then
        mk_data_record INODE_BMAP_IDX s.new_inode_bitmap (a - jused e)
      else if jused e + 4104 ≤ a ∧ a < jused e + 8208 then
        mk_data_record (INODE_START_IDX + s.inode_block_idx) s.inode_block_to_log
          (a - (jused e + 4104))
      else if jused e + 8208 ≤ a ∧ a < jused e + 12312 then
        mk_data_record s.root_direct0 s.new_root_data (a - (jused e + 8208))
      else if jused e + 12312 ≤ a ∧ a < jused e + 12316 then
        mk_commit_record (a - (jused e + 12312))
      else jbyte e a := by
    intro a ha
    rw [b4 a ha, b3 a ha, b2 a ha, b1 a ha, u3, u2, u1]
    by_cases c1 : jused e ≤ a ∧ a < jused e + 4104
    · have c2 : ¬ (jused e + 4104 ≤ a ∧ a < jused e + 4104 + 4104) := by omega
      have c3 : ¬ (jused e + 4104 + 4104 ≤ a ∧ a < jused e + 4104 + 4104 + 4104) := by omega
      have c4 : ¬ (jused e + 4104 + 4104 + 4104 ≤ a ∧ a < jused e + 4104 + 4104 + 4104 + 4) := by
        omega
      simp only [c1, c2, c3, c4, and_self, if_true, if_false]
    · by_cases c2 : jused e + 4104 ≤ a ∧ a < jused e + 4104 + 4104
      · have c3 : ¬ (jused e + 4104 + 4104 ≤ a ∧ a < jused e + 4104 + 4104 + 4104) := by omega
        have c4 : ¬ (jused e + 4104 + 4104 + 4104 ≤ a ∧ a < jused e + 4104 + 4104 + 4104 + 4) := by
          omega
        have c5 : jused e + 4104 ≤ a ∧ a < jused e + 8208 := by omega
        simp only [c1, c2, c3, c4, c5, and_self, if_true, if_false]
      · by_cases c3 : jused e + 4104 + 4104 ≤ a ∧ a < jused e + 4104 + 4104 + 4104
        · have c4 : ¬ (jused e + 4104 + 4104 + 4104 ≤ a ∧ a < jused e + 4104 + 4104 + 4104 + 4) := by
            omega
          have c5 : ¬ (jused e + 4104 ≤ a ∧ a < jused e + 8208) := by omega
          have c6 : jused e + 8208 ≤ a ∧ a < jused e + 12312 := by omega
          simp only [c1, c2, c3, c4, c5, c6, and_self, if_true, if_false]
        · have c5 : ¬ (jused e + 4104 ≤ a ∧ a < jused e + 8208) := by omega
          have c6 : ¬ (jused e + 8208 ≤ a ∧ a < jused e + 12312) := by omega
          by_cases c4 : jused e + 4104 + 4104 + 4104 ≤ a ∧ a < jused e + 4104 + 4104 + 4104 + 4
          · have c7 : jused e + 12312 ≤ a ∧ a < jused e + 12316 := by omega
            simp only [c1, c2, c3, c4, c5, c6, c7, and_self, if_true, if_false]
          · have c7 : ¬ (jused e + 12312 ≤ a ∧ a < jused e + 12316) := by omega
            simp only [c1, c2, c3, c4, c5, c6, c7, if_false]
  refine ⟨d4, ?_, by omega, by rw [m4, m3, m2, m1], by omega, ?_, ?_, ?_⟩
  · unfold create_log
    rw [e1]
    simp only []
    rw [e2]
    simp only []
    rw [e3]
    simp only []
    rw [e4]
  · refine ⟨?_, ?_, ?_, ?_, trivial⟩
    · intro i hi
      simp only [Rec.size, DATA_REC_SIZE, BLOCK_SIZE] at hi
      rw [hj _ (by omega)]
      have c1 : jused e ≤ jused e + i ∧ jused e + i < jused e + 4104 := by omega
      simp only [c1, and_self, if_true, Rec.bytes, mk_data_record_ofBuf]
      apply congrArg
      omega
    · intro i hi
      simp only [Rec.size, DATA_REC_SIZE, BLOCK_SIZE] at hi ⊢
      rw [hj _ (by omega)]
      have c1 : ¬ (jused e ≤ jused e + 4104 + i ∧ jused e + 4104 + i < jused e + 4104) := by omega
      have c2 : jused e + 4104 ≤ jused e + 4104 + i ∧ jused e + 4104 + i < jused e + 8208 := by
        omega
      simp only [c1, c2, and_self, if_true, if_false, Rec.bytes, mk_data_record_ofBuf]
      apply congrArg
      omega
    · intro i hi
      simp only [Rec.size, DATA_REC_SIZE, BLOCK_SIZE] at hi ⊢
      rw [hj _ (by omega)]
      have c1 : ¬ (jused e ≤ jused e + 4104 + 4104 + i ∧ jused e + 4104 + 4104 + i < jused e + 4104) := by
        omega
      have c2 : ¬ (jused e + 4104 ≤ jused e + 4104 + 4104 + i ∧
          jused e + 4104 + 4104 + i < jused e + 8208) := by omega
      have c3 : jused e + 8208 ≤ jused e + 4104 + 4104 + i ∧
          jused e + 4104 + 4104 + i < jused e + 12312 := by omega
      simp only [c1, c2, c3, and_self, if_true, if_false, Rec.bytes, mk_data_record_ofBuf]
      apply congrArg
      omega
    · intro i hi
      simp only [Rec.size, DATA_REC_SIZE, COMMIT_REC_SIZE, BLOCK_SIZE] at hi ⊢
      rw [hj _ (by omega)]
      have c1 : ¬ (jused e ≤ jused e + 4104 + 4104 + 4104 + i ∧
          jused e + 4104 + 4104 + 4104 + i < jused e + 4104) := by omega
      have c2 : ¬ (jused e + 4104 ≤ jused e + 4104 + 4104 + 4104 + i ∧
          jused e + 4104 + 4104 + 4104 + i < jused e + 8208) := by omega
      have c3 : ¬ (jused e + 8208 ≤ jused e + 4104 + 4104 + 4104 + i ∧
          jused e + 4104 + 4104 + 4104 + i < jused e + 12312) := by omega
      have c4 : jused e + 12312 ≤ jused e + 4104 + 4104 + 4104 + i ∧
          jused e + 4104 + 4104 + 4104 + i < jused e + 12316 := by omega
      simp only [c1, c2, c3, c4, and_self, if_true, if_false, Rec.bytes]
      apply congrArg
      omega
  · intro a ha hout
    simp only [JH_SIZE] at ha
    rw [hj a ha]
    have c1 : ¬ (jused e ≤ a ∧ a < jused e + 4104) := by omega
    have c2 : ¬ (jused e + 4104 ≤ a ∧ a < jused e + 8208) := by omega
    have c3 : ¬ (jused e + 8208 ≤ a ∧ a < jused e + 12312) := by omega
    have c4 : ¬ (jused e + 12312 ≤ a ∧ a < jused e + 12316) := by omega
    simp only [c1, c2, c3, c4, if_false]
  · intro x hx
    rw [f4 x hx, f3 x hx, f2 x hx, f1 x hx]

/-- The first part of `cmd_create` under `StageOk`. -/
theorem create_stage_of_ok (filename : List Byte) (now : Nat) (d : Disk) (n slot : Nat)
    (hok : StageOk d n slot) :
    create_stage filename now d =
      (.ok (staged_of filename now (create_opened d) n slot), create_opened d) := by
  obtain ⟨hsb, hlen, hinum, hlt, hdir, hblk, hslot, hroom⟩ := hok
  simp only [DATA_START_IDX, INODE_START_IDX, DATA_BMAP_IDX, INODE_BMAP_IDX, JOURNAL_BLOCK_IDX,
    JOURNAL_BLOCKS, INODE_BLOCKS] at hlen
  have hl1 : 1 < d.length := by omega
  have hle := length_create_opened d hl1
  unfold create_stage
  rw [pread_block_of_lt d 0 (by omega)]
  simp only []
  rw [sb_magic_eq, if_neg (by rw [hsb]; exact fun h => h rfl), read_journal_header_of_lt d hl1]
  simp only []
  have hop : (if jmagic d ≠ JOURNAL_MAGIC then init_journal d else d) = create_opened d := rfl
  rw [hop, read_journal_header_create_opened d hl1]
  simp only []
  rw [pread_block_of_lt _ INODE_BMAP_IDX (by rw [hle]; show 17 < d.length; omega)]
  simp only []
  rw [pread_block_of_lt _ DATA_BMAP_IDX (by rw [hle]; show 18 < d.length; omega)]
  simp only []
  rw [hinum]
  simp only []
  rw [if_neg (by simp)]
  rw [pread_block_of_lt _ INODE_START_IDX (by rw [hle]; show 19 < d.length; omega)]
  simp only []
  rw [if_neg (by rw [hdir]; exact fun h => h rfl)]
  rw [pread_block_of_lt _ _ (by rw [hle]; exact hblk)]
  simp only []
  rw [hslot]
  simp only []
  rw [if_neg (by simp), if_neg hroom]
  rw [pread_block_of_lt _ (INODE_START_IDX + 1) (by rw [hle]; show 20 < d.length; omega)]
  simp only []
  rw [if_neg (by
    show ¬ (INODE_BLOCKS * BLOCK_SIZE / INODE_SIZE ≤ n)
    omega)]
  rfl

theorem create_log_ok_inum (s : Staged) (e d1 : Disk) (n : Nat)
    (h : create_log s e = (.ok n, d1)) : n = s.new_inum := by
  unfold create_log at h
  split at h
  · cases h
  · split at h
    · cases h
    · split at h
      · cases h
      · split at h
        · cases h
        · simp only [Prod.mk.injEq, Except.ok.injEq] at h
          exact h.1.symm

/-- A successful `cmd_create` splits into its two parts. -/
theorem cmd_create_inv (filename : List Byte) (now : Nat) (d d1 : Disk) (n : Nat)
    (h : cmd_create filename now d = (.ok n, d1)) :
    ∃ slot, StageOk d n slot ∧
      create_stage filename now d =
        (.ok (staged_of filename now (create_opened d) n slot), create_opened d) ∧
      create_log (staged_of filename now (create_opened d) n slot) (create_opened d) =
        (.ok n, d1) := by
  unfold cmd_create at h
  cases hs : create_stage filename now d with
  | mk r e =>
    rw [hs] at h
    cases r with
    | error err => cases h
    | ok s =>
      simp only [] at h
      obtain ⟨n1, slot, hok, hs1, he⟩ := create_stage_inv filename now d e s hs
      have hn := create_log_ok_inum s e d1 n h
      have hn1 : n = n1 := by rw [hn, hs1]; rfl
      rw [← hn1] at hok hs1
      refine ⟨slot, hok, ?_, ?_⟩
      · rw [← hs1, ← he]
      · rw [← hs1, ← he]; exact h

theorem dbyte_init_journal (d : Disk) (x : Nat) :
    dbyte (init_journal d) x =
      if x / BLOCK_SIZE = JOURNAL_BLOCK_IDX then
        put_journal_header zeroBuf { magic := JOURNAL_MAGIC, nbytes_used := JH_SIZE }
          (x % BLOCK_SIZE)
      else dbyte d x := by
  unfold init_journal
  rw [dbyte_pwrite_block]

theorem jbyte_init_journal (d : Disk) (a : Nat) (ha : a < BLOCK_SIZE) :
    jbyte (init_journal d) a =
      put_journal_header zeroBuf { magic := JOURNAL_MAGIC, nbytes_used := JH_SIZE } a := by
  unfold jbyte
  rw [dbyte_init_journal]
  have h1 : (JOURNAL_BLOCK_IDX * BLOCK_SIZE + a) / BLOCK_SIZE = JOURNAL_BLOCK_IDX := by
    simp only [BLOCK_SIZE, JOURNAL_BLOCK_IDX] at *; omega
  have h2 : (JOURNAL_BLOCK_IDX * BLOCK_SIZE + a) % BLOCK_SIZE = a := by
    simp only [BLOCK_SIZE, JOURNAL_BLOCK_IDX] at *; omega
  rw [if_pos h1, h2]

theorem jmagic_init_journal (d : Disk) : jmagic (init_journal d) = JOURNAL_MAGIC := by
  unfold jmagic
  rw [get_u32_congr (jbyte (init_journal d)) (put_journal_header zeroBuf
      { magic := JOURNAL_MAGIC, nbytes_used := JH_SIZE }) 0 0
      (fun i hi => by
        simp only [Nat.zero_add]
        exact jbyte_init_journal d i (by simp only [BLOCK_SIZE]; omega)),
      get_magic_put_journal_header]
  show JOURNAL_MAGIC % U32 = JOURNAL_MAGIC
  decide

theorem jused_init_journal (d : Disk) : jused (init_journal d) = JH_SIZE := by
  unfold jused
  rw [get_u32_congr (jbyte (init_journal d)) (put_journal_header zeroBuf
      { magic := JOURNAL_MAGIC, nbytes_used := JH_SIZE }) 4 4
      (fun i hi => jbyte_init_journal d _ (by simp only [BLOCK_SIZE]; omega)),
      get_used_put_journal_header]
  show JH_SIZE % U32 = JH_SIZE
  decide

theorem jmagic_create_opened (d : Disk) : jmagic (create_opened d) = JOURNAL_MAGIC := by
  unfold create_opened
  by_cases h : jmagic d ≠ JOURNAL_MAGIC
  · rw [if_pos h]; exact jmagic_init_journal d
  · rw [if_neg h]; exact not_not.1 h

theorem jused_create_opened (d : Disk) :
    jused (create_opened d) = if jmagic d = JOURNAL_MAGIC then jused d else JH_SIZE := by
  unfold create_opened
  by_cases h : jmagic d = JOURNAL_MAGIC
  · rw [if_neg (not_not.2 h), if_pos h]
  · rw [if_pos h, if_neg h]; exact jused_init_journal d

theorem dbyte_create_opened (d : Disk) (x : Nat)
    (hx : x / BLOCK_SIZE ≠ JOURNAL_BLOCK_IDX) : dbyte (create_opened d) x = dbyte d x := by
  unfold create_opened
  split
  · rw [dbyte_init_journal, if_neg hx]
  · rfl

theorem blockBuf_create_opened (d : Disk) (j : Nat) (hj : j ≠ JOURNAL_BLOCK_IDX) :
    blockBuf (create_opened d) j = blockBuf d j := by
  funext i
  unfold blockBuf
  by_cases hi : i < BLOCK_SIZE
  · simp only [hi, if_true]
    apply dbyte_create_opened
    simp only [BLOCK_SIZE, JOURNAL_BLOCK_IDX] at *
    omega
  · simp only [hi, if_false]

/-- Two images of the same length agree on a block when they agree on its bytes. -/
theorem getElem?_eq_of_dbyte (d e : Disk) (j : Nat) (hlen : d.length = e.length)
    (h : ∀ i, i < BLOCK_SIZE → dbyte d (j * BLOCK_SIZE + i) = dbyte e (j * BLOCK_SIZE + i)) :
    d[j]? = e[j]? := by
  by_cases hj : j < d.length
  · have hj2 : j < e.length := by omega
    rw [List.getElem?_eq_getElem hj, List.getElem?_eq_getElem hj2]
    congr 1
    apply Block.ext_get
    intro i hi
    have := h i hi
    unfold dbyte at this
    have h1 : (j * BLOCK_SIZE + i) / BLOCK_SIZE = j := by simp only [BLOCK_SIZE] at *; omega
    have h2 : (j * BLOCK_SIZE + i) % BLOCK_SIZE = i := by simp only [BLOCK_SIZE] at *; omega
    rw [h1, h2, List.getElem?_eq_getElem hj, List.getElem?_eq_getElem hj2] at this
    exact this
  · rw [List.getElem?_eq_none (by omega), List.getElem?_eq_none (by omega)]

/-- What `cmd_create` does when it succeeds on a journal that was
uninitialised or Active: the transaction is in the journal at the old
`nbytes_used` and nothing else has changed outside the header. -/
theorem cmd_create_active (filename : List Byte) (now : Nat) (d d1 : Disk) (n : Nat)
    (h : cmd_create filename now d = (.ok n, d1))
    (hact : jmagic d = JOURNAL_MAGIC →
      JH_SIZE ≤ jused d ∧ jused d ≤ JOURNAL_BLOCKS * BLOCK_SIZE) :
    ∃ slot, StageOk d n slot ∧
      create_stage filename now d =
        (.ok (staged_of filename now (create_opened d) n slot), create_opened d) ∧
      d1.length = d.length ∧ jmagic d1 = JOURNAL_MAGIC ∧
      JH_SIZE ≤ jused (create_opened d) ∧
      jused (create_opened d) + 12316 ≤ JOURNAL_BLOCKS * BLOCK_SIZE ∧
      jused d1 = jused (create_opened d) + 12316 ∧
      Holds d1 (jused (create_opened d))
        (create_records (staged_of filename now (create_opened d) n slot)) ∧
      (∀ a, JH_SIZE ≤ a → (a < jused (create_opened d) ∨ jused (create_opened d) + 12316 ≤ a) →
        jbyte d1 a = jbyte (create_opened d) a) ∧
      (∀ x, x < BLOCK_SIZE → dbyte d1 x = dbyte d x) := by
  obtain ⟨slot, hok, hstage, hlog⟩ := cmd_create_inv filename now d d1 n h
  have hlen := hok.len
  simp only [DATA_START_IDX, INODE_START_IDX, DATA_BMAP_IDX, INODE_BMAP_IDX, JOURNAL_BLOCK_IDX,
    JOURNAL_BLOCKS, INODE_BLOCKS] at hlen
  have hl1 : 1 < d.length := by omega
  have hle := length_create_opened d hl1
  have hroom := hok.room
  have hu := jused_create_opened d
  have hlo : JH_SIZE ≤ jused (create_opened d) ∧
      jused (create_opened d) ≤ JOURNAL_BLOCKS * BLOCK_SIZE := by
    rw [hu]
    by_cases hm : jmagic d = JOURNAL_MAGIC
    · rw [if_pos hm]; exact hact hm
    · rw [if_neg hm]; decide
  have hts : total_size (create_records (staged_of filename now (create_opened d) n slot))
      = 12316 := by
    simp only [total_size, create_records, List.map, List.sum_cons, List.sum_nil, Rec.size]
    decide
  have hfit : jused (create_opened d) + 12316 ≤ JOURNAL_BLOCKS * BLOCK_SIZE := by
    simp only [BLOCK_SIZE, JOURNAL_BLOCKS, U32, DATA_REC_SIZE, COMMIT_REC_SIZE, JH_SIZE] at *
    omega
  obtain ⟨d2, hlog2, hl2, hm2, hu2, hh2, hf2, hz2⟩ := create_log_at
    (staged_of filename now (create_opened d) n slot) (create_opened d) (by omega) hlo.1 hroom
    (by rw [hts]; simp only [BLOCK_SIZE, JOURNAL_BLOCKS, JH_SIZE] at *; omega)
    (by rw [hts]; simp only [BLOCK_SIZE, JOURNAL_BLOCKS, JH_SIZE, U32] at *; omega)
  rw [hlog] at hlog2
  simp only [Prod.mk.injEq, true_and] at hlog2
  rw [← hlog2.2] at hl2 hm2 hu2 hh2 hf2 hz2
  rw [hts] at hu2 hf2
  refine ⟨slot, hok, hstage, by omega, by rw [hm2]; exact jmagic_create_opened d, hlo.1, hfit,
    hu2, hh2, hf2, ?_⟩
  intro x hx
  rw [hz2 x hx]
  apply dbyte_create_opened
  simp only [BLOCK_SIZE, JOURNAL_BLOCK_IDX] at *
  omega

theorem length_sample_image (jb bm it rd : Buf) : (sample_image jb bm it rd).length = TOTAL_BLOCKS :=
  length_mkDisk _ _

theorem dbyte_sample_image_zero (jb bm it rd : Buf) (x : Nat) (hx : x < BLOCK_SIZE) :
    dbyte (sample_image jb bm it rd) x = sample_sb x := by
  unfold sample_image
  rw [dbyte_mkDisk]
  have h1 : x / BLOCK_SIZE = 0 := by simp only [BLOCK_SIZE] at *; omega
  have h2 : x % BLOCK_SIZE = x := by simp only [BLOCK_SIZE] at *; omega
  rw [h1, h2]
  simp

theorem jbyte_sample_image (jb bm it rd : Buf) (a : Nat) (ha : a < JOURNAL_BLOCKS * BLOCK_SIZE) :
    jbyte (sample_image jb bm it rd) a = jb a := by
  unfold jbyte sample_image
  rw [dbyte_mkDisk]
  have h1 : (JOURNAL_BLOCK_IDX * BLOCK_SIZE + a) / BLOCK_SIZE < TOTAL_BLOCKS := by
    simp only [BLOCK_SIZE, JOURNAL_BLOCK_IDX, JOURNAL_BLOCKS] at *
    show _ < 85
    omega
  have h2 : ¬ ((JOURNAL_BLOCK_IDX * BLOCK_SIZE + a) / BLOCK_SIZE = 0) := by
    simp only [BLOCK_SIZE, JOURNAL_BLOCK_IDX, JOURNAL_BLOCKS] at *; omega
  have h3 : (JOURNAL_BLOCK_IDX * BLOCK_SIZE + a) / BLOCK_SIZE < INODE_BMAP_IDX := by
    simp only [BLOCK_SIZE, JOURNAL_BLOCK_IDX, JOURNAL_BLOCKS] at *
    show _ < 17
    omega
  simp only [h1, h2, h3, if_true, if_false]
  apply congrArg
  simp only [BLOCK_SIZE, JOURNAL_BLOCK_IDX, JOURNAL_BLOCKS] at *
  omega

theorem blockBuf_sample_image (jb bm it rd : Buf) (j : Nat) (hj : INODE_BMAP_IDX ≤ j)
    (hj2 : j < TOTAL_BLOCKS) (i : Nat) (hi : i < BLOCK_SIZE) :
    blockBuf (sample_image jb bm it rd) j i =
      (if j = INODE_BMAP_IDX then bm
        else if j = DATA_BMAP_IDX then put_u8 zeroBuf 0 1
        else if j = INODE_START_IDX then it
        else if j = DATA_START_IDX then rd
        else zeroBuf) i := by
  rw [blockBuf_of_lt _ _ _ hi]
  unfold sample_image
  rw [dbyte_mkDisk]
  have h1 : (j * BLOCK_SIZE + i) / BLOCK_SIZE = j := by simp only [BLOCK_SIZE] at *; omega
  have h2 : (j * BLOCK_SIZE + i) % BLOCK_SIZE = i := by simp only [BLOCK_SIZE] at *; omega
  rw [h1, h2]
  have h3 : ¬ j = 0 := by
    have : 17 ≤ j := hj
    omega
  have h4 : ¬ j < INODE_BMAP_IDX := by omega
  simp only [hj2, h3, h4, if_true, if_false]

theorem sb_magic_sample_image (jb bm it rd : Buf) : sb_magic (sample_image jb bm it rd) = FS_MAGIC := by
  unfold sb_magic
  rw [get_u32_congr _ sample_sb 0 0 (fun i hi => by
    simp only [Nat.zero_add]
    exact dbyte_sample_image_zero jb bm it rd i (by simp only [BLOCK_SIZE]; omega))]
  decide

theorem inode_count_sample_image (jb bm it rd : Buf) :
    get_u32 (blockBuf (sample_image jb bm it rd) 0) 12 = 64 := by
  rw [get_u32_congr _ sample_sb 12 12 (fun i hi => by
    rw [blockBuf_zero _ _ (by simp only [BLOCK_SIZE]; omega)]
    exact dbyte_sample_image_zero jb bm it rd _ (by simp only [BLOCK_SIZE]; omega))]
  decide

theorem jmagic_sample_image (jb bm it rd : Buf) :
    jmagic (sample_image jb bm it rd) = get_u32 jb 0 :=
  get_u32_congr _ _ _ _ (fun i hi =>
    jbyte_sample_image jb bm it rd _ (by simp only [BLOCK_SIZE, JOURNAL_BLOCKS]; omega))

theorem jused_sample_image (jb bm it rd : Buf) :
    jused (sample_image jb bm it rd) = get_u32 jb 4 :=
  get_u32_congr _ _ _ _ (fun i hi =>
    jbyte_sample_image jb bm it rd _ (by simp only [BLOCK_SIZE, JOURNAL_BLOCKS]; omega))

theorem find_free_inode_loop_congr (b c : Buf) (h : ∀ i, i < BLOCK_SIZE → b i = c i) :
    ∀ (k i : Nat), find_free_inode_loop b k i = find_free_inode_loop c k i := by
  intro k
  induction k with
  | zero => intro i; rfl
  | succ k ih =>
    intro i
    simp only [find_free_inode_loop]
    by_cases hg : BLOCK_SIZE ≤ i / 8
    · simp only [hg, if_true]
    · simp only [hg, if_false, bitmap_test]
      have hb := h (i / 8) (by omega)
      simp only [hb, ih]

theorem find_free_inode_congr (b c : Buf) (h : ∀ i, i < BLOCK_SIZE → b i = c i) (k : Nat) :
    find_free_inode b k = find_free_inode c k :=
  find_free_inode_loop_congr b c h _ _

theorem find_free_dirent_loop_congr (b c : Buf) (h : ∀ i, i < BLOCK_SIZE → b i = c i) :
    ∀ (k i : Nat), find_free_dirent_loop b k i = find_free_dirent_loop c k i := by
  intro k
  induction k with
  | zero => intro i; rfl
  | succ k ih =>
    intro i
    simp only [find_free_dirent_loop]
    by_cases hg : BLOCK_SIZE / DIRENT_SIZE ≤ i
    · simp only [hg, if_true]
    · simp only [hg, if_false]
      have hi : i < 128 := by
        have : BLOCK_SIZE / DIRENT_SIZE = 128 := by decide
        omega
      rw [get_u32_congr b c (i * DIRENT_SIZE) (i * DIRENT_SIZE)
        (fun t ht => h _ (by simp only [BLOCK_SIZE, DIRENT_SIZE, NAME_LEN]; omega)), ih]

theorem find_free_dirent_congr (b c : Buf) (h : ∀ i, i < BLOCK_SIZE → b i = c i) (k : Nat) :
    find_free_dirent b k = find_free_dirent c k := by
  unfold find_free_dirent
  rw [find_free_dirent_loop_congr b c h]

/-- The first part of `cmd_create` goes through on a sample image with a valid
journal magic as soon as the searches succeed on its bitmap and root directory. -/
theorem stageOk_sample_image (jb bm it rd : Buf) (n slot : Nat)
    (hm : get_u32 jb 0 = JOURNAL_MAGIC)
    (hn : find_free_inode bm 64 = .ok (Int.ofNat n)) (hlt : n < 64)
    (hdir : get_u16 it 0 = 2) (hblk : get_u32 it 8 = DATA_START_IDX)
    (hslot : find_free_dirent rd (get_u32 it 4 / DIRENT_SIZE) = .ok (Int.ofNat slot))
    (hroom : ¬ ((JOURNAL_BLOCKS * BLOCK_SIZE + U32 - get_u32 jb 4) % U32 <
      DATA_REC_SIZE + DATA_REC_SIZE + DATA_REC_SIZE + COMMIT_REC_SIZE)) :
    create_opened (sample_image jb bm it rd) = sample_image jb bm it rd ∧
      StageOk (sample_image jb bm it rd) n slot := by
  have hop : create_opened (sample_image jb bm it rd) = sample_image jb bm it rd := by
    unfold create_opened
    rw [if_neg (by rw [jmagic_sample_image, hm]; exact fun h => h rfl)]
  refine ⟨hop, ?_⟩
  have h19 : ∀ i, i < BLOCK_SIZE → blockBuf (sample_image jb bm it rd) INODE_START_IDX i = it i :=
    fun i hi => blockBuf_sample_image jb bm it rd INODE_START_IDX (by decide) (by decide) i hi
  have h17 : ∀ i, i < BLOCK_SIZE → blockBuf (sample_image jb bm it rd) INODE_BMAP_IDX i = bm i :=
    fun i hi => blockBuf_sample_image jb bm it rd INODE_BMAP_IDX (by decide) (by decide) i hi
  have h21 : ∀ i, i < BLOCK_SIZE → blockBuf (sample_image jb bm it rd) DATA_START_IDX i = rd i :=
    fun i hi => blockBuf_sample_image jb bm it rd DATA_START_IDX (by decide) (by decide) i hi
  have e8 : get_u32 (blockBuf (sample_image jb bm it rd) INODE_START_IDX) 8 = DATA_START_IDX := by
    rw [get_u32_congr _ it 8 8 (fun i hi => h19 _ (by simp only [BLOCK_SIZE]; omega)), hblk]
  have e4 : get_u32 (blockBuf (sample_image jb bm it rd) INODE_START_IDX) 4 = get_u32 it 4 :=
    get_u32_congr _ it 4 4 (fun i hi => h19 _ (by simp only [BLOCK_SIZE]; omega))
  exact {
    sb := sb_magic_sample_image jb bm it rd
    len := by rw [length_sample_image]; decide
    inum := by
      rw [hop, inode_count_sample_image, find_free_inode_congr _ bm h17, hn]
    inum_lt := by
      show n < 64
      exact hlt
    root_dir := by
      rw [hop, get_u16_congr _ it 0 0 (fun i hi => by
        simp only [Nat.zero_add]; exact h19 _ (by simp only [BLOCK_SIZE]; omega)), hdir]
    root_blk := by
      rw [hop, e8, length_sample_image]; decide
    slot := by
      rw [hop, e8, e4, find_free_dirent_congr _ rd h21, hslot]
    room := by
      rw [hop, jused_sample_image]; exact hroom }

theorem total_size_create_records (s : Staged) : total_size (create_records s) = 12316 := by
  simp only [total_size, create_records, List.map, List.sum_cons, List.sum_nil, Rec.size]
  decide

/-- The whole of `cmd_create` under `StageOk`, at `nbytes_used = u ≥ 8`, when
the blocks under the transaction are in the image. -/
theorem cmd_create_at (filename : List Byte) (now : Nat) (d : Disk) (n slot : Nat)
    (hok : StageOk d n slot) (hlo : JH_SIZE ≤ jused (create_opened d))
    (hex : BLOCK_SIZE + jused (create_opened d) + 12316 ≤ d.length * BLOCK_SIZE)
    (hw : jused (create_opened d) + 12316 < U32) :
    ∃ d1, cmd_create filename now d = (.ok n, d1) ∧ d1.length = d.length ∧
      jused d1 = jused (create_opened d) + 12316 ∧
      Holds d1 (jused (create_opened d))
        (create_records (staged_of filename now (create_opened d) n slot)) ∧
      (∀ a, JH_SIZE ≤ a → (a < jused (create_opened d) ∨ jused (create_opened d) + 12316 ≤ a) →
        jbyte d1 a = jbyte (create_opened d) a) := by
  have hlen := hok.len
  simp only [DATA_START_IDX, INODE_START_IDX, DATA_BMAP_IDX, INODE_BMAP_IDX, JOURNAL_BLOCK_IDX,
    JOURNAL_BLOCKS, INODE_BLOCKS] at hlen
  have hl1 : 1 < d.length := by omega
  have hle := length_create_opened d hl1
  have hts := total_size_create_records (staged_of filename now (create_opened d) n slot)
  obtain ⟨d2, hlog2, hl2, _, hu2, hh2, hf2, _⟩ := create_log_at
    (staged_of filename now (create_opened d) n slot) (create_opened d) (by omega) hlo hok.room
    (by rw [hts, hle]; exact hex) (by rw [hts]; exact hw)
  rw [hts] at hu2 hf2
  refine ⟨d2, ?_, by omega, hu2, hh2, hf2⟩
  unfold cmd_create
  rw [create_stage_of_ok filename now d n slot hok]
  exact hlog2

/-- Claim C7, as amended (transaction layout written by create): when create
succeeds on an image whose journal header either has no valid magic (the
journal is then initialised, `u = 8`) or is Active with `nbytes_used = u`,
`8 ≤ u ≤ 65536`, the journal bytes `[u, u + 12316)` are, in this order, a data
record for block 17 with the updated inode bitmap, a data record for block
`19 + (n * 128) / 4096` with the updated inode-table block, a data record for
block `root.direct[0]` with the updated root directory block, and a commit
record, and the header has `nbytes_used = u + 12316`. -/
theorem create_transaction_layout (filename : List Byte) (now : Nat) (d e d1 : Disk)
    (s : Staged) (n : Nat)
    (hstage : create_stage filename now d = (.ok s, e))
    (hcreate : cmd_create filename now d = (.ok n, d1))
    (hact : jmagic d = JOURNAL_MAGIC →
      JH_SIZE ≤ jused d ∧ jused d ≤ JOURNAL_BLOCKS * BLOCK_SIZE) :
    Holds d1 (if jmagic d = JOURNAL_MAGIC then jused d else JH_SIZE)
        [Rec.data INODE_BMAP_IDX (Block.ofBuf s.new_inode_bitmap 0),
         Rec.data (INODE_START_IDX + n * INODE_SIZE / BLOCK_SIZE)
           (Block.ofBuf s.inode_block_to_log 0),
         Rec.data s.root_direct0 (Block.ofBuf s.new_root_data 0),
         Rec.commit] ∧
      jmagic d1 = JOURNAL_MAGIC ∧
      jused d1 = (if jmagic d = JOURNAL_MAGIC then jused d else JH_SIZE) + 12316 ∧
      s.new_inum = n ∧
      s.new_inode_bitmap = bitmap_set (blockBuf d INODE_BMAP_IDX) n := by
  obtain ⟨slot, hok, hstage2, _, hm1, _, _, hu1, hh1, _, _⟩ :=
    cmd_create_active filename now d d1 n hcreate hact
  rw [hstage] at hstage2
  simp only [Prod.mk.injEq, Except.ok.injEq] at hstage2
  obtain ⟨hs, he⟩ := hstage2
  rw [← hs, jused_create_opened] at hh1
  rw [jused_create_opened] at hu1
  have hlt := hok.inum_lt
  have hidx : s.inode_block_idx = n * INODE_SIZE / BLOCK_SIZE := by
    rw [hs]
    show n * INODE_SIZE % U32 / BLOCK_SIZE = n * INODE_SIZE / BLOCK_SIZE
    rw [Nat.mod_eq_of_lt]
    simp only [INODE_BLOCKS, BLOCK_SIZE, INODE_SIZE, U32] at *
    omega
  refine ⟨?_, hm1, hu1, by rw [hs]; rfl, ?_⟩
  · rw [← hidx]; exact hh1
  · rw [hs]
    show bitmap_set (blockBuf (create_opened d) INODE_BMAP_IDX) n = _
    rw [blockBuf_create_opened d INODE_BMAP_IDX (by decide)]

/-- On a journal that was uninitialised or Active, a successful create leaves
every block outside the journal region as it was. -/
theorem cmd_create_home_unchanged (filename : List Byte) (now : Nat) (d d1 : Disk) (n : Nat)
    (hcreate : cmd_create filename now d = (.ok n, d1))
    (hact : jmagic d = JOURNAL_MAGIC →
      JH_SIZE ≤ jused d ∧ jused d ≤ JOURNAL_BLOCKS * BLOCK_SIZE)
    (j : Nat) (hj : j < JOURNAL_BLOCK_IDX ∨ JOURNAL_BLOCK_IDX + JOURNAL_BLOCKS ≤ j) :
    d1[j]? = d[j]? := by
  obtain ⟨slot, hok, _, hl1, _, hlo, hfit, _, _, hf1, hz1⟩ :=
    cmd_create_active filename now d d1 n hcreate hact
  apply getElem?_eq_of_dbyte d1 d j hl1
  intro i hi
  rcases hj with hj | hj
  · have : j = 0 := by simp only [JOURNAL_BLOCK_IDX] at hj; omega
    subst this
    exact hz1 _ (by omega)
  · have e1 : j * BLOCK_SIZE + i = JOURNAL_BLOCK_IDX * BLOCK_SIZE + ((j - 1) * BLOCK_SIZE + i) := by
      simp only [BLOCK_SIZE, JOURNAL_BLOCK_IDX, JOURNAL_BLOCKS] at *; omega
    rw [e1]
    show jbyte d1 _ = dbyte d _
    rw [hf1 _ (by simp only [BLOCK_SIZE, JOURNAL_BLOCK_IDX, JOURNAL_BLOCKS, JH_SIZE] at *; omega)
      (Or.inr (by simp only [BLOCK_SIZE, JOURNAL_BLOCK_IDX, JOURNAL_BLOCKS, JH_SIZE] at *; omega))]
    unfold jbyte
    apply dbyte_create_opened
    simp only [BLOCK_SIZE, JOURNAL_BLOCK_IDX, JOURNAL_BLOCKS] at *
    omega

theorem get_u32_update_inode_table (t : Buf) (n slot now : Nat) :
    get_u32 (update_inode_table t n slot now) 4 = ((slot + 1) * DIRENT_SIZE) % U32 := by
  unfold update_inode_table
  simp only []
  rw [get_u32_congr _ (put_u32 (put_u32 (put_u32 (memcpy (put_u32 (put_u16 (put_u16 t
    (n * INODE_SIZE) 1) (n * INODE_SIZE + 2) 1) (n * INODE_SIZE + 4) 0) (n * INODE_SIZE + 8)
    zeroBuf 0 32) (n * INODE_SIZE + 40) now) (n * INODE_SIZE + 44) now) 4
    ((slot + 1) * DIRENT_SIZE)) 4 4
    (fun i hi => put_u32_of_ne _ _ _ _ (Or.inl (by omega)))]
  exact get_u32_put_u32 _ _ _

theorem find_free_dirent_loop_some (b : Buf) :
    ∀ (k i r : Nat), find_free_dirent_loop b k i = .ok (some r) →
      i ≤ r ∧ r < i + k ∧ r < BLOCK_SIZE / DIRENT_SIZE ∧ get_u32 b (r * DIRENT_SIZE) = 0 := by
  intro k
  induction k with
  | zero => intro i r h; cases h
  | succ k ih =>
    intro i r h
    simp only [find_free_dirent_loop] at h
    by_cases hg : BLOCK_SIZE / DIRENT_SIZE ≤ i
    · rw [if_pos hg] at h; cases h
    · rw [if_neg hg] at h
      by_cases hz : get_u32 b (i * DIRENT_SIZE) = 0
      · rw [if_pos hz] at h
        simp only [Except.ok.injEq, Option.some.injEq] at h
        subst h
        exact ⟨Nat.le_refl _, by omega, by omega, hz⟩
      · rw [if_neg hz] at h
        obtain ⟨h1, h2, h3, h4⟩ := ih (i + 1) r h
        exact ⟨by omega, by omega, h3, h4⟩

/-- The slot chosen by `find_free_dirent` is below the block capacity, and it
is either a free entry among the current ones or the slot after them. -/
theorem find_free_dirent_ok (b : Buf) (num slot : Nat)
    (h : find_free_dirent b num = .ok (Int.ofNat slot)) :
    slot < BLOCK_SIZE / DIRENT_SIZE ∧
      ((2 ≤ slot ∧ slot < num ∧ get_u32 b (slot * DIRENT_SIZE) = 0) ∨ slot = num) := by
  unfold find_free_dirent at h
  cases hl : find_free_dirent_loop b (num - 2) 2 with
  | error err => rw [hl] at h; cases h
  | ok r =>
    rw [hl] at h
    cases r with
    | some i =>
      simp only [Except.ok.injEq] at h
      have hi : i = slot := by exact Int.ofNat.inj h
      subst hi
      obtain ⟨h1, h2, h3, h4⟩ := find_free_dirent_loop_some b _ _ _ hl
      exact ⟨h3, Or.inl ⟨h1, by omega, h4⟩⟩
    | none =>
      simp only [] at h
      by_cases hc : num < BLOCK_SIZE / DIRENT_SIZE
      · rw [if_pos hc] at h
        simp only [Except.ok.injEq] at h
        have hi : num = slot := by exact Int.ofNat.inj h
        subst hi
        exact ⟨hc, Or.inr rfl⟩
      · rw [if_neg hc] at h
        simp only [Except.ok.injEq] at h
        exact absurd h (by simp)

/-- Claim C4, as amended (root directory grows by one entry): when the first
part of create goes through, which every successful create does, on an image
whose root size is a multiple of the entry size and whose root directory has no
free entry (inode number 0) at an index in `[2, size / 32)`, the root size that
create computes (`inodes[0].size`) is the root size read from the image plus
32. -/
theorem create_root_size_grows (filename : List Byte) (now : Nat) (d e : Disk) (s : Staged)
    (hstage : create_stage filename now d = (.ok s, e))
    (hmul : s.root_size % DIRENT_SIZE = 0)
    (hfull : ∀ i, 2 ≤ i → i < s.root_size / DIRENT_SIZE →
      get_u32 (blockBuf e s.root_direct0) (i * DIRENT_SIZE) ≠ 0) :
    get_u32 s.inode_table 4 = s.root_size + DIRENT_SIZE ∧
      s.root_size = get_u32 (blockBuf d INODE_START_IDX) 4 := by
  obtain ⟨n, slot, hok, hs, he⟩ := create_stage_inv filename now d e s hstage
  have hslot := find_free_dirent_ok _ _ _ hok.slot
  have hrs : s.root_size = get_u32 (blockBuf (create_opened d) INODE_START_IDX) 4 := by
    rw [hs]; rfl
  have hrd : s.root_direct0 = get_u32 (blockBuf (create_opened d) INODE_START_IDX) 8 := by
    rw [hs]; rfl
  rw [he, hrd] at hfull
  rw [hrs] at hfull hmul
  have hsl : slot = get_u32 (blockBuf (create_opened d) INODE_START_IDX) 4 / DIRENT_SIZE := by
    rcases hslot.2 with ⟨h1, h2, h3⟩ | h
    · exact absurd h3 (hfull slot h1 h2)
    · exact h
  constructor
  · have : s.inode_table = update_inode_table
        (memcpy (blockBuf (create_opened d) INODE_START_IDX) BLOCK_SIZE
          (blockBuf (create_opened d) (INODE_START_IDX + 1)) 0 BLOCK_SIZE) n slot now := by
      rw [hs]; rfl
    rw [this, get_u32_update_inode_table, hrs]
    have hlt := hslot.1
    have h128 : BLOCK_SIZE / DIRENT_SIZE = 128 := by decide
    rw [h128] at hlt
    simp only [DIRENT_SIZE, NAME_LEN, U32] at *
    omega
  · rw [hrs, blockBuf_create_opened d INODE_START_IDX (by decide)]

theorem sample_journal_magic (u : Nat) : get_u32 (sample_journal u) 0 = JOURNAL_MAGIC := by
  unfold sample_journal
  rw [get_magic_put_journal_header]
  show JOURNAL_MAGIC % U32 = JOURNAL_MAGIC
  decide

theorem sample_journal_used (u : Nat) (hu : u < U32) : get_u32 (sample_journal u) 4 = u := by
  unfold sample_journal
  rw [get_used_put_journal_header]
  exact Nat.mod_eq_of_lt hu

theorem sample_journal_ge (u a : Nat) (ha : JH_SIZE ≤ a) : sample_journal u a = 0 := by
  unfold sample_journal
  rw [put_journal_header_ge _ _ _ ha]
  rfl

/-- The first part of `cmd_create` on a sample image with a valid journal
header, inode 0 alone allocated and a root directory of `.` and `..`. -/
theorem stageOk_sample (u root_size slot : Nat) (hu : u < U32)
    (hslot : find_free_dirent sample_rootdir (get_u32 (sample_itable root_size) 4 / DIRENT_SIZE)
      = .ok (Int.ofNat slot))
    (hroom : ¬ ((JOURNAL_BLOCKS * BLOCK_SIZE + U32 - u) % U32 <
      DATA_REC_SIZE + DATA_REC_SIZE + DATA_REC_SIZE + COMMIT_REC_SIZE)) :
    create_opened (sample_image (sample_journal u) sample_bitmap (sample_itable root_size)
        sample_rootdir) =
      sample_image (sample_journal u) sample_bitmap (sample_itable root_size) sample_rootdir ∧
    StageOk (sample_image (sample_journal u) sample_bitmap (sample_itable root_size)
      sample_rootdir) 1 slot :=
  stageOk_sample_image _ _ _ _ 1 slot (sample_journal_magic u) rfl (by decide) rfl rfl hslot
    (by rw [sample_journal_used u hu]; exact hroom)

theorem jused_sample (u : Nat) (hu : u < U32) (bm it rd : Buf) :
    jused (sample_image (sample_journal u) bm it rd) = u := by
  rw [jused_sample_image, sample_journal_used u hu]

theorem jmagic_sample (u : Nat) (bm it rd : Buf) :
    jmagic (sample_image (sample_journal u) bm it rd) = JOURNAL_MAGIC := by
  rw [jmagic_sample_image, sample_journal_magic u]

theorem active_fresh_image (u : Nat) (h1 : JH_SIZE ≤ u) (h2 : u ≤ JOURNAL_BLOCKS * BLOCK_SIZE) :
    Active (fresh_image u) := by
  have hu : u < U32 := by simp only [BLOCK_SIZE, JOURNAL_BLOCKS, U32] at *; omega
  refine ⟨?_, jmagic_sample u _ _ _, ?_, ?_⟩
  · unfold fresh_image; rw [length_sample_image]; decide
  · unfold fresh_image; rw [jused_sample u hu]; exact h1
  · unfold fresh_image; rw [jused_sample u hu]; exact h2

theorem stageOk_fresh_image (u : Nat) (hu : u + 12316 ≤ JOURNAL_BLOCKS * BLOCK_SIZE) :
    create_opened (fresh_image u) = fresh_image u ∧ StageOk (fresh_image u) 1 2 :=
  stageOk_sample u 64 2 (by simp only [BLOCK_SIZE, JOURNAL_BLOCKS, U32] at *; omega) rfl
    (by simp only [BLOCK_SIZE, JOURNAL_BLOCKS, U32, DATA_REC_SIZE, COMMIT_REC_SIZE] at *; omega)

/-- Create succeeds on a freshly formatted image with an empty journal. -/
theorem cmd_create_fresh_image :
    ∃ d1, cmd_create foo_txt 0 (fresh_image JH_SIZE) = (.ok 1, d1) := by
  obtain ⟨hop, hok⟩ := stageOk_fresh_image JH_SIZE (by decide)
  have hu : jused (fresh_image JH_SIZE) = JH_SIZE := jused_sample JH_SIZE (by decide) _ _ _
  obtain ⟨d1, h, _⟩ := cmd_create_at foo_txt 0 (fresh_image JH_SIZE) 1 2 hok
    (by rw [hop, hu])
    (by rw [hop, hu]; unfold fresh_image; rw [length_sample_image]; decide)
    (by rw [hop, hu]; decide)
  exact ⟨d1, h⟩

theorem prod_eta_of_fst {α β : Type} (p : α × β) (a : α) (h : ∃ b, p = (a, b)) : p = (a, p.2) := by
  obtain ⟨b, hb⟩ := h
  rw [hb]

theorem create_stage_fresh_image :
    create_stage foo_txt 0 (fresh_image JH_SIZE) =
      (.ok (staged_of foo_txt 0 (fresh_image JH_SIZE) 1 2), fresh_image JH_SIZE) := by
  obtain ⟨hop, hok⟩ := stageOk_fresh_image JH_SIZE (by decide)
  have := create_stage_of_ok foo_txt 0 (fresh_image JH_SIZE) 1 2 hok
  rw [hop] at this
  exact this

/-- Witness for claim C7: create of `foo.txt` on a freshly formatted image. -/
theorem create_transaction_layout_witness :
    Holds (cmd_create foo_txt 0 (fresh_image JH_SIZE)).2
        (if jmagic (fresh_image JH_SIZE) = JOURNAL_MAGIC then jused (fresh_image JH_SIZE)
          else JH_SIZE)
        [Rec.data INODE_BMAP_IDX
           (Block.ofBuf (staged_of foo_txt 0 (fresh_image JH_SIZE) 1 2).new_inode_bitmap 0),
         Rec.data (INODE_START_IDX + 1 * INODE_SIZE / BLOCK_SIZE)
           (Block.ofBuf (staged_of foo_txt 0 (fresh_image JH_SIZE) 1 2).inode_block_to_log 0),
         Rec.data (staged_of foo_txt 0 (fresh_image JH_SIZE) 1 2).root_direct0
           (Block.ofBuf (staged_of foo_txt 0 (fresh_image JH_SIZE) 1 2).new_root_data 0),
         Rec.commit] ∧
      jmagic (cmd_create foo_txt 0 (fresh_image JH_SIZE)).2 = JOURNAL_MAGIC ∧
      jused (cmd_create foo_txt 0 (fresh_image JH_SIZE)).2 =
        (if jmagic (fresh_image JH_SIZE) = JOURNAL_MAGIC then jused (fresh_image JH_SIZE)
          else JH_SIZE) + 12316 ∧
      (staged_of foo_txt 0 (fresh_image JH_SIZE) 1 2).new_inum = 1 ∧
      (staged_of foo_txt 0 (fresh_image JH_SIZE) 1 2).new_inode_bitmap =
        bitmap_set (blockBuf (fresh_image JH_SIZE) INODE_BMAP_IDX) 1 :=
  create_transaction_layout foo_txt 0 (fresh_image JH_SIZE) (fresh_image JH_SIZE)
    (cmd_create foo_txt 0 (fresh_image JH_SIZE)).2
    (staged_of foo_txt 0 (fresh_image JH_SIZE) 1 2) 1
    create_stage_fresh_image
    (prod_eta_of_fst _ _ cmd_create_fresh_image)
    (fun _ => (active_fresh_image JH_SIZE (by decide) (by decide)).2.2)

theorem stageOk_hole_image : create_opened hole_image = hole_image ∧ StageOk hole_image 1 2 :=
  stageOk_sample JH_SIZE 96 2 (by decide) rfl (by decide)

theorem root_size_staged_sample (filename : List Byte) (now u root_size n slot : Nat)
    (hr : root_size < U32) :
    (staged_of filename now (sample_image (sample_journal u) sample_bitmap
      (sample_itable root_size) sample_rootdir) n slot).root_size = root_size := by
  show get_u32 (blockBuf _ INODE_START_IDX) 4 = root_size
  have h19 : ∀ i, i < BLOCK_SIZE → blockBuf (sample_image (sample_journal u) sample_bitmap
      (sample_itable root_size) sample_rootdir) INODE_START_IDX i = sample_itable root_size i :=
    fun i hi => blockBuf_sample_image _ _ _ _ INODE_START_IDX (by decide) (by decide) i hi
  rw [get_u32_congr _ (sample_itable root_size) 4 4 (fun i hi =>
    h19 _ (by simp only [BLOCK_SIZE]; omega))]
  unfold sample_itable
  rw [get_u32_congr _ (put_u32 (put_u16 (put_u16 zeroBuf 0 2) 2 2) 4 root_size) 4 4
    (fun i hi => put_u32_of_ne _ _ _ _ (Or.inl (by omega))), get_u32_put_u32]
  exact Nat.mod_eq_of_lt hr

/-- Counterexample to claim C4 as stated: on an image whose root directory of
three entries (size 96) has a free entry at index 2, create succeeds, reuses
that entry and computes the root size 96, not 96 + 32. -/
theorem create_root_size_counterexample :
    ∃ d1, cmd_create foo_txt 0 hole_image = (.ok 1, d1) ∧
      create_stage foo_txt 0 hole_image = (.ok (staged_of foo_txt 0 hole_image 1 2), hole_image) ∧
      (staged_of foo_txt 0 hole_image 1 2).root_size = 96 ∧
      get_u32 (staged_of foo_txt 0 hole_image 1 2).inode_table 4 = 96 ∧
      get_u32 (staged_of foo_txt 0 hole_image 1 2).inode_table 4 ≠
        (staged_of foo_txt 0 hole_image 1 2).root_size + DIRENT_SIZE := by
  obtain ⟨hop, hok⟩ := stageOk_hole_image
  have hu : jused hole_image = JH_SIZE := jused_sample JH_SIZE (by decide) _ _ _
  obtain ⟨d1, h, _⟩ := cmd_create_at foo_txt 0 hole_image 1 2 hok
    (by rw [hop, hu])
    (by rw [hop, hu]; unfold hole_image; rw [length_sample_image]; decide)
    (by rw [hop, hu]; decide)
  have hst := create_stage_of_ok foo_txt 0 hole_image 1 2 hok
  rw [hop] at hst
  have hrs : (staged_of foo_txt 0 hole_image 1 2).root_size = 96 :=
    root_size_staged_sample foo_txt 0 JH_SIZE 96 1 2 (by decide)
  have hsz : get_u32 (staged_of foo_txt 0 hole_image 1 2).inode_table 4 = 96 := by
    show get_u32 (update_inode_table _ 1 2 0) 4 = 96
    rw [get_u32_update_inode_table]
    decide
  refine ⟨d1, h, hst, hrs, hsz, ?_⟩
  rw [hsz, hrs]
  decide

/-- Witness for claim C4: create of `foo.txt` on a freshly formatted image,
whose root directory holds `.` and `..` only. -/
theorem create_root_size_grows_witness :
    get_u32 (staged_of foo_txt 0 (fresh_image JH_SIZE) 1 2).inode_table 4 =
        (staged_of foo_txt 0 (fresh_image JH_SIZE) 1 2).root_size + DIRENT_SIZE ∧
      (staged_of foo_txt 0 (fresh_image JH_SIZE) 1 2).root_size =
        get_u32 (blockBuf (fresh_image JH_SIZE) INODE_START_IDX) 4 :=
  create_root_size_grows foo_txt 0 (fresh_image JH_SIZE) (fresh_image JH_SIZE)
    (staged_of foo_txt 0 (fresh_image JH_SIZE) 1 2) create_stage_fresh_image
    (by rw [show (staged_of foo_txt 0 (fresh_image JH_SIZE) 1 2).root_size = 64 from
          root_size_staged_sample foo_txt 0 JH_SIZE 64 1 2 (by decide)]
        decide)
    (fun i h1 h2 => by
      rw [show (staged_of foo_txt 0 (fresh_image JH_SIZE) 1 2).root_size = 64 from
          root_size_staged_sample foo_txt 0 JH_SIZE 64 1 2 (by decide)] at h2
      have : (64 : Nat) / DIRENT_SIZE = 2 := by decide
      omega)

theorem dbyte_of_getElem?_eq (d e : Disk) (j i : Nat) (h : d[j]? = e[j]?) (hi : i < BLOCK_SIZE) :
    dbyte d (j * BLOCK_SIZE + i) = dbyte e (j * BLOCK_SIZE + i) := by
  unfold dbyte
  have h1 : (j * BLOCK_SIZE + i) / BLOCK_SIZE = j := by simp only [BLOCK_SIZE] at *; omega
  rw [h1, h]

/-- Claim C8 fails by a defect of the capacity check: on an image whose journal
header has a valid magic and `nbytes_used = 65544`, the subtraction
`65536 - nbytes_used` wraps, create succeeds, and its first record lands in
block 17, the home of the inode bitmap, which is no longer what it was. -/
theorem create_overruns_journal :
    jmagic overrun_image = JOURNAL_MAGIC ∧ jused overrun_image = 65544 ∧
      ∃ d1, cmd_create foo_txt 0 overrun_image = (.ok 1, d1) ∧
        d1[INODE_BMAP_IDX]? ≠ overrun_image[INODE_BMAP_IDX]? := by
  have hu : jused overrun_image = 65544 := jused_sample 65544 (by decide) _ _ _
  refine ⟨jmagic_sample 65544 _ _ _, hu, ?_⟩
  obtain ⟨hop, hok⟩ := stageOk_sample 65544 64 2 (by decide) rfl (by decide)
  have hop2 : create_opened overrun_image = overrun_image := hop
  have hok2 : StageOk overrun_image 1 2 := hok
  obtain ⟨d1, h, _, _, hh, _⟩ := cmd_create_at foo_txt 0 overrun_image 1 2 hok2
    (by rw [hop2, hu]; decide)
    (by rw [hop2, hu]; unfold overrun_image; rw [length_sample_image]; decide)
    (by rw [hop2, hu]; decide)
  refine ⟨d1, h, ?_⟩
  intro heq
  rw [hop2, hu] at hh
  have h0 := hh.1 0 (by decide)
  have hb := dbyte_of_getElem?_eq d1 overrun_image INODE_BMAP_IDX 8 heq (by decide)
  have e1 : jbyte d1 (65544 + 0) = dbyte d1 (INODE_BMAP_IDX * BLOCK_SIZE + 8) := rfl
  rw [e1, hb] at h0
  have e2 : dbyte overrun_image (INODE_BMAP_IDX * BLOCK_SIZE + 8) = sample_bitmap 8 := by
    rw [← blockBuf_of_lt overrun_image INODE_BMAP_IDX 8 (by decide)]
    exact blockBuf_sample_image (sample_journal 65544) sample_bitmap (sample_itable 64)
      sample_rootdir INODE_BMAP_IDX (by decide) (by decide) 8 (by decide)
  rw [e2] at h0
  revert h0
  decide

/-- The header after a successful append, whatever `nbytes_used` was. -/
theorem journal_append_header (d : Disk) (data : Buf) (size : Nat) (h1 : 1 < d.length)
    (hcap : ¬ ((JOURNAL_BLOCKS * BLOCK_SIZE + U32 - jused d) % U32 < size))
    (hex : size = 0 ∨ BLOCK_SIZE + jused d + size ≤ d.length * BLOCK_SIZE) :
    ∃ d1, journal_append d data size = (.ok (Int.ofNat (jused d)), d1) ∧
      d1.length = d.length ∧ jmagic d1 = jmagic d ∧ jused d1 = (jused d + size) % U32 := by
  obtain ⟨d1, he, hl, hb⟩ := journal_append_spec d data size h1 hcap hex
  have hj : ∀ a, a < JH_SIZE → jbyte d1 a = put_journal_header zeroBuf
      { magic := jmagic d, nbytes_used := (jused d + size) % U32 } a := by
    intro a ha
    unfold jbyte
    rw [hb]
    have : BLOCK_SIZE ≤ JOURNAL_BLOCK_IDX * BLOCK_SIZE + a ∧
        JOURNAL_BLOCK_IDX * BLOCK_SIZE + a < BLOCK_SIZE + JH_SIZE := by
      simp only [BLOCK_SIZE, JOURNAL_BLOCK_IDX, JH_SIZE] at *; omega
    simp only [this, and_self, if_true]
    apply congrArg
    simp only [BLOCK_SIZE, JOURNAL_BLOCK_IDX]; omega
  refine ⟨d1, he, hl, ?_, ?_⟩
  · have hm := jmagic_lt d
    unfold jmagic at hm ⊢
    rw [get_u32_congr (jbyte d1) (put_journal_header zeroBuf
      { magic := get_u32 (jbyte d) 0, nbytes_used := (jused d + size) % U32 }) 0 0
      (fun i hi => hj _ (by simp only [JH_SIZE]; omega)), get_magic_put_journal_header]
    exact Nat.mod_eq_of_lt hm
  · unfold jused
    rw [get_u32_congr (jbyte d1) (put_journal_header zeroBuf
      { magic := jmagic d, nbytes_used := (jused d + size) % U32 }) 4 4
      (fun i hi => hj _ (by simp only [JH_SIZE]; omega)), get_used_put_journal_header]
    exact Nat.mod_mod _ _

theorem stageOk_zero_used_image :
    create_opened zero_used_image = zero_used_image ∧ StageOk zero_used_image 1 2 :=
  stageOk_sample 0 64 2 (by decide) rfl (by decide)

/-- Counterexample to claim C7 as stated: on an image whose journal header has
a valid magic and `nbytes_used = 0`, create succeeds, but the journal bytes at
`[0, 12316)` are not the four records: the header, rewritten after each append,
lies over the first eight bytes of the first record. -/
theorem create_transaction_layout_counterexample :
    jmagic zero_used_image = JOURNAL_MAGIC ∧ jused zero_used_image = 0 ∧
      create_stage foo_txt 0 zero_used_image =
        (.ok (staged_of foo_txt 0 zero_used_image 1 2), zero_used_image) ∧
      ∃ d1, cmd_create foo_txt 0 zero_used_image = (.ok 1, d1) ∧
        ¬ Holds d1 (if jmagic zero_used_image = JOURNAL_MAGIC then jused zero_used_image
            else JH_SIZE)
          [Rec.data INODE_BMAP_IDX
             (Block.ofBuf (staged_of foo_txt 0 zero_used_image 1 2).new_inode_bitmap 0),
           Rec.data (INODE_START_IDX + 1 * INODE_SIZE / BLOCK_SIZE)
             (Block.ofBuf (staged_of foo_txt 0 zero_used_image 1 2).inode_block_to_log 0),
           Rec.data (staged_of foo_txt 0 zero_used_image 1 2).root_direct0
             (Block.ofBuf (staged_of foo_txt 0 zero_used_image 1 2).new_root_data 0),
           Rec.commit] := by
  have hu : jused zero_used_image = 0 := jused_sample 0 (by decide) _ _ _
  have hm : jmagic zero_used_image = JOURNAL_MAGIC := jmagic_sample 0 _ _ _
  obtain ⟨hop, hok⟩ := stageOk_zero_used_image
  have hst := create_stage_of_ok foo_txt 0 zero_used_image 1 2 hok
  rw [hop] at hst
  have hlen : zero_used_image.length = 85 := length_sample_image _ _ _ _
  refine ⟨hm, hu, hst, ?_⟩
  obtain ⟨d1, e1, l1, m1, u1⟩ := journal_append_header zero_used_image
    (mk_data_record INODE_BMAP_IDX (staged_of foo_txt 0 zero_used_image 1 2).new_inode_bitmap)
    DATA_REC_SIZE (by rw [hlen]; decide) (by rw [hu]; decide)
    (Or.inr (by rw [hu, hlen]; decide))
  rw [hu] at u1
  have u1b : jused d1 = 4104 := by rw [u1]; decide
  obtain ⟨d2, e2, l2, m2, u2, _, _⟩ := append_or_fail_at d1
    (mk_data_record (INODE_START_IDX + (staged_of foo_txt 0 zero_used_image 1 2).inode_block_idx)
      (staged_of foo_txt 0 zero_used_image 1 2).inode_block_to_log) DATA_REC_SIZE
    (by rw [l1, hlen]; decide) (by rw [u1b]; decide)
    (by rw [u1b, l1, hlen]; decide) (by rw [u1b]; decide)
  have u2b : jused d2 = 8208 := by rw [u2, u1b]; decide
  obtain ⟨d3, e3, l3, m3, u3, _, _⟩ := append_or_fail_at d2
    (mk_data_record (staged_of foo_txt 0 zero_used_image 1 2).root_direct0
      (staged_of foo_txt 0 zero_used_image 1 2).new_root_data) DATA_REC_SIZE
    (by rw [l2, l1, hlen]; decide) (by rw [u2b]; decide)
    (by rw [u2b, l2, l1, hlen]; decide) (by rw [u2b]; decide)
  have u3b : jused d3 = 12312 := by rw [u3, u2b]; decide
  obtain ⟨d4, e4, l4, m4, u4, _, _⟩ := append_or_fail_at d3 mk_commit_record COMMIT_REC_SIZE
    (by rw [l3, l2, l1, hlen]; decide) (by rw [u3b]; decide)
    (by rw [u3b, l3, l2, l1, hlen]; decide) (by rw [u3b]; decide)
  have hcreate : cmd_create foo_txt 0 zero_used_image = (.ok 1, d4) := by
    unfold cmd_create
    rw [hst]
    simp only []
    unfold create_log
    have ef : append_or_fail zero_used_image
        (mk_data_record INODE_BMAP_IDX (staged_of foo_txt 0 zero_used_image 1 2).new_inode_bitmap)
        DATA_REC_SIZE = (.ok (), d1) := by
      unfold append_or_fail
      rw [e1]
      have : ¬ (Int.ofNat (jused zero_used_image) < 0) := by simp
      simp only [this, if_false]
    rw [ef]
    simp only []
    rw [e2]
    simp only []
    rw [e3]
    simp only []
    rw [e4]
    rfl
  refine ⟨d4, hcreate, ?_⟩
  rw [if_pos hm, hu]
  intro hh
  have h0 := hh.1 0 (by decide)
  have hmag : jmagic d4 = JOURNAL_MAGIC := by rw [m4, m3, m2, m1, hm]
  have hrec : (Rec.data INODE_BMAP_IDX
      (Block.ofBuf (staged_of foo_txt 0 zero_used_image 1 2).new_inode_bitmap 0)).bytes 0
      = 1 := rfl
  rw [hrec] at h0
  unfold jmagic get_u32 at hmag
  simp only [Nat.zero_add] at h0 hmag
  rw [h0] at hmag
  have hb1 := (jbyte d4 1).isLt
  have hb2 := (jbyte d4 2).isLt
  have hb3 := (jbyte d4 3).isLt
  have hv : ((1 : Byte) : Nat) = 1 := rfl
  rw [hv] at hmag
  simp only [JOURNAL_MAGIC] at hmag
  omega

theorem Holds_of_records_bytes (d : Disk) :
    ∀ (rs : List Rec) (off : Nat),
      (∀ i, i < total_size rs → jbyte d (off + i) = records_bytes rs i) → Holds d off rs := by
  intro rs
  induction rs with
  | nil => intro off _; trivial
  | cons r rs ih =>
    intro off h
    rw [total_size_cons] at h
    refine ⟨?_, ih (off + r.size) ?_⟩
    · intro i hi
      rw [h i (by omega)]
      simp only [records_bytes, hi, if_true]
    · intro i hi
      rw [Nat.add_assoc, h (r.size + i) (by omega)]
      have : ¬ (r.size + i < r.size) := by omega
      simp only [records_bytes, this, if_false]
      apply congrArg
      omega

theorem get_u32_journal_of (rs : List Rec) (o : Nat) (ho : o + 4 ≤ JH_SIZE) :
    get_u32 (journal_of rs) o = get_u32 (sample_journal (JH_SIZE + total_size rs)) o :=
  get_u32_congr _ _ _ _ (fun i hi => by
    unfold journal_of
    rw [if_pos (by omega)])

/-- The journal of `logged_image rs` is Active and holds the records `rs`. -/
theorem logged_image_facts (rs : List Rec)
    (hfit : JH_SIZE + total_size rs ≤ JOURNAL_BLOCKS * BLOCK_SIZE) :
    sb_magic (logged_image rs) = FS_MAGIC ∧ jmagic (logged_image rs) = JOURNAL_MAGIC ∧
      JOURNAL_BLOCK_IDX + JOURNAL_BLOCKS ≤ (logged_image rs).length ∧
      jused (logged_image rs) = JH_SIZE + total_size rs ∧
      Holds (logged_image rs) JH_SIZE rs := by
  refine ⟨sb_magic_sample_image _ _ _ _, ?_, ?_, ?_, ?_⟩
  · unfold logged_image
    rw [jmagic_sample_image, get_u32_journal_of rs 0 (by decide), sample_journal_magic]
  · unfold logged_image
    rw [length_sample_image]; decide
  · unfold logged_image
    rw [jused_sample_image, get_u32_journal_of rs 4 (by decide), sample_journal_used]
    simp only [BLOCK_SIZE, JOURNAL_BLOCKS, U32, JH_SIZE] at *
    omega
  · apply Holds_of_records_bytes
    intro i hi
    unfold logged_image
    rw [jbyte_sample_image _ _ _ _ _ (by omega)]
    unfold journal_of
    rw [if_neg (by omega)]
    apply congrArg
    omega

/-- Witness for claim C1: a ten-byte record appended at offset 4090, across
the boundary between the first two journal blocks, then a one-byte record. -/
theorem journal_round_trip_witness :
    Active (fresh_image 4090) ∧
      ∃ offs d1, append_all (fresh_image 4090) [[1, 2, 3, 4, 5, 6, 7, 8, 9, 10], [11]]
          = some (offs, d1) ∧
        offs.length = [[(1 : Byte), 2, 3, 4, 5, 6, 7, 8, 9, 10], [11]].length ∧
        ∀ i (h : i < [[(1 : Byte), 2, 3, 4, 5, 6, 7, 8, 9, 10], [11]].length) (buf : Buf),
          ∃ out, journal_read d1 (offs.getD i 0) buf
              ([[(1 : Byte), 2, 3, 4, 5, 6, 7, 8, 9, 10], [11]][i]).length = some out ∧
            ∀ j (hj : j < ([[(1 : Byte), 2, 3, 4, 5, 6, 7, 8, 9, 10], [11]][i]).length),
              out j = ([[(1 : Byte), 2, 3, 4, 5, 6, 7, 8, 9, 10], [11]][i])[j] :=
  ⟨active_fresh_image 4090 (by decide) (by decide),
    journal_round_trip (fresh_image 4090) [[1, 2, 3, 4, 5, 6, 7, 8, 9, 10], [11]]
      (active_fresh_image 4090 (by decide) (by decide))
      (by
        have : jused (fresh_image 4090) = 4090 := jused_sample 4090 (by decide) _ _ _
        rw [this]
        decide)⟩

/-- Witness for claim C5: an append of 65529 bytes to a journal with 65528
bytes left. -/
theorem journal_append_capacity_witness :
    Active (fresh_image JH_SIZE) ∧
      journal_append (fresh_image JH_SIZE) zeroBuf 65529 = (.ok (-1), fresh_image JH_SIZE) :=
  ⟨active_fresh_image JH_SIZE (by decide) (by decide),
    journal_append_capacity (fresh_image JH_SIZE) zeroBuf 65529
      (active_fresh_image JH_SIZE (by decide) (by decide))
      (by
        have : jused (fresh_image JH_SIZE) = JH_SIZE := jused_sample JH_SIZE (by decide) _ _ _
        rw [this]
        decide)⟩

theorem total_size_one_txn :
    total_size (log_records [[(30, sevens)]]) = 4108 := by
  simp only [total_size, log_records, txn_records, List.map, List.append, List.sum_cons,
    List.sum_nil, Rec.size, List.cons_append, List.nil_append, List.append_nil]
  decide

/-- Witness for claim C6: a journal holding one transaction, a data record for
block 30 and its commit. -/
theorem install_complete_transactions_witness :
    cmd_install 2 (logged_image (log_records [[(30, sevens)]])) =
        some (.ok [[(30, sevens)]].length,
          clear_journal (replay (logged_image (log_records [[(30, sevens)]]))
            (log_records [[(30, sevens)]]))) ∧
      commits (log_records [[(30, sevens)]]) = [[(30, sevens)]].length ∧
      ∀ j, (j < JOURNAL_BLOCK_IDX ∨ JOURNAL_BLOCK_IDX + JOURNAL_BLOCKS ≤ j) →
        (∀ p, last_payload (log_records [[(30, sevens)]]) j = some p →
          (clear_journal (replay (logged_image (log_records [[(30, sevens)]]))
            (log_records [[(30, sevens)]])))[j]? = some p) ∧
        (last_payload (log_records [[(30, sevens)]]) j = none →
          j < (logged_image (log_records [[(30, sevens)]])).length →
          (clear_journal (replay (logged_image (log_records [[(30, sevens)]]))
            (log_records [[(30, sevens)]])))[j]? =
            (logged_image (log_records [[(30, sevens)]]))[j]?) :=
  have hf := logged_image_facts (log_records [[(30, sevens)]])
    (by rw [total_size_one_txn]; decide)
  install_complete_transactions (logged_image (log_records [[(30, sevens)]])) [[(30, sevens)]] 2
    hf.1 hf.2.1 hf.2.2.1 (by rw [hf.2.2.2.1, total_size_one_txn]; decide) hf.2.2.2.1
    hf.2.2.2.2 ⟨Or.inr (by decide), by decide, trivial⟩ (by decide)

theorem cmd_install_fresh_image :
    cmd_install 0 (fresh_image JH_SIZE) = some (.ok 0, clear_journal (fresh_image JH_SIZE)) :=
  cmd_install_records (fresh_image JH_SIZE) [] 0 (sb_magic_sample_image _ _ _ _)
    (jmagic_sample JH_SIZE _ _ _) (active_fresh_image JH_SIZE (by decide) (by decide)).1
    (active_fresh_image JH_SIZE (by decide) (by decide)).2.2.2
    (jused_sample JH_SIZE (by decide) _ _ _) trivial trivial (Nat.le_refl _)

theorem jused_logged_one_txn :
    jused (logged_image (log_records [[(30, sevens)]])) = 4116 := by
  rw [(logged_image_facts (log_records [[(30, sevens)]])
    (by rw [total_size_one_txn]; decide)).2.2.2.1, total_size_one_txn]

theorem jbyte_logged_one_txn :
    (jbyte (logged_image (log_records [[(30, sevens)]])) JH_SIZE).val = REC_DATA := by
  have hf := logged_image_facts (log_records [[(30, sevens)]])
    (by rw [total_size_one_txn]; decide)
  have h : Holds (logged_image (log_records [[(30, sevens)]])) JH_SIZE
      (Rec.data 30 sevens :: [Rec.commit]) := hf.2.2.2.2
  have h0 := h.1 0 (by decide)
  rw [Nat.add_zero] at h0
  rw [h0]
  decide

theorem cmd_install_logged_one_txn :
    cmd_install 2 (logged_image (log_records [[(30, sevens)]])) =
      some (.ok 1, clear_journal (replay (logged_image (log_records [[(30, sevens)]]))
        (log_records [[(30, sevens)]]))) :=
  have hf := logged_image_facts (log_records [[(30, sevens)]])
    (by rw [total_size_one_txn]; decide)
  cmd_install_records (logged_image (log_records [[(30, sevens)]]))
    (log_records [[(30, sevens)]]) 2
    hf.1 hf.2.1 hf.2.2.1 (by rw [hf.2.2.2.1, total_size_one_txn]; decide) hf.2.2.2.1
    hf.2.2.2.2 ⟨Or.inr (by decide), by decide, trivial⟩ (by decide)

/-- Witness for claim C9: install on an image whose journal holds one
transaction, a data record for block 30 and its commit. Before the install the
header says 4116 bytes used and the first record byte is the data record type;
the install replays the transaction, reports one commit, and leaves the
header at 8 bytes used with every byte after it zero. -/
theorem install_clears_journal_witness :
    jused (logged_image (log_records [[(30, sevens)]])) = 4116 ∧
    (jbyte (logged_image (log_records [[(30, sevens)]])) JH_SIZE).val = REC_DATA ∧
    cmd_install 2 (logged_image (log_records [[(30, sevens)]])) =
      some (.ok 1, clear_journal (replay (logged_image (log_records [[(30, sevens)]]))
        (log_records [[(30, sevens)]]))) ∧
    JOURNAL_BLOCK_IDX + JOURNAL_BLOCKS ≤
        (clear_journal (replay (logged_image (log_records [[(30, sevens)]]))
          (log_records [[(30, sevens)]]))).length ∧
      jmagic (clear_journal (replay (logged_image (log_records [[(30, sevens)]]))
        (log_records [[(30, sevens)]]))) = JOURNAL_MAGIC ∧
      jused (clear_journal (replay (logged_image (log_records [[(30, sevens)]]))
        (log_records [[(30, sevens)]]))) = JH_SIZE ∧
      ∀ a, JH_SIZE ≤ a → a < JOURNAL_BLOCKS * BLOCK_SIZE →
        jbyte (clear_journal (replay (logged_image (log_records [[(30, sevens)]]))
          (log_records [[(30, sevens)]]))) a = 0 :=
  ⟨jused_logged_one_txn, jbyte_logged_one_txn, cmd_install_logged_one_txn,
    install_clears_journal (logged_image (log_records [[(30, sevens)]]))
      (clear_journal (replay (logged_image (log_records [[(30, sevens)]]))
        (log_records [[(30, sevens)]]))) 2 1 cmd_install_logged_one_txn⟩

theorem total_size_one_data :
    total_size (log_records [] ++ [(30, sevens)].map (fun w => Rec.data w.1 w.2)) = 4104 := by
  simp only [total_size, log_records, List.map, List.sum_cons, List.sum_nil, Rec.size,
    List.nil_append]
  decide

/-- Witness for claim C10: a journal holding one data record for block 30 and
no commit. -/
theorem install_uncommitted_tail_witness :
    cmd_install 1
        (logged_image (log_records [] ++ [(30, sevens)].map (fun w => Rec.data w.1 w.2))) =
        some (.ok ([] : List (List (Nat × Block))).length,
          clear_journal (replay (replay
            (logged_image (log_records [] ++ [(30, sevens)].map (fun w => Rec.data w.1 w.2)))
            (log_records [])) ([(30, sevens)].map (fun w => Rec.data w.1 w.2)))) ∧
      ∀ j p, (j < JOURNAL_BLOCK_IDX ∨ JOURNAL_BLOCK_IDX + JOURNAL_BLOCKS ≤ j) →
        last_payload ([(30, sevens)].map (fun w => Rec.data w.1 w.2)) j = some p →
        (clear_journal (replay (replay
          (logged_image (log_records [] ++ [(30, sevens)].map (fun w => Rec.data w.1 w.2)))
          (log_records [])) ([(30, sevens)].map (fun w => Rec.data w.1 w.2))))[j]? = some p :=
  have hf := logged_image_facts
    (log_records [] ++ [(30, sevens)].map (fun w => Rec.data w.1 w.2))
    (by rw [total_size_one_data]; decide)
  install_uncommitted_tail
    (logged_image (log_records [] ++ [(30, sevens)].map (fun w => Rec.data w.1 w.2)))
    [] [(30, sevens)] 1 (by simp)
    hf.1 hf.2.1 hf.2.2.1 (by rw [hf.2.2.2.1, total_size_one_data]; decide) hf.2.2.2.1
    hf.2.2.2.2 ⟨Or.inr (by decide), by decide, trivial⟩ (by decide)

theorem total_size_self_target :
    total_size (log_records [] ++ self_target_tail.map (fun w => Rec.data w.1 w.2)) = 8208 := by
  simp only [total_size, log_records, self_target_tail, List.map, List.sum_cons, List.sum_nil,
    Rec.size, List.nil_append]
  decide

/-- Counterexample to claim C10 as stated: the journal ends in two data records
without a commit, the first naming journal block 2, where the second record
lies, the second naming block 30 with a payload of sevens.  Install writes the
first payload over the second record, stops at what it now reads there, and
block 30 never receives its payload. -/
theorem install_uncommitted_tail_counterexample :
    sb_magic (logged_image (log_records [] ++ self_target_tail.map (fun w => Rec.data w.1 w.2)))
        = FS_MAGIC ∧
      jmagic (logged_image (log_records [] ++ self_target_tail.map (fun w => Rec.data w.1 w.2)))
        = JOURNAL_MAGIC ∧
      jused (logged_image (log_records [] ++ self_target_tail.map (fun w => Rec.data w.1 w.2)))
        = JH_SIZE +
          total_size (log_records [] ++ self_target_tail.map (fun w => Rec.data w.1 w.2)) ∧
      Holds (logged_image (log_records [] ++ self_target_tail.map (fun w => Rec.data w.1 w.2)))
        JH_SIZE (log_records [] ++ self_target_tail.map (fun w => Rec.data w.1 w.2)) ∧
      last_payload (self_target_tail.map (fun w => Rec.data w.1 w.2)) 30 = some sevens ∧
      ∃ d2, cmd_install 2
          (logged_image (log_records [] ++ self_target_tail.map (fun w => Rec.data w.1 w.2)))
          = some (.ok 0, d2) ∧
        d2[30]? ≠ some sevens := by
  have hf := logged_image_facts
    (log_records [] ++ self_target_tail.map (fun w => Rec.data w.1 w.2))
    (by rw [total_size_self_target]; decide)
  refine ⟨hf.1, hf.2.1, hf.2.2.2.1, hf.2.2.2.2, rfl, ?_⟩
  generalize himg :
    logged_image (log_records [] ++ self_target_tail.map (fun w => Rec.data w.1 w.2)) = img at hf
  obtain ⟨hsb, hjm, hlen, hused, hholds⟩ := hf
  rw [total_size_self_target] at hused
  have hl85 : img.length = 85 := by rw [← himg]; exact length_sample_image _ _ _ _
  have hu : jused img = 8216 := by rw [hused]
  have hrec : ∀ i, i < DATA_REC_SIZE → jbyte img (JH_SIZE + i) = mk_data_record 2 zeroBlock.get i :=
    hholds.1
  have hlen2 : (pwrite_block img 2 zeroBlock.get).length = 85 := by
    rw [length_pwrite_block_of_lt _ _ _ (by omega)]; exact hl85
  have hread : journal_read (pwrite_block img 2 zeroBlock.get) 4112 zeroBuf REC_HDR_SIZE =
      some (fun i => if i < REC_HDR_SIZE then jbyte (pwrite_block img 2 zeroBlock.get) (4112 + i)
        else zeroBuf i) :=
    journal_read_spec _ 4112 REC_HDR_SIZE zeroBuf (Or.inr (by rw [hlen2]; decide)) (by decide)
  have hz : ∀ i, i < REC_HDR_SIZE → jbyte (pwrite_block img 2 zeroBlock.get) (4112 + i) = 0 := by
    intro i hi
    unfold jbyte
    rw [dbyte_pwrite_block]
    have h1 : (JOURNAL_BLOCK_IDX * BLOCK_SIZE + (4112 + i)) / BLOCK_SIZE = 2 := by
      simp only [BLOCK_SIZE, JOURNAL_BLOCK_IDX, REC_HDR_SIZE] at *; omega
    rw [if_pos h1]
    exact Block.get_zeroBlock _
  have htype : get_u16 (fun i => if i < REC_HDR_SIZE then
      jbyte (pwrite_block img 2 zeroBlock.get) (4112 + i) else zeroBuf i) 0 = 0 := by
    unfold get_u16
    simp only [show (0 : Nat) < REC_HDR_SIZE from by decide, show (0 + 1 : Nat) < REC_HDR_SIZE
      from by decide, if_true]
    rw [hz 0 (by decide), hz (0 + 1) (by decide)]
    rfl
  have hloop : install_loop 8216 2 JH_SIZE 0 img =
      some (.ok 0, pwrite_block img 2 zeroBlock.get) := by
    rw [install_loop_data 8216 1 JH_SIZE 0 img 2 zeroBlock hlen hrec (by decide) (by decide)
      (by decide)]
    rw [install_loop_step 8216 0 (JH_SIZE + DATA_REC_SIZE) 0 _ (by decide)]
    rw [show JH_SIZE + DATA_REC_SIZE = 4112 from by decide, hread]
    simp only []
    rw [htype]
    rw [if_neg (by decide), if_neg (by decide)]
  refine ⟨clear_journal (pwrite_block img 2 zeroBlock.get), ?_, ?_⟩
  · rw [cmd_install_of_loop 2 img (by omega) hsb hjm, hu, hloop]
  · rw [getElem?_clear_journal _ _ (by rw [hlen2]; decide)]
    rw [if_neg (by decide), if_neg (by decide), getElem?_pwrite_block]
    rw [if_neg (by decide), if_pos (by rw [hl85]; decide)]
    intro h30
    have hb : dbyte img (30 * BLOCK_SIZE + 0) = sevens.get 0 := by
      unfold dbyte
      rw [show (30 * BLOCK_SIZE + 0) / BLOCK_SIZE = 30 from by decide, h30]
      rfl
    rw [← blockBuf_of_lt img 30 0 (by decide), ← himg] at hb
    have hb2 : blockBuf (logged_image
        (log_records [] ++ self_target_tail.map (fun w => Rec.data w.1 w.2))) 30 0 = zeroBuf 0 :=
      blockBuf_sample_image (journal_of _) sample_bitmap (sample_itable 64) sample_rootdir 30
        (by decide) (by decide) 0 (by decide)
    rw [hb2] at hb
    revert hb
    decide

theorem bit_or_shift (v k j : Nat) (hk : k < 8) (hv : v < 256) :
    (((v ||| (1 <<< k)) % 256) >>> j) &&& 1 = if j = k then 1 else (v >>> j) &&& 1 := by
  have h1 : (v ||| (1 <<< k)) < 256 := by
    have : (1 <<< k) < 2 ^ 8 := by
      rw [Nat.one_shiftLeft]
      exact Nat.pow_lt_pow_right (by decide) hk
    exact @Nat.or_lt_two_pow _ _ 8 hv this
  rw [Nat.mod_eq_of_lt h1]
  have e : ∀ x : Nat, (x >>> j) &&& 1 = (x.testBit j).toNat := by
    intro x
    rw [Nat.and_one_is_mod, Nat.shiftRight_eq_div_pow, Nat.toNat_testBit]
  rw [e, e, Nat.testBit_or, Nat.one_shiftLeft, Nat.testBit_two_pow]
  by_cases h : j = k
  · subst h; simp
  · have : ¬ k = j := fun e => h e.symm
    simp [h, this]

/-- After `bitmap_set b n`, bit `n` reads 1 and every other bit reads as before. -/
theorem bitmap_test_bitmap_set (b : Buf) (n i : Nat) :
    bitmap_test (bitmap_set b n) i = if i = n then 1 else bitmap_test b i := by
  unfold bitmap_test bitmap_set
  by_cases hb : i / 8 = n / 8
  · simp only [hb, if_true, byteOf_val]
    rw [bit_or_shift _ _ _ (Nat.mod_lt _ (by decide)) (b (n / 8)).isLt]
    by_cases hin : i = n
    · subst hin; simp
    · have : ¬ (i % 8 = n % 8) := by omega
      simp only [this, hin, if_false]
  · have hin : ¬ i = n := by intro e; subst e; exact hb rfl
    simp only [hb, hin, if_false]

theorem find_free_inode_loop_ok (b : Buf) :
    ∀ (k i n : Nat), find_free_inode_loop b k i = .ok (Int.ofNat n) →
      i ≤ n ∧ n < i + k ∧ bitmap_test b n = 0 := by
  intro k
  induction k with
  | zero =>
    intro i n h
    simp only [find_free_inode_loop, Except.ok.injEq] at h
    exact absurd h (by simp)
  | succ k ih =>
    intro i n h
    simp only [find_free_inode_loop] at h
    by_cases hg : BLOCK_SIZE ≤ i / 8
    · rw [if_pos hg] at h; cases h
    · rw [if_neg hg] at h
      by_cases hz : bitmap_test b i = 0
      · rw [if_pos hz] at h
        simp only [Except.ok.injEq] at h
        have hi : i = n := Int.ofNat.inj h
        subst hi
        exact ⟨Nat.le_refl _, by omega, hz⟩
      · rw [if_neg hz] at h
        obtain ⟨h1, h2, h3⟩ := ih (i + 1) n h
        exact ⟨by omega, by omega, h3⟩

/-- The inode chosen by `find_free_inode` is above the root, below
`inode_count`, and its bit is clear. -/
theorem find_free_inode_ok (b : Buf) (inode_count n : Nat)
    (h : find_free_inode b inode_count = .ok (Int.ofNat n)) :
    1 ≤ n ∧ n < inode_count ∧ bitmap_test b n = 0 := by
  obtain ⟨h1, h2, h3⟩ := find_free_inode_loop_ok b _ _ _ h
  exact ⟨h1, by omega, h3⟩

theorem blockBuf_of_getElem? (d : Disk) (j i : Nat) (b : Block) (h : d[j]? = some b)
    (hi : i < BLOCK_SIZE) : blockBuf d j i = b.get i := by
  rw [blockBuf_of_lt _ _ _ hi]
  unfold dbyte
  have h1 : (j * BLOCK_SIZE + i) / BLOCK_SIZE = j := by simp only [BLOCK_SIZE] at *; omega
  have h2 : (j * BLOCK_SIZE + i) % BLOCK_SIZE = i := by simp only [BLOCK_SIZE] at *; omega
  rw [h1, h2, h]

theorem blockBuf_congr_getElem? (d e : Disk) (j : Nat) (h : d[j]? = e[j]?) :
    blockBuf d j = blockBuf e j := by
  funext i
  unfold blockBuf
  by_cases hi : i < BLOCK_SIZE
  · simp only [hi, if_true]
    exact dbyte_of_getElem?_eq d e j i h hi
  · simp only [hi, if_false]

theorem last_payload_three (t r : Nat) (a b c : Block) (j : Nat) :
    last_payload [Rec.data INODE_BMAP_IDX a, Rec.data t b, Rec.data r c, Rec.commit] j =
      if j = r then some c else if j = t then some b
      else if j = INODE_BMAP_IDX then some a else none := by
  simp only [last_payload]
  by_cases hr : r = j
  · subst hr
    simp
  · have hr2 : ¬ j = r := fun e => hr e.symm
    simp only [hr, hr2, if_false]
    by_cases ht : t = j
    · subst ht
      simp
    · have ht2 : ¬ j = t := fun e => ht e.symm
      simp only [ht, ht2, if_false]
      by_cases ha : INODE_BMAP_IDX = j
      · rw [if_pos ha, if_pos ha.symm]
      · have ha2 : ¬ j = INODE_BMAP_IDX := fun e => ha e.symm
        rw [if_neg ha, if_neg ha2]

/-- Install after a successful create on a journal that was uninitialised or
empty, the root directory block lying past the inode table: install replays
the one transaction, and the three home blocks hold the logged blocks; every
other home block is as before the create. -/
theorem create_install_blocks (filename : List Byte) (now : Nat) (d e d1 : Disk)
    (s : Staged) (n fuel : Nat)
    (hstage : create_stage filename now d = (.ok s, e))
    (hcreate : cmd_create filename now d = (.ok n, d1))
    (hj : jmagic d ≠ JOURNAL_MAGIC ∨ jused d = JH_SIZE)
    (hroot : DATA_START_IDX ≤ s.root_direct0)
    (hfuel : 4 ≤ fuel) :
    ∃ d2, cmd_install fuel d1 = some (.ok 1, d2) ∧
      d2[INODE_BMAP_IDX]? = some (Block.ofBuf s.new_inode_bitmap 0) ∧
      d2[INODE_START_IDX + s.inode_block_idx]? = some (Block.ofBuf s.inode_block_to_log 0) ∧
      d2[s.root_direct0]? = some (Block.ofBuf s.new_root_data 0) ∧
      (∀ j, (j < JOURNAL_BLOCK_IDX ∨ JOURNAL_BLOCK_IDX + JOURNAL_BLOCKS ≤ j) →
        j ≠ INODE_BMAP_IDX → j ≠ INODE_START_IDX + s.inode_block_idx → j ≠ s.root_direct0 →
        j < d.length → d2[j]? = d[j]?) ∧
      ∃ slot, StageOk d n slot ∧ s = staged_of filename now (create_opened d) n slot := by
  have hact : jmagic d = JOURNAL_MAGIC →
      JH_SIZE ≤ jused d ∧ jused d ≤ JOURNAL_BLOCKS * BLOCK_SIZE := by
    intro hm
    rcases hj with h | h
    · exact absurd hm h
    · rw [h]; decide
  obtain ⟨slot, hok, hstage2, hl1, hm1, _, _, hu1, hh1, _, hz1⟩ :=
    cmd_create_active filename now d d1 n hcreate hact
  rw [hstage] at hstage2
  simp only [Prod.mk.injEq, Except.ok.injEq] at hstage2
  obtain ⟨hs, he⟩ := hstage2
  have hu8 : jused (create_opened d) = JH_SIZE := by
    rw [jused_create_opened]
    rcases hj with h | h
    · rw [if_neg h]
    · by_cases hm : jmagic d = JOURNAL_MAGIC
      · rw [if_pos hm, h]
      · rw [if_neg hm]
  rw [hu8] at hu1 hh1
  rw [← hs] at hh1
  have hlen := hok.len
  have hlt := hok.inum_lt
  have hidx : s.inode_block_idx ≤ 1 := by
    rw [hs]
    show n * INODE_SIZE % U32 / BLOCK_SIZE ≤ 1
    simp only [INODE_BLOCKS, BLOCK_SIZE, INODE_SIZE, U32] at *
    omega
  have hr32 : s.root_direct0 < U32 := by
    rw [hs]; exact get_u32_lt _ _
  have hsb1 : sb_magic d1 = FS_MAGIC := by
    rw [← hok.sb]
    exact get_u32_congr _ _ _ _ (fun i hi => hz1 _ (by simp only [BLOCK_SIZE]; omega))
  have hlen1 : JOURNAL_BLOCK_IDX + JOURNAL_BLOCKS ≤ d1.length := by
    rw [hl1]
    simp only [DATA_START_IDX, INODE_START_IDX, DATA_BMAP_IDX, INODE_BMAP_IDX, INODE_BLOCKS] at hlen
    omega
  have hts := total_size_create_records s
  have hinst := cmd_install_records d1 (create_records s) fuel hsb1 hm1 hlen1
    (by rw [hu1]; decide) (by rw [hu1, hts]) hh1
    ⟨Or.inr (by decide), by decide,
      Or.inr (by simp only [INODE_START_IDX, DATA_BMAP_IDX, INODE_BMAP_IDX]; omega),
      by simp only [INODE_START_IDX, DATA_BMAP_IDX, INODE_BMAP_IDX, JOURNAL_BLOCK_IDX,
           JOURNAL_BLOCKS, U32]; omega,
      Or.inr (by simp only [DATA_START_IDX, INODE_START_IDX, DATA_BMAP_IDX, INODE_BMAP_IDX,
           INODE_BLOCKS] at hroot ⊢; omega),
      hr32, trivial⟩
    (by simp only [create_records, List.length_cons, List.length_nil]; omega)
  have hc : commits (create_records s) = 1 := rfl
  rw [hc] at hinst
  have ht17 : INODE_START_IDX + s.inode_block_idx ≠ INODE_BMAP_IDX := by
    simp only [INODE_START_IDX, DATA_BMAP_IDX, INODE_BMAP_IDX]; omega
  have hr17 : s.root_direct0 ≠ INODE_BMAP_IDX := by
    simp only [DATA_START_IDX, INODE_START_IDX, DATA_BMAP_IDX, INODE_BMAP_IDX, JOURNAL_BLOCK_IDX,
      JOURNAL_BLOCKS, INODE_BLOCKS] at hroot ⊢
    omega
  have hrt : s.root_direct0 ≠ INODE_START_IDX + s.inode_block_idx := by
    simp only [DATA_START_IDX, INODE_START_IDX, DATA_BMAP_IDX, INODE_BMAP_IDX, JOURNAL_BLOCK_IDX,
      JOURNAL_BLOCKS, INODE_BLOCKS] at hroot ⊢
    omega
  have hlp : ∀ j, last_payload (create_records s) j =
      if j = s.root_direct0 then some (Block.ofBuf s.new_root_data 0)
      else if j = INODE_START_IDX + s.inode_block_idx then
        some (Block.ofBuf s.inode_block_to_log 0)
      else if j = INODE_BMAP_IDX then some (Block.ofBuf s.new_inode_bitmap 0) else none :=
    fun j => last_payload_three _ _ _ _ _ j
  refine ⟨_, hinst, ?_, ?_, ?_, ?_, slot, hok, hs⟩
  · apply (getElem?_installed d1 (create_records s) INODE_BMAP_IDX hlen1
      (Or.inr (by decide))).1
    rw [hlp, if_neg hr17.symm, if_neg ht17.symm, if_pos rfl]
  · apply (getElem?_installed d1 (create_records s) _ hlen1
      (Or.inr (by simp only [INODE_START_IDX, DATA_BMAP_IDX, INODE_BMAP_IDX]; omega))).1
    rw [hlp, if_neg hrt.symm, if_pos rfl]
  · apply (getElem?_installed d1 (create_records s) _ hlen1
      (Or.inr (by simp only [DATA_START_IDX, INODE_START_IDX, DATA_BMAP_IDX, INODE_BMAP_IDX,
        INODE_BLOCKS] at hroot ⊢; omega))).1
    rw [hlp, if_pos rfl]
  · intro j hjh h1 h2 h3 hjl
    rw [(getElem?_installed d1 (create_records s) j hlen1 hjh).2
      (by rw [hlp, if_neg h3, if_neg h2, if_neg h1]) (by rw [hl1]; exact hjl)]
    exact cmd_create_home_unchanged filename now d d1 n hcreate hact j hjh

theorem update_inode_table_new (t : Buf) (n slot now i : Nat) (hn : 1 ≤ n)
    (hi : n * INODE_SIZE ≤ i ∧ i < n * INODE_SIZE + 40) :
    update_inode_table t n slot now i =
      memcpy (put_u32 (put_u16 (put_u16 t (n * INODE_SIZE) 1) (n * INODE_SIZE + 2) 1)
        (n * INODE_SIZE + 4) 0) (n * INODE_SIZE + 8) zeroBuf 0 32 i := by
  unfold update_inode_table
  simp only [INODE_SIZE] at *
  rw [put_u32_of_ne _ _ _ _ (Or.inr (by omega)), put_u32_of_ne _ _ _ _ (Or.inr (by omega)),
    put_u32_of_ne _ _ _ _ (Or.inl (by omega)), put_u32_of_ne _ _ _ _ (Or.inl (by omega))]

/-- The new inode in the updated inode table: type 1, one link, size 0, the
eight direct pointers 0. -/
theorem update_inode_table_fields (t : Buf) (n slot now : Nat) (hn : 1 ≤ n) :
    get_u16 (update_inode_table t n slot now) (n * INODE_SIZE) = 1 ∧
      get_u16 (update_inode_table t n slot now) (n * INODE_SIZE + 2) = 1 ∧
      get_u32 (update_inode_table t n slot now) (n * INODE_SIZE + 4) = 0 ∧
      ∀ k, k < 8 → get_u32 (update_inode_table t n slot now) (n * INODE_SIZE + 8 + 4 * k) = 0 := by
  refine ⟨?_, ?_, ?_, ?_⟩
  · rw [get_u16_congr _ (put_u16 t (n * INODE_SIZE) 1) (n * INODE_SIZE) (n * INODE_SIZE)
      (fun i hi => by
        rw [update_inode_table_new t n slot now _ hn ⟨by omega, by omega⟩]
        simp only [memcpy]
        rw [if_neg (by omega), put_u32_of_ne _ _ _ _ (Or.inl (by omega)),
          put_u16_of_ne _ _ _ _ (Or.inl (by omega))]),
      get_u16_put_u16]
  · rw [get_u16_congr _ (put_u16 (put_u16 t (n * INODE_SIZE) 1) (n * INODE_SIZE + 2) 1)
      (n * INODE_SIZE + 2) (n * INODE_SIZE + 2)
      (fun i hi => by
        rw [update_inode_table_new t n slot now _ hn ⟨by omega, by omega⟩]
        simp only [memcpy]
        rw [if_neg (by omega), put_u32_of_ne _ _ _ _ (Or.inl (by omega))]),
      get_u16_put_u16]
  · rw [get_u32_congr _ (put_u32 (put_u16 (put_u16 t (n * INODE_SIZE) 1) (n * INODE_SIZE + 2) 1)
      (n * INODE_SIZE + 4) 0) (n * INODE_SIZE + 4) (n * INODE_SIZE + 4)
      (fun i hi => by
        rw [update_inode_table_new t n slot now _ hn ⟨by omega, by omega⟩]
        simp only [memcpy]
        rw [if_neg (by omega)]),
      get_u32_put_u32]
    decide
  · intro k hk
    rw [get_u32_congr _ zeroBuf (n * INODE_SIZE + 8 + 4 * k) 0
      (fun i hi => by
        rw [update_inode_table_new t n slot now _ hn ⟨by omega, by omega⟩]
        simp only [memcpy]
        rw [if_pos (by omega)]
        rfl)]
    rfl

/-- The entry written by `update_root_data`: the inode number, then the name
cut to 27 characters and padded with NUL bytes; the rest of the block is kept. -/
theorem update_root_data_entry (r : Buf) (slot n : Nat) (filename : List Byte) :
    get_u32 (update_root_data r slot n filename) (slot * DIRENT_SIZE) = n % U32 ∧
      (∀ k, k < NAME_LEN → update_root_data r slot n filename (slot * DIRENT_SIZE + 4 + k) =
        if k < NAME_LEN - 1 ∧ k < c_strlen filename then filename.getD k 0 else 0) ∧
      (∀ i, (i < slot * DIRENT_SIZE ∨ slot * DIRENT_SIZE + DIRENT_SIZE ≤ i) →
        update_root_data r slot n filename i = r i) := by
  refine ⟨?_, ?_, ?_⟩
  · rw [get_u32_congr _ (put_u32 r (slot * DIRENT_SIZE) n) (slot * DIRENT_SIZE)
      (slot * DIRENT_SIZE) (fun i hi => by
        unfold update_root_data put_u8 strncpy
        simp only [NAME_LEN]
        rw [if_neg (by omega), if_neg (by omega)]),
      get_u32_put_u32]
  · intro k hk
    unfold update_root_data put_u8 strncpy
    simp only [NAME_LEN] at *
    by_cases h27 : k = 27
    · subst h27
      rw [if_pos (by omega)]
      simp
    · rw [if_neg (by omega), if_pos (by omega)]
      have e : slot * DIRENT_SIZE + 4 + k - (slot * DIRENT_SIZE + 4) = k := by omega
      rw [e]
      by_cases hc : k < c_strlen filename
      · have : k < 28 - 1 ∧ k < c_strlen filename := ⟨by omega, hc⟩
        rw [if_pos hc, if_pos this]
      · have : ¬ (k < 28 - 1 ∧ k < c_strlen filename) := fun h => hc h.2
        rw [if_neg hc, if_neg this]
  · intro i hi
    unfold update_root_data put_u8 strncpy
    simp only [NAME_LEN, DIRENT_SIZE] at *
    rw [if_neg (by omega), if_neg (by omega), put_u32_of_ne _ _ _ _ (by omega)]

/-- Claim C2 (create followed by install): on an image whose journal is
uninitialised or empty and whose root directory block lies in the data region,
when create succeeds with inode number `n` and directory slot `s.dirent_slot`,
install then replays one transaction, after which the home inode bitmap is the
old bitmap with exactly bit `n` additionally set (that bit was clear), the home
inode `n` has type 1, one link, size 0 and its eight direct pointers 0, and the
home root directory block is the old block except for the entry of the slot,
which holds the inode number `n` and the name cut to 27 characters, padded
with NUL bytes. -/
theorem create_then_install (filename : List Byte) (now : Nat) (d e d1 : Disk)
    (s : Staged) (n fuel : Nat)
    (hstage : create_stage filename now d = (.ok s, e))
    (hcreate : cmd_create filename now d = (.ok n, d1))
    (hj : jmagic d ≠ JOURNAL_MAGIC ∨ jused d = JH_SIZE)
    (hroot : DATA_START_IDX ≤ s.root_direct0)
    (hfuel : 4 ≤ fuel) :
    ∃ d2, cmd_install fuel d1 = some (.ok 1, d2) ∧ s.new_inum = n ∧
      (∀ i, i < BLOCK_SIZE →
        blockBuf d2 INODE_BMAP_IDX i = bitmap_set (blockBuf d INODE_BMAP_IDX) n i) ∧
      bitmap_test (blockBuf d INODE_BMAP_IDX) n = 0 ∧
      (∀ i, i < 8 * BLOCK_SIZE → bitmap_test (blockBuf d2 INODE_BMAP_IDX) i =
        if i = n then 1 else bitmap_test (blockBuf d INODE_BMAP_IDX) i) ∧
      get_u16 (blockBuf d2 (INODE_START_IDX + n * INODE_SIZE / BLOCK_SIZE))
        (n * INODE_SIZE % BLOCK_SIZE) = 1 ∧
      get_u16 (blockBuf d2 (INODE_START_IDX + n * INODE_SIZE / BLOCK_SIZE))
        (n * INODE_SIZE % BLOCK_SIZE + 2) = 1 ∧
      get_u32 (blockBuf d2 (INODE_START_IDX + n * INODE_SIZE / BLOCK_SIZE))
        (n * INODE_SIZE % BLOCK_SIZE + 4) = 0 ∧
      (∀ k, k < 8 → get_u32 (blockBuf d2 (INODE_START_IDX + n * INODE_SIZE / BLOCK_SIZE))
        (n * INODE_SIZE % BLOCK_SIZE + 8 + 4 * k) = 0) ∧
      get_u32 (blockBuf d2 s.root_direct0) (s.dirent_slot * DIRENT_SIZE) = n ∧
      (∀ k, k < NAME_LEN →
        blockBuf d2 s.root_direct0 (s.dirent_slot * DIRENT_SIZE + 4 + k) =
          if k < NAME_LEN - 1 ∧ k < c_strlen filename then filename.getD k 0 else 0) ∧
      (∀ i, i < BLOCK_SIZE →
        (i < s.dirent_slot * DIRENT_SIZE ∨ s.dirent_slot * DIRENT_SIZE + DIRENT_SIZE ≤ i) →
        blockBuf d2 s.root_direct0 i = blockBuf d s.root_direct0 i) := by
  obtain ⟨d2, hinst, h17, h19, hrd, _, slot, hok, hs⟩ :=
    create_install_blocks filename now d e d1 s n fuel hstage hcreate hj hroot hfuel
  have hfi := find_free_inode_ok _ _ _ hok.inum
  rw [blockBuf_create_opened d INODE_BMAP_IDX (by decide)] at hfi
  have hlt := hok.inum_lt
  have hn64 : n < 64 := hlt
  have hslot := (find_free_dirent_ok _ _ _ hok.slot).1
  have hs128 : slot < 128 := hslot
  have hbm : s.new_inode_bitmap = bitmap_set (blockBuf d INODE_BMAP_IDX) n := by
    rw [hs]
    show bitmap_set (blockBuf (create_opened d) INODE_BMAP_IDX) n = _
    rw [blockBuf_create_opened d INODE_BMAP_IDX (by decide)]
  have hidx : s.inode_block_idx = n * INODE_SIZE / BLOCK_SIZE := by
    rw [hs]
    show n * INODE_SIZE % U32 / BLOCK_SIZE = n * INODE_SIZE / BLOCK_SIZE
    rw [Nat.mod_eq_of_lt (by simp only [INODE_SIZE, U32]; omega)]
  have hsl : s.dirent_slot = slot := by rw [hs]; rfl
  have hr0 : s.root_direct0 ≠ JOURNAL_BLOCK_IDX := by
    simp only [DATA_START_IDX, INODE_START_IDX, DATA_BMAP_IDX, INODE_BMAP_IDX, JOURNAL_BLOCK_IDX,
      JOURNAL_BLOCKS, INODE_BLOCKS] at hroot ⊢
    omega
  have hrdata : s.new_root_data =
      update_root_data (blockBuf d s.root_direct0) slot n filename := by
    rw [← blockBuf_create_opened d s.root_direct0 hr0]
    rw [hs]
    rfl
  have hbit : ∀ i, i < BLOCK_SIZE →
      blockBuf d2 INODE_BMAP_IDX i = bitmap_set (blockBuf d INODE_BMAP_IDX) n i := by
    intro i hi
    rw [blockBuf_of_getElem? d2 _ i _ h17 hi, Block.get_ofBuf _ _ _ hi, hbm, Nat.zero_add]
  have htbl : ∀ i, i < BLOCK_SIZE →
      blockBuf d2 (INODE_START_IDX + n * INODE_SIZE / BLOCK_SIZE) i =
        s.inode_table (n * INODE_SIZE / BLOCK_SIZE * BLOCK_SIZE + i) := by
    intro i hi
    rw [← hidx, blockBuf_of_getElem? d2 _ i _ h19 hi, Block.get_ofBuf _ _ _ hi, Nat.zero_add]
    have : s.inode_block_to_log =
        memcpy zeroBuf 0 s.inode_table (s.inode_block_idx * BLOCK_SIZE) BLOCK_SIZE := by
      rw [hs]; rfl
    rw [this]
    simp only [memcpy]
    rw [if_pos ⟨by omega, by omega⟩]
    apply congrArg
    omega
  have hit : s.inode_table = update_inode_table
      (memcpy (blockBuf (create_opened d) INODE_START_IDX) BLOCK_SIZE
        (blockBuf (create_opened d) (INODE_START_IDX + 1)) 0 BLOCK_SIZE) n slot now := by
    rw [hs]; rfl
  obtain ⟨f1, f2, f3, f4⟩ := update_inode_table_fields
    (memcpy (blockBuf (create_opened d) INODE_START_IDX) BLOCK_SIZE
      (blockBuf (create_opened d) (INODE_START_IDX + 1)) 0 BLOCK_SIZE) n slot now hfi.1
  rw [← hit] at f1 f2 f3 f4
  have hbase : ∀ k, k < 48 → n * INODE_SIZE / BLOCK_SIZE * BLOCK_SIZE +
      (n * INODE_SIZE % BLOCK_SIZE + k) = n * INODE_SIZE + k := by
    intro k _
    simp only [INODE_SIZE, BLOCK_SIZE]
    omega
  have hin : ∀ k, k < 48 → n * INODE_SIZE % BLOCK_SIZE + k < BLOCK_SIZE := by
    intro k hk
    simp only [INODE_SIZE, BLOCK_SIZE]
    omega
  have hrd2 : ∀ i, i < BLOCK_SIZE → blockBuf d2 s.root_direct0 i =
      update_root_data (blockBuf d s.root_direct0) slot n filename i := by
    intro i hi
    rw [blockBuf_of_getElem? d2 _ i _ hrd hi, Block.get_ofBuf _ _ _ hi, hrdata, Nat.zero_add]
  obtain ⟨g1, g2, g3⟩ := update_root_data_entry (blockBuf d s.root_direct0) slot n filename
  refine ⟨d2, hinst, by rw [hs]; rfl, hbit, hfi.2.2, ?_, ?_, ?_, ?_, ?_, ?_, ?_, ?_⟩
  · intro i hi
    rw [← bitmap_test_bitmap_set]
    unfold bitmap_test
    rw [hbit (i / 8) (by simp only [BLOCK_SIZE] at *; omega)]
  · rw [get_u16_congr _ s.inode_table (n * INODE_SIZE % BLOCK_SIZE) (n * INODE_SIZE)
      (fun i hi => by
        rw [htbl _ (hin i (by omega)), hbase i (by omega)]), f1]
  · rw [get_u16_congr _ s.inode_table (n * INODE_SIZE % BLOCK_SIZE + 2) (n * INODE_SIZE + 2)
      (fun i hi => by
        have e1 : n * INODE_SIZE % BLOCK_SIZE + 2 + i =
            n * INODE_SIZE % BLOCK_SIZE + (2 + i) := by omega
        have e2 : n * INODE_SIZE + 2 + i = n * INODE_SIZE + (2 + i) := by omega
        rw [e1, e2, htbl _ (hin _ (by omega)), hbase _ (by omega)]), f2]
  · rw [get_u32_congr _ s.inode_table (n * INODE_SIZE % BLOCK_SIZE + 4) (n * INODE_SIZE + 4)
      (fun i hi => by
        have e1 : n * INODE_SIZE % BLOCK_SIZE + 4 + i =
            n * INODE_SIZE % BLOCK_SIZE + (4 + i) := by omega
        have e2 : n * INODE_SIZE + 4 + i = n * INODE_SIZE + (4 + i) := by omega
        rw [e1, e2, htbl _ (hin _ (by omega)), hbase _ (by omega)]), f3]
  · intro k hk
    rw [get_u32_congr _ s.inode_table (n * INODE_SIZE % BLOCK_SIZE + 8 + 4 * k)
      (n * INODE_SIZE + 8 + 4 * k)
      (fun i hi => by
        have e1 : n * INODE_SIZE % BLOCK_SIZE + 8 + 4 * k + i =
            n * INODE_SIZE % BLOCK_SIZE + (8 + 4 * k + i) := by omega
        have e2 : n * INODE_SIZE + 8 + 4 * k + i = n * INODE_SIZE + (8 + 4 * k + i) := by omega
        rw [e1, e2, htbl _ (hin _ (by omega)), hbase _ (by omega)]), f4 k hk]
  · rw [hsl, get_u32_congr _ (update_root_data (blockBuf d s.root_direct0) slot n filename)
      (slot * DIRENT_SIZE) (slot * DIRENT_SIZE)
      (fun i hi => hrd2 _ (by simp only [DIRENT_SIZE, NAME_LEN, BLOCK_SIZE]; omega)), g1]
    exact Nat.mod_eq_of_lt (by simp only [U32]; omega)
  · intro k hk
    rw [hsl, hrd2 _ (by simp only [DIRENT_SIZE, NAME_LEN, BLOCK_SIZE] at *; omega)]
    exact g2 k hk
  · intro i hi hout
    rw [hsl] at hout
    rw [hrd2 i hi]
    exact g3 i hout

theorem root_fields_sample_image (jb bm rd : Buf) (root_size : Nat) (hr : root_size < U32) :
    get_u32 (blockBuf (sample_image jb bm (sample_itable root_size) rd) INODE_START_IDX) 4
        = root_size ∧
      get_u32 (blockBuf (sample_image jb bm (sample_itable root_size) rd) INODE_START_IDX) 8
        = DATA_START_IDX := by
  have h19 : ∀ i, i < BLOCK_SIZE → blockBuf (sample_image jb bm (sample_itable root_size) rd)
      INODE_START_IDX i = sample_itable root_size i :=
    fun i hi => blockBuf_sample_image _ _ _ _ INODE_START_IDX (by decide) (by decide) i hi
  constructor
  · rw [get_u32_congr _ (sample_itable root_size) 4 4 (fun i hi =>
      h19 _ (by simp only [BLOCK_SIZE]; omega))]
    unfold sample_itable
    rw [get_u32_congr _ (put_u32 (put_u16 (put_u16 zeroBuf 0 2) 2 2) 4 root_size) 4 4
      (fun i hi => put_u32_of_ne _ _ _ _ (Or.inl (by omega))), get_u32_put_u32]
    exact Nat.mod_eq_of_lt hr
  · rw [get_u32_congr _ (sample_itable root_size) 8 8 (fun i hi =>
      h19 _ (by simp only [BLOCK_SIZE]; omega))]
    unfold sample_itable
    rw [get_u32_put_u32]
    decide

/-- Witness for claim C2: create of `foo.txt` on a freshly formatted image with
an empty journal, then install. -/
theorem create_then_install_witness :
    ∃ d2, cmd_install 4 (cmd_create foo_txt 0 (fresh_image JH_SIZE)).2 = some (.ok 1, d2) ∧
      bitmap_test (blockBuf d2 INODE_BMAP_IDX) 1 = 1 ∧
      get_u16 (blockBuf d2 (INODE_START_IDX + 1 * INODE_SIZE / BLOCK_SIZE))
        (1 * INODE_SIZE % BLOCK_SIZE) = 1 ∧
      get_u32 (blockBuf d2 (staged_of foo_txt 0 (fresh_image JH_SIZE) 1 2).root_direct0)
        ((staged_of foo_txt 0 (fresh_image JH_SIZE) 1 2).dirent_slot * DIRENT_SIZE) = 1 :=
  (create_then_install foo_txt 0 (fresh_image JH_SIZE) (fresh_image JH_SIZE)
    (cmd_create foo_txt 0 (fresh_image JH_SIZE)).2
    (staged_of foo_txt 0 (fresh_image JH_SIZE) 1 2) 1 4
    create_stage_fresh_image
    (prod_eta_of_fst _ _ cmd_create_fresh_image)
    (Or.inr (jused_sample JH_SIZE (by decide) _ _ _))
    (Nat.le_of_eq (root_fields_sample_image _ _ _ 64 (by decide)).2.symm)
    (by decide)).imp
    (fun _ h => ⟨h.1, by rw [h.2.2.2.2.1 1 (by decide)]; rfl, h.2.2.2.2.2.1,
      h.2.2.2.2.2.2.2.2.2.1⟩)

theorem stageOk_full32_image :
    create_opened full32_image = full32_image ∧ StageOk full32_image 32 2 :=
  stageOk_sample_image _ _ _ _ 32 2 (sample_journal_magic JH_SIZE) rfl (by decide) rfl rfl rfl
    (by rw [sample_journal_used JH_SIZE (by decide)]; decide)

/-- Claim C3 fails on the code: on an image with inodes 0 to 31 allocated,
create picks inode 32 and slot 2 and computes the root size 96 in memory, but
logs inode-table block 20, the block of inode 32, which does not hold the root
inode; after install the home root inode still has size 64, not
`(2 + 1) * 32`. -/
theorem create_root_update_lost :
    ∃ d1 d2, cmd_create foo_txt 0 full32_image = (.ok 32, d1) ∧
      create_stage foo_txt 0 full32_image =
        (.ok (staged_of foo_txt 0 full32_image 32 2), full32_image) ∧
      (staged_of foo_txt 0 full32_image 32 2).dirent_slot = 2 ∧
      get_u32 (staged_of foo_txt 0 full32_image 32 2).inode_table 4 = (2 + 1) * DIRENT_SIZE ∧
      INODE_START_IDX + (staged_of foo_txt 0 full32_image 32 2).inode_block_idx = 20 ∧
      cmd_install 4 d1 = some (.ok 1, d2) ∧
      get_u32 (blockBuf d2 INODE_START_IDX) 4 = 64 ∧
      get_u32 (blockBuf d2 INODE_START_IDX) 4 ≠ (2 + 1) * DIRENT_SIZE := by
  obtain ⟨hop, hok⟩ := stageOk_full32_image
  have hu : jused full32_image = JH_SIZE := jused_sample JH_SIZE (by decide) _ _ _
  obtain ⟨d1, hcreate, _⟩ := cmd_create_at foo_txt 0 full32_image 32 2 hok
    (by rw [hop, hu])
    (by rw [hop, hu]; unfold full32_image; rw [length_sample_image]; decide)
    (by rw [hop, hu]; decide)
  have hst := create_stage_of_ok foo_txt 0 full32_image 32 2 hok
  rw [hop] at hst
  have hrf := root_fields_sample_image (sample_journal JH_SIZE) bitmap32 sample_rootdir 64
    (by decide)
  have hr0 : (staged_of foo_txt 0 full32_image 32 2).root_direct0 = DATA_START_IDX := hrf.2
  have hidx : (staged_of foo_txt 0 full32_image 32 2).inode_block_idx = 1 := rfl
  obtain ⟨d2, hinst, _, _, _, hother, _⟩ := create_install_blocks foo_txt 0 full32_image
    full32_image d1 (staged_of foo_txt 0 full32_image 32 2) 32 4 hst hcreate (Or.inr hu)
    (Nat.le_of_eq hr0.symm) (by decide)
  have h19 : d2[INODE_START_IDX]? = full32_image[INODE_START_IDX]? :=
    hother INODE_START_IDX (Or.inr (by decide)) (by decide) (by rw [hidx]; decide)
      (by rw [hr0]; decide) (by unfold full32_image; rw [length_sample_image]; decide)
  have hsz : get_u32 (blockBuf d2 INODE_START_IDX) 4 = 64 := by
    rw [blockBuf_congr_getElem? d2 full32_image INODE_START_IDX h19]
    exact hrf.1
  refine ⟨d1, d2, hcreate, hst, rfl, ?_, by rw [hidx]; decide, hinst, hsz, ?_⟩
  · show get_u32 (update_inode_table _ 32 2 0) 4 = _
    rw [get_u32_update_inode_table]
    decide
  · rw [hsz]; decide

/-! ## Bitmap helpers and free-slot searches -/

theorem bitmap_test_le_one (b : Buf) (i : Nat) : bitmap_test b i = 0 ∨ bitmap_test b i = 1 := by
  unfold bitmap_test
  rw [Nat.and_one_is_mod]
  omega

theorem bitmap_set_val (b : Buf) (i : Nat) :
    (bitmap_set b i (i / 8)).val = (b (i / 8)).val ||| (1 <<< (i % 8)) := by
  unfold bitmap_set
  simp only [if_true, byteOf_val]
  apply Nat.mod_eq_of_lt
  have h1 : (1 <<< (i % 8)) < 2 ^ 8 := by
    rw [Nat.one_shiftLeft]
    exact Nat.pow_lt_pow_right (by decide) (Nat.mod_lt _ (by decide))
  exact @Nat.or_lt_two_pow _ _ 8 (b (i / 8)).isLt h1

/-- Claim C16 (bitmap codec laws): after `bitmap_set b i` bit `i` tests as 1 and
every other bit `j` tests as it did in `b`; `bitmap_set` leaves every byte
other than byte `i / 8` as it was and makes byte `i / 8` the bitwise OR of its
old value with the mask `1 << (i % 8)` (the conversion to `uint8_t` loses
nothing); setting the same bit twice is the same as setting it once.  The laws
hold at every index, in particular at the indices below 32768 of a block-sized
bitmap. -/
theorem bitmap_codec_laws (b : Buf) (i j : Nat) :
    bitmap_test (bitmap_set b i) i = 1 ∧
      bitmap_test (bitmap_set b i) j = (if j = i then 1 else bitmap_test b j) ∧
      (∀ k, bitmap_set b i k = if k = i / 8 then bitmap_set b i (i / 8) else b k) ∧
      (bitmap_set b i (i / 8)).val = (b (i / 8)).val ||| (1 <<< (i % 8)) ∧
      bitmap_set (bitmap_set b i) i = bitmap_set b i := by
  refine ⟨?_, bitmap_test_bitmap_set b i j, ?_, bitmap_set_val b i, ?_⟩
  · rw [bitmap_test_bitmap_set, if_pos rfl]
  · intro k
    by_cases hk : k = i / 8
    · rw [if_pos hk, hk]
    · rw [if_neg hk]
      unfold bitmap_set
      rw [if_neg hk]
  · funext k
    by_cases hk : k = i / 8
    · subst hk
      apply Fin.ext
      rw [bitmap_set_val (bitmap_set b i) i, bitmap_set_val b i, Nat.or_assoc, Nat.or_self]
    · unfold bitmap_set
      simp only [hk, if_false]

/-- The loop of `find_free_inode` returns `-1` only when it has seen no clear
bit. -/
theorem find_free_inode_loop_none (b : Buf) :
    ∀ (k i : Nat), find_free_inode_loop b k i = .ok (-1) →
      ∀ j, i ≤ j → j < i + k → bitmap_test b j ≠ 0 := by
  intro k
  induction k with
  | zero => intro i _ j h1 h2; omega
  | succ k ih =>
    intro i h j h1 h2
    simp only [find_free_inode_loop] at h
    by_cases hg : BLOCK_SIZE ≤ i / 8
    · rw [if_pos hg] at h; cases h
    · rw [if_neg hg] at h
      by_cases hz : bitmap_test b i = 0
      · rw [if_pos hz] at h
        simp only [Except.ok.injEq] at h
        have : (Int.ofNat i) ≥ 0 := Int.ofNat_nonneg i
        omega
      · rw [if_neg hz] at h
        by_cases hji : j = i
        · subst hji; exact hz
        · exact ih (i + 1) h j (by omega) (by omega)

/-- The bits that the loop of `find_free_inode` passes over are set. -/
theorem find_free_inode_loop_skipped (b : Buf) :
    ∀ (k i n : Nat), find_free_inode_loop b k i = .ok (Int.ofNat n) →
      ∀ j, i ≤ j → j < n → bitmap_test b j ≠ 0 := by
  intro k
  induction k with
  | zero =>
    intro i n h
    simp only [find_free_inode_loop, Except.ok.injEq] at h
    exact absurd h (by simp)
  | succ k ih =>
    intro i n h j h1 h2
    simp only [find_free_inode_loop] at h
    by_cases hg : BLOCK_SIZE ≤ i / 8
    · rw [if_pos hg] at h; cases h
    · rw [if_neg hg] at h
      by_cases hz : bitmap_test b i = 0
      · rw [if_pos hz] at h
        simp only [Except.ok.injEq] at h
        have hi : i = n := Int.ofNat.inj h
        omega
      · rw [if_neg hz] at h
        by_cases hji : j = i
        · subst hji; exact hz
        · exact ih (i + 1) n h j (by omega) h2

/-- Inside a block-sized bitmap the loop of `find_free_inode` returns the
first clear bit of its range, or `-1` when the range has none. -/
theorem find_free_inode_loop_spec (b : Buf) :
    ∀ (k i : Nat), i + k ≤ 8 * BLOCK_SIZE →
      (∀ n, i ≤ n → n < i + k → bitmap_test b n = 0 →
        (∀ j, i ≤ j → j < n → bitmap_test b j ≠ 0) →
        find_free_inode_loop b k i = .ok (Int.ofNat n)) ∧
      ((∀ j, i ≤ j → j < i + k → bitmap_test b j ≠ 0) →
        find_free_inode_loop b k i = .ok (-1)) := by
  intro k
  induction k with
  | zero =>
    intro i _
    refine ⟨?_, ?_⟩
    · intro n h1 h2; omega
    · intro _; rfl
  | succ k ih =>
    intro i hb
    have hg : ¬ BLOCK_SIZE ≤ i / 8 := by simp only [BLOCK_SIZE] at *; omega
    obtain ⟨ih1, ih2⟩ := ih (i + 1) (by omega)
    refine ⟨?_, ?_⟩
    · intro n h1 h2 hz hmin
      simp only [find_free_inode_loop]
      rw [if_neg hg]
      by_cases hni : n = i
      · subst hni
        rw [if_pos hz]
      · rw [if_neg (hmin i (Nat.le_refl _) (by omega))]
        exact ih1 n (by omega) (by omega) hz (fun j hj1 hj2 => hmin j (by omega) hj2)
    · intro hall
      simp only [find_free_inode_loop]
      rw [if_neg hg, if_neg (hall i (Nat.le_refl _) (by omega))]
      exact ih2 (fun j hj1 hj2 => hall j (by omega) (by omega))

/-- Past the end of a block-sized bitmap whose bits are all set, the loop of
`find_free_inode` reads outside the array. -/
theorem find_free_inode_loop_overrun (b : Buf) :
    ∀ (k i : Nat), i ≤ 8 * BLOCK_SIZE → 8 * BLOCK_SIZE < i + k →
      (∀ j, i ≤ j → j < 8 * BLOCK_SIZE → bitmap_test b j ≠ 0) →
      find_free_inode_loop b k i = .error .out_of_bounds := by
  intro k
  induction k with
  | zero => intro i h1 h2; omega
  | succ k ih =>
    intro i h1 h2 hall
    simp only [find_free_inode_loop]
    by_cases hg : BLOCK_SIZE ≤ i / 8
    · rw [if_pos hg]
    · rw [if_neg hg]
      have hi : i < 8 * BLOCK_SIZE := by simp only [BLOCK_SIZE] at *; omega
      rw [if_neg (hall i (Nat.le_refl _) hi)]
      exact ih (i + 1) (by omega) (by omega) (fun j hj1 hj2 => hall j (by omega) hj2)

theorem find_free_inode_loop_returns (b : Buf) :
    ∀ (k i : Nat), i + k ≤ 8 * BLOCK_SIZE → ∃ r, find_free_inode_loop b k i = .ok r := by
  intro k
  induction k with
  | zero => intro i _; exact ⟨-1, rfl⟩
  | succ k ih =>
    intro i hb
    have hg : ¬ BLOCK_SIZE ≤ i / 8 := by simp only [BLOCK_SIZE] at *; omega
    simp only [find_free_inode_loop]
    rw [if_neg hg]
    by_cases hz : bitmap_test b i = 0
    · rw [if_pos hz]; exact ⟨_, rfl⟩
    · rw [if_neg hz]; exact ih (i + 1) (by omega)

theorem bitmap_test_ne_zero_iff (b : Buf) (i : Nat) : bitmap_test b i ≠ 0 ↔ bitmap_test b i = 1 := by
  rcases bitmap_test_le_one b i with h | h <;> rw [h] <;> simp

/-- Claim C19, as amended (`find_free_inode` returns the lowest free inode
above the root): for a block-sized bitmap and
`inode_count ≤ 32768` (the number of bits of the block), `find_free_inode`
returns a value; it returns `n ≥ 0` exactly when `n` is the smallest index with
`1 ≤ n < inode_count` whose bit is clear; it returns `-1` exactly when every bit
with index in `[1, inode_count)` is set; it never returns 0, whatever bit 0
holds. -/
theorem find_free_inode_lowest (bitmap : Buf) (inode_count : Nat)
    (hcount : inode_count ≤ 8 * BLOCK_SIZE) :
    (∃ r, find_free_inode bitmap inode_count = .ok r) ∧
      (∀ n : Nat, find_free_inode bitmap inode_count = .ok (Int.ofNat n) ↔
        (1 ≤ n ∧ n < inode_count ∧ bitmap_test bitmap n = 0 ∧
          ∀ j, 1 ≤ j → j < n → bitmap_test bitmap j = 1)) ∧
      (find_free_inode bitmap inode_count = .ok (-1) ↔
        ∀ j, 1 ≤ j → j < inode_count → bitmap_test bitmap j = 1) ∧
      find_free_inode bitmap inode_count ≠ .ok 0 := by
  have hb : 1 + (inode_count - 1) ≤ 8 * BLOCK_SIZE := by simp only [BLOCK_SIZE] at *; omega
  obtain ⟨s1, s2⟩ := find_free_inode_loop_spec bitmap (inode_count - 1) 1 hb
  have hiff : ∀ n : Nat, find_free_inode bitmap inode_count = .ok (Int.ofNat n) ↔
      (1 ≤ n ∧ n < inode_count ∧ bitmap_test bitmap n = 0 ∧
        ∀ j, 1 ≤ j → j < n → bitmap_test bitmap j = 1) := by
    intro n
    constructor
    · intro h
      obtain ⟨h1, h2, h3⟩ := find_free_inode_ok bitmap inode_count n h
      refine ⟨h1, h2, h3, ?_⟩
      intro j hj1 hj2
      exact (bitmap_test_ne_zero_iff _ _).1
        (find_free_inode_loop_skipped bitmap _ _ _ h j hj1 hj2)
    · rintro ⟨h1, h2, h3, h4⟩
      exact s1 n h1 (by omega) h3 (fun j hj1 hj2 => (bitmap_test_ne_zero_iff _ _).2 (h4 j hj1 hj2))
  refine ⟨find_free_inode_loop_returns bitmap _ _ hb, hiff, ?_, ?_⟩
  · constructor
    · intro h j hj1 hj2
      exact (bitmap_test_ne_zero_iff _ _).1
        (find_free_inode_loop_none bitmap _ _ h j hj1 (by omega))
    · intro h
      exact s2 (fun j hj1 hj2 => (bitmap_test_ne_zero_iff _ _).2 (h j hj1 (by omega)))
  · intro h
    have := (hiff 0).1 h
    omega

theorem bitmap_test_ones_bitmap (j : Nat) : bitmap_test ones_bitmap j = 1 := by
  unfold bitmap_test ones_bitmap
  have h : j % 8 < 8 := Nat.mod_lt _ (by decide)
  show (255 >>> (j % 8)) &&& 1 = 1
  generalize j % 8 = m at h
  interval_cases m <;> rfl

/-- Witness for claim C19: the search among 64 inodes of a bitmap block whose
bits are all set. -/
theorem find_free_inode_lowest_witness :
    64 ≤ 8 * BLOCK_SIZE ∧
      (∃ r, find_free_inode ones_bitmap 64 = .ok r) ∧
      (∀ n : Nat, find_free_inode ones_bitmap 64 = .ok (Int.ofNat n) ↔
        (1 ≤ n ∧ n < 64 ∧ bitmap_test ones_bitmap n = 0 ∧
          ∀ j, 1 ≤ j → j < n → bitmap_test ones_bitmap j = 1)) ∧
      (find_free_inode ones_bitmap 64 = .ok (-1) ↔
        ∀ j, 1 ≤ j → j < 64 → bitmap_test ones_bitmap j = 1) ∧
      find_free_inode ones_bitmap 64 ≠ .ok 0 :=
  ⟨by decide, find_free_inode_lowest ones_bitmap 64 (by decide)⟩

/-- Counterexample to claim C19 as stated: the claim fails for
`inode_count = 32769` on a block-sized bitmap whose bits are all set.  Every
bit with index in `[1, 32769)` reads as set, yet `find_free_inode` does not
return `-1`, nor any other value: at `i = 32768` it reads `bitmap[4096]`,
outside the block. -/
theorem find_free_inode_counterexample :
    (∀ j, 1 ≤ j → j < 32769 → bitmap_test ones_bitmap j = 1) ∧
      find_free_inode ones_bitmap 32769 = .error .out_of_bounds ∧
      find_free_inode ones_bitmap 32769 ≠ .ok (-1) ∧
      ∀ r, find_free_inode ones_bitmap 32769 ≠ .ok r := by
  have h : find_free_inode ones_bitmap 32769 = .error .out_of_bounds :=
    find_free_inode_loop_overrun ones_bitmap _ 1 (by decide) (by decide)
      (fun j _ _ => by rw [bitmap_test_ones_bitmap]; decide)
  refine ⟨fun j _ _ => bitmap_test_ones_bitmap j, h, ?_, ?_⟩
  · rw [h]
    intro h2
    cases h2
  · intro r
    rw [h]
    intro h2
    cases h2

/-- Inside a block of directory entries the first loop of `find_free_dirent`
returns the first entry of its range whose inode number is 0, or nothing when
the range has none. -/
theorem find_free_dirent_loop_spec (b : Buf) :
    ∀ (k i : Nat), i + k ≤ BLOCK_SIZE / DIRENT_SIZE →
      (∀ n, i ≤ n → n < i + k → get_u32 b (n * DIRENT_SIZE) = 0 →
        (∀ j, i ≤ j → j < n → get_u32 b (j * DIRENT_SIZE) ≠ 0) →
        find_free_dirent_loop b k i = .ok (some n)) ∧
      ((∀ j, i ≤ j → j < i + k → get_u32 b (j * DIRENT_SIZE) ≠ 0) →
        find_free_dirent_loop b k i = .ok none) := by
  intro k
  induction k with
  | zero =>
    intro i _
    refine ⟨?_, ?_⟩
    · intro n h1 h2; omega
    · intro _; rfl
  | succ k ih =>
    intro i hb
    have hg : ¬ BLOCK_SIZE / DIRENT_SIZE ≤ i := by
      simp only [BLOCK_SIZE, DIRENT_SIZE, NAME_LEN] at *; omega
    obtain ⟨ih1, ih2⟩ := ih (i + 1) (by omega)
    refine ⟨?_, ?_⟩
    · intro n h1 h2 hz hmin
      simp only [find_free_dirent_loop]
      rw [if_neg hg]
      by_cases hni : n = i
      · subst hni
        rw [if_pos hz]
      · rw [if_neg (hmin i (Nat.le_refl _) (by omega))]
        exact ih1 n (by omega) (by omega) hz (fun j hj1 hj2 => hmin j (by omega) hj2)
    · intro hall
      simp only [find_free_dirent_loop]
      rw [if_neg hg, if_neg (hall i (Nat.le_refl _) (by omega))]
      exact ih2 (fun j hj1 hj2 => hall j (by omega) (by omega))

/-- Claim C20 (`find_free_dirent` slot selection): for a block of directory entries
and an entry count `n ≤ 128`, `find_free_dirent` returns the smallest index `i`
with `2 ≤ i < n` whose inode number is 0 when there is one; when there is none
it returns `n` if `n < 128` and `-1` otherwise. -/
theorem find_free_dirent_selection (dirents : Buf) (n : Nat)
    (hn : n ≤ BLOCK_SIZE / DIRENT_SIZE) :
    (∀ i, 2 ≤ i → i < n → get_u32 dirents (i * DIRENT_SIZE) = 0 →
        (∀ j, 2 ≤ j → j < i → get_u32 dirents (j * DIRENT_SIZE) ≠ 0) →
        find_free_dirent dirents n = .ok (Int.ofNat i)) ∧
      ((∀ j, 2 ≤ j → j < n → get_u32 dirents (j * DIRENT_SIZE) ≠ 0) →
        find_free_dirent dirents n =
          .ok (if n < BLOCK_SIZE / DIRENT_SIZE then Int.ofNat n else -1)) := by
  have hb : 2 + (n - 2) ≤ BLOCK_SIZE / DIRENT_SIZE := by
    simp only [BLOCK_SIZE, DIRENT_SIZE, NAME_LEN] at *; omega
  obtain ⟨s1, s2⟩ := find_free_dirent_loop_spec dirents (n - 2) 2 hb
  refine ⟨?_, ?_⟩
  · intro i h1 h2 hz hmin
    unfold find_free_dirent
    rw [s1 i h1 (by omega) hz hmin]
  · intro hall
    unfold find_free_dirent
    rw [s2 (fun j hj1 hj2 => hall j hj1 (by omega))]
    by_cases hlt : n < BLOCK_SIZE / DIRENT_SIZE
    · simp only [hlt, if_true]
    · simp only [hlt, if_false]

/-- Witness for claim C20: a root directory of three entries whose entry 2 is
free. -/
theorem find_free_dirent_selection_witness :
    3 ≤ BLOCK_SIZE / DIRENT_SIZE ∧ get_u32 sample_rootdir (2 * DIRENT_SIZE) = 0 ∧
      find_free_dirent sample_rootdir 3 = .ok (Int.ofNat 2) :=
  ⟨by decide, by decide,
    (find_free_dirent_selection sample_rootdir 3 (by decide)).1 2 (by decide) (by decide)
      (by decide) (fun j h1 h2 => by omega)⟩

/-- Claim C15 (append postcondition): on an Active journal with `nbytes_used = u`,
`journal_append` of a record of size `s ≤ 65536 - u` returns `u`; the header
afterwards has the same magic and `nbytes_used = u + s`, so the journal is still
Active; the record's bytes lie at `[u, u + s)` and the journal bytes from offset
8 on outside that range are unchanged; a following append of a record that fits
returns `u + s` and puts its bytes at `[u + s, u + s + s2)`, right behind the
first record, which it leaves in place. -/
theorem journal_append_postcondition (d : Disk) (data : Buf) (s : Nat) (hA : Active d)
    (hfit : s ≤ JOURNAL_BLOCKS * BLOCK_SIZE - jused d) :
    ∃ d1, journal_append d data s = (.ok (Int.ofNat (jused d)), d1) ∧
      jmagic d1 = jmagic d ∧ jused d1 = jused d + s ∧ Active d1 ∧
      (∀ a, a < s → jbyte d1 (jused d + a) = data a) ∧
      (∀ a, JH_SIZE ≤ a → (a < jused d ∨ jused d + s ≤ a) → jbyte d1 a = jbyte d a) ∧
      ∀ (data2 : Buf) (s2 : Nat), s2 ≤ JOURNAL_BLOCKS * BLOCK_SIZE - (jused d + s) →
        ∃ d2, journal_append d1 data2 s2 = (.ok (Int.ofNat (jused d + s)), d2) ∧
          jused d2 = jused d + s + s2 ∧ Active d2 ∧
          (∀ a, a < s → jbyte d2 (jused d + a) = data a) ∧
          (∀ a, a < s2 → jbyte d2 (jused d + s + a) = data2 a) := by
  obtain ⟨d1, hr, hA1, _, hu1, hb1, _⟩ := journal_append_active d data s hA hfit
  have hlo : JH_SIZE ≤ jused d := hA.2.2.1
  have hd1 : ∀ a, a < s → jbyte d1 (jused d + a) = data a := by
    intro a ha
    rw [hb1 _ (by omega), if_pos ⟨by omega, by omega⟩]
    apply congrArg data
    omega
  refine ⟨d1, hr, ?_, hu1, hA1, hd1, ?_, ?_⟩
  · rw [hA1.2.1, hA.2.1]
  · intro a ha hout
    rw [hb1 a ha, if_neg (by omega)]
  · intro data2 s2 hfit2
    obtain ⟨d2, hr2, hA2, _, hu2, hb2, _⟩ :=
      journal_append_active d1 data2 s2 hA1 (by rw [hu1]; exact hfit2)
    rw [hu1] at hr2 hu2 hb2
    refine ⟨d2, hr2, hu2, hA2, ?_, ?_⟩
    · intro a ha
      rw [hb2 _ (by omega), if_neg (by omega)]
      exact hd1 a ha
    · intro a ha
      rw [hb2 _ (by omega), if_pos ⟨by omega, by omega⟩]
      apply congrArg data2
      omega

/-- Witness for claim C15: a seven-byte record appended at offset 4090, across
the end of the first journal block. -/
theorem journal_append_postcondition_witness :
    Active (fresh_image 4090) ∧
      ∃ d1, journal_append (fresh_image 4090) (recBuf foo_txt) 7 =
          (.ok (Int.ofNat (jused (fresh_image 4090))), d1) ∧
        jmagic d1 = jmagic (fresh_image 4090) ∧ jused d1 = jused (fresh_image 4090) + 7 ∧
        Active d1 ∧
        (∀ a, a < 7 → jbyte d1 (jused (fresh_image 4090) + a) = recBuf foo_txt a) ∧
        (∀ a, JH_SIZE ≤ a →
          (a < jused (fresh_image 4090) ∨ jused (fresh_image 4090) + 7 ≤ a) →
          jbyte d1 a = jbyte (fresh_image 4090) a) ∧
        ∀ (data2 : Buf) (s2 : Nat),
          s2 ≤ JOURNAL_BLOCKS * BLOCK_SIZE - (jused (fresh_image 4090) + 7) →
          ∃ d2, journal_append d1 data2 s2 =
              (.ok (Int.ofNat (jused (fresh_image 4090) + 7)), d2) ∧
            jused d2 = jused (fresh_image 4090) + 7 + s2 ∧ Active d2 ∧
            (∀ a, a < 7 → jbyte d2 (jused (fresh_image 4090) + a) = recBuf foo_txt a) ∧
            (∀ a, a < s2 → jbyte d2 (jused (fresh_image 4090) + 7 + a) = data2 a) :=
  ⟨active_fresh_image 4090 (by decide) (by decide),
    journal_append_postcondition (fresh_image 4090) (recBuf foo_txt) 7
      (active_fresh_image 4090 (by decide) (by decide))
      (by
        have h : jused (fresh_image 4090) = 4090 := jused_sample 4090 (by decide) _ _ _
        rw [h]
        decide)⟩

/-! ## Format failures and the empty journal -/

theorem pread_block_zero (d : Disk) (h : 0 < d.length) : pread_block d 0 = some (blockBuf d 0) :=
  pread_block_of_lt d 0 h

theorem create_stage_bad_magic (filename : List Byte) (now : Nat) (d : Disk)
    (h : sb_magic d ≠ FS_MAGIC) :
    create_stage filename now d =
      (.error (if d.length = 0 then Err.die else Err.bad_magic), d) := by
  unfold create_stage
  by_cases h0 : d.length = 0
  · rw [pread_block_of_ge d 0 (by omega), if_pos h0]
  · rw [pread_block_of_lt d 0 (by omega), if_neg h0]
    simp only [sb_magic_eq, h, ne_eq, not_false_eq_true, if_true]

theorem cmd_install_bad_magic (fuel : Nat) (d : Disk) (h : sb_magic d ≠ FS_MAGIC) :
    cmd_install fuel d = some (.error (if d.length = 0 then Err.die else Err.bad_magic), d) := by
  unfold cmd_install
  by_cases h0 : d.length = 0
  · rw [pread_block_of_ge d 0 (by omega), if_pos h0]
  · rw [pread_block_of_lt d 0 (by omega), if_neg h0]
    simp only [sb_magic_eq, h, ne_eq, not_false_eq_true, if_true]

/-- An image with a valid superblock magic has a block 0. -/
theorem length_pos_of_sb_magic (d : Disk) (h : sb_magic d = FS_MAGIC) : 0 < d.length := by
  by_contra hc
  have hz : ∀ x, dbyte d x = 0 := fun x => dbyte_of_length_le d x (by
    have : d.length = 0 := by omega
    rw [this]; omega)
  have : sb_magic d = 0 := by
    unfold sb_magic get_u32
    simp only [hz]
    rfl
  rw [this] at h
  exact absurd h (by decide)

/-- An image with a valid journal header magic has a block 1. -/
theorem length_of_jmagic (d : Disk) (h : jmagic d = JOURNAL_MAGIC) : 1 < d.length := by
  by_contra hc
  have hz : ∀ a, jbyte d a = 0 := fun a => dbyte_of_length_le d _ (by
    have : d.length * BLOCK_SIZE ≤ 1 * BLOCK_SIZE := Nat.mul_le_mul_right _ (by omega)
    simp only [JOURNAL_BLOCK_IDX, BLOCK_SIZE] at *
    omega)
  have : jmagic d = 0 := by
    unfold jmagic get_u32
    simp only [hz]
    rfl
  rw [this] at h
  exact absurd h (by decide)

theorem cmd_install_no_journal (fuel : Nat) (d : Disk) (hsb : sb_magic d = FS_MAGIC)
    (hjm : jmagic d ≠ JOURNAL_MAGIC) :
    cmd_install fuel d =
      some (.error (if d.length ≤ 1 then Err.die else Err.no_journal), d) := by
  have h0 := length_pos_of_sb_magic d hsb
  unfold cmd_install
  rw [pread_block_of_lt d 0 h0]
  simp only [sb_magic_eq, hsb, ne_eq, not_true_eq_false, if_false]
  by_cases h1 : d.length ≤ 1
  · rw [read_journal_header_of_ge d h1, if_pos h1]
  · rw [read_journal_header_of_lt d (by omega), if_neg h1]
    simp only [hjm, not_false_eq_true, if_true]

/-- Claim C14 (format failures abort before mutating): on an image whose superblock
magic is not `FS_MAGIC`, `cmd_create` and `cmd_install` both fail ("Invalid
filesystem magic"; a failed read when the image has no block 0) and the image
they leave is the image they were given; on an image with a valid superblock
magic whose journal header magic is not `JOURNAL_MAGIC`, `cmd_install` fails
("Journal does not exist"; a failed read when the image has no block 1) and
the image it leaves is the image it was given. -/
theorem format_failures_abort (filename : List Byte) (now fuel : Nat) (d : Disk) :
    (sb_magic d ≠ FS_MAGIC →
        cmd_create filename now d =
          (.error (if d.length = 0 then Err.die else Err.bad_magic), d) ∧
        cmd_install fuel d =
          some (.error (if d.length = 0 then Err.die else Err.bad_magic), d)) ∧
      (sb_magic d = FS_MAGIC → jmagic d ≠ JOURNAL_MAGIC →
        cmd_install fuel d =
          some (.error (if d.length ≤ 1 then Err.die else Err.no_journal), d)) := by
  refine ⟨?_, cmd_install_no_journal fuel d⟩
  intro h
  refine ⟨?_, cmd_install_bad_magic fuel d h⟩
  unfold cmd_create
  rw [create_stage_bad_magic filename now d h]

theorem sb_magic_blank_image : sb_magic blank_image = 0 := by
  unfold sb_magic get_u32 blank_image
  simp only [dbyte_mkDisk]
  rfl

theorem jmagic_unjournaled_image : jmagic unjournaled_image = 0 := by
  unfold unjournaled_image
  rw [jmagic_sample_image]
  rfl

/-- Witness for claim C14: an image of zero blocks, and a formatted image whose
journal header has not been written. -/
theorem format_failures_abort_witness :
    (sb_magic blank_image ≠ FS_MAGIC ∧
        cmd_create foo_txt 0 blank_image = (.error Err.bad_magic, blank_image) ∧
        cmd_install 0 blank_image = some (.error Err.bad_magic, blank_image)) ∧
      (sb_magic unjournaled_image = FS_MAGIC ∧ jmagic unjournaled_image ≠ JOURNAL_MAGIC ∧
        cmd_install 0 unjournaled_image = some (.error Err.no_journal, unjournaled_image)) :=
  ⟨⟨by rw [sb_magic_blank_image]; decide,
      (format_failures_abort foo_txt 0 0 blank_image).1 (by rw [sb_magic_blank_image]; decide)⟩,
    sb_magic_sample_image _ _ _ _, by rw [jmagic_unjournaled_image]; decide,
    (format_failures_abort foo_txt 0 0 unjournaled_image).2 (sb_magic_sample_image _ _ _ _)
      (by rw [jmagic_unjournaled_image]; decide)⟩

/-- A block write leaves every other block that exists, or that lies behind the
written one, as it was. -/
theorem getElem?_pwrite_block_other (d : Disk) (b j : Nat) (buf : Buf) (hne : j ≠ b)
    (hj : j < d.length ∨ b < j) : (pwrite_block d b buf)[j]? = d[j]? := by
  rw [getElem?_pwrite_block, if_neg hne]
  by_cases hlt : j < d.length
  · rw [if_pos hlt]
  · rw [if_neg hlt, if_neg (by omega)]
    exact (List.getElem?_eq_none (by omega)).symm

theorem getElem?_clear_journal_loop_home :
    ∀ (k i : Nat) (d : Disk) (j : Nat),
      (j < JOURNAL_BLOCK_IDX + i ∨ JOURNAL_BLOCK_IDX + i + k ≤ j) →
      (j < d.length ∨ JOURNAL_BLOCK_IDX + i + k ≤ j) →
      (clear_journal_loop k i d)[j]? = d[j]? := by
  intro k
  induction k with
  | zero => intro i d j _ _; rfl
  | succ k ih =>
    intro i d j h1 h2
    simp only [clear_journal_loop]
    rw [ih (i + 1) _ j (by omega) (by
      rw [length_pwrite_block]
      rcases h2 with h | h
      · left; exact Nat.lt_of_lt_of_le h (Nat.le_max_left _ _)
      · right; omega)]
    exact getElem?_pwrite_block_other d _ j zeroBuf (by omega) (by omega)

/-- On a non-empty image `clear_journal` leaves every block outside the journal
region as it was, and adds no block outside the journal region. -/
theorem getElem?_clear_journal_home (d : Disk) (j : Nat) (h0 : 0 < d.length)
    (hj : j < JOURNAL_BLOCK_IDX ∨ JOURNAL_BLOCK_IDX + JOURNAL_BLOCKS ≤ j) :
    (clear_journal d)[j]? = d[j]? := by
  unfold clear_journal
  rw [getElem?_clear_journal_loop_home (JOURNAL_BLOCKS - 1) 1 _ j
    (by simp only [JOURNAL_BLOCK_IDX, JOURNAL_BLOCKS] at *; omega)
    (by
      rw [length_pwrite_block]
      rcases hj with h | h
      · left
        have : j = 0 := by simp only [JOURNAL_BLOCK_IDX] at h; omega
        rw [this]
        exact Nat.lt_of_lt_of_le h0 (Nat.le_max_left _ _)
      · right; simp only [JOURNAL_BLOCK_IDX, JOURNAL_BLOCKS] at *; omega)]
  exact getElem?_pwrite_block_other d _ j _
    (by simp only [JOURNAL_BLOCK_IDX, JOURNAL_BLOCKS] at *; omega)
    (by
      rcases hj with h | h
      · left
        have : j = 0 := by simp only [JOURNAL_BLOCK_IDX] at h; omega
        rw [this]; exact h0
      · right; simp only [JOURNAL_BLOCK_IDX, JOURNAL_BLOCKS] at *; omega)

/-- Claim C17 (installing an empty journal): on an image with valid superblock and
journal magics whose journal header has `nbytes_used = 8`, `cmd_install`
returns, for every bound on its replay loop, the count 0; the image it leaves
is the given image with the journal cleared: every block outside the journal
region is as it was (and no block is added outside the journal region), and the
header is `(JOURNAL_MAGIC, 8)`. -/
theorem install_empty_journal (fuel : Nat) (d : Disk) (hsb : sb_magic d = FS_MAGIC)
    (hjm : jmagic d = JOURNAL_MAGIC) (hused : jused d = JH_SIZE) :
    cmd_install fuel d = some (.ok 0, clear_journal d) ∧
      (∀ j, (j < JOURNAL_BLOCK_IDX ∨ JOURNAL_BLOCK_IDX + JOURNAL_BLOCKS ≤ j) →
        (clear_journal d)[j]? = d[j]?) ∧
      jmagic (clear_journal d) = JOURNAL_MAGIC ∧ jused (clear_journal d) = JH_SIZE := by
  have h1 := length_of_jmagic d hjm
  refine ⟨?_, fun j hj => getElem?_clear_journal_home d j (by omega) hj,
    jmagic_clear_journal d, jused_clear_journal d⟩
  rw [cmd_install_of_loop fuel d h1 hsb hjm,
    install_loop_done (jused d) fuel JH_SIZE 0 d (by rw [hused]; omega)]

/-- Witness for claim C17: install on a freshly formatted image with an empty
journal. -/
theorem install_empty_journal_witness :
    cmd_install 0 (fresh_image JH_SIZE) = some (.ok 0, clear_journal (fresh_image JH_SIZE)) ∧
      (∀ j, (j < JOURNAL_BLOCK_IDX ∨ JOURNAL_BLOCK_IDX + JOURNAL_BLOCKS ≤ j) →
        (clear_journal (fresh_image JH_SIZE))[j]? = (fresh_image JH_SIZE)[j]?) ∧
      jmagic (clear_journal (fresh_image JH_SIZE)) = JOURNAL_MAGIC ∧
      jused (clear_journal (fresh_image JH_SIZE)) = JH_SIZE :=
  install_empty_journal 0 (fresh_image JH_SIZE) (sb_magic_sample_image _ _ _ _)
    (jmagic_sample _ _ _ _) (jused_sample JH_SIZE (by decide) _ _ _)

/-! ## The replay loop on a record of declared size 0 -/

/-- At a commit record whose declared size is 0 the replay loop makes no
progress: whatever the bound on its iterations, it has not ended. -/
theorem install_loop_stuck (used off : Nat) (d : Disk)
    (hlen : JOURNAL_BLOCK_IDX + JOURNAL_BLOCKS ≤ d.length)
    (hlt : off < used) (hend : off + REC_HDR_SIZE ≤ JOURNAL_BLOCKS * BLOCK_SIZE)
    (htype : get_u16 (jbyte d) off = REC_COMMIT) (hsize : get_u16 (jbyte d) (off + 2) = 0) :
    ∀ (fuel txn : Nat), install_loop used fuel off txn d = none := by
  intro fuel
  induction fuel with
  | zero =>
    intro txn
    unfold install_loop
    rw [if_neg (by omega)]
  | succ fuel ih =>
    intro txn
    rw [install_loop_step used fuel off txn d hlt]
    rw [journal_read_spec d off REC_HDR_SIZE zeroBuf
      (Or.inr (by simp only [BLOCK_SIZE, JOURNAL_BLOCKS, JOURNAL_BLOCK_IDX, REC_HDR_SIZE] at *;
                  omega))
      (by simp only [BLOCK_SIZE, JOURNAL_BLOCKS, JOURNAL_BLOCK_IDX, REC_HDR_SIZE, U32] at *;
          omega)]
    simp only []
    have ht : get_u16 (fun i => if i < REC_HDR_SIZE then jbyte d (off + i) else zeroBuf i) 0
        = REC_COMMIT := by
      rw [get_u16_congr _ (jbyte d) 0 off, htype]
      intro i hi
      have h1 : 0 + i < REC_HDR_SIZE := by simp only [REC_HDR_SIZE]; omega
      simp only [h1, if_true]
      apply congrArg (jbyte d)
      omega
    have hs : get_u16 (fun i => if i < REC_HDR_SIZE then jbyte d (off + i) else zeroBuf i) 2
        = 0 := by
      rw [get_u16_congr _ (jbyte d) 2 (off + 2), hsize]
      intro i hi
      have h1 : 2 + i < REC_HDR_SIZE := by simp only [REC_HDR_SIZE]; omega
      simp only [h1, if_true]
      apply congrArg (jbyte d)
      omega
    rw [ht, hs]
    have h1 : ¬ (REC_COMMIT = REC_DATA) := by decide
    have hgt : ¬ (off + 0 > JOURNAL_BLOCKS * BLOCK_SIZE) := by
      simp only [REC_HDR_SIZE] at hend; omega
    simp only [h1, hgt, if_true, if_false]
    exact ih _

theorem get_u16_stuck_image (o : Nat) (ho : o + 2 ≤ JOURNAL_BLOCKS * BLOCK_SIZE) :
    get_u16 (jbyte stuck_image) o = get_u16 stuck_journal o := by
  apply get_u16_congr
  intro i hi
  exact jbyte_sample_image _ _ _ _ _ (by omega)

/-- Claim C18 (install scan terminates) fails on the code: on a formatted image with
valid superblock and journal magics whose journal has `nbytes_used = 12` and, at
offset 8, a record header of type `REC_COMMIT` with declared size 0, the replay
loop of `cmd_install` has not ended after any number of iterations: each
iteration adds the declared size, 0, to the offset, and the check against the
journal capacity never fires. -/
theorem install_scan_stuck :
    sb_magic stuck_image = FS_MAGIC ∧ jmagic stuck_image = JOURNAL_MAGIC ∧
      jused stuck_image = 12 ∧
      get_u16 (jbyte stuck_image) JH_SIZE = REC_COMMIT ∧
      get_u16 (jbyte stuck_image) (JH_SIZE + 2) = 0 ∧
      ∀ fuel, cmd_install fuel stuck_image = none := by
  have hsb : sb_magic stuck_image = FS_MAGIC := sb_magic_sample_image _ _ _ _
  have hjm : jmagic stuck_image = JOURNAL_MAGIC := by
    unfold stuck_image
    rw [jmagic_sample_image]
    decide
  have hju : jused stuck_image = 12 := by
    unfold stuck_image
    rw [jused_sample_image]
    decide
  have ht : get_u16 (jbyte stuck_image) JH_SIZE = REC_COMMIT := by
    rw [get_u16_stuck_image _ (by decide)]
    decide
  have hs : get_u16 (jbyte stuck_image) (JH_SIZE + 2) = 0 := by
    rw [get_u16_stuck_image _ (by decide)]
    decide
  refine ⟨hsb, hjm, hju, ht, hs, ?_⟩
  intro fuel
  have hlen : JOURNAL_BLOCK_IDX + JOURNAL_BLOCKS ≤ stuck_image.length := by
    unfold stuck_image
    rw [length_sample_image]
    decide
  rw [cmd_install_of_loop fuel stuck_image (length_of_jmagic _ hjm) hsb hjm, hju,
    install_loop_stuck 12 JH_SIZE stuck_image hlen (by decide) (by decide) ht hs fuel 0]

/-! ## Resource exhaustion in `cmd_create` -/

/-- The loop of `find_free_inode` returns the first clear bit of its range when
that bit lies inside the block-sized bitmap. -/
theorem find_free_inode_loop_found (b : Buf) :
    ∀ (k i n : Nat), i ≤ n → n < i + k → n < 8 * BLOCK_SIZE → bitmap_test b n = 0 →
      (∀ j, i ≤ j → j < n → bitmap_test b j ≠ 0) →
      find_free_inode_loop b k i = .ok (Int.ofNat n) := by
  intro k
  induction k with
  | zero => intro i n h1 h2; omega
  | succ k ih =>
    intro i n h1 h2 hn hz hmin
    have hg : ¬ BLOCK_SIZE ≤ i / 8 := by simp only [BLOCK_SIZE] at *; omega
    simp only [find_free_inode_loop]
    rw [if_neg hg]
    by_cases hni : n = i
    · subst hni
      rw [if_pos hz]
    · rw [if_neg (hmin i (Nat.le_refl _) (by omega))]
      exact ih (i + 1) n (by omega) (by omega) hn hz (fun j hj1 hj2 => hmin j (by omega) hj2)

/-- A bit index past the end of a block reads as clear in the block's buffer. -/
theorem bitmap_test_blockBuf_of_ge (d : Disk) (j i : Nat) (h : 8 * BLOCK_SIZE ≤ i) :
    bitmap_test (blockBuf d j) i = 0 := by
  unfold bitmap_test blockBuf
  rw [if_neg (by simp only [BLOCK_SIZE] at *; omega)]
  show (0 >>> (i % 8)) &&& 1 = 0
  simp

/-- With every inode allocated `cmd_create` stops at the inode search, after it
has looked at the journal header (and written one if there was none). -/
theorem create_stage_no_inodes_opened (filename : List Byte) (now : Nat) (d : Disk)
    (hsb : sb_magic d = FS_MAGIC) (hlen : DATA_START_IDX ≤ d.length)
    (hall : ∀ i, 1 ≤ i → i < get_u32 (blockBuf d 0) 12 →
      bitmap_test (blockBuf d INODE_BMAP_IDX) i = 1) :
    create_stage filename now d = (.error .no_inodes, create_opened d) := by
  have hl : 21 ≤ d.length := hlen
  have hl1 : 1 < d.length := by omega
  have hle := length_create_opened d hl1
  have hcount : get_u32 (blockBuf d 0) 12 ≤ 8 * BLOCK_SIZE := by
    by_contra hc
    have h1 := hall (8 * BLOCK_SIZE) (by decide) (by omega)
    rw [bitmap_test_blockBuf_of_ge d _ _ (Nat.le_refl _)] at h1
    exact absurd h1 (by decide)
  have hfind : find_free_inode (blockBuf (create_opened d) INODE_BMAP_IDX)
      (get_u32 (blockBuf d 0) 12) = .ok (-1) := by
    rw [blockBuf_create_opened d INODE_BMAP_IDX (by decide)]
    exact (find_free_inode_loop_spec _ _ 1 (by simp only [BLOCK_SIZE] at *; omega)).2
      (fun j hj1 hj2 => by rw [hall j hj1 (by omega)]; decide)
  unfold create_stage
  rw [pread_block_of_lt d 0 (by omega)]
  simp only []
  rw [sb_magic_eq, if_neg (by rw [hsb]; exact fun h => h rfl), read_journal_header_of_lt d hl1]
  simp only []
  have hop : (if jmagic d ≠ JOURNAL_MAGIC then init_journal d else d) = create_opened d := rfl
  rw [hop, read_journal_header_create_opened d hl1]
  simp only []
  rw [pread_block_of_lt _ INODE_BMAP_IDX (by rw [hle]; show 17 < d.length; omega)]
  simp only []
  rw [pread_block_of_lt _ DATA_BMAP_IDX (by rw [hle]; show 18 < d.length; omega)]
  simp only []
  rw [hfind]
  simp only []
  rw [if_pos (by decide)]

theorem create_opened_of_magic (d : Disk) (hjm : jmagic d = JOURNAL_MAGIC) :
    create_opened d = d := by
  unfold create_opened
  rw [if_neg (by rw [hjm]; exact fun h => h rfl)]

theorem create_stage_no_dirents (filename : List Byte) (now : Nat) (d : Disk)
    (hsb : sb_magic d = FS_MAGIC) (hjm : jmagic d = JOURNAL_MAGIC)
    (hlen : DATA_START_IDX ≤ d.length)
    (hfree : ∃ i, 1 ≤ i ∧ i < get_u32 (blockBuf d 0) 12 ∧ i < 8 * BLOCK_SIZE ∧
      bitmap_test (blockBuf d INODE_BMAP_IDX) i = 0)
    (hdir : get_u16 (blockBuf d INODE_START_IDX) 0 = 2)
    (hblk : get_u32 (blockBuf d INODE_START_IDX) 8 < d.length)
    (hnum : get_u32 (blockBuf d INODE_START_IDX) 4 / DIRENT_SIZE = BLOCK_SIZE / DIRENT_SIZE)
    (hfull : ∀ i, 2 ≤ i → i < BLOCK_SIZE / DIRENT_SIZE →
      get_u32 (blockBuf d (get_u32 (blockBuf d INODE_START_IDX) 8)) (i * DIRENT_SIZE) ≠ 0) :
    create_stage filename now d = (.error .no_dirents, d) := by
  have hl : 21 ≤ d.length := hlen
  have hfind : ∃ n : Nat, find_free_inode (blockBuf d INODE_BMAP_IDX)
      (get_u32 (blockBuf d 0) 12) = .ok (Int.ofNat n) := by
    have hex : ∃ i, 1 ≤ i ∧ i < get_u32 (blockBuf d 0) 12 ∧ i < 8 * BLOCK_SIZE ∧
        bitmap_test (blockBuf d INODE_BMAP_IDX) i = 0 := hfree
    refine ⟨Nat.find hex, ?_⟩
    obtain ⟨h1, h2, h3, h4⟩ := Nat.find_spec hex
    apply find_free_inode_loop_found _ _ 1 _ h1 (by omega) h3 h4
    intro j hj1 hj2 hz
    exact Nat.find_min hex hj2 ⟨hj1, by omega, by omega, hz⟩
  obtain ⟨n, hn⟩ := hfind
  have hslot : find_free_dirent (blockBuf d (get_u32 (blockBuf d INODE_START_IDX) 8))
      (get_u32 (blockBuf d INODE_START_IDX) 4 / DIRENT_SIZE) = .ok (-1) := by
    rw [hnum]
    unfold find_free_dirent
    rw [(find_free_dirent_loop_spec _ (BLOCK_SIZE / DIRENT_SIZE - 2) 2 (by decide)).2
      (fun j hj1 hj2 => hfull j hj1 (by
        simp only [BLOCK_SIZE, DIRENT_SIZE, NAME_LEN] at *; omega))]
    rfl
  unfold create_stage
  rw [pread_block_of_lt d 0 (by omega)]
  simp only []
  rw [sb_magic_eq, if_neg (by rw [hsb]; exact fun h => h rfl),
    read_journal_header_of_lt d (by omega)]
  simp only [hjm, ne_eq, not_true_eq_false, if_false]
  rw [pread_block_of_lt d INODE_BMAP_IDX (by show 17 < d.length; omega)]
  simp only []
  rw [pread_block_of_lt d DATA_BMAP_IDX (by show 18 < d.length; omega)]
  simp only []
  rw [hn]
  simp only []
  rw [if_neg (by simp)]
  rw [pread_block_of_lt d INODE_START_IDX (by show 19 < d.length; omega)]
  simp only []
  rw [if_neg (by rw [hdir]; exact fun h => h rfl)]
  rw [pread_block_of_lt d _ hblk]
  simp only []
  rw [hslot]
  simp only []
  rw [if_pos (by decide)]

theorem bitmap_test_congr (b c : Buf) (i : Nat) (h : b (i / 8) = c (i / 8)) :
    bitmap_test b i = bitmap_test c i := by
  unfold bitmap_test
  rw [h]

/-- Claim C11, as amended (inode / directory exhaustion): on an image that holds its
metadata blocks, with a valid superblock magic and a valid journal header
magic: if every inode-bitmap bit with index in `[1, inode_count)` is set,
`cmd_create` fails with "No free inodes"; if some bit of the bitmap block with
index in `[1, inode_count)` is clear and the root inode is a directory whose
data block is in the image, with 128 entries none of which at an index `≥ 2`
has inode number 0, `cmd_create` fails with "No free directory entries in
root".  In both cases the image left is the image given: no block is written,
so the journal's `nbytes_used` and contents are what they were. -/
theorem create_exhausted (filename : List Byte) (now : Nat) (d : Disk)
    (hsb : sb_magic d = FS_MAGIC) (hjm : jmagic d = JOURNAL_MAGIC)
    (hlen : DATA_START_IDX ≤ d.length) :
    ((∀ i, 1 ≤ i → i < get_u32 (blockBuf d 0) 12 →
          bitmap_test (blockBuf d INODE_BMAP_IDX) i = 1) →
        cmd_create filename now d = (.error .no_inodes, d)) ∧
      ((∃ i, 1 ≤ i ∧ i < get_u32 (blockBuf d 0) 12 ∧ i < 8 * BLOCK_SIZE ∧
          bitmap_test (blockBuf d INODE_BMAP_IDX) i = 0) →
        get_u16 (blockBuf d INODE_START_IDX) 0 = 2 →
        get_u32 (blockBuf d INODE_START_IDX) 8 < d.length →
        get_u32 (blockBuf d INODE_START_IDX) 4 / DIRENT_SIZE = BLOCK_SIZE / DIRENT_SIZE →
        (∀ i, 2 ≤ i → i < BLOCK_SIZE / DIRENT_SIZE →
          get_u32 (blockBuf d (get_u32 (blockBuf d INODE_START_IDX) 8)) (i * DIRENT_SIZE)
            ≠ 0) →
        cmd_create filename now d = (.error .no_dirents, d)) := by
  refine ⟨?_, ?_⟩
  · intro hall
    unfold cmd_create
    rw [create_stage_no_inodes_opened filename now d hsb hlen hall,
      create_opened_of_magic d hjm]
  · intro hfree hdir hblk hnum hfull
    unfold cmd_create
    rw [create_stage_no_dirents filename now d hsb hjm hlen hfree hdir hblk hnum hfull]

theorem bitmap_test_sample_image (jb bm it rd : Buf) (i : Nat) (hi : i < 8 * BLOCK_SIZE) :
    bitmap_test (blockBuf (sample_image jb bm it rd) INODE_BMAP_IDX) i = bitmap_test bm i :=
  bitmap_test_congr _ _ _
    (blockBuf_sample_image jb bm it rd INODE_BMAP_IDX (by decide) (by decide) (i / 8)
      (by simp only [BLOCK_SIZE] at *; omega))

theorem get_u32_full_rootdir (o : Nat) : get_u32 full_rootdir o ≠ 0 := by
  unfold get_u32 full_rootdir
  have h : ((1 : Byte)).val = 1 := rfl
  rw [h]
  omega

theorem blockBuf_sample_itable (jb bm it rd : Buf) (i : Nat) (hi : i < BLOCK_SIZE) :
    blockBuf (sample_image jb bm it rd) INODE_START_IDX i = it i :=
  blockBuf_sample_image jb bm it rd INODE_START_IDX (by decide) (by decide) i hi

theorem blockBuf_sample_rootdir (jb bm it rd : Buf) (i : Nat) (hi : i < BLOCK_SIZE) :
    blockBuf (sample_image jb bm it rd) DATA_START_IDX i = rd i :=
  blockBuf_sample_image jb bm it rd DATA_START_IDX (by decide) (by decide) i hi

theorem root_type_sample_image (jb bm rd : Buf) (root_size : Nat) :
    get_u16 (blockBuf (sample_image jb bm (sample_itable root_size) rd) INODE_START_IDX) 0
      = 2 := by
  rw [get_u16_congr _ (sample_itable root_size) 0 0 (fun i hi =>
    blockBuf_sample_itable _ _ _ _ _ (by simp only [BLOCK_SIZE]; omega))]
  unfold sample_itable
  rw [get_u16_congr _ (put_u16 zeroBuf 0 2) 0 0 (fun i hi => by
    rw [put_u32_of_ne _ _ _ _ (Or.inl (by omega)), put_u32_of_ne _ _ _ _ (Or.inl (by omega)),
      put_u16_of_ne _ _ _ _ (Or.inl (by omega))]), get_u16_put_u16]

/-- Witness for claim C11: create on an image with every inode allocated, and
on an image whose root directory is full. -/
theorem create_exhausted_witness :
    cmd_create foo_txt 0 inodes_full_image = (.error .no_inodes, inodes_full_image) ∧
      cmd_create foo_txt 0 dir_full_image = (.error .no_dirents, dir_full_image) :=
  ⟨(create_exhausted foo_txt 0 inodes_full_image (sb_magic_sample_image _ _ _ _)
      (jmagic_sample _ _ _ _) (by unfold inodes_full_image; rw [length_sample_image]; decide)).1
      (fun i _ hi => by
        unfold inodes_full_image at hi ⊢
        rw [inode_count_sample_image] at hi
        rw [bitmap_test_sample_image _ _ _ _ i (by simp only [BLOCK_SIZE]; omega)]
        exact bitmap_test_ones_bitmap i),
    (create_exhausted foo_txt 0 dir_full_image (sb_magic_sample_image _ _ _ _)
      (jmagic_sample _ _ _ _) (by unfold dir_full_image; rw [length_sample_image]; decide)).2
      ⟨1, by decide, by unfold dir_full_image; rw [inode_count_sample_image]; decide, by decide,
        by unfold dir_full_image; rw [bitmap_test_sample_image _ _ _ _ 1 (by decide)]; rfl⟩
      (root_type_sample_image _ _ _ _)
      (by
        unfold dir_full_image
        rw [(root_fields_sample_image _ _ _ BLOCK_SIZE (by decide)).2, length_sample_image]
        decide)
      (by
        unfold dir_full_image
        rw [(root_fields_sample_image _ _ _ BLOCK_SIZE (by decide)).1])
      (fun i _ hi => by
        unfold dir_full_image
        rw [(root_fields_sample_image _ _ _ BLOCK_SIZE (by decide)).2,
          get_u32_congr _ full_rootdir (i * DIRENT_SIZE) (i * DIRENT_SIZE) (fun k hk =>
            blockBuf_sample_rootdir _ _ _ _ _
              (by simp only [BLOCK_SIZE, DIRENT_SIZE, NAME_LEN] at *; omega))]
        exact get_u32_full_rootdir _)⟩

/-- Counterexample to claim C11 as stated: the claim fails when the journal header has not been written yet: on
a formatted image in which every inode is allocated and whose journal region is
all zero, `cmd_create` fails with "No free inodes" after it has initialised the
journal: the header's `nbytes_used` is 0 before the call and 8 after it, and the
header magic has changed. -/
theorem create_exhausted_counterexample :
    sb_magic unjournaled_full_image = FS_MAGIC ∧
      (∀ i, 1 ≤ i → i < get_u32 (blockBuf unjournaled_full_image 0) 12 →
        bitmap_test (blockBuf unjournaled_full_image INODE_BMAP_IDX) i = 1) ∧
      jused unjournaled_full_image = 0 ∧ jmagic unjournaled_full_image = 0 ∧
      ∃ d1, cmd_create foo_txt 0 unjournaled_full_image = (.error .no_inodes, d1) ∧
        jused d1 = JH_SIZE ∧ jmagic d1 = JOURNAL_MAGIC := by
  have hsb : sb_magic unjournaled_full_image = FS_MAGIC := sb_magic_sample_image _ _ _ _
  have hall : ∀ i, 1 ≤ i → i < get_u32 (blockBuf unjournaled_full_image 0) 12 →
      bitmap_test (blockBuf unjournaled_full_image INODE_BMAP_IDX) i = 1 := by
    intro i _ hi
    unfold unjournaled_full_image at hi ⊢
    rw [inode_count_sample_image] at hi
    rw [bitmap_test_sample_image _ _ _ _ i (by simp only [BLOCK_SIZE]; omega)]
    exact bitmap_test_ones_bitmap i
  have hjm : jmagic unjournaled_full_image = 0 := by
    unfold unjournaled_full_image
    rw [jmagic_sample_image]
    rfl
  have hju : jused unjournaled_full_image = 0 := by
    unfold unjournaled_full_image
    rw [jused_sample_image]
    rfl
  refine ⟨hsb, hall, hju, hjm, create_opened unjournaled_full_image, ?_, ?_, ?_⟩
  · unfold cmd_create
    rw [create_stage_no_inodes_opened foo_txt 0 unjournaled_full_image hsb
      (by unfold unjournaled_full_image; rw [length_sample_image]; decide) hall]
  · rw [jused_create_opened, if_neg (by rw [hjm]; decide)]
  · exact jmagic_create_opened _

/-! ## Successive creates -/

/-- What the checks of `cmd_create` read outside the journal region is the same
on two images with valid journal magics that agree outside the journal region,
when the root directory block lies outside the journal region. -/
theorem checks_transfer (d d1 : Disk) (n slot : Nat) (hok : StageOk d n slot)
    (hjm : jmagic d = JOURNAL_MAGIC)
    (hlen : d1.length = d.length)
    (hhome : ∀ j, (j < JOURNAL_BLOCK_IDX ∨ JOURNAL_BLOCK_IDX + JOURNAL_BLOCKS ≤ j) →
      d1[j]? = d[j]?)
    (hroot : JOURNAL_BLOCK_IDX + JOURNAL_BLOCKS ≤ get_u32 (blockBuf d INODE_START_IDX) 8) :
    sb_magic d1 = FS_MAGIC ∧ DATA_START_IDX ≤ d1.length ∧
      find_free_inode (blockBuf d1 INODE_BMAP_IDX) (get_u32 (blockBuf d1 0) 12)
        = .ok (Int.ofNat n) ∧
      get_u16 (blockBuf d1 INODE_START_IDX) 0 = 2 ∧
      get_u32 (blockBuf d1 INODE_START_IDX) 8 < d1.length ∧
      find_free_dirent (blockBuf d1 (get_u32 (blockBuf d1 INODE_START_IDX) 8))
        (get_u32 (blockBuf d1 INODE_START_IDX) 4 / DIRENT_SIZE) = .ok (Int.ofNat slot) ∧
      get_u32 (blockBuf d1 INODE_START_IDX) 8 = get_u32 (blockBuf d INODE_START_IDX) 8 := by
  obtain ⟨hsb, hl, hinum, _, hdir, hblk, hslot, _⟩ := hok
  rw [create_opened_of_magic d hjm] at hinum hdir hblk hslot
  have e0 : blockBuf d1 0 = blockBuf d 0 :=
    blockBuf_congr_getElem? d1 d 0 (hhome 0 (Or.inl (by decide)))
  have e17 : blockBuf d1 INODE_BMAP_IDX = blockBuf d INODE_BMAP_IDX :=
    blockBuf_congr_getElem? d1 d _ (hhome _ (Or.inr (by decide)))
  have e19 : blockBuf d1 INODE_START_IDX = blockBuf d INODE_START_IDX :=
    blockBuf_congr_getElem? d1 d _ (hhome _ (Or.inr (by decide)))
  have er : blockBuf d1 (get_u32 (blockBuf d INODE_START_IDX) 8) =
      blockBuf d (get_u32 (blockBuf d INODE_START_IDX) 8) :=
    blockBuf_congr_getElem? d1 d _ (hhome _ (Or.inr hroot))
  refine ⟨?_, by rw [hlen]; exact hl, ?_, ?_, ?_, ?_, ?_⟩
  · rw [← sb_magic_eq, e0, sb_magic_eq, hsb]
  · rw [e17, e0]; exact hinum
  · rw [e19]; exact hdir
  · rw [e19, hlen]; exact hblk
  · rw [e19, er]; exact hslot
  · rw [e19]

/-- The checks of `cmd_create` pass on an image that agrees outside the journal
region with one on which they pass, when its journal has room. -/
theorem stageOk_transfer (d d1 : Disk) (n slot : Nat) (hok : StageOk d n slot)
    (hjm : jmagic d = JOURNAL_MAGIC) (hjm1 : jmagic d1 = JOURNAL_MAGIC)
    (hlen : d1.length = d.length)
    (hhome : ∀ j, (j < JOURNAL_BLOCK_IDX ∨ JOURNAL_BLOCK_IDX + JOURNAL_BLOCKS ≤ j) →
      d1[j]? = d[j]?)
    (hroot : JOURNAL_BLOCK_IDX + JOURNAL_BLOCKS ≤ get_u32 (blockBuf d INODE_START_IDX) 8)
    (hroom : jused d1 + 12316 ≤ JOURNAL_BLOCKS * BLOCK_SIZE) :
    StageOk d1 n slot := by
  obtain ⟨c1, c2, c3, c4, c5, c6, _⟩ := checks_transfer d d1 n slot hok hjm hlen hhome hroot
  have hop := create_opened_of_magic d1 hjm1
  exact {
    sb := c1
    len := c2
    inum := by rw [hop]; exact c3
    inum_lt := hok.inum_lt
    root_dir := by rw [hop]; exact c4
    root_blk := by rw [hop]; exact c5
    slot := by rw [hop]; exact c6
    room := by
      rw [hop]
      simp only [JOURNAL_BLOCKS, BLOCK_SIZE, U32, DATA_REC_SIZE, COMMIT_REC_SIZE] at *
      omega }

/-- When the checks of `cmd_create` before the capacity check pass and the
journal has no room for a transaction, `cmd_create` fails with "Journal is
full" and writes nothing. -/
theorem cmd_create_journal_full (filename : List Byte) (now : Nat) (d d1 : Disk) (n slot : Nat)
    (hok : StageOk d n slot)
    (hjm : jmagic d = JOURNAL_MAGIC) (hjm1 : jmagic d1 = JOURNAL_MAGIC)
    (hlen : d1.length = d.length)
    (hhome : ∀ j, (j < JOURNAL_BLOCK_IDX ∨ JOURNAL_BLOCK_IDX + JOURNAL_BLOCKS ≤ j) →
      d1[j]? = d[j]?)
    (hroot : JOURNAL_BLOCK_IDX + JOURNAL_BLOCKS ≤ get_u32 (blockBuf d INODE_START_IDX) 8)
    (hfull : (JOURNAL_BLOCKS * BLOCK_SIZE + U32 - jused d1) % U32 <
      DATA_REC_SIZE + DATA_REC_SIZE + DATA_REC_SIZE + COMMIT_REC_SIZE) :
    cmd_create filename now d1 = (.error .journal_full, d1) := by
  obtain ⟨c1, c2, c3, c4, c5, c6, _⟩ := checks_transfer d d1 n slot hok hjm hlen hhome hroot
  have hl : 21 ≤ d1.length := c2
  unfold cmd_create create_stage
  rw [pread_block_of_lt d1 0 (by omega)]
  simp only []
  rw [sb_magic_eq, if_neg (by rw [c1]; exact fun h => h rfl),
    read_journal_header_of_lt d1 (by omega)]
  simp only [hjm1, ne_eq, not_true_eq_false, if_false]
  rw [pread_block_of_lt d1 INODE_BMAP_IDX (by show 17 < d1.length; omega)]
  simp only []
  rw [pread_block_of_lt d1 DATA_BMAP_IDX (by show 18 < d1.length; omega)]
  simp only []
  rw [c3]
  simp only []
  rw [if_neg (by simp)]
  rw [pread_block_of_lt d1 INODE_START_IDX (by show 19 < d1.length; omega)]
  simp only []
  rw [if_neg (by rw [c4]; exact fun h => h rfl)]
  rw [pread_block_of_lt d1 _ c5]
  simp only []
  rw [c6]
  simp only []
  rw [if_neg (by simp), if_pos hfull]

/-- Successive creates on images that agree outside the journal region with an
image `d0` on which the checks of `cmd_create` pass: as long as the journal has
room they all succeed, each choosing the same inode as on `d0`, and each adds
12316 bytes to the journal. -/
theorem create_all_spec (d0 : Disk) (n slot : Nat) (hok : StageOk d0 n slot)
    (hjm0 : jmagic d0 = JOURNAL_MAGIC)
    (hroot : JOURNAL_BLOCK_IDX + JOURNAL_BLOCKS ≤ get_u32 (blockBuf d0 INODE_START_IDX) 8) :
    ∀ (cs : List (List Byte × Nat)) (d : Disk),
      jmagic d = JOURNAL_MAGIC → d.length = d0.length →
      (∀ j, (j < JOURNAL_BLOCK_IDX ∨ JOURNAL_BLOCK_IDX + JOURNAL_BLOCKS ≤ j) → d[j]? = d0[j]?) →
      JH_SIZE ≤ jused d → jused d + 12316 * cs.length ≤ JOURNAL_BLOCKS * BLOCK_SIZE →
      ∃ ns dk, create_all d cs = some (ns, dk) ∧ ns = List.replicate cs.length n ∧
        jmagic dk = JOURNAL_MAGIC ∧ jused dk = jused d + 12316 * cs.length ∧
        dk.length = d0.length ∧
        (∀ j, (j < JOURNAL_BLOCK_IDX ∨ JOURNAL_BLOCK_IDX + JOURNAL_BLOCKS ≤ j) →
          dk[j]? = d0[j]?) := by
  intro cs
  induction cs with
  | nil =>
    intro d hjm hlen hhome _ _
    exact ⟨[], d, rfl, rfl, hjm, by simp, hlen, hhome⟩
  | cons c cs ih =>
    intro d hjm hlen hhome hlo hcap
    simp only [List.length_cons] at hcap
    have hl0 : 21 ≤ d0.length := hok.len
    have hop := create_opened_of_magic d hjm
    have hokd : StageOk d n slot :=
      stageOk_transfer d0 d n slot hok hjm0 hjm hlen hhome hroot (by omega)
    obtain ⟨d1, hc, _, _, _, _⟩ := cmd_create_at c.1 c.2 d n slot hokd
      (by rw [hop]; exact hlo)
      (by rw [hop, hlen]; simp only [JOURNAL_BLOCKS, BLOCK_SIZE] at *; omega)
      (by rw [hop]; simp only [JOURNAL_BLOCKS, BLOCK_SIZE, U32] at *; omega)
    obtain ⟨_, _, _, hlen1, hjm1, _, _, hu1, _, _, _⟩ :=
      cmd_create_active c.1 c.2 d d1 n hc
        (fun _ => ⟨hlo, by omega⟩)
    rw [hop] at hu1
    have hhome1 : ∀ j, (j < JOURNAL_BLOCK_IDX ∨ JOURNAL_BLOCK_IDX + JOURNAL_BLOCKS ≤ j) →
        d1[j]? = d0[j]? := by
      intro j hj
      rw [cmd_create_home_unchanged c.1 c.2 d d1 n hc (fun _ => ⟨hlo, by omega⟩) j hj]
      exact hhome j hj
    obtain ⟨ns, dk, hall, hns, hjmk, huk, hlenk, hhomek⟩ :=
      ih d1 hjm1 (by rw [hlen1, hlen]) hhome1 (by omega) (by rw [hu1]; omega)
    refine ⟨n :: ns, dk, ?_, ?_, hjmk, ?_, hlenk, hhomek⟩
    · simp only [create_all, hc, hall]
    · rw [hns]; rfl
    · rw [huk, hu1, List.length_cons]; omega

/-- Claim C12 (journal capacity in transactions): on an image on which the checks of
`cmd_create` pass (choosing inode `n` and directory slot `slot`), whose root
directory block lies outside the journal region and whose journal is Active and
empty (`nbytes_used = 8`): `k ≤ 5` successive creates with no install between
them all succeed and leave `nbytes_used = 8 + 12316 * k` under a valid header
magic; after five creates a sixth create, whatever its name, fails with
"Journal is full" and the image it leaves is the image it was given, so the
journal header and contents are unchanged. -/
theorem create_journal_capacity (d : Disk) (n slot : Nat) (cs : List (List Byte × Nat))
    (hok : StageOk d n slot) (hjm : jmagic d = JOURNAL_MAGIC) (hused : jused d = JH_SIZE)
    (hroot : JOURNAL_BLOCK_IDX + JOURNAL_BLOCKS ≤ get_u32 (blockBuf d INODE_START_IDX) 8)
    (hk : cs.length ≤ 5) :
    ∃ ns dk, create_all d cs = some (ns, dk) ∧ ns.length = cs.length ∧
      jmagic dk = JOURNAL_MAGIC ∧ jused dk = JH_SIZE + 12316 * cs.length ∧
      (cs.length = 5 → ∀ (filename : List Byte) (now : Nat),
        cmd_create filename now dk = (.error .journal_full, dk)) := by
  obtain ⟨ns, dk, hall, hns, hjmk, huk, hlenk, hhomek⟩ :=
    create_all_spec d n slot hok hjm hroot cs d hjm rfl (fun _ _ => rfl)
      (by rw [hused]) (by rw [hused]; simp only [JOURNAL_BLOCKS, BLOCK_SIZE, JH_SIZE]; omega)
  refine ⟨ns, dk, hall, by rw [hns, List.length_replicate], hjmk, by rw [huk, hused], ?_⟩
  intro h5 filename now
  apply cmd_create_journal_full filename now d dk n slot hok hjm hjmk hlenk hhomek hroot
  rw [huk, hused, h5]
  decide

/-- Witness for claim C12: five creates on a freshly formatted image with an
empty journal. -/
theorem create_journal_capacity_witness :
    ∃ ns dk, create_all (fresh_image JH_SIZE)
          [(foo_txt, 0), (foo_txt, 1), (foo_txt, 2), (foo_txt, 3), (foo_txt, 4)]
          = some (ns, dk) ∧
      ns.length = [(foo_txt, 0), (foo_txt, 1), (foo_txt, 2), (foo_txt, 3), (foo_txt, 4)].length ∧
      jmagic dk = JOURNAL_MAGIC ∧
      jused dk = JH_SIZE +
        12316 * [(foo_txt, 0), (foo_txt, 1), (foo_txt, 2), (foo_txt, 3), (foo_txt, 4)].length ∧
      ([(foo_txt, 0), (foo_txt, 1), (foo_txt, 2), (foo_txt, 3), (foo_txt, 4)].length = 5 →
        ∀ (filename : List Byte) (now : Nat),
          cmd_create filename now dk = (.error .journal_full, dk)) :=
  create_journal_capacity (fresh_image JH_SIZE) 1 2
    [(foo_txt, 0), (foo_txt, 1), (foo_txt, 2), (foo_txt, 3), (foo_txt, 4)]
    (stageOk_fresh_image JH_SIZE (by decide)).2 (jmagic_sample _ _ _ _)
    (jused_sample JH_SIZE (by decide) _ _ _)
    (by
      unfold fresh_image
      rw [(root_fields_sample_image _ _ _ 64 (by decide)).2]
      decide)
    (by decide)

/-! ## What decides whether an append succeeds -/

/-- When the copy loop of `journal_append` ends without a failed read, the
blocks it has written were all in the image. -/
theorem journal_append_loop_ok_bound (src : Buf) :
    ∀ (n remaining : Nat), remaining ≤ n →
    ∀ (d d1 : Disk) (block_idx off : Nat) (hoff : off < BLOCK_SIZE) (pos : Nat),
      block_idx * BLOCK_SIZE + off + remaining ≤ U32 * BLOCK_SIZE →
      journal_append_loop src d block_idx off hoff pos remaining = (.ok (), d1) →
      remaining = 0 ∨ block_idx * BLOCK_SIZE + off + remaining ≤ d.length * BLOCK_SIZE := by
  intro n
  induction n with
  | zero =>
    intro remaining hle d d1 block_idx off hoff pos _ _
    left; omega
  | succ n ih =>
    intro remaining hle d d1 block_idx off hoff pos hwrap h
    by_cases h0 : remaining = 0
    · left; exact h0
    · right
      rw [journal_append_loop] at h
      simp only [h0, dite_false] at h
      by_cases hbi : block_idx < d.length
      · rw [pread_block_of_lt d block_idx hbi] at h
        simp only [] at h
        by_cases hc : BLOCK_SIZE - off > remaining
        · simp only [BLOCK_SIZE] at *
          omega
        · simp only [hc, if_false] at h
          have hnext : (block_idx + 1) % U32 * BLOCK_SIZE + 0 + (remaining - (BLOCK_SIZE - off)) ≤
              U32 * BLOCK_SIZE := by
            have : (block_idx + 1) % U32 < U32 := Nat.mod_lt _ (by decide)
            simp only [BLOCK_SIZE, U32] at *
            omega
          have hr := ih (remaining - (BLOCK_SIZE - off)) (by simp only [BLOCK_SIZE] at *; omega)
            _ d1 _ 0 (by decide) _ hnext h
          rw [length_pwrite_block_of_lt _ _ _ hbi] at hr
          rcases hr with hr | hr
          · simp only [BLOCK_SIZE] at *
            omega
          · by_cases hw : block_idx + 1 < U32
            · rw [Nat.mod_eq_of_lt hw] at hr
              simp only [BLOCK_SIZE] at *
              omega
            · simp only [BLOCK_SIZE, U32] at *
              omega
      · rw [pread_block_of_ge d block_idx (by omega)] at h
        simp only [Prod.mk.injEq] at h
        exact absurd h.1 (by simp)

/-- An append that returns an offset has found the journal header, has passed
the capacity check, and has written inside the image. -/
theorem journal_append_ok_inv (d d1 : Disk) (data : Buf) (size : Nat) (r : Int)
    (h : journal_append d data size = (.ok r, d1)) (hr : ¬ r < 0) :
    1 < d.length ∧ ¬ ((JOURNAL_BLOCKS * BLOCK_SIZE + U32 - jused d) % U32 < size) ∧
      (size = 0 ∨ BLOCK_SIZE + jused d + size ≤ d.length * BLOCK_SIZE) := by
  by_cases h1 : 1 < d.length
  · refine ⟨h1, ?_⟩
    unfold journal_append at h
    rw [read_journal_header_of_lt d h1] at h
    simp only [] at h
    by_cases hcap : (JOURNAL_BLOCKS * BLOCK_SIZE + U32 - jused d) % U32 < size
    · rw [if_pos hcap] at h
      simp only [Prod.mk.injEq, Except.ok.injEq] at h
      exact absurd h.1.symm (by intro e; rw [e] at hr; exact hr (by decide))
    · refine ⟨hcap, ?_⟩
      rw [if_neg hcap] at h
      have hu := jused_lt d
      have hsz : size < U32 := by
        have : (JOURNAL_BLOCKS * BLOCK_SIZE + U32 - jused d) % U32 < U32 :=
          Nat.mod_lt _ (by decide)
        omega
      have hbi : (JOURNAL_BLOCK_IDX + jused d / BLOCK_SIZE) % U32 =
          JOURNAL_BLOCK_IDX + jused d / BLOCK_SIZE := by
        apply Nat.mod_eq_of_lt
        simp only [JOURNAL_BLOCK_IDX, BLOCK_SIZE, U32] at *
        omega
      rcases hl : journal_append_loop data d ((JOURNAL_BLOCK_IDX + jused d / BLOCK_SIZE) % U32)
          (jused d % BLOCK_SIZE) (Nat.mod_lt _ (by decide)) 0 size with ⟨res, d2⟩
      rw [hl] at h
      cases res with
      | error e =>
        simp only [Prod.mk.injEq] at h
        exact absurd h.1 (by simp)
      | ok u =>
        have hb := journal_append_loop_ok_bound data size size (Nat.le_refl _) d d2 _ _
          (Nat.mod_lt _ (by decide)) 0 (by
            rw [hbi]
            simp only [JOURNAL_BLOCK_IDX, BLOCK_SIZE, U32] at *
            omega) hl
        rcases hb with hb | hb
        · left; exact hb
        · right
          rw [hbi] at hb
          simp only [JOURNAL_BLOCK_IDX, BLOCK_SIZE] at *
          omega
  · unfold journal_append at h
    rw [read_journal_header_of_ge d (by omega)] at h
    simp only [Prod.mk.injEq] at h
    exact absurd h.1 (by simp)

/-- Whether an append of `cmd_create` succeeds, and the header and the length
of the image it leaves, depend on the length and the journal header of the
image and on the size of the record only, not on the bytes appended. -/
theorem append_or_fail_indep (d e d1 : Disk) (data data2 : Buf) (size : Nat)
    (h : append_or_fail d data size = (.ok (), d1))
    (hlen : e.length = d.length) (hm : jmagic e = jmagic d) (hu : jused e = jused d) :
    ∃ e1, append_or_fail e data2 size = (.ok (), e1) ∧ e1.length = d1.length ∧
      jmagic e1 = jmagic d1 ∧ jused e1 = jused d1 := by
  unfold append_or_fail at h
  rcases hj : journal_append d data size with ⟨res, d2⟩
  rw [hj] at h
  cases res with
  | error err =>
    simp only [Prod.mk.injEq] at h
    exact absurd h.1 (by simp)
  | ok r =>
    simp only [] at h
    by_cases hr : r < 0
    · rw [if_pos hr] at h
      simp only [Prod.mk.injEq] at h
      exact absurd h.1 (by simp)
    · rw [if_neg hr] at h
      simp only [Prod.mk.injEq, true_and] at h
      subst h
      obtain ⟨h1, hcap, hex⟩ := journal_append_ok_inv d d2 data size r hj hr
      obtain ⟨d3, hd3, hl3, hm3, hu3⟩ := journal_append_header d data size h1 hcap hex
      have hd : d2 = d3 := by
        rw [hj] at hd3
        simp only [Prod.mk.injEq] at hd3
        exact hd3.2
      subst hd
      obtain ⟨e1, he1, hle1, hme1, hue1⟩ := journal_append_header e data2 size
        (by rw [hlen]; exact h1) (by rw [hu]; exact hcap) (by rw [hu, hlen]; exact hex)
      refine ⟨e1, ?_, by rw [hle1, hl3, hlen], by rw [hme1, hm3, hm], by rw [hue1, hu3, hu]⟩
      unfold append_or_fail
      rw [he1]
      have : ¬ (Int.ofNat (jused e) < 0) := by simp
      simp only [this, if_false]

/-- Whether the four appends of `cmd_create` succeed does not depend on the
bytes of the records. -/
theorem create_log_indep (s t : Staged) (e d1 : Disk) (n : Nat)
    (h : create_log s e = (.ok n, d1)) :
    ∃ d2, create_log t e = (.ok t.new_inum, d2) := by
  unfold create_log at h ⊢
  rcases h1 : append_or_fail e (mk_data_record INODE_BMAP_IDX s.new_inode_bitmap)
    DATA_REC_SIZE with ⟨res1, a1⟩
  rw [h1] at h
  cases res1 with
  | error err => simp only [Prod.mk.injEq] at h; exact absurd h.1 (by simp)
  | ok u1 =>
  simp only [] at h
  obtain ⟨b1, hb1, hl1, hm1, hu1⟩ := append_or_fail_indep e e a1 _
    (mk_data_record INODE_BMAP_IDX t.new_inode_bitmap) _ h1 rfl rfl rfl
  rw [hb1]
  simp only []
  rcases h2 : append_or_fail a1
    (mk_data_record (INODE_START_IDX + s.inode_block_idx) s.inode_block_to_log)
    DATA_REC_SIZE with ⟨res2, a2⟩
  rw [h2] at h
  cases res2 with
  | error err => simp only [Prod.mk.injEq] at h; exact absurd h.1 (by simp)
  | ok u2 =>
  simp only [] at h
  obtain ⟨b2, hb2, hl2, hm2, hu2⟩ := append_or_fail_indep a1 b1 a2 _
    (mk_data_record (INODE_START_IDX + t.inode_block_idx) t.inode_block_to_log) _ h2 hl1 hm1 hu1
  rw [hb2]
  simp only []
  rcases h3 : append_or_fail a2 (mk_data_record s.root_direct0 s.new_root_data)
    DATA_REC_SIZE with ⟨res3, a3⟩
  rw [h3] at h
  cases res3 with
  | error err => simp only [Prod.mk.injEq] at h; exact absurd h.1 (by simp)
  | ok u3 =>
  simp only [] at h
  obtain ⟨b3, hb3, hl3, hm3, hu3⟩ := append_or_fail_indep a2 b2 a3 _
    (mk_data_record t.root_direct0 t.new_root_data) _ h3 hl2 hm2 hu2
  rw [hb3]
  simp only []
  rcases h4 : append_or_fail a3 mk_commit_record COMMIT_REC_SIZE with ⟨res4, a4⟩
  rw [h4] at h
  cases res4 with
  | error err => simp only [Prod.mk.injEq] at h; exact absurd h.1 (by simp)
  | ok u4 =>
  obtain ⟨b4, hb4, _, _, _⟩ := append_or_fail_indep a3 b3 a4 _
    mk_commit_record _ h4 hl3 hm3 hu3
  rw [hb4]
  exact ⟨b4, rfl⟩

theorem c_strlen_of_nul_free (s : List Byte) (h : ∀ c ∈ s, c ≠ 0) : c_strlen s = s.length := by
  unfold c_strlen
  rw [List.takeWhile_eq_self_iff.2 (fun c hc => by simpa using h c hc)]

/-- Claim C13 (name truncation): whenever `cmd_create` succeeds on an image with some
file name, it succeeds on that image with every NUL-free file name, of any
length, and chooses the same inode; in the root directory block it logs, the
new entry holds the inode number, and its 28-byte name field holds the first
`min(len, 27)` bytes of the file name followed by zero bytes up to and
including index 27. -/
theorem create_name_truncation (filename other : List Byte) (now now0 : Nat) (d d0 : Disk)
    (n : Nat) (hnul : ∀ c ∈ filename, c ≠ 0)
    (hother : cmd_create other now0 d = (.ok n, d0)) :
    ∃ s e d1, create_stage filename now d = (.ok s, e) ∧
      cmd_create filename now d = (.ok n, d1) ∧ s.new_inum = n ∧
      get_u32 s.new_root_data (s.dirent_slot * DIRENT_SIZE) = n ∧
      (∀ k, k < NAME_LEN → s.new_root_data (s.dirent_slot * DIRENT_SIZE + 4 + k) =
        if k < min filename.length (NAME_LEN - 1) then filename.getD k 0 else 0) ∧
      s.new_root_data (s.dirent_slot * DIRENT_SIZE + 4 + (NAME_LEN - 1)) = 0 := by
  obtain ⟨slot, hok, _, hlog⟩ := cmd_create_inv other now0 d d0 n hother
  have hst := create_stage_of_ok filename now d n slot hok
  obtain ⟨d1, hd1⟩ := create_log_indep _ (staged_of filename now (create_opened d) n slot) _ _ _
    hlog
  obtain ⟨e1, e2, _⟩ := update_root_data_entry
    (blockBuf (create_opened d) (get_u32 (blockBuf (create_opened d) INODE_START_IDX) 8))
    slot n filename
  have hname : ∀ k, k < NAME_LEN →
      (staged_of filename now (create_opened d) n slot).new_root_data
        (slot * DIRENT_SIZE + 4 + k) =
      if k < min filename.length (NAME_LEN - 1) then filename.getD k 0 else 0 := by
    intro k hk
    show update_root_data _ slot n filename _ = _
    rw [e2 k hk, c_strlen_of_nul_free filename hnul]
    by_cases hc : k < NAME_LEN - 1 ∧ k < filename.length
    · rw [if_pos hc, if_pos (by omega)]
    · rw [if_neg hc, if_neg (by omega)]
  refine ⟨staged_of filename now (create_opened d) n slot, create_opened d, d1, hst, ?_, rfl,
    ?_, hname, ?_⟩
  · unfold cmd_create
    rw [hst]
    exact hd1
  · show get_u32 (update_root_data _ slot n filename) (slot * DIRENT_SIZE) = n
    rw [e1]
    apply Nat.mod_eq_of_lt
    have := hok.inum_lt
    simp only [INODE_BLOCKS, BLOCK_SIZE, INODE_SIZE, U32] at *
    omega
  · show (staged_of filename now (create_opened d) n slot).new_root_data
      (slot * DIRENT_SIZE + 4 + (NAME_LEN - 1)) = 0
    rw [hname (NAME_LEN - 1) (by decide), if_neg (by omega)]

theorem nul_free_long_name : ∀ c ∈ long_name, c ≠ 0 := by
  intro c hc
  rw [List.eq_of_mem_replicate hc]
  decide

/-- Witness for claim C13: create with a name of 40 bytes on a freshly
formatted image, on which create of `foo.txt` succeeds. -/
theorem create_name_truncation_witness :
    ∃ s e d1, create_stage long_name 0 (fresh_image JH_SIZE) = (.ok s, e) ∧
      cmd_create long_name 0 (fresh_image JH_SIZE) = (.ok 1, d1) ∧ s.new_inum = 1 ∧
      get_u32 s.new_root_data (s.dirent_slot * DIRENT_SIZE) = 1 ∧
      (∀ k, k < NAME_LEN → s.new_root_data (s.dirent_slot * DIRENT_SIZE + 4 + k) =
        if k < min long_name.length (NAME_LEN - 1) then long_name.getD k 0 else 0) ∧
      s.new_root_data (s.dirent_slot * DIRENT_SIZE + 4 + (NAME_LEN - 1)) = 0 :=
  create_name_truncation long_name foo_txt 0 0 (fresh_image JH_SIZE)
    (cmd_create foo_txt 0 (fresh_image JH_SIZE)).2 1 nul_free_long_name
    (prod_eta_of_fst _ _ cmd_create_fresh_image)

/-! ## The replay loop at a record of unknown type -/

/-- At a record header whose type is neither `REC_DATA` nor `REC_COMMIT` the
replay loop ends: it leaves the image and the transaction count as they are. -/
theorem install_loop_unknown (used fuel off txn : Nat) (d : Disk)
    (hlt : off < used)
    (hex : BLOCK_SIZE + off + REC_HDR_SIZE ≤ d.length * BLOCK_SIZE)
    (hw : BLOCK_SIZE + off + REC_HDR_SIZE < U32 * BLOCK_SIZE)
    (hdata : get_u16 (jbyte d) off ≠ REC_DATA) (hcommit : get_u16 (jbyte d) off ≠ REC_COMMIT) :
    install_loop used (fuel + 1) off txn d = some (.ok txn, d) := by
  rw [install_loop_step used fuel off txn d hlt]
  rw [journal_read_spec d off REC_HDR_SIZE zeroBuf (Or.inr hex) hw]
  simp only []
  have ht : get_u16 (fun i => if i < REC_HDR_SIZE then jbyte d (off + i) else zeroBuf i) 0
      = get_u16 (jbyte d) off := by
    apply get_u16_congr
    intro i hi
    have h1 : 0 + i < REC_HDR_SIZE := by simp only [REC_HDR_SIZE]; omega
    simp only [h1, if_true]
    apply congrArg (jbyte d)
    omega
  rw [ht, if_neg hdata, if_neg hcommit]

/-- Replaying records that name blocks outside the journal region leaves the
journal bytes as they were. -/
theorem jbyte_replay_home (rs : List Rec) :
    ∀ (d : Disk) (a : Nat), TargetsHome rs → a < JOURNAL_BLOCKS * BLOCK_SIZE →
      jbyte (replay d rs) a = jbyte d a := by
  induction rs with
  | nil => intro d a _ _; rfl
  | cons r rs ih =>
    intro d a ht ha
    cases r with
    | data b p =>
      obtain ⟨hhome, _, ht2⟩ := ht
      simp only [replay]
      rw [ih _ a ht2 ha, jbyte_pwrite_home d b _ a hhome ha]
    | commit =>
      simp only [replay]
      exact ih d a ht ha

/-- The replay loop on records that lie before `nbytes_used`: every data
record is written home, every commit is counted, and the loop goes on behind the
last of them. -/
theorem install_loop_records_then (used : Nat) :
    ∀ (rs : List Rec) (fuel off txn : Nat) (d : Disk),
      JOURNAL_BLOCK_IDX + JOURNAL_BLOCKS ≤ d.length →
      Holds d off rs → off + total_size rs ≤ JOURNAL_BLOCKS * BLOCK_SIZE →
      off + total_size rs ≤ used → TargetsHome rs → txn + commits rs < U32 →
      install_loop used (fuel + rs.length) off txn d =
        install_loop used fuel (off + total_size rs) (txn + commits rs) (replay d rs) := by
  intro rs
  induction rs with
  | nil =>
    intro fuel off txn d _ _ _ _ _ _
    rfl
  | cons r rs ih =>
    intro fuel off txn d hlen hh hcap hoff ht htxn
    rw [total_size_cons] at hoff hcap
    obtain ⟨hb, hrest⟩ := hh
    have hpos := Rec.size_pos r
    have hfl : fuel + (r :: rs).length = (fuel + rs.length) + 1 := by
      simp only [List.length_cons]; omega
    rw [hfl]
    have hts : total_size rs ≥ 0 := Nat.zero_le _
    cases r with
    | data b p =>
      obtain ⟨hhome, hbu, ht2⟩ := ht
      simp only [Rec.size] at hoff hcap hb hrest hpos
      rw [install_loop_data used (fuel + rs.length) off txn d b p hlen hb (by omega) (by omega)
        hbu]
      have hlen1 : JOURNAL_BLOCK_IDX + JOURNAL_BLOCKS ≤ (pwrite_block d b p.get).length := by
        rw [length_pwrite_block]; omega
      rw [ih fuel (off + DATA_REC_SIZE) txn _ hlen1
        (Holds_congr d _ (JOURNAL_BLOCKS * BLOCK_SIZE)
          (fun a ha => jbyte_pwrite_home d b _ a hhome ha) rs _ (by omega) hrest)
        (by omega) (by omega) ht2 htxn]
      rw [total_size_cons]
      simp only [Rec.size, commits, replay]
      rw [Nat.add_assoc]
    | commit =>
      simp only [Rec.size] at hoff hcap hb hrest hpos
      simp only [commits] at htxn
      rw [install_loop_commit used (fuel + rs.length) off txn d hlen hb (by omega) (by omega)]
      rw [Nat.mod_eq_of_lt (by omega)]
      rw [ih fuel (off + COMMIT_REC_SIZE) (txn + 1) d hlen hrest (by omega) (by omega) ht
        (by omega)]
      rw [total_size_cons]
      simp only [Rec.size, commits, replay]
      rw [Nat.add_assoc, Nat.add_assoc, Nat.add_comm 1 (commits rs)]

/-- Claim C22 (unknown record type halts the replay): on an image with valid
magics whose journal bytes from offset 8 are records `rs` (data records naming
blocks outside the journal region, and commits) followed, before `nbytes_used`,
by a record header whose type is neither 1 nor 2, `cmd_install` returns the
number of commit records among `rs` and leaves the image in which `rs`, and
nothing else, has been replayed and the journal cleared: whatever lies at or
after the offset of that header is applied to no block, so that every block
outside the journal region that no record of `rs` names is as it was. -/
theorem install_unknown_type_halts (d : Disk) (rs : List Rec) (fuel : Nat)
    (hsb : sb_magic d = FS_MAGIC) (hjm : jmagic d = JOURNAL_MAGIC)
    (hlen : JOURNAL_BLOCK_IDX + JOURNAL_BLOCKS ≤ d.length)
    (hholds : Holds d JH_SIZE rs) (htargets : TargetsHome rs)
    (hlt : JH_SIZE + total_size rs < jused d)
    (hend : JH_SIZE + total_size rs + REC_HDR_SIZE ≤ JOURNAL_BLOCKS * BLOCK_SIZE)
    (hdata : get_u16 (jbyte d) (JH_SIZE + total_size rs) ≠ REC_DATA)
    (hcommit : get_u16 (jbyte d) (JH_SIZE + total_size rs) ≠ REC_COMMIT)
    (hfuel : rs.length < fuel) :
    cmd_install fuel d = some (.ok (commits rs), clear_journal (replay d rs)) ∧
      ∀ j, (j < JOURNAL_BLOCK_IDX ∨ JOURNAL_BLOCK_IDX + JOURNAL_BLOCKS ≤ j) →
        last_payload rs j = none → j < d.length →
        (clear_journal (replay d rs))[j]? = d[j]? := by
  have hc := commits_le_total_size rs
  have hty : get_u16 (jbyte (replay d rs)) (JH_SIZE + total_size rs) =
      get_u16 (jbyte d) (JH_SIZE + total_size rs) :=
    get_u16_congr _ _ _ _ (fun i hi => jbyte_replay_home rs d _ htargets (by
      simp only [REC_HDR_SIZE] at hend; omega))
  have hlr := length_replay_ge rs d
  refine ⟨?_, fun j hj hn hjl => (getElem?_installed d rs j hlen hj).2 hn hjl⟩
  rw [cmd_install_of_loop fuel d (length_of_jmagic d hjm) hsb hjm]
  obtain ⟨f, hf⟩ : ∃ f, fuel = (f + 1) + rs.length := ⟨fuel - rs.length - 1, by omega⟩
  rw [hf, install_loop_records_then (jused d) rs (f + 1) JH_SIZE 0 d hlen hholds (by omega) (by omega)
    htargets (by
      simp only [COMMIT_REC_SIZE, REC_HDR_SIZE, JOURNAL_BLOCKS, BLOCK_SIZE, U32] at *; omega)]
  rw [install_loop_unknown (jused d) f _ _ _ hlt
    (by
      have : (JOURNAL_BLOCK_IDX + JOURNAL_BLOCKS) * BLOCK_SIZE ≤ (replay d rs).length * BLOCK_SIZE :=
        Nat.mul_le_mul_right _ (by omega)
      simp only [REC_HDR_SIZE, JOURNAL_BLOCKS, JOURNAL_BLOCK_IDX, BLOCK_SIZE] at *; omega)
    (by simp only [REC_HDR_SIZE, JOURNAL_BLOCKS, BLOCK_SIZE, U32] at *; omega)
    (by rw [hty]; exact hdata) (by rw [hty]; exact hcommit)]
  simp only [Nat.zero_add]

theorem total_size_halted : total_size [Rec.data 30 sevens, Rec.commit] = 4108 := by
  simp only [total_size, List.map, List.sum_cons, List.sum_nil, Rec.size]
  decide

theorem jbyte_halted_image (a : Nat) (ha : a < JOURNAL_BLOCKS * BLOCK_SIZE) :
    jbyte halted_image a =
      journal_then [Rec.data 30 sevens, Rec.commit] halted_tail 8224 a :=
  jbyte_sample_image _ _ _ _ a ha

theorem journal_then_header (rs : List Rec) (tail : Buf) (used o : Nat) (ho : o + 4 ≤ JH_SIZE) :
    get_u32 (journal_then rs tail used) o = get_u32 (sample_journal used) o :=
  get_u32_congr _ _ _ _ (fun i hi => by
    unfold journal_then
    rw [if_pos (by omega)])

/-- The journal of `halted_image`: a valid header with `nbytes_used = 8224`, a
complete transaction at offset 8, a record header of type 7 at offset 4116 and a
data record for block 31 at offset 4120. -/
theorem halted_image_facts :
    sb_magic halted_image = FS_MAGIC ∧ jmagic halted_image = JOURNAL_MAGIC ∧
      JOURNAL_BLOCK_IDX + JOURNAL_BLOCKS ≤ halted_image.length ∧
      jused halted_image = 8224 ∧
      Holds halted_image JH_SIZE [Rec.data 30 sevens, Rec.commit] ∧
      get_u16 (jbyte halted_image) (JH_SIZE + total_size [Rec.data 30 sevens, Rec.commit]) = 7 ∧
      Holds halted_image
        (JH_SIZE + total_size [Rec.data 30 sevens, Rec.commit] + REC_HDR_SIZE)
        [Rec.data 31 sevens] := by
  refine ⟨sb_magic_sample_image _ _ _ _, ?_, ?_, ?_, ?_, ?_, ?_⟩
  · unfold halted_image
    rw [jmagic_sample_image, journal_then_header _ _ _ 0 (by decide), sample_journal_magic]
  · unfold halted_image
    rw [length_sample_image]; decide
  · unfold halted_image
    rw [jused_sample_image, journal_then_header _ _ _ 4 (by decide),
      sample_journal_used 8224 (by decide)]
  · apply Holds_of_records_bytes
    intro i hi
    rw [total_size_halted] at hi
    rw [jbyte_halted_image _ (by simp only [JH_SIZE, JOURNAL_BLOCKS, BLOCK_SIZE]; omega)]
    unfold journal_then
    rw [if_neg (by omega), if_pos (by rw [total_size_halted]; omega)]
    apply congrArg
    omega
  · rw [total_size_halted]
    rw [get_u16_congr _ (put_u16 (put_u16 zeroBuf 0 7) 2 REC_HDR_SIZE) (JH_SIZE + 4108) 0
      (fun i hi => by
        rw [jbyte_halted_image _ (by simp only [JH_SIZE, JOURNAL_BLOCKS, BLOCK_SIZE]; omega)]
        unfold journal_then
        rw [if_neg (by simp only [JH_SIZE]; omega),
          if_neg (by rw [total_size_halted]; simp only [JH_SIZE]; omega), total_size_halted]
        unfold halted_tail
        rw [if_pos (by simp only [JH_SIZE, REC_HDR_SIZE]; omega)]
        apply congrArg
        simp only [JH_SIZE]; omega)]
    rw [get_u16_congr _ (put_u16 zeroBuf 0 7) 0 0 (fun i hi =>
      put_u16_of_ne _ _ _ _ (Or.inl (by omega))), get_u16_put_u16]
  · apply Holds_of_records_bytes
    intro i hi
    have hi2 : i < 4104 := by
      simp only [total_size, List.map, List.sum_cons, List.sum_nil, Rec.size,
        DATA_REC_SIZE, BLOCK_SIZE] at hi
      omega
    rw [total_size_halted]
    rw [jbyte_halted_image _ (by
      simp only [JH_SIZE, REC_HDR_SIZE, JOURNAL_BLOCKS, BLOCK_SIZE]; omega)]
    unfold journal_then
    rw [if_neg (by simp only [JH_SIZE]; omega),
      if_neg (by rw [total_size_halted]; simp only [JH_SIZE, REC_HDR_SIZE]; omega),
      total_size_halted]
    unfold halted_tail
    rw [if_neg (by simp only [JH_SIZE, REC_HDR_SIZE]; omega)]
    apply congrArg
    simp only [JH_SIZE, REC_HDR_SIZE]; omega

/-- Witness for claim C22: install on `halted_image` counts the one transaction
before the header of unknown type and leaves block 31, which the data record
behind that header names, as it was. -/
theorem install_unknown_type_halts_witness :
    Holds halted_image (JH_SIZE + total_size [Rec.data 30 sevens, Rec.commit] + REC_HDR_SIZE)
        [Rec.data 31 sevens] ∧
      cmd_install 3 halted_image =
        some (.ok (commits [Rec.data 30 sevens, Rec.commit]),
          clear_journal (replay halted_image [Rec.data 30 sevens, Rec.commit])) ∧
      (clear_journal (replay halted_image [Rec.data 30 sevens, Rec.commit]))[31]? =
        halted_image[31]? := by
  obtain ⟨h1, h2, h3, h4, h5, h6, h7⟩ := halted_image_facts
  have h := install_unknown_type_halts halted_image [Rec.data 30 sevens, Rec.commit] 3 h1 h2 h3 h5
    ⟨Or.inr (by decide), by decide, trivial⟩
    (by rw [h4, total_size_halted]; decide)
    (by rw [total_size_halted]; decide)
    (by rw [h6]; decide) (by rw [h6]; decide) (by decide)
  exact ⟨h7, h.1, h.2 31 (Or.inr (by decide)) rfl (by
    unfold halted_image
    rw [length_sample_image]
    decide)⟩

/-- Claim C23 fails by the defect of the capacity check recorded under claim
C8: on an image whose journal header has a valid magic and
`nbytes_used = 65544`, more than the capacity of 65536 bytes, the unsigned
subtraction `65536 - nbytes_used` of `journal_append` wraps to a huge value, an
append of 8 bytes passes the check and returns the offset 65544 rather than
`-1`, and its bytes go to block `1 + 65544 / 4096 = 17`, the inode bitmap,
which is no longer what it was. -/
theorem journal_append_overruns_journal :
    jmagic overrun_image = JOURNAL_MAGIC ∧ jused overrun_image = 65544 ∧
      ∃ d1, journal_append overrun_image ones_bitmap 8 = (.ok 65544, d1) ∧
        d1[INODE_BMAP_IDX]? ≠ overrun_image[INODE_BMAP_IDX]? := by
  have hu : jused overrun_image = 65544 := jused_sample 65544 (by decide) _ _ _
  have hl : overrun_image.length = TOTAL_BLOCKS := length_sample_image _ _ _ _
  refine ⟨jmagic_sample 65544 _ _ _, hu, ?_⟩
  obtain ⟨d1, h, _, hb⟩ := journal_append_spec overrun_image ones_bitmap 8
    (by rw [hl]; decide) (by rw [hu]; decide) (Or.inr (by rw [hu, hl]; decide))
  rw [hu] at h hb
  refine ⟨d1, h, ?_⟩
  intro heq
  have hx := hb (INODE_BMAP_IDX * BLOCK_SIZE + 8)
  rw [if_neg (by decide), if_pos (by decide),
    dbyte_of_getElem?_eq d1 overrun_image INODE_BMAP_IDX 8 heq (by decide)] at hx
  have e2 : dbyte overrun_image (INODE_BMAP_IDX * BLOCK_SIZE + 8) = sample_bitmap 8 := by
    rw [← blockBuf_of_lt overrun_image INODE_BMAP_IDX 8 (by decide)]
    exact blockBuf_sample_image (sample_journal 65544) sample_bitmap (sample_itable 64)
      sample_rootdir INODE_BMAP_IDX (by decide) (by decide) 8 (by decide)
  rw [e2] at hx
  revert hx
  decide

/-! ## Two creates before an install -/

theorem Holds_congr_from (d e : Disk) (lo lim : Nat)
    (h : ∀ a, lo ≤ a → a < lim → jbyte e a = jbyte d a) :
    ∀ (rs : List Rec) (off : Nat), lo ≤ off → off + total_size rs ≤ lim →
      Holds d off rs → Holds e off rs := by
  intro rs
  induction rs with
  | nil => intro off _ _ _; trivial
  | cons r rs ih =>
    intro off hlo hle hh
    rw [total_size_cons] at hle
    obtain ⟨h1, h2⟩ := hh
    refine ⟨?_, ih _ (by omega) (by omega) h2⟩
    intro i hi
    rw [h _ (by omega) (by omega)]
    exact h1 i hi

theorem targetsHome_append (rs ss : List Rec) (h1 : TargetsHome rs) (h2 : TargetsHome ss) :
    TargetsHome (rs ++ ss) := by
  induction rs with
  | nil => exact h2
  | cons r rs ih =>
    cases r with
    | data b p => exact ⟨h1.1, h1.2.1, ih h1.2.2⟩
    | commit => exact ih h1

/-- The records of a create transaction name blocks outside the journal region
when the root directory block lies in the data region. -/
theorem targetsHome_create_records (s : Staged) (hidx : s.inode_block_idx ≤ 1)
    (hroot : DATA_START_IDX ≤ s.root_direct0) (hr32 : s.root_direct0 < U32) :
    TargetsHome (create_records s) :=
  ⟨Or.inr (by decide), by decide,
    Or.inr (by simp only [INODE_START_IDX, DATA_BMAP_IDX, INODE_BMAP_IDX]; omega),
    by simp only [INODE_START_IDX, DATA_BMAP_IDX, INODE_BMAP_IDX, JOURNAL_BLOCK_IDX,
         JOURNAL_BLOCKS, U32]; omega,
    Or.inr (by simp only [DATA_START_IDX, INODE_START_IDX, DATA_BMAP_IDX, INODE_BMAP_IDX,
         INODE_BLOCKS] at hroot ⊢; omega),
    hr32, trivial⟩

/-- Two creates with no install between them, on an image with an empty Active
journal on which the checks of `cmd_create` pass: both succeed, both choose the
inode and the directory slot that the image's home blocks offer, and the
install that follows counts two transactions and leaves in the root directory
block the block that the second create has logged. -/
theorem two_creates_install (f1 f2 : List Byte) (t1 t2 : Nat) (d : Disk) (n slot fuel : Nat)
    (hok : StageOk d n slot) (hjm : jmagic d = JOURNAL_MAGIC) (hused : jused d = JH_SIZE)
    (hroot : DATA_START_IDX ≤ get_u32 (blockBuf d INODE_START_IDX) 8)
    (hfuel : 8 ≤ fuel) :
    ∃ d1 d2 d3, cmd_create f1 t1 d = (.ok n, d1) ∧ cmd_create f2 t2 d1 = (.ok n, d2) ∧
      create_stage f1 t1 d = (.ok (staged_of f1 t1 d n slot), d) ∧
      create_stage f2 t2 d1 = (.ok (staged_of f2 t2 d1 n slot), d1) ∧
      cmd_install fuel d2 = some (.ok 2, d3) ∧
      d3[get_u32 (blockBuf d INODE_START_IDX) 8]? =
        some (Block.ofBuf (update_root_data
          (blockBuf d (get_u32 (blockBuf d INODE_START_IDX) 8)) slot n f2) 0) := by
  have hop := create_opened_of_magic d hjm
  have hl21 : 21 ≤ d.length := hok.len
  have hroot17 : JOURNAL_BLOCK_IDX + JOURNAL_BLOCKS ≤ get_u32 (blockBuf d INODE_START_IDX) 8 := by
    simp only [DATA_START_IDX, INODE_START_IDX, DATA_BMAP_IDX, INODE_BMAP_IDX,
      INODE_BLOCKS] at hroot ⊢
    omega
  have hact : jmagic d = JOURNAL_MAGIC →
      JH_SIZE ≤ jused d ∧ jused d ≤ JOURNAL_BLOCKS * BLOCK_SIZE :=
    fun _ => by rw [hused]; decide
  -- the first create
  obtain ⟨d1, hc1, hlen1, hu1, hh1, _⟩ := cmd_create_at f1 t1 d n slot hok
    (by rw [hop, hused])
    (by rw [hop, hused]; simp only [BLOCK_SIZE, JH_SIZE]; omega)
    (by rw [hop, hused]; decide)
  obtain ⟨_, _, _, _, hjm1, _, _, _, _, _, _⟩ := cmd_create_active f1 t1 d d1 n hc1 hact
  have hhome1 : ∀ j, (j < JOURNAL_BLOCK_IDX ∨ JOURNAL_BLOCK_IDX + JOURNAL_BLOCKS ≤ j) →
      d1[j]? = d[j]? :=
    fun j hj => cmd_create_home_unchanged f1 t1 d d1 n hc1 hact j hj
  rw [hop, hused] at hu1 hh1
  have hop1 := create_opened_of_magic d1 hjm1
  -- the second create
  have hok1 : StageOk d1 n slot :=
    stageOk_transfer d d1 n slot hok hjm hjm1 hlen1 hhome1 hroot17 (by rw [hu1]; decide)
  have hact1 : jmagic d1 = JOURNAL_MAGIC →
      JH_SIZE ≤ jused d1 ∧ jused d1 ≤ JOURNAL_BLOCKS * BLOCK_SIZE :=
    fun _ => by rw [hu1]; decide
  obtain ⟨d2, hc2, hlen2, hu2, hh2, hf2⟩ := cmd_create_at f2 t2 d1 n slot hok1
    (by rw [hop1, hu1]; decide)
    (by rw [hop1, hu1, hlen1]; simp only [BLOCK_SIZE, JH_SIZE]; omega)
    (by rw [hop1, hu1]; decide)
  obtain ⟨_, _, _, _, hjm2, _, _, _, _, _, hz2⟩ := cmd_create_active f2 t2 d1 d2 n hc2 hact1
  rw [hop1, hu1] at hu2 hh2 hf2
  -- the journal after both
  have hts1 := total_size_create_records (staged_of f1 t1 d n slot)
  have hts2 := total_size_create_records (staged_of f2 t2 d1 n slot)
  have hh12 : Holds d2 JH_SIZE (create_records (staged_of f1 t1 d n slot)) :=
    Holds_congr_from d1 d2 JH_SIZE (JH_SIZE + 12316)
      (fun a ha1 ha2 => hf2 a ha1 (Or.inl ha2)) _ _ (Nat.le_refl _) (by rw [hts1]) hh1
  have hholds : Holds d2 JH_SIZE (create_records (staged_of f1 t1 d n slot) ++
      create_records (staged_of f2 t2 d1 n slot)) :=
    (Holds_append d2 _ _ _).2 ⟨hh12, by rw [hts1]; exact hh2⟩
  have e19 : blockBuf d1 INODE_START_IDX = blockBuf d INODE_START_IDX :=
    blockBuf_congr_getElem? d1 d _ (hhome1 _ (Or.inr (by decide)))
  have er : blockBuf d1 (get_u32 (blockBuf d INODE_START_IDX) 8) =
      blockBuf d (get_u32 (blockBuf d INODE_START_IDX) 8) :=
    blockBuf_congr_getElem? d1 d _ (hhome1 _ (Or.inr hroot17))
  have hidx : ∀ (f : List Byte) (t : Nat) (e : Disk),
      (staged_of f t e n slot).inode_block_idx ≤ 1 := by
    intro f t e
    show n * INODE_SIZE % U32 / BLOCK_SIZE ≤ 1
    have := hok.inum_lt
    simp only [INODE_BLOCKS, BLOCK_SIZE, INODE_SIZE, U32] at *
    omega
  have hr1 : (staged_of f2 t2 d1 n slot).root_direct0 = get_u32 (blockBuf d INODE_START_IDX) 8 := by
    show get_u32 (blockBuf d1 INODE_START_IDX) 8 = _
    rw [e19]
  have htargets : TargetsHome (create_records (staged_of f1 t1 d n slot) ++
      create_records (staged_of f2 t2 d1 n slot)) :=
    targetsHome_append _ _
      (targetsHome_create_records _ (hidx _ _ _) hroot (get_u32_lt _ _))
      (targetsHome_create_records _ (hidx _ _ _) (by rw [hr1]; exact hroot) (get_u32_lt _ _))
  have hsb2 : sb_magic d2 = FS_MAGIC := by
    have hsb1 : sb_magic d1 = FS_MAGIC := hok1.sb
    rw [← hsb1]
    exact get_u32_congr _ _ _ _ (fun i hi => hz2 _ (by simp only [BLOCK_SIZE]; omega))
  have hlenj : JOURNAL_BLOCK_IDX + JOURNAL_BLOCKS ≤ d2.length := by
    rw [hlen2, hlen1]
    simp only [JOURNAL_BLOCK_IDX, JOURNAL_BLOCKS]
    omega
  have hinst := cmd_install_records d2 _ fuel hsb2 hjm2 hlenj (by rw [hu2]; decide)
    (by rw [hu2, total_size_append, hts1, hts2]) hholds htargets
    (by simp only [create_records, List.length_append, List.length_cons, List.length_nil]; omega)
  have hcm : commits (create_records (staged_of f1 t1 d n slot) ++
      create_records (staged_of f2 t2 d1 n slot)) = 2 := by
    rw [commits_append]; rfl
  rw [hcm] at hinst
  refine ⟨d1, d2, _, hc1, hc2, ?_, ?_, hinst, ?_⟩
  · have h := create_stage_of_ok f1 t1 d n slot hok
    rw [hop] at h
    exact h
  · have h := create_stage_of_ok f2 t2 d1 n slot hok1
    rw [hop1] at h
    exact h
  · have hlp : last_payload (create_records (staged_of f1 t1 d n slot) ++
        create_records (staged_of f2 t2 d1 n slot)) (get_u32 (blockBuf d INODE_START_IDX) 8) =
        some (Block.ofBuf (staged_of f2 t2 d1 n slot).new_root_data 0) := by
      apply last_payload_append_some
      show last_payload [Rec.data INODE_BMAP_IDX _, Rec.data _ _, Rec.data _ _, Rec.commit] _ = _
      rw [last_payload_three, if_pos hr1.symm]
    rw [(getElem?_installed d2 _ _ hlenj (Or.inr hroot17)).1 _ hlp]
    apply congrArg some
    apply Block.ofBuf_congr
    intro i _
    show update_root_data (blockBuf d1 (get_u32 (blockBuf d1 INODE_START_IDX) 8)) slot n f2 i =
      update_root_data (blockBuf d (get_u32 (blockBuf d INODE_START_IDX) 8)) slot n f2 i
    rw [e19, er]

theorem sample_rootdir_values (x : Nat) : sample_rootdir x = 46 ∨ sample_rootdir x = 0 := by
  unfold sample_rootdir put_u8 zeroBuf
  by_cases h1 : x = 37
  · left; rw [if_pos h1]
  · rw [if_neg h1]
    by_cases h2 : x = 36
    · left; rw [if_pos h2]
    · rw [if_neg h2]
      by_cases h3 : x = 4
      · left; rw [if_pos h3]
      · right; rw [if_neg h3]

/-- Claim C24 fails on the code: on a freshly formatted image with an empty
journal, create of `foo.txt` followed, with no install between them, by create
of `bar.txt`: both succeed, and both are given inode 1 and directory slot 2,
since the second create reads the inode bitmap and the root directory from
their home blocks, which the first create has not changed.  The install that
follows counts two transactions; afterwards entry 2 of the root directory holds
inode 1 under the name `bar.txt`, and no entry of the root directory has a name
that starts with the first byte of `foo.txt`: the first file is lost. -/
theorem accumulated_creates_collide :
    ∃ d1 d2 d3, cmd_create foo_txt 0 (fresh_image JH_SIZE) = (.ok 1, d1) ∧
      cmd_create bar_txt 0 d1 = (.ok 1, d2) ∧
      create_stage foo_txt 0 (fresh_image JH_SIZE) =
        (.ok (staged_of foo_txt 0 (fresh_image JH_SIZE) 1 2), fresh_image JH_SIZE) ∧
      create_stage bar_txt 0 d1 = (.ok (staged_of bar_txt 0 d1 1 2), d1) ∧
      (staged_of foo_txt 0 (fresh_image JH_SIZE) 1 2).new_inum =
        (staged_of bar_txt 0 d1 1 2).new_inum ∧
      (staged_of foo_txt 0 (fresh_image JH_SIZE) 1 2).dirent_slot =
        (staged_of bar_txt 0 d1 1 2).dirent_slot ∧
      cmd_install 8 d2 = some (.ok 2, d3) ∧
      get_u32 (blockBuf d3 DATA_START_IDX) (2 * DIRENT_SIZE) = 1 ∧
      (∀ k, k < NAME_LEN → blockBuf d3 DATA_START_IDX (2 * DIRENT_SIZE + 4 + k) =
        if k < bar_txt.length then bar_txt.getD k 0 else 0) ∧
      (∀ i, i < BLOCK_SIZE / DIRENT_SIZE →
        blockBuf d3 DATA_START_IDX (i * DIRENT_SIZE + 4) ≠ foo_txt.getD 0 0) := by
  have hr := root_fields_sample_image (sample_journal JH_SIZE) sample_bitmap sample_rootdir 64
    (by decide)
  have hr21 : get_u32 (blockBuf (fresh_image JH_SIZE) INODE_START_IDX) 8 = DATA_START_IDX := hr.2
  obtain ⟨d1, d2, d3, h1, h2, h3, h4, h5, h6⟩ :=
    two_creates_install foo_txt bar_txt 0 0 (fresh_image JH_SIZE) 1 2 8
      (stageOk_fresh_image JH_SIZE (by decide)).2 (jmagic_sample _ _ _ _)
      (jused_sample JH_SIZE (by decide) _ _ _) (by rw [hr21]) (by decide)
  rw [hr21] at h6
  have hb : ∀ i, i < BLOCK_SIZE → blockBuf d3 DATA_START_IDX i =
      update_root_data (blockBuf (fresh_image JH_SIZE) DATA_START_IDX) 2 1 bar_txt i := by
    intro i hi
    rw [blockBuf_of_getElem? d3 DATA_START_IDX i _ h6 hi, Block.get_ofBuf _ _ _ hi, Nat.zero_add]
  obtain ⟨e1, e2, e3⟩ :=
    update_root_data_entry (blockBuf (fresh_image JH_SIZE) DATA_START_IDX) 2 1 bar_txt
  refine ⟨d1, d2, d3, h1, h2, h3, h4, rfl, rfl, h5, ?_, ?_, ?_⟩
  · rw [get_u32_congr _ (update_root_data (blockBuf (fresh_image JH_SIZE) DATA_START_IDX) 2 1
      bar_txt) (2 * DIRENT_SIZE) (2 * DIRENT_SIZE) (fun i hi => hb _ (by
        simp only [BLOCK_SIZE, DIRENT_SIZE, NAME_LEN]; omega)), e1]
    decide
  · intro k hk
    rw [hb _ (by simp only [BLOCK_SIZE, DIRENT_SIZE, NAME_LEN] at *; omega), e2 k hk]
    have hlen : c_strlen bar_txt = bar_txt.length := by decide
    rw [hlen]
    have hl7 : bar_txt.length = 7 := rfl
    by_cases hc : k < bar_txt.length
    · rw [if_pos hc, if_pos ⟨by simp only [NAME_LEN]; omega, hc⟩]
    · rw [if_neg hc, if_neg (fun h => hc h.2)]
  · intro i hi
    have hi4 : i * DIRENT_SIZE + 4 < BLOCK_SIZE := by
      simp only [BLOCK_SIZE, DIRENT_SIZE, NAME_LEN] at *; omega
    rw [hb _ hi4]
    by_cases h2 : i = 2
    · subst h2
      rw [e2 0 (by decide)]
      decide
    · rw [e3 _ (by simp only [DIRENT_SIZE, NAME_LEN]; omega)]
      have hs : blockBuf (fresh_image JH_SIZE) DATA_START_IDX (i * DIRENT_SIZE + 4) =
          sample_rootdir (i * DIRENT_SIZE + 4) :=
        blockBuf_sample_rootdir _ _ _ _ _ hi4
      rw [hs]
      rcases sample_rootdir_values (i * DIRENT_SIZE + 4) with h | h <;> rw [h] <;> decide

/-! ## The block writes of `journal_append` -/

theorem apply_writes_nil (d : Disk) : apply_writes d [] = d := rfl

theorem apply_writes_cons (d : Disk) (w : Nat × Buf) (ws : List (Nat × Buf)) :
    apply_writes d (w :: ws) = apply_writes (pwrite_block d w.1 w.2) ws := rfl

theorem apply_writes_append (d : Disk) (ws vs : List (Nat × Buf)) :
    apply_writes d (ws ++ vs) = apply_writes (apply_writes d ws) vs := by
  unfold apply_writes
  rw [List.foldl_append]

/-- The image that the copy loop of `journal_append` leaves is the given image
after the loop's block writes. -/
theorem journal_append_loop_writes_image (src : Buf) :
    ∀ (n remaining : Nat), remaining ≤ n →
    ∀ (d : Disk) (block_idx off : Nat) (hoff : off < BLOCK_SIZE) (pos : Nat),
      (journal_append_loop src d block_idx off hoff pos remaining).2 =
        apply_writes d (journal_append_loop_writes src d block_idx off hoff pos remaining) := by
  intro n
  induction n with
  | zero =>
    intro remaining hle d block_idx off hoff pos
    have h0 : remaining = 0 := by omega
    subst h0
    rw [journal_append_loop, journal_append_loop_writes]
    simp only [dite_true]
    rfl
  | succ n ih =>
    intro remaining hle d block_idx off hoff pos
    by_cases h0 : remaining = 0
    · subst h0
      rw [journal_append_loop, journal_append_loop_writes]
      simp only [dite_true]
      rfl
    · rw [journal_append_loop, journal_append_loop_writes]
      simp only [h0, dite_false]
      by_cases hbi : block_idx < d.length
      · rw [pread_block_of_lt d block_idx hbi]
        simp only []
        rw [apply_writes_cons]
        apply ih
        have hlt := hoff
        simp only [BLOCK_SIZE] at hlt ⊢
        split <;> omega
      · rw [pread_block_of_ge d block_idx (by omega)]
        rfl

/-- The image that `journal_append` leaves is the given image after the block
writes of `journal_append`, whatever the outcome. -/
theorem journal_append_writes_image (d : Disk) (data : Buf) (size : Nat) :
    (journal_append d data size).2 = apply_writes d (journal_append_writes d data size) := by
  unfold journal_append journal_append_writes
  cases hjh : read_journal_header d with
  | none => rfl
  | some jh =>
    simp only []
    by_cases hcap : (JOURNAL_BLOCKS * BLOCK_SIZE + U32 - jh.nbytes_used) % U32 < size
    · rw [if_pos hcap, if_pos hcap]
      rfl
    · rw [if_neg hcap, if_neg hcap]
      have himg := journal_append_loop_writes_image data size size (Nat.le_refl _) d
        ((JOURNAL_BLOCK_IDX + jh.nbytes_used / BLOCK_SIZE) % U32) (jh.nbytes_used % BLOCK_SIZE)
        (Nat.mod_lt _ (by decide)) 0
      rcases hl : journal_append_loop data d
          ((JOURNAL_BLOCK_IDX + jh.nbytes_used / BLOCK_SIZE) % U32)
          (jh.nbytes_used % BLOCK_SIZE) (Nat.mod_lt _ (by decide)) 0 size with ⟨res, d1⟩
      rw [hl] at himg
      simp only [] at himg
      cases res with
      | error e =>
        simp only []
        exact himg
      | ok u =>
        simp only []
        unfold write_journal_header
        cases hp : pread_block d1 JOURNAL_BLOCK_IDX with
        | none =>
          simp only []
          exact himg
        | some block =>
          simp only []
          rw [apply_writes_append, ← himg]
          rfl

/-- After any number of the block writes of the copy loop of `journal_append`,
every byte of the image outside the range that the loop copies to is as it
was. -/
theorem journal_append_loop_writes_take (src : Buf) :
    ∀ (n remaining : Nat), remaining ≤ n →
    ∀ (d : Disk) (block_idx off : Nat) (hoff : off < BLOCK_SIZE) (pos k x : Nat),
      block_idx * BLOCK_SIZE + off + remaining ≤ U32 * BLOCK_SIZE →
      (x < block_idx * BLOCK_SIZE + off ∨ block_idx * BLOCK_SIZE + off + remaining ≤ x) →
      dbyte (apply_writes d
        ((journal_append_loop_writes src d block_idx off hoff pos remaining).take k)) x =
        dbyte d x := by
  intro n
  induction n with
  | zero =>
    intro remaining hle d block_idx off hoff pos k x _ _
    have h0 : remaining = 0 := by omega
    subst h0
    rw [journal_append_loop_writes]
    simp only [dite_true, List.take_nil]
    rfl
  | succ n ih =>
    intro remaining hle d block_idx off hoff pos k x hwrap hx
    by_cases h0 : remaining = 0
    · subst h0
      rw [journal_append_loop_writes]
      simp only [dite_true, List.take_nil]
      rfl
    · rw [journal_append_loop_writes]
      simp only [h0, dite_false]
      by_cases hbi : block_idx < d.length
      · rw [pread_block_of_lt d block_idx hbi]
        simp only []
        cases k with
        | zero => rfl
        | succ k =>
          rw [List.take_succ_cons, apply_writes_cons]
          have hlt := hoff
          by_cases hc : BLOCK_SIZE - off > remaining
          · simp only [hc, if_true, Nat.sub_self]
            rw [journal_append_loop_writes]
            simp only [dite_true, List.take_nil]
            rw [apply_writes_nil, dbyte_pwrite_block]
            by_cases hb : x / BLOCK_SIZE = block_idx
            · rw [if_pos hb]
              unfold memcpy
              rw [if_neg (by simp only [BLOCK_SIZE] at *; omega),
                blockBuf_of_lt d block_idx _ (Nat.mod_lt _ (by decide))]
              apply congrArg (dbyte d)
              simp only [BLOCK_SIZE] at *; omega
            · rw [if_neg hb]
          · simp only [hc, if_false]
            have hw1 : (block_idx + 1) % U32 * BLOCK_SIZE + 0 + (remaining - (BLOCK_SIZE - off)) ≤
                U32 * BLOCK_SIZE := by
              have : (block_idx + 1) % U32 < U32 := Nat.mod_lt _ (by decide)
              simp only [BLOCK_SIZE, U32] at *
              omega
            have hx1 : x < (block_idx + 1) % U32 * BLOCK_SIZE + 0 ∨
                (block_idx + 1) % U32 * BLOCK_SIZE + 0 + (remaining - (BLOCK_SIZE - off)) ≤ x := by
              by_cases hr0 : remaining - (BLOCK_SIZE - off) = 0
              · by_cases hxx : x < (block_idx + 1) % U32 * BLOCK_SIZE + 0
                · left; exact hxx
                · right; omega
              · have hw : block_idx + 1 < U32 := by
                  simp only [BLOCK_SIZE, U32] at *
                  omega
                rw [Nat.mod_eq_of_lt hw]
                simp only [BLOCK_SIZE] at *
                omega
            rw [ih (remaining - (BLOCK_SIZE - off)) (by simp only [BLOCK_SIZE] at *; omega)
              _ _ 0 (by decide) _ k x hw1 hx1, dbyte_pwrite_block]
            by_cases hb : x / BLOCK_SIZE = block_idx
            · rw [if_pos hb]
              unfold memcpy
              rw [if_neg (by simp only [BLOCK_SIZE] at *; omega),
                blockBuf_of_lt d block_idx _ (Nat.mod_lt _ (by decide))]
              apply congrArg (dbyte d)
              simp only [BLOCK_SIZE] at *; omega
            · rw [if_neg hb]
      · rw [pread_block_of_ge d block_idx (by omega)]
        simp only [List.take_nil]
        rfl

/-- When `journal_append` finds the header, passes the capacity check and
writes inside the image, its block writes are those of its copy loop followed
by one write of block 1, and every byte of the image outside the range that the
record is copied to is, after any number of the loop's writes, as it was. -/
theorem journal_append_writes_spec (d : Disk) (data : Buf) (size : Nat) (h1 : 1 < d.length)
    (hcap : ¬ ((JOURNAL_BLOCKS * BLOCK_SIZE + U32 - jused d) % U32 < size))
    (hex : size = 0 ∨ BLOCK_SIZE + jused d + size ≤ d.length * BLOCK_SIZE) :
    (∃ hdr : Buf, journal_append_writes d data size =
        journal_append_loop_writes data d ((JOURNAL_BLOCK_IDX + jused d / BLOCK_SIZE) % U32)
          (jused d % BLOCK_SIZE) (Nat.mod_lt _ (by decide)) 0 size ++
          [(JOURNAL_BLOCK_IDX, hdr)]) ∧
      ∀ k x, (x < BLOCK_SIZE + jused d ∨ BLOCK_SIZE + jused d + size ≤ x) →
        dbyte (apply_writes d
          ((journal_append_loop_writes data d ((JOURNAL_BLOCK_IDX + jused d / BLOCK_SIZE) % U32)
            (jused d % BLOCK_SIZE) (Nat.mod_lt _ (by decide)) 0 size).take k)) x = dbyte d x := by
  have hu := jused_lt d
  have hsz : size < U32 := by
    have : (JOURNAL_BLOCKS * BLOCK_SIZE + U32 - jused d) % U32 < U32 := Nat.mod_lt _ (by decide)
    omega
  have hbi : (JOURNAL_BLOCK_IDX + jused d / BLOCK_SIZE) % U32 =
      JOURNAL_BLOCK_IDX + jused d / BLOCK_SIZE := by
    apply Nat.mod_eq_of_lt
    simp only [JOURNAL_BLOCK_IDX, BLOCK_SIZE, U32] at *
    omega
  have hstart : (JOURNAL_BLOCK_IDX + jused d / BLOCK_SIZE) % U32 * BLOCK_SIZE +
      jused d % BLOCK_SIZE = BLOCK_SIZE + jused d := by
    rw [hbi]
    simp only [JOURNAL_BLOCK_IDX, BLOCK_SIZE]
    omega
  have hwrap : (JOURNAL_BLOCK_IDX + jused d / BLOCK_SIZE) % U32 * BLOCK_SIZE +
      jused d % BLOCK_SIZE + size ≤ U32 * BLOCK_SIZE := by
    rw [hstart]
    simp only [BLOCK_SIZE, U32] at *
    omega
  obtain ⟨dl, hloop, hll, _⟩ := journal_append_loop_spec data size size (Nat.le_refl _) d
    ((JOURNAL_BLOCK_IDX + jused d / BLOCK_SIZE) % U32) (jused d % BLOCK_SIZE)
    (Nat.mod_lt _ (by decide)) 0
    (by
      rcases hex with h | h
      · left; exact h
      · right; rw [hstart]; exact h) hwrap
  refine ⟨⟨put_journal_header (blockBuf dl JOURNAL_BLOCK_IDX)
      { magic := jmagic d, nbytes_used := (jused d + size) % U32 }, ?_⟩, ?_⟩
  · unfold journal_append_writes
    rw [read_journal_header_of_lt d h1]
    simp only []
    rw [if_neg hcap, hloop]
    simp only []
    rw [pread_block_of_lt dl JOURNAL_BLOCK_IDX (by rw [hll]; exact h1)]
  · intro k x hx
    apply journal_append_loop_writes_take data size size (Nat.le_refl _) d _ _ _ 0 k x hwrap
    rw [hstart]
    exact hx

/-- Claim C21, as amended (header persisted last by `journal_append`): on an
Active journal with room for the record, `journal_append` succeeds and the
image it leaves is the given image after its block writes; the last of these
writes is a write of block 1, the block of the header; after any smaller number
of the writes, taken in order, the header still has the magic and the
`nbytes_used` it had before the append and the journal bytes in
`[8, nbytes_used)` are unchanged; after all of them `nbytes_used` has grown by
the size of the record, under the same magic and over the same bytes in
`[8, nbytes_used)`. -/
theorem journal_append_header_last (d : Disk) (data : Buf) (size : Nat) (hA : Active d)
    (hfit : size ≤ JOURNAL_BLOCKS * BLOCK_SIZE - jused d) :
    journal_append d data size =
        (.ok (Int.ofNat (jused d)), apply_writes d (journal_append_writes d data size)) ∧
      (∃ hdr, (journal_append_writes d data size).getLast? = some (JOURNAL_BLOCK_IDX, hdr)) ∧
      (∀ k, k < (journal_append_writes d data size).length →
        jmagic (apply_writes d ((journal_append_writes d data size).take k)) = jmagic d ∧
        jused (apply_writes d ((journal_append_writes d data size).take k)) = jused d ∧
        ∀ a, JH_SIZE ≤ a → a < jused d →
          jbyte (apply_writes d ((journal_append_writes d data size).take k)) a = jbyte d a) ∧
      jmagic (apply_writes d (journal_append_writes d data size)) = jmagic d ∧
      jused (apply_writes d (journal_append_writes d data size)) = jused d + size ∧
      ∀ a, JH_SIZE ≤ a → a < jused d →
        jbyte (apply_writes d (journal_append_writes d data size)) a = jbyte d a := by
  obtain ⟨d1, hr, hA1, _, hu1, hb1, _⟩ := journal_append_active d data size hA hfit
  have himg := journal_append_writes_image d data size
  rw [hr] at himg
  simp only [] at himg
  obtain ⟨hlen, hm, hlo, hhi⟩ := hA
  have hl17 : 17 ≤ d.length := hlen
  obtain ⟨⟨hdr, hW⟩, hpre⟩ := journal_append_writes_spec d data size (by omega)
    (by simp only [JOURNAL_BLOCKS, BLOCK_SIZE, U32] at *; omega)
    (Or.inr (by
      have : 17 * BLOCK_SIZE ≤ d.length * BLOCK_SIZE := Nat.mul_le_mul_right _ hl17
      simp only [JOURNAL_BLOCKS, BLOCK_SIZE] at *
      omega))
  refine ⟨by rw [hr, himg], ⟨hdr, by rw [hW]; simp⟩, ?_, ?_, ?_, ?_⟩
  · intro k hk
    rw [hW] at hk ⊢
    simp only [List.length_append, List.length_cons, List.length_nil] at hk
    rw [List.take_append_of_le_length (by omega)]
    have hj : ∀ a, a < jused d →
        jbyte (apply_writes d
          ((journal_append_loop_writes data d ((JOURNAL_BLOCK_IDX + jused d / BLOCK_SIZE) % U32)
            (jused d % BLOCK_SIZE) (Nat.mod_lt _ (by decide)) 0 size).take k)) a = jbyte d a := by
      intro a ha
      unfold jbyte
      exact hpre k _ (Or.inl (by simp only [JOURNAL_BLOCK_IDX, BLOCK_SIZE]; omega))
    refine ⟨?_, ?_, fun a _ ha => hj a ha⟩
    · exact get_u32_congr _ _ _ _ (fun i hi => hj _ (by simp only [JH_SIZE] at hlo; omega))
    · exact get_u32_congr _ _ _ _ (fun i hi => hj _ (by simp only [JH_SIZE] at hlo; omega))
  · rw [← himg, hA1.2.1, hm]
  · rw [← himg, hu1]
  · intro a ha1 ha2
    rw [← himg, hb1 a ha1, if_neg (by omega)]

/-- Witness for claim C21: the append of a data record of 4104 bytes to the
empty journal of a freshly formatted image, which writes blocks 1 and 2 and
then the header. -/
theorem journal_append_header_last_witness :
    Active (fresh_image JH_SIZE) ∧
      (∃ hdr, (journal_append_writes (fresh_image JH_SIZE) (Rec.bytes (Rec.data 30 sevens))
        DATA_REC_SIZE).getLast? = some (JOURNAL_BLOCK_IDX, hdr)) ∧
      (∀ k, k < (journal_append_writes (fresh_image JH_SIZE) (Rec.bytes (Rec.data 30 sevens))
          DATA_REC_SIZE).length →
        jused (apply_writes (fresh_image JH_SIZE)
          ((journal_append_writes (fresh_image JH_SIZE) (Rec.bytes (Rec.data 30 sevens))
            DATA_REC_SIZE).take k)) = jused (fresh_image JH_SIZE)) ∧
      jused (apply_writes (fresh_image JH_SIZE)
        (journal_append_writes (fresh_image JH_SIZE) (Rec.bytes (Rec.data 30 sevens))
          DATA_REC_SIZE)) = jused (fresh_image JH_SIZE) + DATA_REC_SIZE := by
  have hA := active_fresh_image JH_SIZE (by decide) (by decide)
  have h := journal_append_header_last (fresh_image JH_SIZE) (Rec.bytes (Rec.data 30 sevens))
    DATA_REC_SIZE hA (by
      have hu : jused (fresh_image JH_SIZE) = JH_SIZE := jused_sample JH_SIZE (by decide) _ _ _
      rw [hu]
      decide)
  exact ⟨hA, h.2.1, fun k hk => (h.2.2.1 k hk).2.1, h.2.2.2.2.1⟩

/-- The copy loop of `journal_append` performs one block write when the record
ends inside the block it starts in. -/
theorem journal_append_loop_writes_one (src : Buf) (d : Disk) (block_idx off : Nat)
    (hoff : off < BLOCK_SIZE) (pos remaining : Nat) (hbi : block_idx < d.length)
    (hpos : 0 < remaining) (hin : BLOCK_SIZE - off > remaining) :
    journal_append_loop_writes src d block_idx off hoff pos remaining =
      [(block_idx, memcpy (blockBuf d block_idx) off src pos remaining)] := by
  rw [journal_append_loop_writes]
  have h0 : ¬ remaining = 0 := by omega
  simp only [h0, dite_false]
  rw [pread_block_of_lt d block_idx hbi]
  simp only [hin, if_true, Nat.sub_self]
  rw [journal_append_loop_writes]
  simp only [dite_true]

/-- Counterexample to claim C21 as stated: on an image whose journal header
has a valid magic and `nbytes_used = 0`, the append of the 7 bytes of `foo.txt`
succeeds and returns the offset 0; it performs two block writes, and after the
first of them, a strict prefix of the sequence, the header on disk no longer
has the magic it had before the append: the record's bytes have been copied
over it. -/
theorem journal_append_header_last_counterexample :
    jmagic zero_used_image = JOURNAL_MAGIC ∧ jused zero_used_image = 0 ∧
      (∃ d1, journal_append zero_used_image (recBuf foo_txt) 7 = (.ok 0, d1)) ∧
      (journal_append_writes zero_used_image (recBuf foo_txt) 7).length = 2 ∧
      jmagic (apply_writes zero_used_image
        ((journal_append_writes zero_used_image (recBuf foo_txt) 7).take 1)) ≠
        jmagic zero_used_image := by
  have hm : jmagic zero_used_image = JOURNAL_MAGIC := jmagic_sample 0 _ _ _
  have hu : jused zero_used_image = 0 := jused_sample 0 (by decide) _ _ _
  have hl : zero_used_image.length = TOTAL_BLOCKS := length_sample_image _ _ _ _
  have h1 : 1 < zero_used_image.length := by rw [hl]; decide
  have hcap : ¬ ((JOURNAL_BLOCKS * BLOCK_SIZE + U32 - jused zero_used_image) % U32 < 7) := by
    rw [hu]; decide
  have hex : 7 = 0 ∨ BLOCK_SIZE + jused zero_used_image + 7 ≤
      zero_used_image.length * BLOCK_SIZE := Or.inr (by rw [hu, hl]; decide)
  obtain ⟨d1, hr, _⟩ := journal_append_header zero_used_image (recBuf foo_txt) 7 h1 hcap hex
  rw [hu] at hr
  obtain ⟨⟨hdr, hW⟩, _⟩ := journal_append_writes_spec zero_used_image (recBuf foo_txt) 7 h1 hcap hex
  have hbi : (JOURNAL_BLOCK_IDX + jused zero_used_image / BLOCK_SIZE) % U32 = 1 := by
    rw [hu]; decide
  have hoff : jused zero_used_image % BLOCK_SIZE = 0 := by rw [hu]; decide
  rw [journal_append_loop_writes_one _ _ _ _ _ _ _ (by rw [hbi]; exact h1) (by decide)
    (by rw [hoff]; decide)] at hW
  refine ⟨hm, hu, ⟨d1, hr⟩, by rw [hW]; rfl, ?_⟩
  rw [hW, hm]
  simp only [List.singleton_append, List.take_succ_cons, List.take_zero]
  rw [apply_writes_cons, apply_writes_nil]
  have hj : ∀ i, i < 4 →
      jbyte (pwrite_block zero_used_image
        ((JOURNAL_BLOCK_IDX + jused zero_used_image / BLOCK_SIZE) % U32)
        (memcpy (blockBuf zero_used_image
          ((JOURNAL_BLOCK_IDX + jused zero_used_image / BLOCK_SIZE) % U32))
          (jused zero_used_image % BLOCK_SIZE) (recBuf foo_txt) 0 7)) (0 + i) =
      recBuf foo_txt (0 + i) := by
    intro i hi
    unfold jbyte
    rw [dbyte_pwrite_block, hbi, hoff,
      if_pos (by simp only [JOURNAL_BLOCK_IDX, BLOCK_SIZE]; omega)]
    unfold memcpy
    rw [if_pos (by simp only [JOURNAL_BLOCK_IDX, BLOCK_SIZE]; omega)]
    apply congrArg
    simp only [JOURNAL_BLOCK_IDX, BLOCK_SIZE]
    omega
  unfold jmagic
  rw [get_u32_congr _ (recBuf foo_txt) 0 0 hj]
  decide

end VSFS
